import Mathlib

/-!
Verification of the red-black tree implementation (`RedBlackTree` class).

The source program is a pointer-based red-black tree: each `Node` object
holds a numeric `value`, a `color`, owning `left`/`right` child pointers and
a non-owning `parent` back-pointer; the tree holds a `root` pointer.

We embed the heap shallowly: the object graph is an arena `nodes : List Node`
where a pointer is an index into the list (`Option Nat`, `none` = null).
Allocated node objects are never removed from the arena (spliced nodes simply
become unreachable, as garbage-collected objects do); every imperative loop of
the source becomes a fuel-indexed recursion returning `none` when the fuel is
exhausted or when the source would dereference null via a `!` assertion.
-/

namespace RBT

/-- `enum Color { RED, BLACK }`. -/
inductive Color where
  | RED
  | BLACK
deriving DecidableEq, Repr

/-- `class Node { value; color = RED; left = null; right = null; parent = null }`.
Pointers are arena indices. -/
structure Node where
  value : Int
  color : Color
  left : Option Nat
  right : Option Nat
  parent : Option Nat
deriving DecidableEq, Repr

/-- `class RedBlackTree { root: Node | null = null }` together with the heap of
node objects it points into. -/
structure RedBlackTree where
  nodes : List Node
  root : Option Nat
deriving DecidableEq, Repr

/-- The empty tree (`new RedBlackTree()`), with an empty heap. -/
def RedBlackTree.empty : RedBlackTree := ⟨[], none⟩

/-- Placeholder returned when reading an out-of-range index.  The source
dereferences object pointers, which cannot dangle; all indices actually read
by the embedded operations are in range. -/
def defaultNode : Node := ⟨0, Color.RED, none, none, none⟩

/-- Read the node object behind index `i`. -/
def getNode (s : RedBlackTree) (i : Nat) : Node :=
  s.nodes.getD i defaultNode

/-- Overwrite the node object behind index `i` (a field assignment in the
source mutates the object in place). -/
def setNode (s : RedBlackTree) (i : Nat) (nd : Node) : RedBlackTree :=
  { s with nodes := s.nodes.set i nd }

/-- `i.color = c` -/
def setColor (s : RedBlackTree) (i : Nat) (c : Color) : RedBlackTree :=
  setNode s i { getNode s i with color := c }

/-- `i.value = v` -/
def setValue (s : RedBlackTree) (i : Nat) (v : Int) : RedBlackTree :=
  setNode s i { getNode s i with value := v }

/-- `i.left = p` -/
def setLeft (s : RedBlackTree) (i : Nat) (p : Option Nat) : RedBlackTree :=
  setNode s i { getNode s i with left := p }

/-- `i.right = p` -/
def setRight (s : RedBlackTree) (i : Nat) (p : Option Nat) : RedBlackTree :=
  setNode s i { getNode s i with right := p }

/-- `i.parent = p` -/
def setParent (s : RedBlackTree) (i : Nat) (p : Option Nat) : RedBlackTree :=
  setNode s i { getNode s i with parent := p }

/-- `new Node(value)` followed by the field assignments the caller performs on
the fresh object; the new object's index is the next free arena slot. -/
def addNode (s : RedBlackTree) (nd : Node) : RedBlackTree × Nat :=
  ({ s with nodes := s.nodes ++ [nd] }, s.nodes.length)

namespace RedBlackTree

/-- `rotateLeft(node)` (source lines 276-295).  `node.right!` is asserted
non-null by the source; when it is null the rotation is never invoked, and we
return the state unchanged. -/
def rotateLeft (s : RedBlackTree) (node : Nat) : RedBlackTree :=
  match (getNode s node).right with
  | none => s
  | some right =>
    -- const right = node.right!; node.right = right.left;
    let rl := (getNode s right).left
    let s1 := setRight s node rl
    -- if (right.left) { right.left.parent = node; }
    let s2 := match rl with
      | some x => setParent s1 x (some node)
      | none => s1
    -- right.parent = node.parent;
    let s3 := setParent s2 right ((getNode s2 node).parent)
    -- if (!node.parent) root = right; else rewire the matching child slot
    let s4 := match (getNode s3 node).parent with
      | none => { s3 with root := some right }
      | some p =>
        if (getNode s3 p).left = some node then setLeft s3 p (some right)
        else setRight s3 p (some right)
    -- right.left = node; node.parent = right;
    let s5 := setLeft s4 right (some node)
    setParent s5 node (some right)

/-- `rotateRight(node)` (source lines 297-316), the mirror image. -/
def rotateRight (s : RedBlackTree) (node : Nat) : RedBlackTree :=
  match (getNode s node).left with
  | none => s
  | some left =>
    let lr := (getNode s left).right
    let s1 := setLeft s node lr
    let s2 := match lr with
      | some x => setParent s1 x (some node)
      | none => s1
    let s3 := setParent s2 left ((getNode s2 node).parent)
    let s4 := match (getNode s3 node).parent with
      | none => { s3 with root := some left }
      | some p =>
        if (getNode s3 p).right = some node then setRight s3 p (some left)
        else setLeft s3 p (some left)
    let s5 := setRight s4 left (some node)
    setParent s5 node (some left)

/-- One comparison of the BST descent of `insert` (source lines 37-41):
`value < current.value` goes left, otherwise (ties included) right. -/
def nextChild (s : RedBlackTree) (current : Nat) (value : Int) : Option Nat :=
  if value < (getNode s current).value then (getNode s current).left
  else (getNode s current).right

/-- The `while (current)` descent of `insert` (source lines 33-42); returns the
last visited node, which becomes the parent of the new node. -/
def descend : Nat → RedBlackTree → Nat → Int → Option Nat
  | 0, _, _, _ => none
  | fuel + 1, s, current, value =>
    match nextChild s current value with
    | none => some current
    | some c => descend fuel s c value

/-- `const newNode = new Node(value); newNode.parent = parent;` followed by
attaching it to the matching child slot (source lines 44-51). -/
def attachNew (s : RedBlackTree) (parent : Nat) (value : Int) :
    RedBlackTree × Nat :=
  let pr := addNode s ⟨value, Color.RED, none, none, some parent⟩
  let s1 := pr.1
  let nn := pr.2
  if value < (getNode s1 parent).value then (setLeft s1 parent (some nn), nn)
  else (setRight s1 parent (some nn), nn)

/-- ケース2・3 of `fixInsert` when the parent is a left child (source lines
75-88): possibly rotate the triangle into a line, then recolor and rotate the
grandparent right.  Returns the updated state and cursor with which the
`while` loop re-iterates (`none` when a `!` assertion of the source would
fail). -/
def fixInsertCase23L (s : RedBlackTree) (node p : Nat) :
    Option (RedBlackTree × Nat) :=
  -- if (node === node.parent.right) { node = node.parent; rotateLeft(node); }
  let st := if (getNode s p).right = some node then (rotateLeft s p, p)
    else (s, node)
  let s1 := st.1
  let node1 := st.2
  -- node.parent!.color = BLACK; node.parent!.parent!.color = RED;
  match (getNode s1 node1).parent with
  | none => none
  | some p2 =>
    let s2 := setColor s1 p2 Color.BLACK
    match (getNode s2 p2).parent with
    | none => none
    | some g2 =>
      let s3 := setColor s2 g2 Color.RED
      -- rotateRight(node.parent!.parent!)
      some (rotateRight s3 g2, node1)

/-- The mirror of `fixInsertCase23L` (source lines 98-106). -/
def fixInsertCase23R (s : RedBlackTree) (node p : Nat) :
    Option (RedBlackTree × Nat) :=
  let st := if (getNode s p).left = some node then (rotateRight s p, p)
    else (s, node)
  let s1 := st.1
  let node1 := st.2
  match (getNode s1 node1).parent with
  | none => none
  | some p2 =>
    let s2 := setColor s1 p2 Color.BLACK
    match (getNode s2 p2).parent with
    | none => none
    | some g2 =>
      let s3 := setColor s2 g2 Color.RED
      some (rotateLeft s3 g2, node1)

/-- The `while (node.parent && node.parent.color === RED)` loop of
`fixInsert` (source lines 65-109).  A `!` assertion that would fail in the
source yields `none`. -/
def fixInsertLoop : Nat → RedBlackTree → Nat → Option RedBlackTree
  | 0, _, _ => none
  | fuel + 1, s, node =>
    match (getNode s node).parent with
    | none => some s
    | some p =>
      if (getNode s p).color = Color.RED then
        let gp := (getNode s p).parent
        let gpLeft := match gp with
          | none => none
          | some g => (getNode s g).left
        let step :=
          if gpLeft = some p then
            -- parent is the grandparent's left child
            let uncle := match gp with
              | none => none
              | some g => (getNode s g).right
            match uncle with
            | some u =>
              if (getNode s u).color = Color.RED then
                -- ケース1: recolor and move to the grandparent
                let s1 := setColor s p Color.BLACK
                let s2 := setColor s1 u Color.BLACK
                match gp with
                | none => none
                | some g =>
                  let s3 := setColor s2 g Color.RED
                  some (s3, g)
              else fixInsertCase23L s node p
            | none => fixInsertCase23L s node p
          else
            -- mirrored: parent is the grandparent's right child
            let uncle := gpLeft
            match uncle with
            | some u =>
              if (getNode s u).color = Color.RED then
                let s1 := setColor s p Color.BLACK
                let s2 := setColor s1 u Color.BLACK
                match gp with
                | none => none
                | some g =>
                  let s3 := setColor s2 g Color.RED
                  some (s3, g)
              else fixInsertCase23R s node p
            | none => fixInsertCase23R s node p
        match step with
        | none => none
        | some st => fixInsertLoop fuel st.1 st.2
      else some s

/-- `fixInsert(node)` (source lines 64-111): run the loop, then
`this.root!.color = BLACK`. -/
def fixInsert (fuel : Nat) (s : RedBlackTree) (node : Nat) :
    Option RedBlackTree :=
  (fixInsertLoop fuel s node).map fun s1 =>
    match s1.root with
    | some r => setColor s1 r Color.BLACK
    | none => s1

/-- `insert(value)` (source lines 25-55). -/
def insert (fuel : Nat) (s : RedBlackTree) (value : Int) :
    Option RedBlackTree :=
  match s.root with
  | none =>
    -- this.root = new Node(value); this.root.color = BLACK;
    let pr := addNode s ⟨value, Color.RED, none, none, none⟩
    let s1 := setColor pr.1 pr.2 Color.BLACK
    some { s1 with root := some pr.2 }
  | some root =>
    match descend fuel s root value with
    | none => none
    | some parent =>
      let pr := attachNew s parent value
      fixInsert fuel pr.1 pr.2

/-- The `while (current)` loop of `findNode` (source lines 145-151). -/
def findNodeLoop : Nat → RedBlackTree → Option Nat → Int →
    Option (Option Nat)
  | 0, _, _, _ => none
  | fuel + 1, s, current, value =>
    match current with
    | none => some none
    | some c =>
      if value = (getNode s c).value then some (some c)
      else if value < (getNode s c).value then
        findNodeLoop fuel s (getNode s c).left value
      else findNodeLoop fuel s (getNode s c).right value

/-- `findNode(value)` (source lines 144-152). -/
def findNode (fuel : Nat) (s : RedBlackTree) (value : Int) :
    Option (Option Nat) :=
  findNodeLoop fuel s s.root value

/-- `findMin(node)` (source lines 154-157): leftmost descent. -/
def findMin : Nat → RedBlackTree → Nat → Option Nat
  | 0, _, _ => none
  | fuel + 1, s, node =>
    match (getNode s node).left with
    | none => some node
    | some l => findMin fuel s l

/-- `deleteNode(node)` (source lines 159-181): splice a node with at most one
child out of the tree, returning the updated heap and the child that replaced
it. -/
def deleteNode (s : RedBlackTree) (node : Nat) : RedBlackTree × Option Nat :=
  -- const child = node.left || node.right;
  let child := match (getNode s node).left with
    | some l => some l
    | none => (getNode s node).right
  match (getNode s node).parent with
  | none =>
    -- deleting the root
    let s1 := { s with root := child }
    let s2 := match child with
      | some c => setParent s1 c none
      | none => s1
    (s2, child)
  | some p =>
    let s1 := if (getNode s p).left = some node then setLeft s p child
      else setRight s p child
    let s2 := match child with
      | some c => setParent s1 c (some p)
      | none => s1
    (s2, child)

/-- The `while (current)` loop of `fixDelete` (source lines 186-267).
`node` is the first argument of `fixDelete` (the loop re-targets `current`
to it in the sibling-RED case); `current` is the cursor. -/
def fixDeleteLoop : Nat → RedBlackTree → Nat → Nat → Option RedBlackTree
  | 0, _, _, _ => none
  | fuel + 1, s, node, current =>
    if s.root = some current then some s
    else
      match (getNode s current).parent with
      | none => none  -- current.parent! would fail in the source
      | some parent =>
        let isLeftChild := (getNode s parent).left = some current
        let sibling := if isLeftChild then (getNode s parent).right
          else (getNode s parent).left
        match sibling with
        | none => fixDeleteLoop fuel s node parent
        | some sib =>
          -- ケース1: 兄弟が赤い
          if (getNode s sib).color = Color.RED then
            let s1 := setColor s sib Color.BLACK
            let s2 := setColor s1 parent Color.RED
            let s3 := if isLeftChild then rotateLeft s2 parent
              else rotateRight s2 parent
            fixDeleteLoop fuel s3 node node
          else
            let siblingLeft := (getNode s sib).left
            let siblingRight := (getNode s sib).right
            let slc := match siblingLeft with
              | some x => (getNode s x).color
              | none => Color.BLACK
            let src := match siblingRight with
              | some x => (getNode s x).color
              | none => Color.BLACK
            -- ケース2: 兄弟と兄弟の子がすべて黒い
            if (getNode s sib).color = Color.BLACK ∧ slc = Color.BLACK ∧
                src = Color.BLACK then
              let s1 := setColor s sib Color.RED
              fixDeleteLoop fuel s1 node parent
            else if (getNode s sib).color = Color.BLACK then
              if isLeftChild then
                if slc = Color.RED ∧ src = Color.BLACK then
                  -- ケース3a: recolor and rotate the sibling right
                  match siblingLeft with
                  | none => none
                  | some sl =>
                    let s1 := setColor s sl Color.BLACK
                    let s2 := setColor s1 sib Color.RED
                    let s3 := rotateRight s2 sib
                    fixDeleteLoop fuel s3 node current
                else if src = Color.RED then
                  -- ケース3b: recolor, rotate the parent left, break
                  match siblingRight with
                  | none => none
                  | some sr =>
                    let s1 := setColor s sib (getNode s parent).color
                    let s2 := setColor s1 parent Color.BLACK
                    let s3 := setColor s2 sr Color.BLACK
                    some (rotateLeft s3 parent)
                else fixDeleteLoop fuel s node current
              else
                if src = Color.RED ∧ slc = Color.BLACK then
                  match siblingRight with
                  | none => none
                  | some sr =>
                    let s1 := setColor s sr Color.BLACK
                    let s2 := setColor s1 sib Color.RED
                    let s3 := rotateLeft s2 sib
                    fixDeleteLoop fuel s3 node current
                else if slc = Color.RED then
                  match siblingLeft with
                  | none => none
                  | some sl =>
                    let s1 := setColor s sib (getNode s parent).color
                    let s2 := setColor s1 parent Color.BLACK
                    let s3 := setColor s2 sl Color.BLACK
                    some (rotateRight s3 parent)
                else fixDeleteLoop fuel s node current
            else fixDeleteLoop fuel s node current

/-- `fixDelete(node, deletedNodeChild)` (source lines 183-272): run the loop
starting at `node`, then blacken the root if present.  The second parameter is
never read by the source body. -/
def fixDelete (fuel : Nat) (s : RedBlackTree) (node : Nat)
    (deletedNodeChild : Option Nat) : Option RedBlackTree :=
  (fixDeleteLoop fuel s node node).map fun s1 =>
    match s1.root with
    | some r => setColor s1 r Color.BLACK
    | none => s1

/-- `delete(value)` (source lines 115-142): locate, splice (via the in-order
successor when the node has two children), dispatch to `fixDelete`, and report
whether the key was found. -/
def delete (fuel : Nat) (s : RedBlackTree) (value : Int) :
    Option (RedBlackTree × Bool) :=
  match findNode fuel s value with
  | none => none
  | some none => some (s, false)
  | some (some node) =>
    let spliced :=
      match (getNode s node).left, (getNode s node).right with
      | some _, some r =>
        -- ケース1: two children; copy the successor's value, splice it out
        (findMin fuel s r).map fun successor =>
          let s1 := setValue s node (getNode s successor).value
          let pr := deleteNode s1 successor
          (pr.1, pr.2, (getNode pr.1 successor).parent)
      | _, _ =>
        -- ケース2: zero or one child
        let pr := deleteNode s node
        some (pr.1, pr.2, (getNode pr.1 node).parent)
    match spliced with
    | none => none
    | some (s2, nodeToFix, nodeToFixParent) =>
      match nodeToFix, nodeToFixParent with
      | none, some pfix => (fixDelete fuel s2 pfix none).map fun s3 =>
          (s3, true)
      | some nf, _ => (fixDelete fuel s2 nf (some nf)).map fun s3 =>
          (s3, true)
      | none, none => some (s2, true)

end RedBlackTree

/-- A public operation of the driver: `tree.insert(v)` or `tree.delete(v)`. -/
inductive Op where
  | ins (v : Int)
  | del (v : Int)
deriving DecidableEq, Repr

/-- Apply one public operation (with the given loop fuel). -/
def applyOp (fuel : Nat) (s : RedBlackTree) : Op → Option RedBlackTree
  | .ins v => RedBlackTree.insert fuel s v
  | .del v => (RedBlackTree.delete fuel s v).map Prod.fst

/-- Apply a sequence of public operations. -/
def runOps (fuel : Nat) : RedBlackTree → List Op → Option RedBlackTree
  | s, [] => some s
  | s, op :: ops => (applyOp fuel s op).bind fun s1 => runOps fuel s1 ops

/-- Run a sequence of public operations from the empty tree with ample fuel. -/
def run (ops : List Op) : Option RedBlackTree :=
  runOps 1000 RedBlackTree.empty ops

/-!
## The ownership view of the heap

The spec's invariants speak about the conceptual binary tree formed by the
owning `left`/`right` pointers.  `view` reads that tree back from the arena,
recording at each position the node's index, color and value; it returns
`none` when the given fuel does not suffice (in particular on any cyclic
pointer structure, which unrolls forever).
-/

/-- A snapshot of the ownership tree: index, color and value at each node. -/
inductive VTree where
  | leaf
  | node (idx : Nat) (color : Color) (value : Int) (left : VTree)
      (right : VTree)
deriving DecidableEq, Repr

/-- Read back the ownership tree hanging from pointer `oi`. -/
def view : Nat → RedBlackTree → Option Nat → Option VTree
  | _, _, none => some VTree.leaf
  | 0, _, some _ => none
  | fuel + 1, s, some i =>
    match view fuel s (getNode s i).left, view fuel s (getNode s i).right
    with
    | some l, some r =>
      some (VTree.node i (getNode s i).color (getNode s i).value l r)
    | _, _ => none

/-- The indices of the nodes of a view, in order. -/
def VTree.idxs : VTree → List Nat
  | .leaf => []
  | .node i _ _ l r => l.idxs ++ i :: r.idxs

/-- The in-order key sequence of a view. -/
def VTree.inorder : VTree → List Int
  | .leaf => []
  | .node _ _ v l r => l.inorder ++ v :: r.inorder

/-- Number of nodes of a view. -/
def VTree.size : VTree → Nat
  | .leaf => 0
  | .node _ _ _ l r => l.size + r.size + 1

/-- Height of a view, counted in nodes (a single node has height 1). -/
def VTree.height : VTree → Nat
  | .leaf => 0
  | .node _ _ _ l r => max l.height r.height + 1

/-- Rule 2: the root, if present, is BLACK. -/
def rootBlack : VTree → Bool
  | .leaf => true
  | .node _ c _ _ _ => c = Color.BLACK

/-- The color of the root of a view; absent children count as BLACK
(rule 3). -/
def topColor : VTree → Color
  | .leaf => Color.BLACK
  | .node _ c _ _ _ => c

/-- Rule 4: a RED node never has a RED child. -/
def noRedRed : VTree → Bool
  | .leaf => true
  | .node _ c _ l r =>
    (c = Color.BLACK || (topColor l = Color.BLACK && topColor r = Color.BLACK))
      && noRedRed l && noRedRed r

/-- Rule 5: the number of BLACK nodes is the same on every path from the root
of the view to a descendant absent-child position; `none` when some node of
the view violates this.  (Counting includes the conceptual BLACK leaves, which
offsets every path count by one and changes nothing about equality.) -/
def blackH : VTree → Option Nat
  | .leaf => some 1
  | .node _ c _ l r =>
    match blackH l, blackH r with
    | some a, some b =>
      if a = b then some (a + (if c = Color.BLACK then 1 else 0)) else none
    | _, _ => none

/-- Rules 1-5 together (rule 1, every node is RED or BLACK, holds by the type
of `Color`; rule 3 is folded into `noRedRed` and `blackH`). -/
def rbInv (t : VTree) : Bool :=
  rootBlack t && noRedRed t && (blackH t).isSome

/-- The parent back-references of every node of the view agree with the child
links: the view's root carries parent `pexp`, and each child's parent
reference is the node it hangs from. -/
def parentOkV (s : RedBlackTree) : VTree → Option Nat → Bool
  | .leaf, _ => true
  | .node i _ _ l r, pexp =>
    decide ((getNode s i).parent = pexp) && parentOkV s l (some i)
      && parentOkV s r (some i)

/-- Is this list of keys non-decreasing? -/
def sortedLe : List Int → Bool
  | [] => true
  | [_] => true
  | a :: b :: l => a ≤ b && sortedLe (b :: l)

/-!
## Concrete executions

Deleting a key whose spliced-out node is RED requires no repair, but `delete`
invokes `fixDelete` whenever the spliced node had a parent, and `fixDelete`
treats that *parent* as the black-height deficit position.  The runs below
exhibit the consequences.
-/

/-- Insert 10, 5, 15, 3, then delete the RED leaf 3. -/
def c1ops : List Op := [.ins 10, .ins 5, .ins 15, .ins 3, .del 3]

/-- C1: the claim that every insert/delete sequence maintains the five
red-black invariants fails on the code: after inserting 10, 5, 15, 3 and
deleting 3, every operation returns normally, the root is BLACK and no RED
node has a RED child, but rule 5 is violated (the path through 5 passes two
BLACK nodes, the path through 15 only one), so `blackH` is `none` and the
invariant bundle `rbInv` is `false`. -/
theorem C1_delete_breaks_invariants :
    ((run c1ops).bind fun s => view 100 s s.root).map
        (fun t => (rbInv t, rootBlack t, noRedRed t, blackH t))
      = some (false, true, true, none) := by decide

/-- The insertion sequence of the spec's scenario. -/
def c2ins : List Op :=
  [.ins 10, .ins 5, .ins 15, .ins 3, .ins 7, .ins 12, .ins 17, .ins 1,
   .ins 4, .ins 6, .ins 8]

/-- C2: in the spec's scenario (insert 10,5,15,3,7,12,17,1,4,6,8, then delete
3, 1, 5) each delete does return `true` and the remaining keys are exactly
4,6,7,8,10,12,15,17 in ascending in-order, but the red-black invariants do
NOT hold afterwards: `rbInv` of the final tree is `false` (rule 5 fails; the
tree degenerates into a long left chain). -/
theorem C2_scenario_invariants_fail :
    ((run c2ins).bind fun s =>
      (RedBlackTree.delete 1000 s 3).bind fun p1 =>
      (RedBlackTree.delete 1000 p1.1 1).bind fun p2 =>
      (RedBlackTree.delete 1000 p2.1 5).bind fun p3 =>
      (view 100 p3.1 p3.1.root).map fun t =>
        (p1.2, p2.2, p3.2, t.inorder, sortedLe t.inorder, rbInv t))
    = some (true, true, true, [4, 6, 7, 8, 10, 12, 15, 17], true, false) := by
  decide

/-- Insert 10, 15, 5, 17; the tree is 10B(5B, 15B(-, 17R)). -/
def c4ops : List Op := [.ins 10, .ins 15, .ins 5, .ins 17]

/-- C4: the claim that deleting a key whose physically spliced node is RED
changes nothing but the splice fails on the code: in the tree built by
`c4ops`, the node found for key 17 is a RED leaf (so it is itself the spliced
node), yet `delete 17` recolors the unrelated remaining node 5 from BLACK to
RED (`fixDelete` is still invoked, on the spliced node's parent). -/
theorem C4_red_splice_not_colorless :
    ((run c4ops).map fun s =>
      ((RedBlackTree.findNode 1000 s 17).map fun oi => oi.map fun i =>
        ((getNode s i).color, (getNode s i).left, (getNode s i).right),
       view 100 s s.root,
       (RedBlackTree.delete 1000 s 17).map fun p =>
         (p.2, view 100 p.1 p.1.root)))
    = some
      (some (some (Color.RED, none, none)),
       some (VTree.node 0 Color.BLACK 10
         (VTree.node 2 Color.BLACK 5 .leaf .leaf)
         (VTree.node 1 Color.BLACK 15 .leaf
           (VTree.node 3 Color.RED 17 .leaf .leaf))),
       some (true,
         some (VTree.node 0 Color.BLACK 10
           (VTree.node 2 Color.RED 5 .leaf .leaf)
           (VTree.node 1 Color.BLACK 15 .leaf .leaf)))) := by rfl

/-- A 12-operation sequence producing an 8-node tree of height 8. -/
def c7ops : List Op :=
  [.ins 11, .ins 12, .ins 8, .ins 10, .ins 5, .ins 4, .ins 6, .ins 2,
   .del 6, .ins 6, .del 2, .ins 3]

/-- C7: the claimed height bound `height ≤ 2·log₂(n+1)` fails on the code:
`c7ops` is reachable from the empty tree and yields a tree with n = 8 nodes
and height 8 (7 edges).  Since `h ≤ 2·log₂(n+1)` is equivalent to
`2^h ≤ (n+1)^2`, the bound demands `2^h ≤ 81`; already the edge-counted
height 7 gives `2^7 = 128 > 81` (and the node-counted height 8 exceeds it a
fortiori). -/
theorem C7_height_bound_violated :
    ((run c7ops).bind fun s => view 100 s s.root).map
        (fun t => (t.size, t.height)) = some (8, 8)
      ∧ 2 ^ (8 - 1) > (8 + 1) ^ 2 := by exact ⟨by decide, by norm_num⟩

/-!
## View inversion and monotonicity
-/

theorem view_none (f : Nat) (s : RedBlackTree) :
    view f s none = some VTree.leaf := by
  cases f <;> rfl

theorem view_leaf_inv {f : Nat} {s : RedBlackTree} {oi : Option Nat}
    (h : view f s oi = some VTree.leaf) : oi = none := by
  cases oi with
  | none => rfl
  | some i =>
    cases f with
    | zero => simp [view] at h
    | succ f2 =>
      cases hl : view f2 s (getNode s i).left <;>
        cases hr : view f2 s (getNode s i).right <;>
        simp [view, hl, hr] at h

theorem view_node_inv {f : Nat} {s : RedBlackTree} {oi : Option Nat}
    {i : Nat} {c : Color} {v : Int} {l r : VTree}
    (h : view f s oi = some (VTree.node i c v l r)) :
    ∃ f2, f = f2 + 1 ∧ oi = some i ∧ (getNode s i).color = c ∧
      (getNode s i).value = v ∧ view f2 s (getNode s i).left = some l ∧
      view f2 s (getNode s i).right = some r := by
  cases oi with
  | none => simp [view] at h
  | some j =>
    cases f with
    | zero => simp [view] at h
    | succ f2 =>
      refine ⟨f2, rfl, ?_⟩
      cases hl : view f2 s (getNode s j).left <;>
        cases hr : view f2 s (getNode s j).right <;>
        simp only [view, hl, hr, Option.some.injEq] at h
      · exact absurd h (by simp)
      · exact absurd h (by simp)
      · exact absurd h (by simp)
      · obtain ⟨h1, h2, h3, h4, h5⟩ := VTree.node.inj h
        subst h1; subst h2; subst h3; subst h4; subst h5
        exact ⟨rfl, rfl, rfl, hl, hr⟩

theorem view_mono {t : VTree} :
    ∀ {f g : Nat} {s : RedBlackTree} {oi : Option Nat},
      view f s oi = some t → f ≤ g → view g s oi = some t := by
  induction t with
  | leaf =>
    intro f g s oi h _
    rw [view_leaf_inv h]
    exact view_none g s
  | node i c v l r ihl ihr =>
    intro f g s oi h hfg
    obtain ⟨f2, rfl, rfl, hc, hv, hl, hr⟩ := view_node_inv h
    cases g with
    | zero => omega
    | succ g2 =>
      have h2 : f2 ≤ g2 := by omega
      simp [view, ihl hl h2, ihr hr h2, hc, hv]

/-!
## C5: deleting an absent key
-/

/-- `findNode` reports "not found" for any key outside the tree's in-order
key sequence (provided the search fuel exceeds the readback fuel, so that the
descent cannot run out). -/
theorem findNodeLoop_not_found {t : VTree} :
    ∀ {f fuel : Nat} {s : RedBlackTree} {oi : Option Nat} {k : Int},
      view f s oi = some t → k ∉ t.inorder → f < fuel →
      RedBlackTree.findNodeLoop fuel s oi k = some none := by
  induction t with
  | leaf =>
    intro f fuel s oi k hv _ hf
    rw [view_leaf_inv hv]
    cases fuel with
    | zero => omega
    | succ fuel2 => rfl
  | node i c v l r ihl ihr =>
    intro f fuel s oi k hv hk hf
    obtain ⟨f2, rfl, rfl, _, hval, hl, hr⟩ := view_node_inv hv
    cases fuel with
    | zero => omega
    | succ fuel2 =>
      have hkv : ¬ k = v := by
        intro hkv
        exact hk (by simp [VTree.inorder, hkv])
      have hkl : k ∉ l.inorder := fun hm => hk (by simp [VTree.inorder, hm])
      have hkr : k ∉ r.inorder := fun hm => hk (by simp [VTree.inorder, hm])
      have hf2 : f2 < fuel2 := by omega
      simp only [RedBlackTree.findNodeLoop, hval]
      rw [if_neg hkv]
      by_cases hlt : k < v
      · rw [if_pos hlt]
        exact ihl hl hkl hf2
      · rw [if_neg hlt]
        exact ihr hr hkr hf2

/-- C5: deleting a key that is not present returns `false` and leaves the
tree (heap and root pointer) literally unchanged.  Stated for every state
whose ownership tree can be read back (every tree reachable by public
operations is such a state) and every key outside its in-order key
sequence. -/
theorem C5_delete_absent_unchanged (s : RedBlackTree) (k : Int) (t : VTree)
    (f fuel : Nat) (hv : view f s s.root = some t)
    (hk : k ∉ t.inorder) (hf : f < fuel) :
    RedBlackTree.delete fuel s k = some (s, false) := by
  unfold RedBlackTree.delete RedBlackTree.findNode
  rw [findNodeLoop_not_found hv hk hf]

/-- Concrete witness for C5: in the one-node tree holding key 5, deleting the
absent key 7 returns `false` and the state is untouched. -/
theorem C5_witness :
    RedBlackTree.delete 10 ⟨[⟨5, Color.BLACK, none, none, none⟩], some 0⟩ 7
      = some (⟨[⟨5, Color.BLACK, none, none, none⟩], some 0⟩, false) :=
  C5_delete_absent_unchanged _ 7
    (VTree.node 0 Color.BLACK 5 VTree.leaf VTree.leaf) 1 10
    (by decide) (by decide) (by decide)

/-!
## Heap access lemmas
-/

theorem getNode_setNode_ne {i j : Nat} (h : i ≠ j) (s : RedBlackTree)
    (nd : Node) : getNode (setNode s i nd) j = getNode s j := by
  simp [getNode, setNode, List.getD_eq_getElem?_getD, List.getElem?_set, h]

theorem setNode_oob {s : RedBlackTree} {i : Nat}
    (h : s.nodes.length ≤ i) (nd : Node) : setNode s i nd = s := by
  simp [setNode, List.set_eq_of_length_le h]

theorem getNode_setNode_self {s : RedBlackTree} {i : Nat}
    (h : i < s.nodes.length) (nd : Node) :
    getNode (setNode s i nd) i = nd := by
  simp [getNode, setNode, List.getD_eq_getElem?_getD, List.getElem?_set, h]

theorem setNode_root (s : RedBlackTree) (i : Nat) (nd : Node) :
    (setNode s i nd).root = s.root := rfl

theorem setNode_length (s : RedBlackTree) (i : Nat) (nd : Node) :
    (setNode s i nd).nodes.length = s.nodes.length := by
  simp [setNode]

/-!
## View congruence and framing
-/

/-- Views only read the `left`, `right`, `color` and `value` fields of the
nodes they visit; two states agreeing on those fields over the nodes of the
view produce the same view. -/
theorem view_congr_on {t : VTree} :
    ∀ {f : Nat} {s s2 : RedBlackTree} {oi : Option Nat},
      view f s oi = some t →
      (∀ j ∈ t.idxs, (getNode s2 j).left = (getNode s j).left ∧
        (getNode s2 j).right = (getNode s j).right ∧
        (getNode s2 j).color = (getNode s j).color ∧
        (getNode s2 j).value = (getNode s j).value) →
      view f s2 oi = some t := by
  induction t with
  | leaf =>
    intro f s s2 oi hv _
    rw [view_leaf_inv hv]
    exact view_none f s2
  | node i c v l r ihl ihr =>
    intro f s s2 oi hv hag
    obtain ⟨f2, rfl, rfl, hc, hval, hl, hr⟩ := view_node_inv hv
    have hroot := hag i (by simp [VTree.idxs])
    obtain ⟨h1, h2, h3, h4⟩ := hroot
    have hagl : ∀ j ∈ l.idxs, (getNode s2 j).left = (getNode s j).left ∧
        (getNode s2 j).right = (getNode s j).right ∧
        (getNode s2 j).color = (getNode s j).color ∧
        (getNode s2 j).value = (getNode s j).value :=
      fun j hj => hag j (by simp [VTree.idxs, hj])
    have hagr : ∀ j ∈ r.idxs, (getNode s2 j).left = (getNode s j).left ∧
        (getNode s2 j).right = (getNode s j).right ∧
        (getNode s2 j).color = (getNode s j).color ∧
        (getNode s2 j).value = (getNode s j).value :=
      fun j hj => hag j (by simp [VTree.idxs, hj])
    simp [view, h1, h2, h3, h4, hc, hval, ihl hl hagl, ihr hr hagr]

/-- States agreeing on the nodes of the view produce the same view. -/
theorem view_untouched {t : VTree} {f : Nat} {s s2 : RedBlackTree}
    {oi : Option Nat} (hv : view f s oi = some t)
    (hag : ∀ j ∈ t.idxs, getNode s2 j = getNode s j) :
    view f s2 oi = some t :=
  view_congr_on hv (fun j hj => by rw [hag j hj]; exact ⟨rfl, rfl, rfl, rfl⟩)

/-- Writing outside the nodes of a view does not change it. -/
theorem view_frame {t : VTree} {f : Nat} {s : RedBlackTree} {oi : Option Nat}
    {j : Nat} (hv : view f s oi = some t) (hj : j ∉ t.idxs) (nd : Node) :
    view f (setNode s j nd) oi = some t :=
  view_untouched hv fun i hi =>
    getNode_setNode_ne (fun h : j = i => hj (by rw [h]; exact hi)) s nd

/-- `parentOkV` only reads the `parent` fields of the nodes of the view. -/
theorem parentOkV_congr_on {t : VTree} :
    ∀ {s s2 : RedBlackTree} {pexp : Option Nat},
      (∀ j ∈ t.idxs, (getNode s2 j).parent = (getNode s j).parent) →
      parentOkV s2 t pexp = parentOkV s t pexp := by
  induction t with
  | leaf => intro s s2 pexp _; rfl
  | node i c v l r ihl ihr =>
    intro s s2 pexp hag
    have hroot := hag i (by simp [VTree.idxs])
    have hagl : ∀ j ∈ l.idxs, (getNode s2 j).parent = (getNode s j).parent :=
      fun j hj => hag j (by simp [VTree.idxs, hj])
    have hagr : ∀ j ∈ r.idxs, (getNode s2 j).parent = (getNode s j).parent :=
      fun j hj => hag j (by simp [VTree.idxs, hj])
    simp [parentOkV, hroot, ihl hagl, ihr hagr]

theorem getNode_setLeft_self {s : RedBlackTree} {j : Nat}
    (h : j < s.nodes.length) (p : Option Nat) :
    getNode (setLeft s j p) j = { getNode s j with left := p } := by
  rw [setLeft, getNode_setNode_self h]

theorem getNode_setLeft_ne {j i : Nat} (h : j ≠ i) (s : RedBlackTree)
    (p : Option Nat) : getNode (setLeft s j p) i = getNode s i := by
  rw [setLeft, getNode_setNode_ne h]

theorem getNode_setRight_self {s : RedBlackTree} {j : Nat}
    (h : j < s.nodes.length) (p : Option Nat) :
    getNode (setRight s j p) j = { getNode s j with right := p } := by
  rw [setRight, getNode_setNode_self h]

theorem getNode_setRight_ne {j i : Nat} (h : j ≠ i) (s : RedBlackTree)
    (p : Option Nat) : getNode (setRight s j p) i = getNode s i := by
  rw [setRight, getNode_setNode_ne h]

theorem getNode_setParent_self {s : RedBlackTree} {j : Nat}
    (h : j < s.nodes.length) (p : Option Nat) :
    getNode (setParent s j p) j = { getNode s j with parent := p } := by
  rw [setParent, getNode_setNode_self h]

theorem getNode_setParent_ne {j i : Nat} (h : j ≠ i) (s : RedBlackTree)
    (p : Option Nat) : getNode (setParent s j p) i = getNode s i := by
  rw [setParent, getNode_setNode_ne h]

theorem getNode_setColor_self {s : RedBlackTree} {j : Nat}
    (h : j < s.nodes.length) (c : Color) :
    getNode (setColor s j c) j = { getNode s j with color := c } := by
  rw [setColor, getNode_setNode_self h]

theorem getNode_setColor_ne {j i : Nat} (h : j ≠ i) (s : RedBlackTree)
    (c : Color) : getNode (setColor s j c) i = getNode s i := by
  rw [setColor, getNode_setNode_ne h]

theorem getNode_setValue_self {s : RedBlackTree} {j : Nat}
    (h : j < s.nodes.length) (v : Int) :
    getNode (setValue s j v) j = { getNode s j with value := v } := by
  rw [setValue, getNode_setNode_self h]

theorem getNode_setValue_ne {j i : Nat} (h : j ≠ i) (s : RedBlackTree)
    (v : Int) : getNode (setValue s j v) i = getNode s i := by
  rw [setValue, getNode_setNode_ne h]

/-- `parent` assignments preserve all fields a view reads. -/
theorem getNode_setParent_fields (s : RedBlackTree) (j : Nat)
    (p : Option Nat) (i : Nat) :
    (getNode (setParent s j p) i).left = (getNode s i).left ∧
    (getNode (setParent s j p) i).right = (getNode s i).right ∧
    (getNode (setParent s j p) i).color = (getNode s i).color ∧
    (getNode (setParent s j p) i).value = (getNode s i).value := by
  by_cases h : j = i
  · subst h
    by_cases hlen : j < s.nodes.length
    · rw [getNode_setParent_self hlen]
      exact ⟨rfl, rfl, rfl, rfl⟩
    · rw [setParent, setNode_oob (le_of_not_lt hlen)]
      exact ⟨rfl, rfl, rfl, rfl⟩
  · rw [getNode_setParent_ne h]
    exact ⟨rfl, rfl, rfl, rfl⟩

/-- `parent` assignments do not change any view. -/
theorem view_setParent {t : VTree} {f : Nat} {s : RedBlackTree}
    {oi : Option Nat} (hv : view f s oi = some t) (j : Nat)
    (p : Option Nat) : view f (setParent s j p) oi = some t :=
  view_congr_on hv fun i _ => getNode_setParent_fields s j p i

/-- The `parent` field of every node after a `left`/`right`/`color`/`value`
assignment is unchanged. -/
theorem getNode_setLeft_parent (s : RedBlackTree) (j : Nat) (p : Option Nat)
    (i : Nat) :
    (getNode (setLeft s j p) i).parent = (getNode s i).parent := by
  by_cases h : j = i
  · subst h
    by_cases hlen : j < s.nodes.length
    · rw [getNode_setLeft_self hlen]
    · rw [setLeft, setNode_oob (le_of_not_lt hlen)]
  · rw [getNode_setLeft_ne h]

theorem getNode_setRight_parent (s : RedBlackTree) (j : Nat) (p : Option Nat)
    (i : Nat) :
    (getNode (setRight s j p) i).parent = (getNode s i).parent := by
  by_cases h : j = i
  · subst h
    by_cases hlen : j < s.nodes.length
    · rw [getNode_setRight_self hlen]
    · rw [setRight, setNode_oob (le_of_not_lt hlen)]
  · rw [getNode_setRight_ne h]

theorem getNode_setColor_parent (s : RedBlackTree) (j : Nat) (c : Color)
    (i : Nat) :
    (getNode (setColor s j c) i).parent = (getNode s i).parent := by
  by_cases h : j = i
  · subst h
    by_cases hlen : j < s.nodes.length
    · rw [getNode_setColor_self hlen]
    · rw [setColor, setNode_oob (le_of_not_lt hlen)]
  · rw [getNode_setColor_ne h]

theorem getNode_setValue_parent (s : RedBlackTree) (j : Nat) (v : Int)
    (i : Nat) :
    (getNode (setValue s j v) i).parent = (getNode s i).parent := by
  by_cases h : j = i
  · subst h
    by_cases hlen : j < s.nodes.length
    · rw [getNode_setValue_self hlen]
    · rw [setValue, setNode_oob (le_of_not_lt hlen)]
  · rw [getNode_setValue_ne h]

theorem parentOkV_setColor {t : VTree} {s : RedBlackTree} {pexp : Option Nat}
    (j : Nat) (c : Color) :
    parentOkV (setColor s j c) t pexp = parentOkV s t pexp :=
  parentOkV_congr_on fun i _ => getNode_setColor_parent s j c i

theorem parentOkV_setValue {t : VTree} {s : RedBlackTree} {pexp : Option Nat}
    (j : Nat) (v : Int) :
    parentOkV (setValue s j v) t pexp = parentOkV s t pexp :=
  parentOkV_congr_on fun i _ => getNode_setValue_parent s j v i

/-!
## Recoloring and revaluing a view
-/

/-- The view after `j.color = c2`. -/
def recolorV (j : Nat) (c2 : Color) : VTree → VTree
  | .leaf => .leaf
  | .node i c v l r =>
    .node i (if i = j then c2 else c) v (recolorV j c2 l) (recolorV j c2 r)

/-- The view after `j.value = v2`. -/
def revalueV (j : Nat) (v2 : Int) : VTree → VTree
  | .leaf => .leaf
  | .node i c v l r =>
    .node i c (if i = j then v2 else v) (revalueV j v2 l) (revalueV j v2 r)

theorem recolorV_idxs (j : Nat) (c2 : Color) :
    ∀ t : VTree, (recolorV j c2 t).idxs = t.idxs := by
  intro t
  induction t with
  | leaf => rfl
  | node i c v l r ihl ihr => simp [recolorV, VTree.idxs, ihl, ihr]

theorem recolorV_inorder (j : Nat) (c2 : Color) :
    ∀ t : VTree, (recolorV j c2 t).inorder = t.inorder := by
  intro t
  induction t with
  | leaf => rfl
  | node i c v l r ihl ihr => simp [recolorV, VTree.inorder, ihl, ihr]

theorem revalueV_idxs (j : Nat) (v2 : Int) :
    ∀ t : VTree, (revalueV j v2 t).idxs = t.idxs := by
  intro t
  induction t with
  | leaf => rfl
  | node i c v l r ihl ihr => simp [revalueV, VTree.idxs, ihl, ihr]

theorem view_setColor {t : VTree} :
    ∀ {f : Nat} {s : RedBlackTree} {oi : Option Nat} {j : Nat} {c2 : Color},
      view f s oi = some t → j < s.nodes.length →
      view f (setColor s j c2) oi = some (recolorV j c2 t) := by
  induction t with
  | leaf =>
    intro f s oi j c2 hv _
    rw [view_leaf_inv hv]
    exact view_none ..
  | node i c v l r ihl ihr =>
    intro f s oi j c2 hv hj
    obtain ⟨f2, rfl, rfl, hc, hval, hl, hr⟩ := view_node_inv hv
    by_cases hij : j = i
    · subst hij
      have hget := getNode_setColor_self hj c2
      simp [view, recolorV, hget, hc, hval, ihl hl hj, ihr hr hj]
    · have hget := getNode_setColor_ne hij s c2
      simp [view, recolorV, hget, hc, hval, ihl hl hj, ihr hr hj,
        Ne.symm hij]

theorem view_setValue {t : VTree} :
    ∀ {f : Nat} {s : RedBlackTree} {oi : Option Nat} {j : Nat} {v2 : Int},
      view f s oi = some t → j < s.nodes.length →
      view f (setValue s j v2) oi = some (revalueV j v2 t) := by
  induction t with
  | leaf =>
    intro f s oi j v2 hv _
    rw [view_leaf_inv hv]
    exact view_none ..
  | node i c v l r ihl ihr =>
    intro f s oi j v2 hv hj
    obtain ⟨f2, rfl, rfl, hc, hval, hl, hr⟩ := view_node_inv hv
    by_cases hij : j = i
    · subst hij
      have hget := getNode_setValue_self hj v2
      simp [view, revalueV, hget, hc, hval, ihl hl hj, ihr hr hj]
    · have hget := getNode_setValue_ne hij s v2
      simp [view, revalueV, hget, hc, hval, ihl hl hj, ihr hr hj,
        Ne.symm hij]

/-!
## Rotations at the view level
-/

/-- The view after `rotateLeft` at the node with index `x`: `x`'s right child
is promoted into `x`'s place, `x` becomes its left child and inherits its
former left subtree as new right subtree. -/
def rotALV (x : Nat) : VTree → VTree
  | .leaf => .leaf
  | .node i c v l r =>
    if i = x then
      match r with
      | .node j cj vj rl rr => .node j cj vj (.node i c v l rl) rr
      | .leaf => .node i c v l r
    else .node i c v (rotALV x l) (rotALV x r)

/-- The view after `rotateRight` at the node with index `x`. -/
def rotARV (x : Nat) : VTree → VTree
  | .leaf => .leaf
  | .node i c v l r =>
    if i = x then
      match l with
      | .node j cj vj ll lr => .node j cj vj ll (.node i c v lr r)
      | .leaf => .node i c v l r
    else .node i c v (rotARV x l) (rotARV x r)

theorem rotALV_not_mem {x : Nat} : ∀ {t : VTree}, x ∉ t.idxs →
    rotALV x t = t := by
  intro t
  induction t with
  | leaf => intro _; rfl
  | node i c v l r ihl ihr =>
    intro hx
    simp only [VTree.idxs, List.mem_append, List.mem_cons] at hx
    push_neg at hx
    obtain ⟨h1, h2, h3⟩ := hx
    simp [rotALV, Ne.symm h2, ihl h1, ihr h3]

theorem rotARV_not_mem {x : Nat} : ∀ {t : VTree}, x ∉ t.idxs →
    rotARV x t = t := by
  intro t
  induction t with
  | leaf => intro _; rfl
  | node i c v l r ihl ihr =>
    intro hx
    simp only [VTree.idxs, List.mem_append, List.mem_cons] at hx
    push_neg at hx
    obtain ⟨h1, h2, h3⟩ := hx
    simp [rotARV, Ne.symm h2, ihl h1, ihr h3]

theorem rotALV_inorder (x : Nat) : ∀ t : VTree,
    (rotALV x t).inorder = t.inorder := by
  intro t
  induction t with
  | leaf => rfl
  | node i c v l r ihl ihr =>
    by_cases hix : i = x
    · cases r with
      | leaf => simp [rotALV, hix]
      | node j cj vj rl rr => simp [rotALV, hix, VTree.inorder]
    · simp [rotALV, hix, VTree.inorder, ihl, ihr]

theorem rotARV_inorder (x : Nat) : ∀ t : VTree,
    (rotARV x t).inorder = t.inorder := by
  intro t
  induction t with
  | leaf => rfl
  | node i c v l r ihl ihr =>
    by_cases hix : i = x
    · cases l with
      | leaf => simp [rotARV, hix]
      | node j cj vj ll lr => simp [rotARV, hix, VTree.inorder]
    · simp [rotARV, hix, VTree.inorder, ihl, ihr]

theorem rotALV_idxs (x : Nat) : ∀ t : VTree,
    (rotALV x t).idxs = t.idxs := by
  intro t
  induction t with
  | leaf => rfl
  | node i c v l r ihl ihr =>
    by_cases hix : i = x
    · cases r with
      | leaf => simp [rotALV, hix]
      | node j cj vj rl rr => simp [rotALV, hix, VTree.idxs]
    · simp [rotALV, hix, VTree.idxs, ihl, ihr]

theorem rotARV_idxs (x : Nat) : ∀ t : VTree,
    (rotARV x t).idxs = t.idxs := by
  intro t
  induction t with
  | leaf => rfl
  | node i c v l r ihl ihr =>
    by_cases hix : i = x
    · cases l with
      | leaf => simp [rotARV, hix]
      | node j cj vj ll lr => simp [rotARV, hix, VTree.idxs]
    · simp [rotARV, hix, VTree.idxs, ihl, ihr]

theorem setLeft_length (s : RedBlackTree) (j : Nat) (p : Option Nat) :
    (setLeft s j p).nodes.length = s.nodes.length := setNode_length ..

theorem setRight_length (s : RedBlackTree) (j : Nat) (p : Option Nat) :
    (setRight s j p).nodes.length = s.nodes.length := setNode_length ..

theorem setParent_length (s : RedBlackTree) (j : Nat) (p : Option Nat) :
    (setParent s j p).nodes.length = s.nodes.length := setNode_length ..

theorem setColor_length (s : RedBlackTree) (j : Nat) (c : Color) :
    (setColor s j c).nodes.length = s.nodes.length := setNode_length ..

theorem setValue_length (s : RedBlackTree) (j : Nat) (v : Int) :
    (setValue s j v).nodes.length = s.nodes.length := setNode_length ..

theorem setLeft_root (s : RedBlackTree) (j : Nat) (p : Option Nat) :
    (setLeft s j p).root = s.root := rfl

theorem setRight_root (s : RedBlackTree) (j : Nat) (p : Option Nat) :
    (setRight s j p).root = s.root := rfl

theorem setParent_root (s : RedBlackTree) (j : Nat) (p : Option Nat) :
    (setParent s j p).root = s.root := rfl

theorem setColor_root (s : RedBlackTree) (j : Nat) (c : Color) :
    (setColor s j c).root = s.root := rfl

theorem setValue_root (s : RedBlackTree) (j : Nat) (v : Int) :
    (setValue s j v).root = s.root := rfl

/-- `rotateLeft` allocates and frees nothing. -/
theorem rotateLeft_length (s : RedBlackTree) (x : Nat) :
    (RedBlackTree.rotateLeft s x).nodes.length = s.nodes.length := by
  rcases hr : (getNode s x).right with _ | y
  · simp [RedBlackTree.rotateLeft, hr]
  · simp only [RedBlackTree.rotateLeft, hr]
    rcases (getNode s y).left with _ | z <;>
      · simp only []
        split <;>
          first
          | (split <;> simp [setParent_length, setLeft_length,
              setRight_length])
          | simp [setParent_length, setLeft_length, setRight_length]

/-- `rotateRight` allocates and frees nothing. -/
theorem rotateRight_length (s : RedBlackTree) (x : Nat) :
    (RedBlackTree.rotateRight s x).nodes.length = s.nodes.length := by
  rcases hr : (getNode s x).left with _ | y
  · simp [RedBlackTree.rotateRight, hr]
  · simp only [RedBlackTree.rotateRight, hr]
    rcases (getNode s y).right with _ | z <;>
      · simp only []
        split <;>
          first
          | (split <;> simp [setParent_length, setLeft_length,
              setRight_length])
          | simp [setParent_length, setLeft_length, setRight_length]

theorem getNode_rootUpd (s : RedBlackTree) (r : Option Nat) (i : Nat) :
    getNode { s with root := r } i = getNode s i := rfl

theorem rootUpd_length (s : RedBlackTree) (r : Option Nat) :
    ({ s with root := r } : RedBlackTree).nodes.length = s.nodes.length := rfl

/-- Pointwise description of the heap after `rotateLeft s x`, when `x`'s
right child `y` exists and the objects involved (`x`, `y`, `y`'s left child,
`x`'s parent) are pairwise distinct in-range nodes — as they are in any
actual tree. -/
theorem rotateLeft_getNode {s : RedBlackTree} {x y : Nat}
    (hy : (getNode s x).right = some y)
    (hxlen : x < s.nodes.length) (hylen : y < s.nodes.length)
    (hxy : x ≠ y)
    (hz : ∀ z, (getNode s y).left = some z →
      z ≠ x ∧ z ≠ y ∧ z < s.nodes.length)
    (hp : ∀ p, (getNode s x).parent = some p →
      p ≠ x ∧ p ≠ y ∧ p < s.nodes.length ∧
        ∀ z, (getNode s y).left = some z → p ≠ z) :
    ∀ j, getNode (RedBlackTree.rotateLeft s x) j =
      if j = x then
        { getNode s x with right := (getNode s y).left, parent := some y }
      else if j = y then
        { getNode s y with left := some x, parent := (getNode s x).parent }
      else if (getNode s y).left = some j then
        { getNode s j with parent := some x }
      else if (getNode s x).parent = some j then
        (if (getNode s j).left = some x then
          { getNode s j with left := some y }
        else { getNode s j with right := some y })
      else getNode s j := by
  have hyx : y ≠ x := Ne.symm hxy
  intro j
  rcases hbl : (getNode s y).left with _ | z
  · -- y has no left child: the heap passes through
    -- setParent (setLeft s4 y (some x)) x (some y) with
    -- s4 built over s3 := setParent (setRight s x none) y (x's parent)
    simp only [RedBlackTree.rotateLeft, hy, hbl]
    rw [getNode_setRight_parent, getNode_setParent_ne hyx,
      getNode_setRight_parent]
    rcases hpar : (getNode s x).parent with _ | p
    · -- x was the root: s4 updates the root pointer only
      by_cases hjx : j = x
      · rw [if_pos hjx]
        subst hjx
        rw [getNode_setParent_self
            (by simpa [setLeft_length, rootUpd_length, setParent_length,
              setRight_length] using hxlen),
          getNode_setLeft_ne hyx, getNode_rootUpd, getNode_setParent_ne hyx,
          getNode_setRight_self hxlen]
      · rw [if_neg hjx]
        have hxj : x ≠ j := Ne.symm hjx
        by_cases hjy : j = y
        · rw [if_pos hjy]
          subst hjy
          rw [getNode_setParent_ne hxj,
            getNode_setLeft_self
              (by simpa [rootUpd_length, setParent_length, setRight_length]
                using hylen),
            getNode_rootUpd,
            getNode_setParent_self
              (by simpa [setRight_length] using hylen),
            getNode_setRight_ne hxy]
        · rw [if_neg hjy]
          have hyj : y ≠ j := Ne.symm hjy
          rw [if_neg (by simp), if_neg (by simp)]
          rw [getNode_setParent_ne hxj, getNode_setLeft_ne hyj,
            getNode_rootUpd, getNode_setParent_ne hyj,
            getNode_setRight_ne hxj]
    · -- x hangs from p: s4 rewires p's child slot
      obtain ⟨hpx, hpy, hplen, _⟩ := hp p hpar
      have hxp : x ≠ p := Ne.symm hpx
      have hyp : y ≠ p := Ne.symm hpy
      dsimp only
      rw [getNode_setParent_ne hyp, getNode_setRight_ne hxp]
      by_cases hslot : (getNode s p).left = some x
      · rw [if_pos hslot]
        by_cases hjx : j = x
        · rw [if_pos hjx]
          subst hjx
          rw [getNode_setParent_self
              (by simpa [setLeft_length, setParent_length, setRight_length]
                using hxlen),
            getNode_setLeft_ne hyx, getNode_setLeft_ne hpx,
            getNode_setParent_ne hyx, getNode_setRight_self hxlen]
        · rw [if_neg hjx]
          have hxj : x ≠ j := Ne.symm hjx
          by_cases hjy : j = y
          · rw [if_pos hjy]
            subst hjy
            rw [getNode_setParent_ne hxj,
              getNode_setLeft_self
                (by simpa [setLeft_length, setParent_length, setRight_length]
                  using hylen),
              getNode_setLeft_ne hpy,
              getNode_setParent_self
                (by simpa [setRight_length] using hylen),
              getNode_setRight_ne hxy]
          · rw [if_neg hjy]
            have hyj : y ≠ j := Ne.symm hjy
            rw [if_neg (by simp)]
            by_cases hjp : j = p
            · rw [if_pos (by rw [hjp]), if_pos (by rw [hjp]; exact hslot)]
              subst hjp
              rw [getNode_setParent_ne hxj, getNode_setLeft_ne hyj,
                getNode_setLeft_self
                  (by simpa [setParent_length, setRight_length] using hplen),
                getNode_setParent_ne hyj, getNode_setRight_ne hxj]
            · have hpj : p ≠ j := Ne.symm hjp
              rw [if_neg (by simpa using hpj)]
              rw [getNode_setParent_ne hxj, getNode_setLeft_ne hyj,
                getNode_setLeft_ne hpj, getNode_setParent_ne hyj,
                getNode_setRight_ne hxj]
      · rw [if_neg hslot]
        by_cases hjx : j = x
        · rw [if_pos hjx]
          subst hjx
          rw [getNode_setParent_self
              (by simpa [setLeft_length, setRight_length, setParent_length]
                using hxlen),
            getNode_setLeft_ne hyx, getNode_setRight_ne hpx,
            getNode_setParent_ne hyx, getNode_setRight_self hxlen]
        · rw [if_neg hjx]
          have hxj : x ≠ j := Ne.symm hjx
          by_cases hjy : j = y
          · rw [if_pos hjy]
            subst hjy
            rw [getNode_setParent_ne hxj,
              getNode_setLeft_self
                (by simpa [setRight_length, setParent_length] using hylen),
              getNode_setRight_ne hpy,
              getNode_setParent_self
                (by simpa [setRight_length] using hylen),
              getNode_setRight_ne hxy]
          · rw [if_neg hjy]
            have hyj : y ≠ j := Ne.symm hjy
            rw [if_neg (by simp)]
            by_cases hjp : j = p
            · rw [if_pos (by rw [hjp]), if_neg (by rw [hjp]; exact hslot)]
              subst hjp
              rw [getNode_setParent_ne hxj, getNode_setLeft_ne hyj,
                getNode_setRight_self
                  (by simpa [setParent_length, setRight_length] using hplen),
                getNode_setParent_ne hyj, getNode_setRight_ne hxj]
            · have hpj : p ≠ j := Ne.symm hjp
              rw [if_neg (by simpa using hpj)]
              rw [getNode_setParent_ne hxj, getNode_setLeft_ne hyj,
                getNode_setRight_ne hpj, getNode_setParent_ne hyj,
                getNode_setRight_ne hxj]
  · -- y has a left child z, reparented to x
    obtain ⟨hzx, hzy, hzlen⟩ := hz z hbl
    have hxz : x ≠ z := Ne.symm hzx
    have hyz : y ≠ z := Ne.symm hzy
    simp only [RedBlackTree.rotateLeft, hy, hbl]
    rw [getNode_setParent_ne hzx, getNode_setRight_parent,
      getNode_setParent_ne hyx, getNode_setParent_ne hzx,
      getNode_setRight_parent]
    rcases hpar : (getNode s x).parent with _ | p
    · by_cases hjx : j = x
      · rw [if_pos hjx]
        subst hjx
        rw [getNode_setParent_self
            (by simpa [setLeft_length, rootUpd_length, setParent_length,
              setRight_length] using hxlen),
          getNode_setLeft_ne hyx, getNode_rootUpd, getNode_setParent_ne hyx,
          getNode_setParent_ne hzx, getNode_setRight_self hxlen]
      · rw [if_neg hjx]
        have hxj : x ≠ j := Ne.symm hjx
        by_cases hjy : j = y
        · rw [if_pos hjy]
          subst hjy
          rw [getNode_setParent_ne hxj,
            getNode_setLeft_self
              (by simpa [rootUpd_length, setParent_length, setRight_length]
                using hylen),
            getNode_rootUpd,
            getNode_setParent_self
              (by simpa [setParent_length, setRight_length] using hylen),
            getNode_setParent_ne hzy, getNode_setRight_ne hxy]
        · rw [if_neg hjy]
          have hyj : y ≠ j := Ne.symm hjy
          by_cases hjz : j = z
          · rw [if_pos (by rw [hjz])]
            subst hjz
            rw [getNode_setParent_ne hxj, getNode_setLeft_ne hyj,
              getNode_rootUpd, getNode_setParent_ne hyj,
              getNode_setParent_self
                (by simpa [setRight_length] using hzlen),
              getNode_setRight_ne hxz]
          · have hzj : z ≠ j := Ne.symm hjz
            rw [if_neg (by simpa using hzj), if_neg (by simp)]
            rw [getNode_setParent_ne hxj, getNode_setLeft_ne hyj,
              getNode_rootUpd, getNode_setParent_ne hyj,
              getNode_setParent_ne hzj, getNode_setRight_ne hxj]
    · obtain ⟨hpx, hpy, hplen, hpzall⟩ := hp p hpar
      have hpz : p ≠ z := hpzall z hbl
      have hxp : x ≠ p := Ne.symm hpx
      have hyp : y ≠ p := Ne.symm hpy
      have hzp : z ≠ p := Ne.symm hpz
      dsimp only
      rw [getNode_setParent_ne hyp, getNode_setParent_ne hzp,
        getNode_setRight_ne hxp]
      by_cases hslot : (getNode s p).left = some x
      · rw [if_pos hslot]
        by_cases hjx : j = x
        · rw [if_pos hjx]
          subst hjx
          rw [getNode_setParent_self
              (by simpa [setLeft_length, setParent_length, setRight_length]
                using hxlen),
            getNode_setLeft_ne hyx, getNode_setLeft_ne hpx,
            getNode_setParent_ne hyx, getNode_setParent_ne hzx,
            getNode_setRight_self hxlen]
        · rw [if_neg hjx]
          have hxj : x ≠ j := Ne.symm hjx
          by_cases hjy : j = y
          · rw [if_pos hjy]
            subst hjy
            rw [getNode_setParent_ne hxj,
              getNode_setLeft_self
                (by simpa [setLeft_length, setParent_length, setRight_length]
                  using hylen),
              getNode_setLeft_ne hpy,
              getNode_setParent_self
                (by simpa [setParent_length, setRight_length] using hylen),
              getNode_setParent_ne hzy, getNode_setRight_ne hxy]
          · rw [if_neg hjy]
            have hyj : y ≠ j := Ne.symm hjy
            by_cases hjz : j = z
            · rw [if_pos (by rw [hjz])]
              subst hjz
              rw [getNode_setParent_ne hxj, getNode_setLeft_ne hyj,
                getNode_setLeft_ne hpz, getNode_setParent_ne hyj,
                getNode_setParent_self
                  (by simpa [setRight_length] using hzlen),
                getNode_setRight_ne hxz]
            · have hzj : z ≠ j := Ne.symm hjz
              rw [if_neg (by simpa using hzj)]
              by_cases hjp : j = p
              · rw [if_pos (by rw [hjp]), if_pos (by rw [hjp]; exact hslot)]
                subst hjp
                rw [getNode_setParent_ne hxj, getNode_setLeft_ne hyj,
                  getNode_setLeft_self
                    (by simpa [setParent_length, setRight_length]
                      using hplen),
                  getNode_setParent_ne hyj, getNode_setParent_ne hzj,
                  getNode_setRight_ne hxj]
              · have hpj : p ≠ j := Ne.symm hjp
                rw [if_neg (by simpa using hpj)]
                rw [getNode_setParent_ne hxj, getNode_setLeft_ne hyj,
                  getNode_setLeft_ne hpj, getNode_setParent_ne hyj,
                  getNode_setParent_ne hzj, getNode_setRight_ne hxj]
      · rw [if_neg hslot]
        by_cases hjx : j = x
        · rw [if_pos hjx]
          subst hjx
          rw [getNode_setParent_self
              (by simpa [setLeft_length, setRight_length, setParent_length]
                using hxlen),
            getNode_setLeft_ne hyx, getNode_setRight_ne hpx,
            getNode_setParent_ne hyx, getNode_setParent_ne hzx,
            getNode_setRight_self hxlen]
        · rw [if_neg hjx]
          have hxj : x ≠ j := Ne.symm hjx
          by_cases hjy : j = y
          · rw [if_pos hjy]
            subst hjy
            rw [getNode_setParent_ne hxj,
              getNode_setLeft_self
                (by simpa [setRight_length, setParent_length] using hylen),
              getNode_setRight_ne hpy,
              getNode_setParent_self
                (by simpa [setParent_length, setRight_length] using hylen),
              getNode_setParent_ne hzy, getNode_setRight_ne hxy]
          · rw [if_neg hjy]
            have hyj : y ≠ j := Ne.symm hjy
            by_cases hjz : j = z
            · rw [if_pos (by rw [hjz])]
              subst hjz
              rw [getNode_setParent_ne hxj, getNode_setLeft_ne hyj,
                getNode_setRight_ne hpz, getNode_setParent_ne hyj,
                getNode_setParent_self
                  (by simpa [setRight_length] using hzlen),
                getNode_setRight_ne hxz]
            · have hzj : z ≠ j := Ne.symm hjz
              rw [if_neg (by simpa using hzj)]
              by_cases hjp : j = p
              · rw [if_pos (by rw [hjp]), if_neg (by rw [hjp]; exact hslot)]
                subst hjp
                rw [getNode_setParent_ne hxj, getNode_setLeft_ne hyj,
                  getNode_setRight_self
                    (by simpa [setParent_length, setRight_length]
                      using hplen),
                  getNode_setParent_ne hyj, getNode_setParent_ne hzj,
                  getNode_setRight_ne hxj]
              · have hpj : p ≠ j := Ne.symm hjp
                rw [if_neg (by simpa using hpj)]
                rw [getNode_setParent_ne hxj, getNode_setLeft_ne hyj,
                  getNode_setRight_ne hpj, getNode_setParent_ne hyj,
                  getNode_setParent_ne hzj, getNode_setRight_ne hxj]

/-- The root pointer after `rotateLeft s x`: it becomes `y` when `x` was the
root, and is untouched when `x` had a parent. -/
theorem rotateLeft_root {s : RedBlackTree} {x y : Nat}
    (hy : (getNode s x).right = some y)
    (hxlen : x < s.nodes.length) (hxy : x ≠ y)
    (hz : ∀ z, (getNode s y).left = some z → z ≠ x) :
    ((getNode s x).parent = none →
      (RedBlackTree.rotateLeft s x).root = some y)
    ∧ ∀ p, (getNode s x).parent = some p →
      (RedBlackTree.rotateLeft s x).root = s.root := by
  have hyx : y ≠ x := Ne.symm hxy
  rcases hbl : (getNode s y).left with _ | z
  · simp only [RedBlackTree.rotateLeft, hy, hbl]
    rw [getNode_setRight_parent, getNode_setParent_ne hyx,
      getNode_setRight_parent]
    rcases hpar : (getNode s x).parent with _ | p
    · exact ⟨fun _ => rfl, fun p h => by simp at h⟩
    · refine ⟨fun h => by simp at h, fun q h => ?_⟩
      dsimp only
      by_cases hslot : (getNode (setParent (setRight s x none) y
          (some p)) p).left = some x
      · rw [if_pos hslot]
        rfl
      · rw [if_neg hslot]
        rfl
  · have hzx := hz z hbl
    simp only [RedBlackTree.rotateLeft, hy, hbl]
    rw [getNode_setParent_ne hzx, getNode_setRight_parent,
      getNode_setParent_ne hyx, getNode_setParent_ne hzx,
      getNode_setRight_parent]
    rcases hpar : (getNode s x).parent with _ | p
    · exact ⟨fun _ => rfl, fun p h => by simp at h⟩
    · refine ⟨fun h => by simp at h, fun q h => ?_⟩
      dsimp only
      by_cases hslot : (getNode (setParent (setParent (setRight s x (some z))
          z (some x)) y (some p)) p).left = some x
      · rw [if_pos hslot]
        rfl
      · rw [if_neg hslot]
        rfl

/-- Pointwise description of the heap after `rotateRight s x`, when `x`'s
left child `y` exists and the objects involved (`x`, `y`, `y`'s right child,
`x`'s parent) are pairwise distinct in-range nodes — as they are in any
actual tree. -/
theorem rotateRight_getNode {s : RedBlackTree} {x y : Nat}
    (hy : (getNode s x).left = some y)
    (hxlen : x < s.nodes.length) (hylen : y < s.nodes.length)
    (hxy : x ≠ y)
    (hz : ∀ z, (getNode s y).right = some z →
      z ≠ x ∧ z ≠ y ∧ z < s.nodes.length)
    (hp : ∀ p, (getNode s x).parent = some p →
      p ≠ x ∧ p ≠ y ∧ p < s.nodes.length ∧
        ∀ z, (getNode s y).right = some z → p ≠ z) :
    ∀ j, getNode (RedBlackTree.rotateRight s x) j =
      if j = x then
        { getNode s x with left := (getNode s y).right, parent := some y }
      else if j = y then
        { getNode s y with right := some x, parent := (getNode s x).parent }
      else if (getNode s y).right = some j then
        { getNode s j with parent := some x }
      else if (getNode s x).parent = some j then
        (if (getNode s j).right = some x then
          { getNode s j with right := some y }
        else { getNode s j with left := some y })
      else getNode s j := by
  have hyx : y ≠ x := Ne.symm hxy
  intro j
  rcases hbl : (getNode s y).right with _ | z
  · -- y has no left child: the heap passes through
    -- setParent (setRight s4 y (some x)) x (some y) with
    -- s4 built over s3 := setParent (setLeft s x none) y (x's parent)
    simp only [RedBlackTree.rotateRight, hy, hbl]
    rw [getNode_setLeft_parent, getNode_setParent_ne hyx,
      getNode_setLeft_parent]
    rcases hpar : (getNode s x).parent with _ | p
    · -- x was the root: s4 updates the root pointer only
      by_cases hjx : j = x
      · rw [if_pos hjx]
        subst hjx
        rw [getNode_setParent_self
            (by simpa [setRight_length, rootUpd_length, setParent_length,
              setLeft_length] using hxlen),
          getNode_setRight_ne hyx, getNode_rootUpd, getNode_setParent_ne hyx,
          getNode_setLeft_self hxlen]
      · rw [if_neg hjx]
        have hxj : x ≠ j := Ne.symm hjx
        by_cases hjy : j = y
        · rw [if_pos hjy]
          subst hjy
          rw [getNode_setParent_ne hxj,
            getNode_setRight_self
              (by simpa [rootUpd_length, setParent_length, setLeft_length]
                using hylen),
            getNode_rootUpd,
            getNode_setParent_self
              (by simpa [setLeft_length] using hylen),
            getNode_setLeft_ne hxy]
        · rw [if_neg hjy]
          have hyj : y ≠ j := Ne.symm hjy
          rw [if_neg (by simp), if_neg (by simp)]
          rw [getNode_setParent_ne hxj, getNode_setRight_ne hyj,
            getNode_rootUpd, getNode_setParent_ne hyj,
            getNode_setLeft_ne hxj]
    · -- x hangs from p: s4 rewires p's child slot
      obtain ⟨hpx, hpy, hplen, _⟩ := hp p hpar
      have hxp : x ≠ p := Ne.symm hpx
      have hyp : y ≠ p := Ne.symm hpy
      dsimp only
      rw [getNode_setParent_ne hyp, getNode_setLeft_ne hxp]
      by_cases hslot : (getNode s p).right = some x
      · rw [if_pos hslot]
        by_cases hjx : j = x
        · rw [if_pos hjx]
          subst hjx
          rw [getNode_setParent_self
              (by simpa [setRight_length, setParent_length, setLeft_length]
                using hxlen),
            getNode_setRight_ne hyx, getNode_setRight_ne hpx,
            getNode_setParent_ne hyx, getNode_setLeft_self hxlen]
        · rw [if_neg hjx]
          have hxj : x ≠ j := Ne.symm hjx
          by_cases hjy : j = y
          · rw [if_pos hjy]
            subst hjy
            rw [getNode_setParent_ne hxj,
              getNode_setRight_self
                (by simpa [setRight_length, setParent_length, setLeft_length]
                  using hylen),
              getNode_setRight_ne hpy,
              getNode_setParent_self
                (by simpa [setLeft_length] using hylen),
              getNode_setLeft_ne hxy]
          · rw [if_neg hjy]
            have hyj : y ≠ j := Ne.symm hjy
            rw [if_neg (by simp)]
            by_cases hjp : j = p
            · rw [if_pos (by rw [hjp]), if_pos (by rw [hjp]; exact hslot)]
              subst hjp
              rw [getNode_setParent_ne hxj, getNode_setRight_ne hyj,
                getNode_setRight_self
                  (by simpa [setParent_length, setLeft_length] using hplen),
                getNode_setParent_ne hyj, getNode_setLeft_ne hxj]
            · have hpj : p ≠ j := Ne.symm hjp
              rw [if_neg (by simpa using hpj)]
              rw [getNode_setParent_ne hxj, getNode_setRight_ne hyj,
                getNode_setRight_ne hpj, getNode_setParent_ne hyj,
                getNode_setLeft_ne hxj]
      · rw [if_neg hslot]
        by_cases hjx : j = x
        · rw [if_pos hjx]
          subst hjx
          rw [getNode_setParent_self
              (by simpa [setRight_length, setLeft_length, setParent_length]
                using hxlen),
            getNode_setRight_ne hyx, getNode_setLeft_ne hpx,
            getNode_setParent_ne hyx, getNode_setLeft_self hxlen]
        · rw [if_neg hjx]
          have hxj : x ≠ j := Ne.symm hjx
          by_cases hjy : j = y
          · rw [if_pos hjy]
            subst hjy
            rw [getNode_setParent_ne hxj,
              getNode_setRight_self
                (by simpa [setLeft_length, setParent_length] using hylen),
              getNode_setLeft_ne hpy,
              getNode_setParent_self
                (by simpa [setLeft_length] using hylen),
              getNode_setLeft_ne hxy]
          · rw [if_neg hjy]
            have hyj : y ≠ j := Ne.symm hjy
            rw [if_neg (by simp)]
            by_cases hjp : j = p
            · rw [if_pos (by rw [hjp]), if_neg (by rw [hjp]; exact hslot)]
              subst hjp
              rw [getNode_setParent_ne hxj, getNode_setRight_ne hyj,
                getNode_setLeft_self
                  (by simpa [setParent_length, setLeft_length] using hplen),
                getNode_setParent_ne hyj, getNode_setLeft_ne hxj]
            · have hpj : p ≠ j := Ne.symm hjp
              rw [if_neg (by simpa using hpj)]
              rw [getNode_setParent_ne hxj, getNode_setRight_ne hyj,
                getNode_setLeft_ne hpj, getNode_setParent_ne hyj,
                getNode_setLeft_ne hxj]
  · -- y has a left child z, reparented to x
    obtain ⟨hzx, hzy, hzlen⟩ := hz z hbl
    have hxz : x ≠ z := Ne.symm hzx
    have hyz : y ≠ z := Ne.symm hzy
    simp only [RedBlackTree.rotateRight, hy, hbl]
    rw [getNode_setParent_ne hzx, getNode_setLeft_parent,
      getNode_setParent_ne hyx, getNode_setParent_ne hzx,
      getNode_setLeft_parent]
    rcases hpar : (getNode s x).parent with _ | p
    · by_cases hjx : j = x
      · rw [if_pos hjx]
        subst hjx
        rw [getNode_setParent_self
            (by simpa [setRight_length, rootUpd_length, setParent_length,
              setLeft_length] using hxlen),
          getNode_setRight_ne hyx, getNode_rootUpd, getNode_setParent_ne hyx,
          getNode_setParent_ne hzx, getNode_setLeft_self hxlen]
      · rw [if_neg hjx]
        have hxj : x ≠ j := Ne.symm hjx
        by_cases hjy : j = y
        · rw [if_pos hjy]
          subst hjy
          rw [getNode_setParent_ne hxj,
            getNode_setRight_self
              (by simpa [rootUpd_length, setParent_length, setLeft_length]
                using hylen),
            getNode_rootUpd,
            getNode_setParent_self
              (by simpa [setParent_length, setLeft_length] using hylen),
            getNode_setParent_ne hzy, getNode_setLeft_ne hxy]
        · rw [if_neg hjy]
          have hyj : y ≠ j := Ne.symm hjy
          by_cases hjz : j = z
          · rw [if_pos (by rw [hjz])]
            subst hjz
            rw [getNode_setParent_ne hxj, getNode_setRight_ne hyj,
              getNode_rootUpd, getNode_setParent_ne hyj,
              getNode_setParent_self
                (by simpa [setLeft_length] using hzlen),
              getNode_setLeft_ne hxz]
          · have hzj : z ≠ j := Ne.symm hjz
            rw [if_neg (by simpa using hzj), if_neg (by simp)]
            rw [getNode_setParent_ne hxj, getNode_setRight_ne hyj,
              getNode_rootUpd, getNode_setParent_ne hyj,
              getNode_setParent_ne hzj, getNode_setLeft_ne hxj]
    · obtain ⟨hpx, hpy, hplen, hpzall⟩ := hp p hpar
      have hpz : p ≠ z := hpzall z hbl
      have hxp : x ≠ p := Ne.symm hpx
      have hyp : y ≠ p := Ne.symm hpy
      have hzp : z ≠ p := Ne.symm hpz
      dsimp only
      rw [getNode_setParent_ne hyp, getNode_setParent_ne hzp,
        getNode_setLeft_ne hxp]
      by_cases hslot : (getNode s p).right = some x
      · rw [if_pos hslot]
        by_cases hjx : j = x
        · rw [if_pos hjx]
          subst hjx
          rw [getNode_setParent_self
              (by simpa [setRight_length, setParent_length, setLeft_length]
                using hxlen),
            getNode_setRight_ne hyx, getNode_setRight_ne hpx,
            getNode_setParent_ne hyx, getNode_setParent_ne hzx,
            getNode_setLeft_self hxlen]
        · rw [if_neg hjx]
          have hxj : x ≠ j := Ne.symm hjx
          by_cases hjy : j = y
          · rw [if_pos hjy]
            subst hjy
            rw [getNode_setParent_ne hxj,
              getNode_setRight_self
                (by simpa [setRight_length, setParent_length, setLeft_length]
                  using hylen),
              getNode_setRight_ne hpy,
              getNode_setParent_self
                (by simpa [setParent_length, setLeft_length] using hylen),
              getNode_setParent_ne hzy, getNode_setLeft_ne hxy]
          · rw [if_neg hjy]
            have hyj : y ≠ j := Ne.symm hjy
            by_cases hjz : j = z
            · rw [if_pos (by rw [hjz])]
              subst hjz
              rw [getNode_setParent_ne hxj, getNode_setRight_ne hyj,
                getNode_setRight_ne hpz, getNode_setParent_ne hyj,
                getNode_setParent_self
                  (by simpa [setLeft_length] using hzlen),
                getNode_setLeft_ne hxz]
            · have hzj : z ≠ j := Ne.symm hjz
              rw [if_neg (by simpa using hzj)]
              by_cases hjp : j = p
              · rw [if_pos (by rw [hjp]), if_pos (by rw [hjp]; exact hslot)]
                subst hjp
                rw [getNode_setParent_ne hxj, getNode_setRight_ne hyj,
                  getNode_setRight_self
                    (by simpa [setParent_length, setLeft_length]
                      using hplen),
                  getNode_setParent_ne hyj, getNode_setParent_ne hzj,
                  getNode_setLeft_ne hxj]
              · have hpj : p ≠ j := Ne.symm hjp
                rw [if_neg (by simpa using hpj)]
                rw [getNode_setParent_ne hxj, getNode_setRight_ne hyj,
                  getNode_setRight_ne hpj, getNode_setParent_ne hyj,
                  getNode_setParent_ne hzj, getNode_setLeft_ne hxj]
      · rw [if_neg hslot]
        by_cases hjx : j = x
        · rw [if_pos hjx]
          subst hjx
          rw [getNode_setParent_self
              (by simpa [setRight_length, setLeft_length, setParent_length]
                using hxlen),
            getNode_setRight_ne hyx, getNode_setLeft_ne hpx,
            getNode_setParent_ne hyx, getNode_setParent_ne hzx,
            getNode_setLeft_self hxlen]
        · rw [if_neg hjx]
          have hxj : x ≠ j := Ne.symm hjx
          by_cases hjy : j = y
          · rw [if_pos hjy]
            subst hjy
            rw [getNode_setParent_ne hxj,
              getNode_setRight_self
                (by simpa [setLeft_length, setParent_length] using hylen),
              getNode_setLeft_ne hpy,
              getNode_setParent_self
                (by simpa [setParent_length, setLeft_length] using hylen),
              getNode_setParent_ne hzy, getNode_setLeft_ne hxy]
          · rw [if_neg hjy]
            have hyj : y ≠ j := Ne.symm hjy
            by_cases hjz : j = z
            · rw [if_pos (by rw [hjz])]
              subst hjz
              rw [getNode_setParent_ne hxj, getNode_setRight_ne hyj,
                getNode_setLeft_ne hpz, getNode_setParent_ne hyj,
                getNode_setParent_self
                  (by simpa [setLeft_length] using hzlen),
                getNode_setLeft_ne hxz]
            · have hzj : z ≠ j := Ne.symm hjz
              rw [if_neg (by simpa using hzj)]
              by_cases hjp : j = p
              · rw [if_pos (by rw [hjp]), if_neg (by rw [hjp]; exact hslot)]
                subst hjp
                rw [getNode_setParent_ne hxj, getNode_setRight_ne hyj,
                  getNode_setLeft_self
                    (by simpa [setParent_length, setLeft_length]
                      using hplen),
                  getNode_setParent_ne hyj, getNode_setParent_ne hzj,
                  getNode_setLeft_ne hxj]
              · have hpj : p ≠ j := Ne.symm hjp
                rw [if_neg (by simpa using hpj)]
                rw [getNode_setParent_ne hxj, getNode_setRight_ne hyj,
                  getNode_setLeft_ne hpj, getNode_setParent_ne hyj,
                  getNode_setParent_ne hzj, getNode_setLeft_ne hxj]

/-- The root pointer after `rotateRight s x`: it becomes `y` when `x` was the
root, and is untouched when `x` had a parent. -/
theorem rotateRight_root {s : RedBlackTree} {x y : Nat}
    (hy : (getNode s x).left = some y)
    (hxlen : x < s.nodes.length) (hxy : x ≠ y)
    (hz : ∀ z, (getNode s y).right = some z → z ≠ x) :
    ((getNode s x).parent = none →
      (RedBlackTree.rotateRight s x).root = some y)
    ∧ ∀ p, (getNode s x).parent = some p →
      (RedBlackTree.rotateRight s x).root = s.root := by
  have hyx : y ≠ x := Ne.symm hxy
  rcases hbl : (getNode s y).right with _ | z
  · simp only [RedBlackTree.rotateRight, hy, hbl]
    rw [getNode_setLeft_parent, getNode_setParent_ne hyx,
      getNode_setLeft_parent]
    rcases hpar : (getNode s x).parent with _ | p
    · exact ⟨fun _ => rfl, fun p h => by simp at h⟩
    · refine ⟨fun h => by simp at h, fun q h => ?_⟩
      dsimp only
      by_cases hslot : (getNode (setParent (setLeft s x none) y
          (some p)) p).right = some x
      · rw [if_pos hslot]
        rfl
      · rw [if_neg hslot]
        rfl
  · have hzx := hz z hbl
    simp only [RedBlackTree.rotateRight, hy, hbl]
    rw [getNode_setParent_ne hzx, getNode_setLeft_parent,
      getNode_setParent_ne hyx, getNode_setParent_ne hzx,
      getNode_setLeft_parent]
    rcases hpar : (getNode s x).parent with _ | p
    · exact ⟨fun _ => rfl, fun p h => by simp at h⟩
    · refine ⟨fun h => by simp at h, fun q h => ?_⟩
      dsimp only
      by_cases hslot : (getNode (setParent (setParent (setLeft s x (some z))
          z (some x)) y (some p)) p).right = some x
      · rw [if_pos hslot]
        rfl
      · rw [if_neg hslot]
        rfl

/-- Decomposing `Nodup` over the index list of a view node. -/
theorem nodup_parts {l r : VTree} {i : Nat} {c : Color} {v : Int}
    (h : (VTree.node i c v l r).idxs.Nodup) :
    l.idxs.Nodup ∧ r.idxs.Nodup ∧ i ∉ l.idxs ∧ i ∉ r.idxs ∧
      ∀ a ∈ l.idxs, a ∉ r.idxs := by
  simp only [VTree.idxs, List.nodup_append, List.nodup_cons] at h
  obtain ⟨hl, ⟨hir, hr⟩, hdisj⟩ := h
  refine ⟨hl, hr, ?_, hir, ?_⟩
  · intro hmem
    exact (hdisj hmem) (by simp)
  · intro a ha har
    exact (hdisj ha) (by simp [har])

/-!
## The effect of a rotation on a whole tree
-/

/-- All indices of a view lie below `n` (the arena size). -/
def idxBound (t : VTree) (n : Nat) : Prop := ∀ i ∈ t.idxs, i < n

theorem parentOkV_node {s : RedBlackTree} {i : Nat} {c : Color} {v : Int}
    {l r : VTree} {pexp : Option Nat} :
    parentOkV s (VTree.node i c v l r) pexp = true ↔
      (getNode s i).parent = pexp ∧ parentOkV s l (some i) = true ∧
        parentOkV s r (some i) = true := by
  simp [parentOkV, and_assoc]

theorem idxBound_node {s : Nat} {i : Nat} {c : Color} {v : Int}
    {l r : VTree} (h : idxBound (VTree.node i c v l r) s) :
    i < s ∧ idxBound l s ∧ idxBound r s := by
  refine ⟨h i (by simp [VTree.idxs]), fun j hj => h j ?_, fun j hj => h j ?_⟩
  · simp [VTree.idxs, hj]
  · simp [VTree.idxs, hj]

theorem rotALV_here (x y : Nat) (c cy : Color) (v vy : Int)
    (l b cc : VTree) :
    rotALV x (VTree.node x c v l (VTree.node y cy vy b cc))
      = VTree.node y cy vy (VTree.node x c v l b) cc := by
  simp [rotALV]

/-- How `rotateLeft s x` transforms a whole tree region: the view is
restructured to `rotALV x t`, parent consistency is preserved, nodes outside
the region (other than the region root's external parent slot) are untouched,
and the root pointer changes exactly when `x` was the region root with no
external parent. -/
theorem rotateLeft_view {t : VTree} :
    ∀ {f : Nat} {s : RedBlackTree} {oi pexp : Option Nat} {x y : Nat},
      view f s oi = some t → t.idxs.Nodup → parentOkV s t pexp = true →
      idxBound t s.nodes.length →
      (∀ p, pexp = some p → p ∉ t.idxs ∧ p < s.nodes.length) →
      x ∈ t.idxs → (getNode s x).right = some y →
      view (f + 1) (RedBlackTree.rotateLeft s x)
          (if oi = some x then some y else oi) = some (rotALV x t)
        ∧ parentOkV (RedBlackTree.rotateLeft s x) (rotALV x t) pexp = true
        ∧ (∀ j, j ∉ t.idxs → pexp ≠ some j →
            getNode (RedBlackTree.rotateLeft s x) j = getNode s j)
        ∧ (∀ p, pexp = some p → oi ≠ some x →
            getNode (RedBlackTree.rotateLeft s x) p = getNode s p)
        ∧ (∀ p, pexp = some p → oi = some x →
            ((getNode s p).left = some x →
              getNode (RedBlackTree.rotateLeft s x) p
                = { getNode s p with left := some y })
            ∧ (¬ (getNode s p).left = some x →
              getNode (RedBlackTree.rotateLeft s x) p
                = { getNode s p with right := some y }))
        ∧ (oi = some x → pexp = none →
            (RedBlackTree.rotateLeft s x).root = some y)
        ∧ ((oi = some x → pexp ≠ none) →
            (RedBlackTree.rotateLeft s x).root = s.root) := by
  induction t with
  | leaf =>
    intro f s oi pexp x y hv hnd hpok hb hpo hx hy
    exact absurd hx (by simp [VTree.idxs])
  | node i c v l r ihl ihr =>
    intro f s oi pexp x y hv hnd hpok hb hpo hx hy
    obtain ⟨f2, rfl, rfl, hc, hval, hl, hr⟩ := view_node_inv hv
    obtain ⟨hndl, hndr, hxnl, hxnr, hlr⟩ := nodup_parts hnd
    rw [parentOkV_node] at hpok
    obtain ⟨hpari, hpokl, hpokr⟩ := hpok
    obtain ⟨hilen, hbl2, hbr2⟩ := idxBound_node hb
    by_cases hix : i = x
    · -- the rotation happens at the root of this region
      subst hix
      rw [hy] at hr
      cases r with
      | leaf => exact absurd (view_leaf_inv hr) (by simp)
      | node ry cy vy b cc =>
        obtain ⟨f3, hf3, hry, hcy, hvyv, hvb, hvcc⟩ := view_node_inv hr
        have hryy : y = ry := Option.some.inj hry
        subst hryy
        obtain ⟨hndb, hndcc, hynb, hyncc, hbcc⟩ := nodup_parts hndr
        rw [parentOkV_node] at hpokr
        obtain ⟨hpary, hpokb, hpokcc⟩ := hpokr
        have hyr : y ∈ (VTree.node y cy vy b cc).idxs := by simp [VTree.idxs]
        have hyt : y ∈ (VTree.node i c v l
            (VTree.node y cy vy b cc)).idxs := by simp [VTree.idxs]
        have hxy : i ≠ y := fun h => hxnr (h ▸ hyr)
        have hylen : y < s.nodes.length := hb y hyt
        have hxlen : i < s.nodes.length := hilen
        -- facts about y's left child (the root of b, when present)
        have hzmem : ∀ z, (getNode s y).left = some z → z ∈ b.idxs := by
          intro z hzz
          rw [hzz] at hvb
          cases b with
          | leaf => exact absurd (view_leaf_inv hvb) (by simp)
          | node zb czb vzb b1 b2 =>
            obtain ⟨f4, _, hzb, _⟩ := view_node_inv hvb
            have hzbz : z = zb := Option.some.inj hzb
            subst hzbz
            simp [VTree.idxs]
        have hzfacts : ∀ z, (getNode s y).left = some z →
            z ≠ i ∧ z ≠ y ∧ z < s.nodes.length := by
          intro z hzz
          have hzb := hzmem z hzz
          have hzr : z ∈ (VTree.node y cy vy b cc).idxs := by
            simp [VTree.idxs, hzb]
          refine ⟨fun h => hxnr (h ▸ hzr), fun h => hynb (h ▸ hzb), ?_⟩
          exact hb z (by simp [VTree.idxs, hzb])
        have hpfacts : ∀ p, (getNode s i).parent = some p →
            p ≠ i ∧ p ≠ y ∧ p < s.nodes.length ∧
              ∀ z, (getNode s y).left = some z → p ≠ z := by
          intro p hpp
          rw [hpari] at hpp
          obtain ⟨hpni, hplen⟩ := hpo p hpp
          refine ⟨fun h => hpni (h ▸ hx), fun h => hpni (h ▸ hyt), hplen,
            fun z hzz h => ?_⟩
          have hzb := hzmem z hzz
          exact hpni (by rw [h]; simp [VTree.idxs, hzb])
        have hG := rotateLeft_getNode hy hxlen hylen hxy hzfacts hpfacts
        have hRoot := rotateLeft_root hy hxlen hxy
          (fun z hzz => (hzfacts z hzz).1)
        -- untouched nodes
        have hunotx : ∀ j, ¬ j = i → ¬ j = y →
            ¬ (getNode s y).left = some j →
            ¬ (getNode s i).parent = some j →
            getNode (RedBlackTree.rotateLeft s i) j = getNode s j := by
          intro j h1 h2 h3 h4
          rw [hG j, if_neg h1, if_neg h2, if_neg h3, if_neg h4]
        have huL : ∀ j ∈ l.idxs,
            getNode (RedBlackTree.rotateLeft s i) j = getNode s j := by
          intro j hj
          refine hunotx j (fun h => hxnl (h ▸ hj)) ?_ ?_ ?_
          · intro h
            exact hlr j hj (h ▸ hyr)
          · intro hcond
            exact hlr j hj (by simp [VTree.idxs, hzmem j hcond])
          · rw [hpari]
            intro hcond
            exact (hpo j hcond).1 (by simp [VTree.idxs, hj])
        have huCC : ∀ j ∈ cc.idxs,
            getNode (RedBlackTree.rotateLeft s i) j = getNode s j := by
          intro j hj
          have hjr : j ∈ (VTree.node y cy vy b cc).idxs := by
            simp [VTree.idxs, hj]
          refine hunotx j (fun h => hxnr (h ▸ hjr))
            (fun h => hyncc (h ▸ hj)) ?_ ?_
          · intro hcond
            exact hbcc j (hzmem j hcond) hj
          · rw [hpari]
            intro hcond
            exact (hpo j hcond).1 (by simp [VTree.idxs, hj])
        have huBin : ∀ j ∈ b.idxs, ¬ (getNode s y).left = some j →
            getNode (RedBlackTree.rotateLeft s i) j = getNode s j := by
          intro j hj hjz
          have hjr : j ∈ (VTree.node y cy vy b cc).idxs := by
            simp [VTree.idxs, hj]
          refine hunotx j (fun h => hxnr (h ▸ hjr))
            (fun h => hynb (h ▸ hj)) hjz ?_
          rw [hpari]
          intro hcond
          exact (hpo j hcond).1 (by simp [VTree.idxs, hj])
        -- the rewritten views of the three untouched regions
        have hva2 : view f2 (RedBlackTree.rotateLeft s i)
            (getNode s i).left = some l := view_untouched hl huL
        have hvb2 : view f3 (RedBlackTree.rotateLeft s i)
            (getNode s y).left = some b := by
          apply view_congr_on hvb
          intro j hj
          by_cases hjz : (getNode s y).left = some j
          · have hjb : j ∈ (VTree.node y cy vy b cc).idxs := by
              simp [VTree.idxs, hj]
            have hji : ¬ j = i := fun h => hxnr (h ▸ hjb)
            have hjy : ¬ j = y := fun h => hynb (h ▸ hj)
            rw [hG j, if_neg hji, if_neg hjy, if_pos hjz]
            exact ⟨rfl, rfl, rfl, rfl⟩
          · rw [huBin j hj hjz]
            exact ⟨rfl, rfl, rfl, rfl⟩
        have hvcc2 : view f3 (RedBlackTree.rotateLeft s i)
            (getNode s y).right = some cc := view_untouched hvcc huCC
        -- the fields of x and y afterwards
        have hgx : getNode (RedBlackTree.rotateLeft s i) i
            = { getNode s i with
                right := (getNode s y).left, parent := some y } := by
          rw [hG i, if_pos rfl]
        have hgy : getNode (RedBlackTree.rotateLeft s i) y
            = { getNode s y with left := some i, parent := pexp } := by
          rw [hG y, if_neg (fun h => hxy h.symm), if_pos rfl, hpari]
        -- reassembled views
        have hvx : view (f2 + 1) (RedBlackTree.rotateLeft s i) (some i)
            = some (VTree.node i c v l b) := by
          have hb3 : view f2 (RedBlackTree.rotateLeft s i)
              (getNode s y).left = some b := view_mono hvb2 (by omega)
          simp [view, hgx, hva2, hb3, hc, hval]
        have hvy2 : view (f2 + 1 + 1) (RedBlackTree.rotateLeft s i) (some y)
            = some (VTree.node y cy vy (VTree.node i c v l b) cc) := by
          have hcc3 : view (f2 + 1) (RedBlackTree.rotateLeft s i)
              (getNode s y).right = some cc := view_mono hvcc2 (by omega)
          simp [view, hgy, hvx, hcc3, hcy, hvyv]
        refine ⟨?_, ?_, ?_, ?_, ?_, ?_, ?_⟩
        · -- the view becomes the rotated view
          rw [if_pos rfl, rotALV_here]
          exact hvy2
        · -- parent consistency
          rw [rotALV_here, parentOkV_node]
          refine ⟨by rw [hgy], ?_, ?_⟩
          · rw [parentOkV_node]
            refine ⟨by rw [hgx], ?_, ?_⟩
            · rw [@parentOkV_congr_on l s (RedBlackTree.rotateLeft s i)
                (some i) (fun j hj => by rw [huL j hj])]
              exact hpokl
            · cases b with
              | leaf => rfl
              | node z cz vz b1 b2 =>
                obtain ⟨f4, hf4, hbz, hcz, hvz, hvb1, hvb2x⟩ :=
                  view_node_inv hvb
                have hbz2 : (getNode s y).left = some z := hbz
                obtain ⟨hndb1, hndb2, hznb1, hznb2, hb12⟩ := nodup_parts hndb
                rw [parentOkV_node] at hpokb
                obtain ⟨hpz, hpokb1, hpokb2⟩ := hpokb
                rw [parentOkV_node]
                refine ⟨?_, ?_, ?_⟩
                · have hji : ¬ z = i := fun h => hxnr (h ▸
                    (by simp [VTree.idxs] : z ∈ (VTree.node y cy vy
                      (VTree.node z cz vz b1 b2) cc).idxs))
                  have hjy : ¬ z = y := fun h => hynb (h ▸
                    (by simp [VTree.idxs] : z ∈ (VTree.node z cz vz
                      b1 b2).idxs))
                  rw [hG z, if_neg hji, if_neg hjy, if_pos hbz2]
                · rw [@parentOkV_congr_on b1 s
                    (RedBlackTree.rotateLeft s i) (some z) (fun j hj => by
                    rw [huBin j (by simp [VTree.idxs, hj])
                      (fun h => hznb1 (by
                        have hzj : z = j := Option.some.inj (hbz2.symm.trans h)
                        exact hzj ▸ hj))])]
                  exact hpokb1
                · rw [@parentOkV_congr_on b2 s
                    (RedBlackTree.rotateLeft s i) (some z) (fun j hj => by
                    rw [huBin j (by simp [VTree.idxs, hj])
                      (fun h => hznb2 (by
                        have hzj : z = j := Option.some.inj (hbz2.symm.trans h)
                        exact hzj ▸ hj))])]
                  exact hpokb2
          · rw [@parentOkV_congr_on cc s (RedBlackTree.rotateLeft s i)
              (some y) (fun j hj => by rw [huCC j hj])]
            exact hpokcc
        · -- nodes outside the region are untouched
          intro j hjt hpexpj
          have hjt2 : ¬ j ∈ l.idxs ∧ ¬ j = i ∧ ¬ j ∈ b.idxs ∧ ¬ j = y ∧
              ¬ j ∈ cc.idxs := by
            have h2 := hjt
            simp only [VTree.idxs, List.mem_append, List.mem_cons] at h2
            push_neg at h2
            exact ⟨h2.1, h2.2.1, h2.2.2.1, h2.2.2.2.1, h2.2.2.2.2⟩
          refine hunotx j hjt2.2.1 hjt2.2.2.2.1 ?_ ?_
          · intro hcond
            exact hjt2.2.2.1 (hzmem j hcond)
          · rw [hpari]
            exact fun hcond => hpexpj hcond
        · -- vacuous: the region root is x itself here
          intro p hp hne
          exact absurd rfl hne
        · -- the external parent slot
          intro p hp _
          have hppar : (getNode s i).parent = some p := by rw [hpari, hp]
          obtain ⟨hp1, hp2, hp3, hp4⟩ := hpfacts p hppar
          have c1 : ¬ p = i := hp1
          have c2 : ¬ p = y := hp2
          have c3 : ¬ (getNode s y).left = some p := by
            intro hcond
            exact (hp4 p hcond) rfl
          refine ⟨fun hslot => ?_, fun hslot => ?_⟩
          · rw [hG p, if_neg c1, if_neg c2, if_neg c3, if_pos hppar,
              if_pos hslot]
          · rw [hG p, if_neg c1, if_neg c2, if_neg c3, if_pos hppar,
              if_neg hslot]
        · -- x was the whole root: the root pointer moves to y
          intro _ hpe
          exact hRoot.1 (by rw [hpari, hpe])
        · -- x had an external parent: the root pointer is untouched
          intro hprem
          have hpe : pexp ≠ none := hprem rfl
          cases hpexp : pexp with
          | none => exact absurd hpexp hpe
          | some p => exact hRoot.2 p (by rw [hpari, hpexp])
    · -- the rotation happens strictly inside a child region
      have hxlr : x ∈ l.idxs ∨ x ∈ r.idxs := by
        simp only [VTree.idxs, List.mem_append, List.mem_cons] at hx
        rcases hx with h | h | h
        · exact Or.inl h
        · exact absurd h.symm hix
        · exact Or.inr h
      have hoine : ¬ (some i : Option Nat) = some x := by
        intro h
        injection h with h2
        exact hix h2
      rcases hxlr with hxl | hxr
      · -- x lies in the left region
        have hihl := ihl hl hndl hpokl hbl2
          (fun p hp => by
            have hip : i = p := Option.some.inj hp
            subst hip
            exact ⟨hxnl, hilen⟩)
          hxl hy
        obtain ⟨Al, Bl, Cl, Dl, El, Fl, Gl⟩ := hihl
        have hrfree : ∀ j ∈ r.idxs,
            getNode (RedBlackTree.rotateLeft s x) j = getNode s j := by
          intro j hj
          refine Cl j (fun h => hlr j h hj) ?_
          intro hcond
          have hij : i = j := Option.some.inj hcond
          exact hxnr (hij ▸ hj)
        have hvr2 : view f2 (RedBlackTree.rotateLeft s x)
            (getNode s i).right = some r := view_untouched hr hrfree
        have hrrot : rotALV x r = r := rotALV_not_mem (fun h => hlr x hxl h)
        by_cases hlx : (getNode s i).left = some x
        · -- x is the left region's root; i's left slot is rewired to y
          have hgi : getNode (RedBlackTree.rotateLeft s x) i
              = { getNode s i with left := some y } :=
            ((El i rfl hlx).1) hlx
          have hvl2 : view (f2 + 1) (RedBlackTree.rotateLeft s x) (some y)
              = some (rotALV x l) := by
            have := Al
            rw [if_pos hlx] at this
            exact this
          refine ⟨?_, ?_, ?_, ?_, ?_, ?_, ?_⟩
          · rw [if_neg hoine]
            have hvr3 : view (f2 + 1) (RedBlackTree.rotateLeft s x)
                (getNode s i).right = some r := view_mono hvr2 (by omega)
            simp [view, rotALV, hix, hgi, hlx, hvl2, hvr3, hc, hval, hrrot]
          · simp only [rotALV, if_neg hix]
            rw [parentOkV_node]
            refine ⟨by rw [hgi]; exact hpari, ?_, ?_⟩
            · exact Bl
            · rw [hrrot, @parentOkV_congr_on r s
                (RedBlackTree.rotateLeft s x) (some i)
                (fun j hj => by rw [hrfree j hj])]
              exact hpokr
          · intro j hjt hpexpj
            refine Cl j (fun h => hjt (by simp [VTree.idxs]; left; exact h))
              ?_
            intro hcond
            have hij : i = j := Option.some.inj hcond
            exact hjt (by simp [VTree.idxs, hij])
          · intro p hp _
            refine Cl p (fun h => (hpo p hp).1
              (by simp [VTree.idxs]; left; exact h)) ?_
            intro hcond
            have hip : i = p := Option.some.inj hcond
            exact (hpo p hp).1 (by simp [VTree.idxs, hip.symm])
          · intro p hp hoi
            exact absurd hoi hoine
          · intro hoi
            exact absurd hoi hoine
          · intro _
            exact Gl (fun _ => by simp)
        · -- x is deeper in the left region; i is untouched
          have hgi : getNode (RedBlackTree.rotateLeft s x) i
              = getNode s i := Dl i rfl hlx
          have hvl2 : view (f2 + 1) (RedBlackTree.rotateLeft s x)
              (getNode s i).left = some (rotALV x l) := by
            have := Al
            rw [if_neg hlx] at this
            exact this
          refine ⟨?_, ?_, ?_, ?_, ?_, ?_, ?_⟩
          · rw [if_neg hoine]
            have hvr3 : view (f2 + 1) (RedBlackTree.rotateLeft s x)
                (getNode s i).right = some r := view_mono hvr2 (by omega)
            simp [view, rotALV, hix, hgi, hvl2, hvr3, hc, hval, hrrot]
          · simp only [rotALV, if_neg hix]
            rw [parentOkV_node]
            refine ⟨by rw [hgi]; exact hpari, ?_, ?_⟩
            · exact Bl
            · rw [hrrot, @parentOkV_congr_on r s
                (RedBlackTree.rotateLeft s x) (some i)
                (fun j hj => by rw [hrfree j hj])]
              exact hpokr
          · intro j hjt hpexpj
            refine Cl j (fun h => hjt (by simp [VTree.idxs]; left; exact h))
              ?_
            intro hcond
            have hij : i = j := Option.some.inj hcond
            exact hjt (by simp [VTree.idxs, hij])
          · intro p hp _
            refine Cl p (fun h => (hpo p hp).1
              (by simp [VTree.idxs]; left; exact h)) ?_
            intro hcond
            have hip : i = p := Option.some.inj hcond
            exact (hpo p hp).1 (by simp [VTree.idxs, hip.symm])
          · intro p hp hoi
            exact absurd hoi hoine
          · intro hoi
            exact absurd hoi hoine
          · intro _
            exact Gl (fun _ => by simp)
      · -- x lies in the right region
        have hihr := ihr hr hndr hpokr hbr2
          (fun p hp => by
            have hip : i = p := Option.some.inj hp
            subst hip
            exact ⟨hxnr, hilen⟩)
          hxr hy
        obtain ⟨Ar, Br, Cr, Dr, Er, Fr, Gr⟩ := hihr
        have hlfree : ∀ j ∈ l.idxs,
            getNode (RedBlackTree.rotateLeft s x) j = getNode s j := by
          intro j hj
          refine Cr j (fun h => hlr j hj h) ?_
          intro hcond
          have hij : i = j := Option.some.inj hcond
          exact hxnl (hij ▸ hj)
        have hvl2 : view f2 (RedBlackTree.rotateLeft s x)
            (getNode s i).left = some l := view_untouched hl hlfree
        have hlrot : rotALV x l = l := rotALV_not_mem (fun h => hlr x h hxr)
        have hlneq : ¬ (getNode s i).left = some x := by
          intro h
          rw [h] at hl
          cases l with
          | leaf =>
            have := view_leaf_inv hl
            simp at this
          | node w cw vw l1 l2 =>
            obtain ⟨f4, _, hwx, _⟩ := view_node_inv hl
            have hwx2 : x = w := Option.some.inj hwx
            exact hlr x (by rw [hwx2]; simp [VTree.idxs]) hxr
        by_cases hrx : (getNode s i).right = some x
        · -- x is the right region's root; i's right slot is rewired to y
          have hgi : getNode (RedBlackTree.rotateLeft s x) i
              = { getNode s i with right := some y } :=
            ((Er i rfl hrx).2) hlneq
          have hvr2 : view (f2 + 1) (RedBlackTree.rotateLeft s x) (some y)
              = some (rotALV x r) := by
            have := Ar
            rw [if_pos hrx] at this
            exact this
          refine ⟨?_, ?_, ?_, ?_, ?_, ?_, ?_⟩
          · rw [if_neg hoine]
            have hvl3 : view (f2 + 1) (RedBlackTree.rotateLeft s x)
                (getNode s i).left = some l := view_mono hvl2 (by omega)
            simp [view, rotALV, hix, hgi, hrx, hvr2, hvl3, hc, hval, hlrot]
          · simp only [rotALV, if_neg hix]
            rw [parentOkV_node]
            refine ⟨by rw [hgi]; exact hpari, ?_, ?_⟩
            · rw [hlrot, @parentOkV_congr_on l s
                (RedBlackTree.rotateLeft s x) (some i)
                (fun j hj => by rw [hlfree j hj])]
              exact hpokl
            · exact Br
          · intro j hjt hpexpj
            refine Cr j (fun h => hjt
              (by simp [VTree.idxs]; right; right; exact h)) ?_
            intro hcond
            have hij : i = j := Option.some.inj hcond
            exact hjt (by simp [VTree.idxs, hij])
          · intro p hp _
            refine Cr p (fun h => (hpo p hp).1
              (by simp [VTree.idxs]; right; right; exact h)) ?_
            intro hcond
            have hip : i = p := Option.some.inj hcond
            exact (hpo p hp).1 (by simp [VTree.idxs, hip.symm])
          · intro p hp hoi
            exact absurd hoi hoine
          · intro hoi
            exact absurd hoi hoine
          · intro _
            exact Gr (fun _ => by simp)
        · -- x is deeper in the right region; i is untouched
          have hgi : getNode (RedBlackTree.rotateLeft s x) i
              = getNode s i := Dr i rfl hrx
          have hvr2 : view (f2 + 1) (RedBlackTree.rotateLeft s x)
              (getNode s i).right = some (rotALV x r) := by
            have := Ar
            rw [if_neg hrx] at this
            exact this
          refine ⟨?_, ?_, ?_, ?_, ?_, ?_, ?_⟩
          · rw [if_neg hoine]
            have hvl3 : view (f2 + 1) (RedBlackTree.rotateLeft s x)
                (getNode s i).left = some l := view_mono hvl2 (by omega)
            simp [view, rotALV, hix, hgi, hvr2, hvl3, hc, hval, hlrot]
          · simp only [rotALV, if_neg hix]
            rw [parentOkV_node]
            refine ⟨by rw [hgi]; exact hpari, ?_, ?_⟩
            · rw [hlrot, @parentOkV_congr_on l s
                (RedBlackTree.rotateLeft s x) (some i)
                (fun j hj => by rw [hlfree j hj])]
              exact hpokl
            · exact Br
          · intro j hjt hpexpj
            refine Cr j (fun h => hjt
              (by simp [VTree.idxs]; right; right; exact h)) ?_
            intro hcond
            have hij : i = j := Option.some.inj hcond
            exact hjt (by simp [VTree.idxs, hij])
          · intro p hp _
            refine Cr p (fun h => (hpo p hp).1
              (by simp [VTree.idxs]; right; right; exact h)) ?_
            intro hcond
            have hip : i = p := Option.some.inj hcond
            exact (hpo p hp).1 (by simp [VTree.idxs, hip.symm])
          · intro p hp hoi
            exact absurd hoi hoine
          · intro hoi
            exact absurd hoi hoine
          · intro _
            exact Gr (fun _ => by simp)

theorem rotARV_here (x y : Nat) (c cy : Color) (v vy : Int)
    (cc b r : VTree) :
    rotARV x (VTree.node x c v (VTree.node y cy vy cc b) r)
      = VTree.node y cy vy cc (VTree.node x c v b r) := by
  simp [rotARV]

/-- The mirror of `rotateLeft_view` for `rotateRight`. -/
theorem rotateRight_view {t : VTree} :
    ∀ {f : Nat} {s : RedBlackTree} {oi pexp : Option Nat} {x y : Nat},
      view f s oi = some t → t.idxs.Nodup → parentOkV s t pexp = true →
      idxBound t s.nodes.length →
      (∀ p, pexp = some p → p ∉ t.idxs ∧ p < s.nodes.length) →
      x ∈ t.idxs → (getNode s x).left = some y →
      view (f + 1) (RedBlackTree.rotateRight s x)
          (if oi = some x then some y else oi) = some (rotARV x t)
        ∧ parentOkV (RedBlackTree.rotateRight s x) (rotARV x t) pexp = true
        ∧ (∀ j, j ∉ t.idxs → pexp ≠ some j →
            getNode (RedBlackTree.rotateRight s x) j = getNode s j)
        ∧ (∀ p, pexp = some p → oi ≠ some x →
            getNode (RedBlackTree.rotateRight s x) p = getNode s p)
        ∧ (∀ p, pexp = some p → oi = some x →
            ((getNode s p).right = some x →
              getNode (RedBlackTree.rotateRight s x) p
                = { getNode s p with right := some y })
            ∧ (¬ (getNode s p).right = some x →
              getNode (RedBlackTree.rotateRight s x) p
                = { getNode s p with left := some y }))
        ∧ (oi = some x → pexp = none →
            (RedBlackTree.rotateRight s x).root = some y)
        ∧ ((oi = some x → pexp ≠ none) →
            (RedBlackTree.rotateRight s x).root = s.root) := by
  induction t with
  | leaf =>
    intro f s oi pexp x y hv hnd hpok hb hpo hx hy
    exact absurd hx (by simp [VTree.idxs])
  | node i c v l r ihl ihr =>
    intro f s oi pexp x y hv hnd hpok hb hpo hx hy
    obtain ⟨f2, rfl, rfl, hc, hval, hl, hr⟩ := view_node_inv hv
    obtain ⟨hndl, hndr, hxnl, hxnr, hlr⟩ := nodup_parts hnd
    rw [parentOkV_node] at hpok
    obtain ⟨hpari, hpokl, hpokr⟩ := hpok
    obtain ⟨hilen, hbl2, hbr2⟩ := idxBound_node hb
    by_cases hix : i = x
    · -- the rotation happens at the root of this region
      subst hix
      rw [hy] at hl
      cases l with
      | leaf => exact absurd (view_leaf_inv hl) (by simp)
      | node ry cy vy cc b =>
        obtain ⟨f3, hf3, hry, hcy, hvyv, hvcc, hvb⟩ := view_node_inv hl
        have hryy : y = ry := Option.some.inj hry
        subst hryy
        obtain ⟨hndcc, hndb, hyncc, hynb, hccb⟩ := nodup_parts hndl
        rw [parentOkV_node] at hpokl
        obtain ⟨hpary, hpokcc, hpokb⟩ := hpokl
        have hyl : y ∈ (VTree.node y cy vy cc b).idxs := by simp [VTree.idxs]
        have hyt : y ∈ (VTree.node i c v
            (VTree.node y cy vy cc b) r).idxs := by simp [VTree.idxs]
        have hxy : i ≠ y := fun h => hxnl (h ▸ hyl)
        have hylen : y < s.nodes.length := hb y hyt
        have hxlen : i < s.nodes.length := hilen
        -- facts about y's right child (the root of b, when present)
        have hzmem : ∀ z, (getNode s y).right = some z → z ∈ b.idxs := by
          intro z hzz
          rw [hzz] at hvb
          cases b with
          | leaf => exact absurd (view_leaf_inv hvb) (by simp)
          | node zb czb vzb b1 b2 =>
            obtain ⟨f4, _, hzb, _⟩ := view_node_inv hvb
            have hzbz : z = zb := Option.some.inj hzb
            subst hzbz
            simp [VTree.idxs]
        have hzfacts : ∀ z, (getNode s y).right = some z →
            z ≠ i ∧ z ≠ y ∧ z < s.nodes.length := by
          intro z hzz
          have hzb := hzmem z hzz
          have hzl : z ∈ (VTree.node y cy vy cc b).idxs := by
            simp [VTree.idxs, hzb]
          refine ⟨fun h => hxnl (h ▸ hzl), fun h => hynb (h ▸ hzb), ?_⟩
          exact hb z (by simp [VTree.idxs, hzb])
        have hpfacts : ∀ p, (getNode s i).parent = some p →
            p ≠ i ∧ p ≠ y ∧ p < s.nodes.length ∧
              ∀ z, (getNode s y).right = some z → p ≠ z := by
          intro p hpp
          rw [hpari] at hpp
          obtain ⟨hpni, hplen⟩ := hpo p hpp
          refine ⟨fun h => hpni (h ▸ hx), fun h => hpni (h ▸ hyt), hplen,
            fun z hzz h => ?_⟩
          have hzb := hzmem z hzz
          exact hpni (by rw [h]; simp [VTree.idxs, hzb])
        have hG := rotateRight_getNode hy hxlen hylen hxy hzfacts hpfacts
        have hRoot := rotateRight_root hy hxlen hxy
          (fun z hzz => (hzfacts z hzz).1)
        -- untouched nodes
        have hunotx : ∀ j, ¬ j = i → ¬ j = y →
            ¬ (getNode s y).right = some j →
            ¬ (getNode s i).parent = some j →
            getNode (RedBlackTree.rotateRight s i) j = getNode s j := by
          intro j h1 h2 h3 h4
          rw [hG j, if_neg h1, if_neg h2, if_neg h3, if_neg h4]
        have huR : ∀ j ∈ r.idxs,
            getNode (RedBlackTree.rotateRight s i) j = getNode s j := by
          intro j hj
          refine hunotx j (fun h => hxnr (h ▸ hj)) ?_ ?_ ?_
          · intro h
            exact hlr y hyl (h ▸ hj)
          · intro hcond
            exact hlr j (by simp [VTree.idxs, hzmem j hcond]) hj
          · rw [hpari]
            intro hcond
            exact (hpo j hcond).1 (by simp [VTree.idxs, hj])
        have huCC : ∀ j ∈ cc.idxs,
            getNode (RedBlackTree.rotateRight s i) j = getNode s j := by
          intro j hj
          have hjl : j ∈ (VTree.node y cy vy cc b).idxs := by
            simp [VTree.idxs, hj]
          refine hunotx j (fun h => hxnl (h ▸ hjl))
            (fun h => hyncc (h ▸ hj)) ?_ ?_
          · intro hcond
            exact hccb j hj (hzmem j hcond)
          · rw [hpari]
            intro hcond
            exact (hpo j hcond).1 (by simp [VTree.idxs, hj])
        have huBin : ∀ j ∈ b.idxs, ¬ (getNode s y).right = some j →
            getNode (RedBlackTree.rotateRight s i) j = getNode s j := by
          intro j hj hjz
          have hjl : j ∈ (VTree.node y cy vy cc b).idxs := by
            simp [VTree.idxs, hj]
          refine hunotx j (fun h => hxnl (h ▸ hjl))
            (fun h => hynb (h ▸ hj)) hjz ?_
          rw [hpari]
          intro hcond
          exact (hpo j hcond).1 (by simp [VTree.idxs, hj])
        -- the rewritten views of the three untouched regions
        have hvr2 : view f2 (RedBlackTree.rotateRight s i)
            (getNode s i).right = some r := view_untouched hr huR
        have hvb2 : view f3 (RedBlackTree.rotateRight s i)
            (getNode s y).right = some b := by
          apply view_congr_on hvb
          intro j hj
          by_cases hjz : (getNode s y).right = some j
          · have hjb : j ∈ (VTree.node y cy vy cc b).idxs := by
              simp [VTree.idxs, hj]
            have hji : ¬ j = i := fun h => hxnl (h ▸ hjb)
            have hjy : ¬ j = y := fun h => hynb (h ▸ hj)
            rw [hG j, if_neg hji, if_neg hjy, if_pos hjz]
            exact ⟨rfl, rfl, rfl, rfl⟩
          · rw [huBin j hj hjz]
            exact ⟨rfl, rfl, rfl, rfl⟩
        have hvcc2 : view f3 (RedBlackTree.rotateRight s i)
            (getNode s y).left = some cc := view_untouched hvcc huCC
        -- the fields of x and y afterwards
        have hgx : getNode (RedBlackTree.rotateRight s i) i
            = { getNode s i with
                left := (getNode s y).right, parent := some y } := by
          rw [hG i, if_pos rfl]
        have hgy : getNode (RedBlackTree.rotateRight s i) y
            = { getNode s y with right := some i, parent := pexp } := by
          rw [hG y, if_neg (fun h => hxy h.symm), if_pos rfl, hpari]
        -- reassembled views
        have hvx : view (f2 + 1) (RedBlackTree.rotateRight s i) (some i)
            = some (VTree.node i c v b r) := by
          have hb3 : view f2 (RedBlackTree.rotateRight s i)
              (getNode s y).right = some b := view_mono hvb2 (by omega)
          simp [view, hgx, hvr2, hb3, hc, hval]
        have hvy2 : view (f2 + 1 + 1) (RedBlackTree.rotateRight s i) (some y)
            = some (VTree.node y cy vy cc (VTree.node i c v b r)) := by
          have hcc3 : view (f2 + 1) (RedBlackTree.rotateRight s i)
              (getNode s y).left = some cc := view_mono hvcc2 (by omega)
          simp [view, hgy, hvx, hcc3, hcy, hvyv]
        refine ⟨?_, ?_, ?_, ?_, ?_, ?_, ?_⟩
        · -- the view becomes the rotated view
          rw [if_pos rfl, rotARV_here]
          exact hvy2
        · -- parent consistency
          rw [rotARV_here, parentOkV_node]
          refine ⟨by rw [hgy], ?_, ?_⟩
          · rw [@parentOkV_congr_on cc s (RedBlackTree.rotateRight s i)
              (some y) (fun j hj => by rw [huCC j hj])]
            exact hpokcc
          · rw [parentOkV_node]
            refine ⟨by rw [hgx], ?_, ?_⟩
            · cases b with
              | leaf => rfl
              | node z cz vz b1 b2 =>
                obtain ⟨f4, hf4, hbz, hcz, hvz, hvb1, hvb2x⟩ :=
                  view_node_inv hvb
                have hbz2 : (getNode s y).right = some z := hbz
                obtain ⟨hndb1, hndb2, hznb1, hznb2, hb12⟩ := nodup_parts hndb
                rw [parentOkV_node] at hpokb
                obtain ⟨hpz, hpokb1, hpokb2⟩ := hpokb
                rw [parentOkV_node]
                refine ⟨?_, ?_, ?_⟩
                · have hji : ¬ z = i := fun h => hxnl (h ▸
                    (by simp [VTree.idxs] : z ∈ (VTree.node y cy vy cc
                      (VTree.node z cz vz b1 b2)).idxs))
                  have hjy : ¬ z = y := fun h => hynb (h ▸
                    (by simp [VTree.idxs] : z ∈ (VTree.node z cz vz
                      b1 b2).idxs))
                  rw [hG z, if_neg hji, if_neg hjy, if_pos hbz2]
                · rw [@parentOkV_congr_on b1 s
                    (RedBlackTree.rotateRight s i) (some z) (fun j hj => by
                    rw [huBin j (by simp [VTree.idxs, hj])
                      (fun h => hznb1 (by
                        have hzj : z = j := Option.some.inj (hbz2.symm.trans h)
                        exact hzj ▸ hj))])]
                  exact hpokb1
                · rw [@parentOkV_congr_on b2 s
                    (RedBlackTree.rotateRight s i) (some z) (fun j hj => by
                    rw [huBin j (by simp [VTree.idxs, hj])
                      (fun h => hznb2 (by
                        have hzj : z = j := Option.some.inj (hbz2.symm.trans h)
                        exact hzj ▸ hj))])]
                  exact hpokb2
            · rw [@parentOkV_congr_on r s (RedBlackTree.rotateRight s i)
                (some i) (fun j hj => by rw [huR j hj])]
              exact hpokr
        · -- nodes outside the region are untouched
          intro j hjt hpexpj
          have hjt2 : ¬ j ∈ cc.idxs ∧ ¬ j = y ∧ ¬ j ∈ b.idxs ∧ ¬ j = i ∧
              ¬ j ∈ r.idxs := by
            have h2 := hjt
            simp only [VTree.idxs, List.mem_append, List.mem_cons] at h2
            push_neg at h2
            exact ⟨h2.1.1, h2.1.2.1, h2.1.2.2, h2.2.1, h2.2.2⟩
          refine hunotx j hjt2.2.2.2.1 hjt2.2.1 ?_ ?_
          · intro hcond
            exact hjt2.2.2.1 (hzmem j hcond)
          · rw [hpari]
            exact fun hcond => hpexpj hcond
        · -- vacuous: the region root is x itself here
          intro p hp hne
          exact absurd rfl hne
        · -- the external parent slot
          intro p hp _
          have hppar : (getNode s i).parent = some p := by rw [hpari, hp]
          obtain ⟨hp1, hp2, hp3, hp4⟩ := hpfacts p hppar
          have c1 : ¬ p = i := hp1
          have c2 : ¬ p = y := hp2
          have c3 : ¬ (getNode s y).right = some p := by
            intro hcond
            exact (hp4 p hcond) rfl
          refine ⟨fun hslot => ?_, fun hslot => ?_⟩
          · rw [hG p, if_neg c1, if_neg c2, if_neg c3, if_pos hppar,
              if_pos hslot]
          · rw [hG p, if_neg c1, if_neg c2, if_neg c3, if_pos hppar,
              if_neg hslot]
        · -- x was the whole root: the root pointer moves to y
          intro _ hpe
          exact hRoot.1 (by rw [hpari, hpe])
        · -- x had an external parent: the root pointer is untouched
          intro hprem
          have hpe : pexp ≠ none := hprem rfl
          cases hpexp : pexp with
          | none => exact absurd hpexp hpe
          | some p => exact hRoot.2 p (by rw [hpari, hpexp])
    · -- the rotation happens strictly inside a child region
      have hxlr : x ∈ l.idxs ∨ x ∈ r.idxs := by
        simp only [VTree.idxs, List.mem_append, List.mem_cons] at hx
        rcases hx with h | h | h
        · exact Or.inl h
        · exact absurd h.symm hix
        · exact Or.inr h
      have hoine : ¬ (some i : Option Nat) = some x := by
        intro h
        injection h with h2
        exact hix h2
      rcases hxlr with hxl | hxr
      · -- x lies in the left region
        have hihl := ihl hl hndl hpokl hbl2
          (fun p hp => by
            have hip : i = p := Option.some.inj hp
            subst hip
            exact ⟨hxnl, hilen⟩)
          hxl hy
        obtain ⟨Al, Bl, Cl, Dl, El, Fl, Gl⟩ := hihl
        have hrfree : ∀ j ∈ r.idxs,
            getNode (RedBlackTree.rotateRight s x) j = getNode s j := by
          intro j hj
          refine Cl j (fun h => hlr j h hj) ?_
          intro hcond
          have hij : i = j := Option.some.inj hcond
          exact hxnr (hij ▸ hj)
        have hvr2 : view f2 (RedBlackTree.rotateRight s x)
            (getNode s i).right = some r := view_untouched hr hrfree
        have hrrot : rotARV x r = r := rotARV_not_mem (fun h => hlr x hxl h)
        have hrneq : ¬ (getNode s i).right = some x := by
          intro h
          rw [h] at hr
          cases r with
          | leaf =>
            have := view_leaf_inv hr
            simp at this
          | node w cw vw r1 r2 =>
            obtain ⟨f4, _, hwx, _⟩ := view_node_inv hr
            have hwx2 : x = w := Option.some.inj hwx
            exact hlr x hxl (by rw [hwx2]; simp [VTree.idxs])
        by_cases hlx : (getNode s i).left = some x
        · -- x is the left region's root; i's left slot is rewired to y
          have hgi : getNode (RedBlackTree.rotateRight s x) i
              = { getNode s i with left := some y } :=
            ((El i rfl hlx).2) hrneq
          have hvl2 : view (f2 + 1) (RedBlackTree.rotateRight s x) (some y)
              = some (rotARV x l) := by
            have h2 := Al
            rw [if_pos hlx] at h2
            exact h2
          refine ⟨?_, ?_, ?_, ?_, ?_, ?_, ?_⟩
          · rw [if_neg hoine]
            have hvr3 : view (f2 + 1) (RedBlackTree.rotateRight s x)
                (getNode s i).right = some r := view_mono hvr2 (by omega)
            simp [view, rotARV, hix, hgi, hlx, hvl2, hvr3, hc, hval, hrrot]
          · simp only [rotARV, if_neg hix]
            rw [parentOkV_node]
            refine ⟨by rw [hgi]; exact hpari, ?_, ?_⟩
            · exact Bl
            · rw [hrrot, @parentOkV_congr_on r s
                (RedBlackTree.rotateRight s x) (some i)
                (fun j hj => by rw [hrfree j hj])]
              exact hpokr
          · intro j hjt hpexpj
            refine Cl j (fun h => hjt (by simp [VTree.idxs]; left; exact h))
              ?_
            intro hcond
            have hij : i = j := Option.some.inj hcond
            exact hjt (by simp [VTree.idxs, hij])
          · intro p hp _
            refine Cl p (fun h => (hpo p hp).1
              (by simp [VTree.idxs]; left; exact h)) ?_
            intro hcond
            have hip : i = p := Option.some.inj hcond
            exact (hpo p hp).1 (by simp [VTree.idxs, hip.symm])
          · intro p hp hoi
            exact absurd hoi hoine
          · intro hoi
            exact absurd hoi hoine
          · intro _
            exact Gl (fun _ => by simp)
        · -- x is deeper in the left region; i is untouched
          have hgi : getNode (RedBlackTree.rotateRight s x) i
              = getNode s i := Dl i rfl hlx
          have hvl2 : view (f2 + 1) (RedBlackTree.rotateRight s x)
              (getNode s i).left = some (rotARV x l) := by
            have h2 := Al
            rw [if_neg hlx] at h2
            exact h2
          refine ⟨?_, ?_, ?_, ?_, ?_, ?_, ?_⟩
          · rw [if_neg hoine]
            have hvr3 : view (f2 + 1) (RedBlackTree.rotateRight s x)
                (getNode s i).right = some r := view_mono hvr2 (by omega)
            simp [view, rotARV, hix, hgi, hvl2, hvr3, hc, hval, hrrot]
          · simp only [rotARV, if_neg hix]
            rw [parentOkV_node]
            refine ⟨by rw [hgi]; exact hpari, ?_, ?_⟩
            · exact Bl
            · rw [hrrot, @parentOkV_congr_on r s
                (RedBlackTree.rotateRight s x) (some i)
                (fun j hj => by rw [hrfree j hj])]
              exact hpokr
          · intro j hjt hpexpj
            refine Cl j (fun h => hjt (by simp [VTree.idxs]; left; exact h))
              ?_
            intro hcond
            have hij : i = j := Option.some.inj hcond
            exact hjt (by simp [VTree.idxs, hij])
          · intro p hp _
            refine Cl p (fun h => (hpo p hp).1
              (by simp [VTree.idxs]; left; exact h)) ?_
            intro hcond
            have hip : i = p := Option.some.inj hcond
            exact (hpo p hp).1 (by simp [VTree.idxs, hip.symm])
          · intro p hp hoi
            exact absurd hoi hoine
          · intro hoi
            exact absurd hoi hoine
          · intro _
            exact Gl (fun _ => by simp)
      · -- x lies in the right region
        have hihr := ihr hr hndr hpokr hbr2
          (fun p hp => by
            have hip : i = p := Option.some.inj hp
            subst hip
            exact ⟨hxnr, hilen⟩)
          hxr hy
        obtain ⟨Ar, Br, Cr, Dr, Er, Fr, Gr⟩ := hihr
        have hlfree : ∀ j ∈ l.idxs,
            getNode (RedBlackTree.rotateRight s x) j = getNode s j := by
          intro j hj
          refine Cr j (fun h => hlr j hj h) ?_
          intro hcond
          have hij : i = j := Option.some.inj hcond
          exact hxnl (hij ▸ hj)
        have hvl2 : view f2 (RedBlackTree.rotateRight s x)
            (getNode s i).left = some l := view_untouched hl hlfree
        have hlrot : rotARV x l = l := rotARV_not_mem (fun h => hlr x h hxr)
        by_cases hrx : (getNode s i).right = some x
        · -- x is the right region's root; i's right slot is rewired to y
          have hgi : getNode (RedBlackTree.rotateRight s x) i
              = { getNode s i with right := some y } :=
            ((Er i rfl hrx).1) hrx
          have hvrr : view (f2 + 1) (RedBlackTree.rotateRight s x) (some y)
              = some (rotARV x r) := by
            have h2 := Ar
            rw [if_pos hrx] at h2
            exact h2
          refine ⟨?_, ?_, ?_, ?_, ?_, ?_, ?_⟩
          · rw [if_neg hoine]
            have hvl3 : view (f2 + 1) (RedBlackTree.rotateRight s x)
                (getNode s i).left = some l := view_mono hvl2 (by omega)
            simp [view, rotARV, hix, hgi, hrx, hvrr, hvl3, hc, hval, hlrot]
          · simp only [rotARV, if_neg hix]
            rw [parentOkV_node]
            refine ⟨by rw [hgi]; exact hpari, ?_, ?_⟩
            · rw [hlrot, @parentOkV_congr_on l s
                (RedBlackTree.rotateRight s x) (some i)
                (fun j hj => by rw [hlfree j hj])]
              exact hpokl
            · exact Br
          · intro j hjt hpexpj
            refine Cr j (fun h => hjt
              (by simp [VTree.idxs]; right; right; exact h)) ?_
            intro hcond
            have hij : i = j := Option.some.inj hcond
            exact hjt (by simp [VTree.idxs, hij])
          · intro p hp _
            refine Cr p (fun h => (hpo p hp).1
              (by simp [VTree.idxs]; right; right; exact h)) ?_
            intro hcond
            have hip : i = p := Option.some.inj hcond
            exact (hpo p hp).1 (by simp [VTree.idxs, hip.symm])
          · intro p hp hoi
            exact absurd hoi hoine
          · intro hoi
            exact absurd hoi hoine
          · intro _
            exact Gr (fun _ => by simp)
        · -- x is deeper in the right region; i is untouched
          have hgi : getNode (RedBlackTree.rotateRight s x) i
              = getNode s i := Dr i rfl hrx
          have hvrr : view (f2 + 1) (RedBlackTree.rotateRight s x)
              (getNode s i).right = some (rotARV x r) := by
            have h2 := Ar
            rw [if_neg hrx] at h2
            exact h2
          refine ⟨?_, ?_, ?_, ?_, ?_, ?_, ?_⟩
          · rw [if_neg hoine]
            have hvl3 : view (f2 + 1) (RedBlackTree.rotateRight s x)
                (getNode s i).left = some l := view_mono hvl2 (by omega)
            simp [view, rotARV, hix, hgi, hvrr, hvl3, hc, hval, hlrot]
          · simp only [rotARV, if_neg hix]
            rw [parentOkV_node]
            refine ⟨by rw [hgi]; exact hpari, ?_, ?_⟩
            · rw [hlrot, @parentOkV_congr_on l s
                (RedBlackTree.rotateRight s x) (some i)
                (fun j hj => by rw [hlfree j hj])]
              exact hpokl
            · exact Br
          · intro j hjt hpexpj
            refine Cr j (fun h => hjt
              (by simp [VTree.idxs]; right; right; exact h)) ?_
            intro hcond
            have hij : i = j := Option.some.inj hcond
            exact hjt (by simp [VTree.idxs, hij])
          · intro p hp _
            refine Cr p (fun h => (hpo p hp).1
              (by simp [VTree.idxs]; right; right; exact h)) ?_
            intro hcond
            have hip : i = p := Option.some.inj hcond
            exact (hpo p hp).1 (by simp [VTree.idxs, hip.symm])
          · intro p hp hoi
            exact absurd hoi hoine
          · intro hoi
            exact absurd hoi hoine
          · intro _
            exact Gr (fun _ => by simp)


/-!
## C8: rotations preserve colors and the in-order key sequence
-/

theorem colorAt_setNode_pres (s : RedBlackTree) (j : Nat) (nd : Node)
    (hc : nd.color = (getNode s j).color) (i : Nat) :
    ((setNode s j nd).nodes[i]?).map Node.color
      = (s.nodes[i]?).map Node.color := by
  by_cases h : j = i
  · subst h
    by_cases hlen : j < s.nodes.length
    · simp only [setNode, List.getElem?_set, if_pos rfl, if_pos hlen]
      rw [List.getElem?_eq_getElem hlen]
      simp [hc, getNode, List.getD_eq_getElem?_getD,
        List.getElem?_eq_getElem hlen]
    · rw [setNode_oob (le_of_not_lt hlen)]
  · simp [setNode, List.getElem?_set, h]

theorem colorAt_setLeft (s : RedBlackTree) (j : Nat) (p : Option Nat)
    (i : Nat) : ((setLeft s j p).nodes[i]?).map Node.color
      = (s.nodes[i]?).map Node.color :=
  colorAt_setNode_pres s j { getNode s j with left := p } rfl i

theorem colorAt_setRight (s : RedBlackTree) (j : Nat) (p : Option Nat)
    (i : Nat) : ((setRight s j p).nodes[i]?).map Node.color
      = (s.nodes[i]?).map Node.color :=
  colorAt_setNode_pres s j { getNode s j with right := p } rfl i

theorem colorAt_setParent (s : RedBlackTree) (j : Nat) (p : Option Nat)
    (i : Nat) : ((setParent s j p).nodes[i]?).map Node.color
      = (s.nodes[i]?).map Node.color :=
  colorAt_setNode_pres s j { getNode s j with parent := p } rfl i

/-- `rotateLeft` changes no node's color. -/
theorem rotateLeft_colors (s : RedBlackTree) (x : Nat) (i : Nat) :
    ((RedBlackTree.rotateLeft s x).nodes[i]?).map Node.color
      = (s.nodes[i]?).map Node.color := by
  rcases hr : (getNode s x).right with _ | y
  · simp [RedBlackTree.rotateLeft, hr]
  · simp only [RedBlackTree.rotateLeft, hr]
    rcases (getNode s y).left with _ | z <;>
      · simp only []
        split <;>
          first
          | (split <;> simp [colorAt_setLeft, colorAt_setRight,
              colorAt_setParent])
          | simp [colorAt_setLeft, colorAt_setRight, colorAt_setParent]

/-- `rotateRight` changes no node's color. -/
theorem rotateRight_colors (s : RedBlackTree) (x : Nat) (i : Nat) :
    ((RedBlackTree.rotateRight s x).nodes[i]?).map Node.color
      = (s.nodes[i]?).map Node.color := by
  rcases hr : (getNode s x).left with _ | y
  · simp [RedBlackTree.rotateRight, hr]
  · simp only [RedBlackTree.rotateRight, hr]
    rcases (getNode s y).right with _ | z <;>
      · simp only []
        split <;>
          first
          | (split <;> simp [colorAt_setLeft, colorAt_setRight,
              colorAt_setParent])
          | simp [colorAt_setLeft, colorAt_setRight, colorAt_setParent]

/-- C8: for every tree (a state whose ownership view reads back with no
sharing, consistent parent pointers and in-range indices) and every node `x`
in it, `rotateLeft` (when `x.right` is present) and `rotateRight` (when
`x.left` is present) change no node's color, and the in-order key sequence
of the whole tree is unchanged. -/
theorem C8_rotations_preserve_colors_inorder (s : RedBlackTree)
    (f x y yl : Nat) (t : VTree)
    (hv : view f s s.root = some t) (hnd : t.idxs.Nodup)
    (hpok : parentOkV s t none = true) (hbd : idxBound t s.nodes.length)
    (hx : x ∈ t.idxs) :
    (∀ i : Nat, ((RedBlackTree.rotateLeft s x).nodes[i]?).map Node.color
      = (s.nodes[i]?).map Node.color)
    ∧ (∀ i : Nat, ((RedBlackTree.rotateRight s x).nodes[i]?).map Node.color
      = (s.nodes[i]?).map Node.color)
    ∧ ((getNode s x).right = some y →
        ∃ t2, view (f + 1) (RedBlackTree.rotateLeft s x)
            (RedBlackTree.rotateLeft s x).root = some t2
          ∧ t2.inorder = t.inorder)
    ∧ ((getNode s x).left = some yl →
        ∃ t2, view (f + 1) (RedBlackTree.rotateRight s x)
            (RedBlackTree.rotateRight s x).root = some t2
          ∧ t2.inorder = t.inorder) := by
  refine ⟨rotateLeft_colors s x, rotateRight_colors s x, ?_, ?_⟩
  · intro hy
    obtain ⟨hA, _, _, _, _, hF, hG⟩ := rotateLeft_view hv hnd hpok hbd
      (fun p hp => by simp at hp) hx hy
    by_cases hox : s.root = some x
    · rw [if_pos hox] at hA
      rw [hF hox rfl]
      exact ⟨rotALV x t, hA, rotALV_inorder x t⟩
    · rw [if_neg hox] at hA
      rw [hG (fun h => absurd h hox)]
      exact ⟨rotALV x t, hA, rotALV_inorder x t⟩
  · intro hy
    obtain ⟨hA, _, _, _, _, hF, hG⟩ := rotateRight_view hv hnd hpok hbd
      (fun p hp => by simp at hp) hx hy
    by_cases hox : s.root = some x
    · rw [if_pos hox] at hA
      rw [hF hox rfl]
      exact ⟨rotARV x t, hA, rotARV_inorder x t⟩
    · rw [if_neg hox] at hA
      rw [hG (fun h => absurd h hox)]
      exact ⟨rotARV x t, hA, rotARV_inorder x t⟩

/-- Concrete witness for C8: in the three-node tree 5B(3R, 8R), rotating
left at the root keeps every color and the in-order sequence [3, 5, 8]. -/
theorem C8_witness :
    (∀ i : Nat, ((RedBlackTree.rotateLeft
        ⟨[⟨5, Color.BLACK, some 1, some 2, none⟩,
          ⟨3, Color.RED, none, none, some 0⟩,
          ⟨8, Color.RED, none, none, some 0⟩], some 0⟩ 0).nodes[i]?).map
          Node.color
      = (([⟨5, Color.BLACK, some 1, some 2, none⟩,
          ⟨3, Color.RED, none, none, some 0⟩,
          ⟨8, Color.RED, none, none, some 0⟩] :
            List Node)[i]?).map Node.color)
    ∧ (∀ i : Nat, ((RedBlackTree.rotateRight
        ⟨[⟨5, Color.BLACK, some 1, some 2, none⟩,
          ⟨3, Color.RED, none, none, some 0⟩,
          ⟨8, Color.RED, none, none, some 0⟩], some 0⟩ 0).nodes[i]?).map
          Node.color
      = (([⟨5, Color.BLACK, some 1, some 2, none⟩,
          ⟨3, Color.RED, none, none, some 0⟩,
          ⟨8, Color.RED, none, none, some 0⟩] :
            List Node)[i]?).map Node.color)
    ∧ ((getNode ⟨[⟨5, Color.BLACK, some 1, some 2, none⟩,
          ⟨3, Color.RED, none, none, some 0⟩,
          ⟨8, Color.RED, none, none, some 0⟩], some 0⟩ 0).right = some 2 →
        ∃ t2, view (3 + 1) (RedBlackTree.rotateLeft
            ⟨[⟨5, Color.BLACK, some 1, some 2, none⟩,
              ⟨3, Color.RED, none, none, some 0⟩,
              ⟨8, Color.RED, none, none, some 0⟩], some 0⟩ 0)
            (RedBlackTree.rotateLeft
            ⟨[⟨5, Color.BLACK, some 1, some 2, none⟩,
              ⟨3, Color.RED, none, none, some 0⟩,
              ⟨8, Color.RED, none, none, some 0⟩], some 0⟩ 0).root = some t2
          ∧ t2.inorder = (VTree.node 0 Color.BLACK 5
              (VTree.node 1 Color.RED 3 VTree.leaf VTree.leaf)
              (VTree.node 2 Color.RED 8 VTree.leaf VTree.leaf)).inorder)
    ∧ ((getNode ⟨[⟨5, Color.BLACK, some 1, some 2, none⟩,
          ⟨3, Color.RED, none, none, some 0⟩,
          ⟨8, Color.RED, none, none, some 0⟩], some 0⟩ 0).left = some 1 →
        ∃ t2, view (3 + 1) (RedBlackTree.rotateRight
            ⟨[⟨5, Color.BLACK, some 1, some 2, none⟩,
              ⟨3, Color.RED, none, none, some 0⟩,
              ⟨8, Color.RED, none, none, some 0⟩], some 0⟩ 0)
            (RedBlackTree.rotateRight
            ⟨[⟨5, Color.BLACK, some 1, some 2, none⟩,
              ⟨3, Color.RED, none, none, some 0⟩,
              ⟨8, Color.RED, none, none, some 0⟩], some 0⟩ 0).root = some t2
          ∧ t2.inorder = (VTree.node 0 Color.BLACK 5
              (VTree.node 1 Color.RED 3 VTree.leaf VTree.leaf)
              (VTree.node 2 Color.RED 8 VTree.leaf VTree.leaf)).inorder) :=
  C8_rotations_preserve_colors_inorder _ 3 0 2 1
    (VTree.node 0 Color.BLACK 5
      (VTree.node 1 Color.RED 3 VTree.leaf VTree.leaf)
      (VTree.node 2 Color.RED 8 VTree.leaf VTree.leaf))
    (by decide) (by decide) (by decide)
    (by intro i hi; fin_cases hi <;> decide) (by decide)


/-!
## C9: the insert descent routes ties to the right
-/

/-- The BST ordering invariant of a view: at every node, all keys of the left
subtree are strictly smaller and all keys of the right subtree are at least
the node's key (the policy the `>=`-goes-right descent maintains). -/
def bstOk : VTree → Bool
  | .leaf => true
  | .node _ _ v l r =>
    l.inorder.all (fun w => w < v) && r.inorder.all (fun w => v ≤ w)
      && bstOk l && bstOk r

/-- Wherever the descent of `insert` stops, it stops inside the subtree it
started from. -/
theorem descend_mem {t : VTree} :
    ∀ {f fv : Nat} {s : RedBlackTree} {cur k d},
      view fv s (some cur) = some t →
      RedBlackTree.descend f s cur k = some d → d ∈ t.idxs := by
  induction t with
  | leaf =>
    intro f fv s cur k d hv _
    have := view_leaf_inv hv
    simp at this
  | node i c v l r ihl ihr =>
    intro f fv s cur k d hv hd
    obtain ⟨f2, rfl, hcur, hc, hval, hl, hr⟩ := view_node_inv hv
    have hci : cur = i := Option.some.inj hcur
    subst hci
    cases f with
    | zero => simp [RedBlackTree.descend] at hd
    | succ f3 =>
      rw [RedBlackTree.descend] at hd
      cases hnext : RedBlackTree.nextChild s cur k with
      | none =>
        rw [hnext] at hd
        have : cur = d := Option.some.inj hd
        subst this
        simp [VTree.idxs]
      | some c2 =>
        rw [hnext] at hd
        unfold RedBlackTree.nextChild at hnext
        by_cases hlt : k < (getNode s cur).value
        · rw [if_pos hlt] at hnext
          rw [hnext] at hl
          have hd2 := ihl hl hd
          simp [VTree.idxs, hd2]
        · rw [if_neg hlt] at hnext
          rw [hnext] at hr
          have hd2 := ihr hr hd
          simp [VTree.idxs, hd2]

/-- On a BST-ordered tree containing key `k`, the descent of `insert` passes
through a node holding `k` (routing right there), so the attach parent is
that node itself (when its right child is absent) or lies inside its right
subtree. -/
theorem descend_dup {t : VTree} :
    ∀ {f fv : Nat} {s : RedBlackTree} {cur k d},
      view fv s (some cur) = some t → bstOk t = true → k ∈ t.inorder →
      RedBlackTree.descend f s cur k = some d →
      ∃ e, (getNode s e).value = k ∧
        ((d = e ∧ (getNode s e).right = none) ∨
          ∃ f2 sub, view f2 s (getNode s e).right = some sub
            ∧ d ∈ sub.idxs) := by
  induction t with
  | leaf =>
    intro f fv s cur k d hv _ hk _
    simp [VTree.inorder] at hk
  | node i c v l r ihl ihr =>
    intro f fv s cur k d hv hbst hk hd
    obtain ⟨f2, rfl, hcur, hc, hval, hl, hr⟩ := view_node_inv hv
    have hci : cur = i := Option.some.inj hcur
    subst hci
    simp only [bstOk, Bool.and_eq_true] at hbst
    obtain ⟨⟨⟨hal, har⟩, hbl⟩, hbr⟩ := hbst
    cases f with
    | zero => simp [RedBlackTree.descend] at hd
    | succ f3 =>
      rw [RedBlackTree.descend] at hd
      by_cases hlt : k < (getNode s cur).value
      · -- the key is strictly smaller: it lives in the left subtree
        have hkl : k ∈ l.inorder := by
          simp only [VTree.inorder, List.mem_append, List.mem_cons] at hk
          rcases hk with h | h | h
          · exact h
          · exact absurd (h ▸ hlt) (by rw [hval]; exact lt_irrefl v)
          · exfalso
            have := List.all_eq_true.mp har k h
            rw [hval] at hlt
            simp at this
            omega
        have hnext : RedBlackTree.nextChild s cur k
            = (getNode s cur).left := if_pos hlt
        rw [hnext] at hd
        cases hleft : (getNode s cur).left with
        | none =>
          rw [hleft, view_none] at hl
          have hleaf : l = VTree.leaf := (Option.some.inj hl).symm
          rw [hleaf] at hkl
          simp [VTree.inorder] at hkl
        | some c2 =>
          rw [hleft] at hd hl
          exact ihl hl hbl hkl hd
      · have hnext : RedBlackTree.nextChild s cur k
            = (getNode s cur).right := if_neg hlt
        rw [hnext] at hd
        by_cases hkv : k = v
        · -- an equal key: route right at this node
          refine ⟨cur, by rw [hval, hkv], ?_⟩
          cases hright : (getNode s cur).right with
          | none =>
            rw [hright] at hd
            exact Or.inl ⟨(Option.some.inj hd).symm, rfl⟩
          | some c2 =>
            rw [hright] at hd hr
            exact Or.inr ⟨f2, r, hr, descend_mem hr hd⟩
        · -- a strictly larger key: it lives in the right subtree
          have hkr : k ∈ r.inorder := by
            simp only [VTree.inorder, List.mem_append, List.mem_cons] at hk
            rcases hk with h | h | h
            · exfalso
              have := List.all_eq_true.mp hal k h
              rw [hval] at hlt
              simp at this
              omega
            · exact absurd h hkv
            · exact h
          cases hright : (getNode s cur).right with
          | none =>
            rw [hright, view_none] at hr
            have hleaf : r = VTree.leaf := (Option.some.inj hr).symm
            rw [hleaf] at hkr
            simp [VTree.inorder] at hkr
          | some c2 =>
            rw [hright] at hd hr
            exact ihr hr hbr hkr hd

theorem fixInsertCase23L_length {s : RedBlackTree} {node p : Nat}
    {st : RedBlackTree × Nat}
    (h : RedBlackTree.fixInsertCase23L s node p = some st) :
    st.1.nodes.length = s.nodes.length := by
  unfold RedBlackTree.fixInsertCase23L at h
  by_cases hc : (getNode s p).right = some node
  · rw [if_pos hc] at h
    dsimp only at h
    split at h
    · exact absurd h (by simp)
    · split at h
      · exact absurd h (by simp)
      · have hst : st = (RedBlackTree.rotateRight _ _, _) :=
          (Option.some.inj h).symm
        rw [hst]
        simp [rotateRight_length, setColor_length, rotateLeft_length]
  · rw [if_neg hc] at h
    dsimp only at h
    split at h
    · exact absurd h (by simp)
    · split at h
      · exact absurd h (by simp)
      · have hst : st = (RedBlackTree.rotateRight _ _, _) :=
          (Option.some.inj h).symm
        rw [hst]
        simp [rotateRight_length, setColor_length]

theorem fixInsertCase23R_length {s : RedBlackTree} {node p : Nat}
    {st : RedBlackTree × Nat}
    (h : RedBlackTree.fixInsertCase23R s node p = some st) :
    st.1.nodes.length = s.nodes.length := by
  unfold RedBlackTree.fixInsertCase23R at h
  by_cases hc : (getNode s p).left = some node
  · rw [if_pos hc] at h
    dsimp only at h
    split at h
    · exact absurd h (by simp)
    · split at h
      · exact absurd h (by simp)
      · have hst : st = (RedBlackTree.rotateLeft _ _, _) :=
          (Option.some.inj h).symm
        rw [hst]
        simp [rotateLeft_length, setColor_length, rotateRight_length]
  · rw [if_neg hc] at h
    dsimp only at h
    split at h
    · exact absurd h (by simp)
    · split at h
      · exact absurd h (by simp)
      · have hst : st = (RedBlackTree.rotateLeft _ _, _) :=
          (Option.some.inj h).symm
        rw [hst]
        simp [rotateLeft_length, setColor_length]

theorem fixInsertLoop_length :
    ∀ (fuel : Nat) {s : RedBlackTree} {node : Nat} {s2 : RedBlackTree},
      RedBlackTree.fixInsertLoop fuel s node = some s2 →
      s2.nodes.length = s.nodes.length := by
  intro fuel
  induction fuel with
  | zero =>
    intro s node s2 h
    simp [RedBlackTree.fixInsertLoop] at h
  | succ fuel ih =>
    intro s node s2 h
    rw [RedBlackTree.fixInsertLoop] at h
    cases hp : (getNode s node).parent with
    | none =>
      rw [hp] at h
      dsimp only at h
      exact congrArg (fun st => st.nodes.length) (Option.some.inj h).symm
    | some p =>
      rw [hp] at h
      dsimp only at h
      by_cases hcol : (getNode s p).color = Color.RED
      · rw [if_pos hcol] at h
        split at h
        · exact absurd h (by simp)
        · rename_i st hstep
          have h2 := ih h
          rw [h2]
          -- the step is either a recolor triple or a case-2/3 result
          revert hstep
          split
          · -- the parent is the grandparent's left child
            split
            · rename_i u
              split
              · split
                · intro hstep
                  exact absurd hstep (by simp)
                · rename_i g
                  intro hstep
                  have hst := (Option.some.inj hstep).symm
                  rw [hst]
                  simp [setColor_length]
              · intro hstep
                exact fixInsertCase23L_length hstep
            · intro hstep
              exact fixInsertCase23L_length hstep
          · split
            · rename_i u
              split
              · split
                · intro hstep
                  exact absurd hstep (by simp)
                · rename_i g
                  intro hstep
                  have hst := (Option.some.inj hstep).symm
                  rw [hst]
                  simp [setColor_length]
              · intro hstep
                exact fixInsertCase23R_length hstep
            · intro hstep
              exact fixInsertCase23R_length hstep
      · rw [if_neg hcol] at h
        exact congrArg (fun st => st.nodes.length) (Option.some.inj h).symm

theorem fixInsert_length {fuel : Nat} {s : RedBlackTree} {node : Nat}
    {s2 : RedBlackTree} (h : RedBlackTree.fixInsert fuel s node = some s2) :
    s2.nodes.length = s.nodes.length := by
  unfold RedBlackTree.fixInsert at h
  cases hloop : RedBlackTree.fixInsertLoop fuel s node with
  | none => rw [hloop] at h; simp at h
  | some s1 =>
    rw [hloop] at h
    dsimp only [Option.map] at h
    have hlen := fixInsertLoop_length fuel hloop
    cases hrt : s1.root with
    | none =>
      rw [hrt] at h
      rw [← Option.some.inj h, hlen]
    | some r =>
      rw [hrt] at h
      rw [← Option.some.inj h]
      simp [setColor_length, hlen]

theorem getNode_addNode_old {s : RedBlackTree} {d : Nat}
    (h : d < s.nodes.length) (nd : Node) :
    getNode (addNode s nd).1 d = getNode s d := by
  simp [addNode, getNode, List.getD_eq_getElem?_getD,
    List.getElem?_append_left h]

theorem getNode_addNode_new (s : RedBlackTree) (nd : Node) :
    getNode (addNode s nd).1 s.nodes.length = nd := by
  simp [addNode, getNode, List.getD_eq_getElem?_getD]

/-- What `attachNew` does to the heap: a fresh RED node at index
`s.nodes.length` with parent `d`, hung on `d`'s left when the key is
strictly below `d`'s key and on `d`'s right otherwise. -/
theorem attachNew_spec (s : RedBlackTree) (d : Nat) (k : Int)
    (h : d < s.nodes.length) :
    (RedBlackTree.attachNew s d k).2 = s.nodes.length
    ∧ getNode (RedBlackTree.attachNew s d k).1 s.nodes.length
        = ⟨k, Color.RED, none, none, some d⟩
    ∧ (¬ k < (getNode s d).value →
        getNode (RedBlackTree.attachNew s d k).1 d
          = { getNode s d with right := some s.nodes.length })
    ∧ (k < (getNode s d).value →
        getNode (RedBlackTree.attachNew s d k).1 d
          = { getNode s d with left := some s.nodes.length }) := by
  have hne : d ≠ s.nodes.length := Nat.ne_of_lt h
  have hvald : getNode (addNode s ⟨k, Color.RED, none, none, some d⟩).1 d
      = getNode s d := getNode_addNode_old h _
  have hlen2 : d < (addNode s
      ⟨k, Color.RED, none, none, some d⟩).1.nodes.length := by
    simp [addNode]
    omega
  unfold RedBlackTree.attachNew
  dsimp only
  by_cases hlt : k < (getNode s d).value
  · rw [if_pos (by rw [hvald]; exact hlt)]
    refine ⟨rfl, ?_, fun hc => absurd hlt hc, fun _ => ?_⟩
    · rw [getNode_setLeft_ne hne, getNode_addNode_new]
    · rw [getNode_setLeft_self hlen2, hvald]
      simp [addNode]
  · rw [if_neg (by rw [hvald]; exact hlt)]
    refine ⟨rfl, ?_, fun _ => ?_, fun hc => absurd hc hlt⟩
    · rw [getNode_setRight_ne hne, getNode_addNode_new]
    · rw [getNode_setRight_self hlen2, hvald]
      simp [addNode]

theorem RedBlackTree.attachNew_length (s : RedBlackTree) (d : Nat) (k : Int) :
    (RedBlackTree.attachNew s d k).1.nodes.length = s.nodes.length + 1 := by
  unfold RedBlackTree.attachNew
  dsimp only
  split <;> simp [setLeft_length, setRight_length, addNode]

/-- `insert` always attaches exactly one new node object. -/
theorem insert_length {fuel : Nat} {s : RedBlackTree} {k : Int}
    {s2 : RedBlackTree} (h : RedBlackTree.insert fuel s k = some s2) :
    s2.nodes.length = s.nodes.length + 1 := by
  unfold RedBlackTree.insert at h
  cases hrt : s.root with
  | none =>
    rw [hrt] at h
    dsimp only at h
    rw [← Option.some.inj h]
    simp [setColor_length, addNode]
  | some root =>
    rw [hrt] at h
    dsimp only at h
    cases hd : RedBlackTree.descend fuel s root k with
    | none => rw [hd] at h; simp at h
    | some parent =>
      rw [hd] at h
      dsimp only at h
      have := fixInsert_length h
      rw [this, RedBlackTree.attachNew_length]

/-- C9: on a BST-ordered tree that already contains key `k`, `insert k`
(a) descends left exactly on keys strictly below the visited node's key and
right otherwise — so an equal key routes right; (b) the attach parent
returned by the descent is an equal-keyed node itself (whose right child is
then absent) or a node inside an equal-keyed node's right subtree; (c) the
attached node is a fresh RED node, placed as the right child of the attach
parent whenever `k` is not below the parent's key; and (d) the insertion is
never rejected: the heap gains exactly one node object. -/
theorem C9_insert_ties_route_right (s : RedBlackTree) (f fuel : Nat)
    (t : VTree) (k : Int) (rt d : Nat) (s2 : RedBlackTree)
    (hroot : s.root = some rt)
    (hv : view f s s.root = some t)
    (hbd : idxBound t s.nodes.length)
    (hbst : bstOk t = true)
    (hk : k ∈ t.inorder)
    (hd : RedBlackTree.descend fuel s rt k = some d)
    (hins : RedBlackTree.insert fuel s k = some s2) :
    (∀ j : Nat, k < (getNode s j).value →
        RedBlackTree.nextChild s j k = (getNode s j).left)
    ∧ (∀ j : Nat, ¬ k < (getNode s j).value →
        RedBlackTree.nextChild s j k = (getNode s j).right)
    ∧ (∃ e, (getNode s e).value = k ∧
        ((d = e ∧ (getNode s e).right = none) ∨
          ∃ f2 sub, view f2 s (getNode s e).right = some sub
            ∧ d ∈ sub.idxs))
    ∧ (RedBlackTree.attachNew s d k).2 = s.nodes.length
    ∧ (getNode (RedBlackTree.attachNew s d k).1 (RedBlackTree.attachNew s d k).2).color = Color.RED
    ∧ (¬ k < (getNode s d).value →
        (getNode (RedBlackTree.attachNew s d k).1 d).right
          = some (RedBlackTree.attachNew s d k).2)
    ∧ s2.nodes.length = s.nodes.length + 1 := by
  rw [hroot] at hv
  have hdt : d ∈ t.idxs := descend_mem hv hd
  have hdlen : d < s.nodes.length := hbd d hdt
  obtain ⟨hsp1, hsp2, hsp3, _⟩ := attachNew_spec s d k hdlen
  refine ⟨fun j h => if_pos h, fun j h => if_neg h,
    descend_dup hv hbst hk hd, hsp1, ?_, ?_, insert_length hins⟩
  · -- the freshly attached node is RED
    rw [hsp1, hsp2]
  · -- a key at least the parent's key is attached to the right
    intro hge
    rw [hsp1, hsp3 hge]

theorem C9_witness :
    RedBlackTree.insert 3 ⟨[⟨5, Color.BLACK, none, none, none⟩], some 0⟩ 5
      = some ⟨[⟨5, Color.BLACK, none, some 1, none⟩,
               ⟨5, Color.RED, none, none, some 0⟩], some 0⟩
    ∧ (getNode (RedBlackTree.attachNew
          ⟨[⟨5, Color.BLACK, none, none, none⟩], some 0⟩ 0 5).1
        (RedBlackTree.attachNew
          ⟨[⟨5, Color.BLACK, none, none, none⟩], some 0⟩ 0 5).2).color
        = Color.RED :=
  ⟨by decide,
    (C9_insert_ties_route_right ⟨[⟨5, Color.BLACK, none, none, none⟩], some 0⟩
      2 3 (VTree.node 0 Color.BLACK 5 VTree.leaf VTree.leaf) 5 0 0
      ⟨[⟨5, Color.BLACK, none, some 1, none⟩,
        ⟨5, Color.RED, none, none, some 0⟩], some 0⟩
      (by decide) (by decide) (by intro i hi; fin_cases hi; decide)
      (by decide) (by decide) (by decide) (by decide)).2.2.2.2.1⟩

/-!
## C10: well-formed states

A state is *well formed* when its ownership tree reads back from the root,
the node indices of that tree are pairwise distinct and inside the arena,
and every parent back-reference agrees with the child links.  We show every
state reachable by public operations is well formed.
-/

/-- Well-formedness of a state, witnessed by its ownership tree. -/
def WFt (s : RedBlackTree) (t : VTree) : Prop :=
  (∃ f, view f s s.root = some t) ∧ t.idxs.Nodup ∧
    idxBound t s.nodes.length ∧ parentOkV s t none = true

theorem root_mem_of_view {f : Nat} {s : RedBlackTree} {r : Nat} {t : VTree}
    (hv : view f s (some r) = some t) : r ∈ t.idxs := by
  cases t with
  | leaf => exact absurd (view_leaf_inv hv) (by simp)
  | node i c v l r2 =>
    obtain ⟨f2, _, hoi, _⟩ := view_node_inv hv
    obtain rfl := Option.some.inj hoi
    simp [VTree.idxs]

/-- A node of a well-formed tree with a non-null parent reference points at
the expected external parent or at another node of the tree. -/
theorem parent_mem {t : VTree} :
    ∀ {s : RedBlackTree} {pexp : Option Nat} {i p : Nat},
      parentOkV s t pexp = true → i ∈ t.idxs →
      (getNode s i).parent = some p → pexp = some p ∨ p ∈ t.idxs := by
  induction t with
  | leaf => intro s pexp i p _ hi _; exact absurd hi (by simp [VTree.idxs])
  | node j c v l r ihl ihr =>
    intro s pexp i p hpok hi hp
    rw [parentOkV_node] at hpok
    obtain ⟨hj, hl, hr⟩ := hpok
    simp only [VTree.idxs, List.mem_append, List.mem_cons] at hi
    rcases hi with hi | rfl | hi
    · rcases ihl hl hi hp with h | h
      · obtain rfl := Option.some.inj h
        right
        simp [VTree.idxs]
      · right
        simp [VTree.idxs, h]
    · left
      rw [← hj]
      exact hp
    · rcases ihr hr hi hp with h | h
      · obtain rfl := Option.some.inj h
        right
        simp [VTree.idxs]
      · right
        simp [VTree.idxs, h]

/-- Every node of a view roots a subview of its own. -/
theorem mem_subview {t : VTree} :
    ∀ {f : Nat} {s : RedBlackTree} {oi : Option Nat},
      view f s oi = some t → ∀ {i : Nat}, i ∈ t.idxs →
      ∃ f2 c v l r, view f2 s (some i) = some (VTree.node i c v l r) ∧
        (∀ j ∈ (VTree.node i c v l r).idxs, j ∈ t.idxs) := by
  induction t with
  | leaf => intro f s oi _ i hi; exact absurd hi (by simp [VTree.idxs])
  | node j c v l r ihl ihr =>
    intro f s oi hv i hi
    obtain ⟨f2, rfl, rfl, hc, hval, hl, hr⟩ := view_node_inv hv
    simp only [VTree.idxs, List.mem_append, List.mem_cons] at hi
    rcases hi with hi | rfl | hi
    · obtain ⟨f3, c3, v3, l3, r3, hview, hsub⟩ := ihl hl hi
      refine ⟨f3, c3, v3, l3, r3, hview, fun a ha => ?_⟩
      simp only [VTree.idxs, List.mem_append, List.mem_cons]
      exact Or.inl (hsub a ha)
    · exact ⟨f2 + 1, c, v, l, r, hv, fun a ha => ha⟩
    · obtain ⟨f3, c3, v3, l3, r3, hview, hsub⟩ := ihr hr hi
      refine ⟨f3, c3, v3, l3, r3, hview, fun a ha => ?_⟩
      simp only [VTree.idxs, List.mem_append, List.mem_cons]
      exact Or.inr (Or.inr (hsub a ha))

/-- The child of a node of a view is again a node of the view. -/
theorem child_mem {f : Nat} {s : RedBlackTree} {oi : Option Nat} {t : VTree}
    (hv : view f s oi = some t) {i : Nat} (hi : i ∈ t.idxs) {cl : Nat}
    (h : (getNode s i).left = some cl ∨ (getNode s i).right = some cl) :
    cl ∈ t.idxs := by
  obtain ⟨f3, c3, v3, l3, r3, hview, hsub⟩ := mem_subview hv hi
  obtain ⟨f4, hf4, _, _, _, hl4, hr4⟩ := view_node_inv hview
  rcases h with h | h
  · rw [h] at hl4
    have hm := root_mem_of_view hl4
    exact hsub cl (by simp [VTree.idxs, hm])
  · rw [h] at hr4
    have hm := root_mem_of_view hr4
    exact hsub cl (by simp [VTree.idxs, hm])

/-- In a well-formed tree no node is its own parent. -/
theorem parent_ne {t : VTree} :
    ∀ {s : RedBlackTree} {pexp : Option Nat},
      parentOkV s t pexp = true → t.idxs.Nodup →
      (∀ p, pexp = some p → p ∉ t.idxs) →
      ∀ i ∈ t.idxs, ∀ q, (getNode s i).parent = some q → q ≠ i := by
  induction t with
  | leaf => intro s pexp _ _ _ i hi; exact absurd hi (by simp [VTree.idxs])
  | node j c v l r ihl ihr =>
    intro s pexp hpok hnd hpo i hi q hq
    rw [parentOkV_node] at hpok
    obtain ⟨hj, hl, hr⟩ := hpok
    obtain ⟨hndl, hndr, hjnl, hjnr, hlr⟩ := nodup_parts hnd
    simp only [VTree.idxs, List.mem_append, List.mem_cons] at hi
    rcases hi with hi | rfl | hi
    · refine ihl hl hndl (fun p hp hmem => ?_) i hi q hq
      obtain rfl := Option.some.inj hp
      exact hjnl hmem
    · intro hqj
      have hpq : pexp = some q := by rw [← hj, hq]
      exact (hpo q hpq) (by simp [VTree.idxs, hqj])
    · refine ihr hr hndr (fun p hp hmem => ?_) i hi q hq
      obtain rfl := Option.some.inj hp
      exact hjnr hmem

/-- The BST descent of `insert` stops exactly where the matching child slot
is empty. -/
theorem descend_stop :
    ∀ {fuel : Nat} {s : RedBlackTree} {cur : Nat} {k : Int} {d : Nat},
      RedBlackTree.descend fuel s cur k = some d →
      RedBlackTree.nextChild s d k = none := by
  intro fuel
  induction fuel with
  | zero =>
    intro s cur k d h
    exact absurd h (by simp [RedBlackTree.descend])
  | succ f ih =>
    intro s cur k d h
    cases hnc : RedBlackTree.nextChild s cur k with
    | none =>
      simp only [RedBlackTree.descend, hnc] at h
      obtain rfl := Option.some.inj h
      exact hnc
    | some c =>
      simp only [RedBlackTree.descend, hnc] at h
      exact ih h

/-- `findMin` stays inside the tree it started in and stops at a node with
no left child. -/
theorem findMin_mem {f : Nat} {s : RedBlackTree} {oi : Option Nat} {t : VTree}
    (hv : view f s oi = some t) :
    ∀ {fuel i m : Nat}, i ∈ t.idxs →
      RedBlackTree.findMin fuel s i = some m →
      m ∈ t.idxs ∧ (getNode s m).left = none := by
  intro fuel
  induction fuel with
  | zero =>
    intro i m _ h
    exact absurd h (by simp [RedBlackTree.findMin])
  | succ f2 ih =>
    intro i m hi h
    cases hL : (getNode s i).left with
    | none =>
      simp only [RedBlackTree.findMin, hL] at h
      obtain rfl := Option.some.inj h
      exact ⟨hi, hL⟩
    | some l =>
      simp only [RedBlackTree.findMin, hL] at h
      exact ih (child_mem hv hi (Or.inl hL)) h

/-- A node found by `findNode`'s loop belongs to the tree searched. -/
theorem findNodeLoop_mem :
    ∀ {fuel : Nat} {s : RedBlackTree} {oi : Option Nat} {k : Int} {j : Nat}
      {f : Nat} {t : VTree},
      RedBlackTree.findNodeLoop fuel s oi k = some (some j) →
      view f s oi = some t → j ∈ t.idxs := by
  intro fuel
  induction fuel with
  | zero =>
    intro s oi k j f t h _
    exact absurd h (by simp [RedBlackTree.findNodeLoop])
  | succ f2 ih =>
    intro s oi k j f t h hv
    cases oi with
    | none =>
      simp only [RedBlackTree.findNodeLoop] at h
      exact absurd h (by simp)
    | some c =>
      cases t with
      | leaf => exact absurd (view_leaf_inv hv) (by simp)
      | node i cc vv l r =>
        obtain ⟨f3, rfl, hoi, hc, hval, hl, hr⟩ := view_node_inv hv
        obtain rfl := Option.some.inj hoi
        by_cases hk : k = (getNode s c).value
        · simp only [RedBlackTree.findNodeLoop, if_pos hk] at h
          obtain rfl := Option.some.inj (Option.some.inj h)
          simp [VTree.idxs]
        · simp only [RedBlackTree.findNodeLoop, if_neg hk] at h
          by_cases hlt : k < (getNode s c).value
          · rw [if_pos hlt] at h
            have hm := ih h hl
            simp [VTree.idxs, hm]
          · rw [if_neg hlt] at h
            have hm := ih h hr
            simp [VTree.idxs, hm]

theorem parentOkV_recolorV {s : RedBlackTree} (j : Nat) (c2 : Color) :
    ∀ (t : VTree) (pexp : Option Nat),
      parentOkV s (recolorV j c2 t) pexp = parentOkV s t pexp := by
  intro t
  induction t with
  | leaf => intro pexp; rfl
  | node i c v l r ihl ihr =>
    intro pexp
    simp [recolorV, parentOkV, ihl, ihr]

theorem parentOkV_revalueV {s : RedBlackTree} (j : Nat) (v2 : Int) :
    ∀ (t : VTree) (pexp : Option Nat),
      parentOkV s (revalueV j v2 t) pexp = parentOkV s t pexp := by
  intro t
  induction t with
  | leaf => intro pexp; rfl
  | node i c v l r ihl ihr =>
    intro pexp
    simp [revalueV, parentOkV, ihl, ihr]

/-- Recoloring a node of a well-formed tree keeps it well formed. -/
theorem setColor_WFt {s : RedBlackTree} {t : VTree} {j : Nat} (c2 : Color)
    (hwf : WFt s t) (hj : j ∈ t.idxs) :
    WFt (setColor s j c2) (recolorV j c2 t) := by
  obtain ⟨⟨f, hv⟩, hnd, hbd, hpok⟩ := hwf
  have hjlen : j < s.nodes.length := hbd j hj
  refine ⟨⟨f, ?_⟩, ?_, ?_, ?_⟩
  · rw [setColor_root]
    exact view_setColor hv hjlen
  · rw [recolorV_idxs]
    exact hnd
  · intro a ha
    rw [recolorV_idxs] at ha
    rw [setColor_length]
    exact hbd a ha
  · rw [parentOkV_recolorV, parentOkV_setColor]
    exact hpok

/-- Overwriting a node's value keeps the tree well formed. -/
theorem setValue_WFt {s : RedBlackTree} {t : VTree} {j : Nat} (v2 : Int)
    (hwf : WFt s t) (hj : j ∈ t.idxs) :
    WFt (setValue s j v2) (revalueV j v2 t) := by
  obtain ⟨⟨f, hv⟩, hnd, hbd, hpok⟩ := hwf
  have hjlen : j < s.nodes.length := hbd j hj
  refine ⟨⟨f, ?_⟩, ?_, ?_, ?_⟩
  · rw [setValue_root]
    exact view_setValue hv hjlen
  · rw [revalueV_idxs]
    exact hnd
  · intro a ha
    rw [revalueV_idxs] at ha
    rw [setValue_length]
    exact hbd a ha
  · rw [parentOkV_revalueV, parentOkV_setValue]
    exact hpok

theorem rotateLeft_noop {s : RedBlackTree} {x : Nat}
    (h : (getNode s x).right = none) : RedBlackTree.rotateLeft s x = s := by
  simp [RedBlackTree.rotateLeft, h]

theorem rotateRight_noop {s : RedBlackTree} {x : Nat}
    (h : (getNode s x).left = none) : RedBlackTree.rotateRight s x = s := by
  simp [RedBlackTree.rotateRight, h]

/-- `rotateLeft` at a node of a well-formed tree keeps it well formed. -/
theorem rotateLeft_WFt {s : RedBlackTree} {t : VTree} {x y : Nat}
    (hwf : WFt s t) (hx : x ∈ t.idxs)
    (hy : (getNode s x).right = some y) :
    WFt (RedBlackTree.rotateLeft s x) (rotALV x t) := by
  obtain ⟨⟨f, hv⟩, hnd, hbd, hpok⟩ := hwf
  have hpo : ∀ p, (none : Option Nat) = some p →
      p ∉ t.idxs ∧ p < s.nodes.length := by
    intro p hp
    exact absurd hp (by simp)
  obtain ⟨h1, h2, h3, h4, h5, h6, h7⟩ :=
    rotateLeft_view hv hnd hpok hbd hpo hx hy
  refine ⟨⟨f + 1, ?_⟩, ?_, ?_, ?_⟩
  · by_cases hroot : s.root = some x
    · rw [h6 hroot rfl]
      simpa [hroot] using h1
    · rw [h7 (fun hc => absurd hc hroot)]
      simpa [hroot] using h1
  · rw [rotALV_idxs]
    exact hnd
  · intro a ha
    rw [rotALV_idxs] at ha
    rw [rotateLeft_length]
    exact hbd a ha
  · exact h2

/-- `rotateRight` at a node of a well-formed tree keeps it well formed. -/
theorem rotateRight_WFt {s : RedBlackTree} {t : VTree} {x y : Nat}
    (hwf : WFt s t) (hx : x ∈ t.idxs)
    (hy : (getNode s x).left = some y) :
    WFt (RedBlackTree.rotateRight s x) (rotARV x t) := by
  obtain ⟨⟨f, hv⟩, hnd, hbd, hpok⟩ := hwf
  have hpo : ∀ p, (none : Option Nat) = some p →
      p ∉ t.idxs ∧ p < s.nodes.length := by
    intro p hp
    exact absurd hp (by simp)
  obtain ⟨h1, h2, h3, h4, h5, h6, h7⟩ :=
    rotateRight_view hv hnd hpok hbd hpo hx hy
  refine ⟨⟨f + 1, ?_⟩, ?_, ?_, ?_⟩
  · by_cases hroot : s.root = some x
    · rw [h6 hroot rfl]
      simpa [hroot] using h1
    · rw [h7 (fun hc => absurd hc hroot)]
      simpa [hroot] using h1
  · rw [rotARV_idxs]
    exact hnd
  · intro a ha
    rw [rotARV_idxs] at ha
    rw [rotateRight_length]
    exact hbd a ha
  · exact h2

/-- Blackening the root (the epilogue of `fixInsert` and `fixDelete`)
keeps the state well formed. -/
theorem blackenRoot_WFt {s : RedBlackTree} {t : VTree} (hwf : WFt s t) :
    ∃ t2, WFt (match s.root with
      | some r => setColor s r Color.BLACK
      | none => s) t2 ∧ t2.inorder = t.inorder := by
  cases hroot : s.root with
  | none => exact ⟨t, hwf, rfl⟩
  | some r =>
    have hr : r ∈ t.idxs := by
      obtain ⟨f, hv⟩ := hwf.1
      rw [hroot] at hv
      exact root_mem_of_view hv
    exact ⟨recolorV r Color.BLACK t, setColor_WFt Color.BLACK hwf hr,
      recolorV_inorder r Color.BLACK t⟩

/-!
## The effect of attaching a fresh node (`insert`'s allocation)
-/

/-- The view after `attachNew s d k`: the fresh node (index `nn`) hangs as
the left child of `d` when `k` is strictly below `d`'s key and as its right
child otherwise. -/
def attachV (d nn : Nat) (k : Int) : VTree → VTree
  | .leaf => .leaf
  | .node i c v l r =>
    if i = d then
      if k < v then
        .node i c v (.node nn Color.RED k .leaf .leaf) r
      else
        .node i c v l (.node nn Color.RED k .leaf .leaf)
    else .node i c v (attachV d nn k l) (attachV d nn k r)

theorem attachV_not_mem {d nn : Nat} {k : Int} :
    ∀ {t : VTree}, d ∉ t.idxs → attachV d nn k t = t := by
  intro t
  induction t with
  | leaf => intro _; rfl
  | node i c v l r ihl ihr =>
    intro hd
    simp only [VTree.idxs, List.mem_append, List.mem_cons] at hd
    push_neg at hd
    obtain ⟨h1, h2, h3⟩ := hd
    simp [attachV, Ne.symm h2, ihl h1, ihr h3]

theorem attachV_idxs_sub {d nn : Nat} {k : Int} :
    ∀ {t : VTree} {j : Nat}, j ∈ (attachV d nn k t).idxs →
      j ∈ t.idxs ∨ j = nn := by
  intro t
  induction t with
  | leaf => intro j hj; exact absurd hj (by simp [attachV, VTree.idxs])
  | node i c v l r ihl ihr =>
    intro j hj
    by_cases hid : i = d
    · by_cases hkv : k < v
      · simp only [attachV, if_pos hid, if_pos hkv, VTree.idxs,
          List.mem_append, List.mem_cons, List.append_nil,
          List.not_mem_nil, or_false, false_or] at hj
        rcases hj with hj | hj | hj
        · exact Or.inr hj
        · exact Or.inl (by simp [VTree.idxs, hj])
        · exact Or.inl (by simp [VTree.idxs, hj])
      · simp only [attachV, if_pos hid, if_neg hkv, VTree.idxs,
          List.mem_append, List.mem_cons, List.append_nil,
          List.not_mem_nil, or_false, false_or] at hj
        rcases hj with hj | hj | hj
        · exact Or.inl (by simp [VTree.idxs, hj])
        · exact Or.inl (by simp [VTree.idxs, hj])
        · exact Or.inr hj
    · simp only [attachV, if_neg hid, VTree.idxs, List.mem_append,
        List.mem_cons] at hj
      rcases hj with hj | hj | hj
      · rcases ihl hj with h | h
        · exact Or.inl (by simp [VTree.idxs, h])
        · exact Or.inr h
      · exact Or.inl (by simp [VTree.idxs, hj])
      · rcases ihr hj with h | h
        · exact Or.inl (by simp [VTree.idxs, h])
        · exact Or.inr h

theorem mem_attachV_new {d nn : Nat} {k : Int} :
    ∀ {t : VTree}, d ∈ t.idxs → nn ∈ (attachV d nn k t).idxs := by
  intro t
  induction t with
  | leaf => intro hd; exact absurd hd (by simp [VTree.idxs])
  | node i c v l r ihl ihr =>
    intro hd
    by_cases hid : i = d
    · by_cases hkv : k < v
      · simp [attachV, if_pos hid, if_pos hkv, VTree.idxs]
      · simp [attachV, if_pos hid, if_neg hkv, VTree.idxs]
    · have hd' : d ∈ l.idxs ∨ d = i ∨ d ∈ r.idxs := by
        simpa [VTree.idxs] using hd
      rcases hd' with hdl | rfl | hdr
      · simp [attachV, if_neg hid, VTree.idxs, ihl hdl]
      · exact absurd rfl hid
      · simp [attachV, if_neg hid, VTree.idxs, ihr hdr]

theorem attachV_node_eq (d nn : Nat) (k : Int) (i : Nat) (c : Color)
    (v : Int) (l r : VTree) :
    attachV d nn k (VTree.node i c v l r)
      = if i = d then
          if k < v then
            VTree.node i c v (VTree.node nn Color.RED k .leaf .leaf) r
          else
            VTree.node i c v l (VTree.node nn Color.RED k .leaf .leaf)
        else VTree.node i c v (attachV d nn k l) (attachV d nn k r) := rfl

theorem attachV_nodup {d nn : Nat} {k : Int} :
    ∀ {t : VTree}, t.idxs.Nodup → nn ∉ t.idxs →
      (attachV d nn k t).idxs.Nodup := by
  intro t
  induction t with
  | leaf => intro _ _; simp [attachV, VTree.idxs]
  | node i c v l r ihl ihr =>
    intro hnd hnn
    obtain ⟨hndl, hndr, hinl, hinr, hlr⟩ := nodup_parts hnd
    have hnni : nn ≠ i := fun h => hnn (by simp [VTree.idxs, h])
    have hnnl : nn ∉ l.idxs := fun h => hnn (by simp [VTree.idxs, h])
    have hnnr : nn ∉ r.idxs := fun h => hnn (by simp [VTree.idxs, h])
    by_cases hid : i = d
    · by_cases hkv : k < v
      · rw [attachV_node_eq, if_pos hid, if_pos hkv]
        have hids : (VTree.node i c v
            (VTree.node nn Color.RED k .leaf .leaf) r).idxs
            = nn :: i :: r.idxs := by simp [VTree.idxs]
        rw [hids, List.nodup_cons, List.nodup_cons]
        refine ⟨?_, hinr, hndr⟩
        intro hmem
        rcases List.mem_cons.mp hmem with h | h
        · exact hnni h
        · exact hnnr h
      · rw [attachV_node_eq, if_pos hid, if_neg hkv]
        have hids : (VTree.node i c v l
            (VTree.node nn Color.RED k .leaf .leaf)).idxs
            = l.idxs ++ [i, nn] := by simp [VTree.idxs]
        rw [hids, List.nodup_append]
        refine ⟨hndl, ?_, ?_⟩
        · rw [List.nodup_cons]
          refine ⟨?_, List.nodup_singleton nn⟩
          intro hmem
          rw [List.mem_singleton] at hmem
          exact hnni hmem.symm
        · intro a ha hmem
          rcases List.mem_cons.mp hmem with h | h
          · exact hinl (h ▸ ha)
          · rw [List.mem_singleton] at h
            exact hnnl (h ▸ ha)
    · rw [attachV_node_eq, if_neg hid]
      by_cases hdl : d ∈ l.idxs
      · have hrr : attachV d nn k r = r := attachV_not_mem (hlr d hdl)
        have hids : (VTree.node i c v (attachV d nn k l)
            (attachV d nn k r)).idxs
            = (attachV d nn k l).idxs ++ i :: r.idxs := by
          simp [VTree.idxs, hrr]
        rw [hids, List.nodup_append]
        refine ⟨ihl hndl hnnl, List.nodup_cons.mpr ⟨hinr, hndr⟩, ?_⟩
        intro a ha hmem
        rcases attachV_idxs_sub ha with h | rfl
        · rcases List.mem_cons.mp hmem with h2 | h2
          · exact hinl (h2 ▸ h)
          · exact hlr a h h2
        · rcases List.mem_cons.mp hmem with h2 | h2
          · exact hnni h2
          · exact hnnr h2
      · by_cases hdr : d ∈ r.idxs
        · have hll : attachV d nn k l = l := attachV_not_mem hdl
          have hids : (VTree.node i c v (attachV d nn k l)
              (attachV d nn k r)).idxs
              = l.idxs ++ i :: (attachV d nn k r).idxs := by
            simp [VTree.idxs, hll]
          rw [hids, List.nodup_append]
          refine ⟨hndl, List.nodup_cons.mpr ⟨?_, ihr hndr hnnr⟩, ?_⟩
          · intro hmem
            rcases attachV_idxs_sub hmem with h | h
            · exact hinr h
            · exact hnni h.symm
          · intro a ha hmem
            rcases List.mem_cons.mp hmem with h2 | h2
            · exact hinl (h2 ▸ ha)
            · rcases attachV_idxs_sub h2 with h3 | rfl
              · exact hlr a ha h3
              · exact hnnl ha
        · have hll : attachV d nn k l = l := attachV_not_mem hdl
          have hrr : attachV d nn k r = r := attachV_not_mem hdr
          rw [hll, hrr]
          exact hnd


theorem getNode_addNode_ne {s : RedBlackTree} {nd : Node} {j : Nat}
    (h : j ≠ s.nodes.length) : getNode (addNode s nd).1 j = getNode s j := by
  rcases Nat.lt_or_ge j s.nodes.length with hlt | hge
  · exact getNode_addNode_old hlt nd
  · have h1 : s.nodes.length ≤ j := hge
    have h2 : (s.nodes ++ [nd]).length ≤ j := by
      simp only [List.length_append, List.length_singleton]
      omega
    simp only [addNode, getNode, List.getD_eq_getElem?_getD]
    rw [List.getElem?_eq_none h2, List.getElem?_eq_none h1]

theorem attachNew_getNode_ne (s : RedBlackTree) (d : Nat) (k : Int)
    {j : Nat} (hjd : j ≠ d) (hjn : j ≠ s.nodes.length) :
    getNode (RedBlackTree.attachNew s d k).1 j = getNode s j := by
  unfold RedBlackTree.attachNew
  dsimp only
  split <;> dsimp only
  · rw [getNode_setLeft_ne (Ne.symm hjd), getNode_addNode_ne hjn]
  · rw [getNode_setRight_ne (Ne.symm hjd), getNode_addNode_ne hjn]

theorem attachNew_parent_eq (s : RedBlackTree) (d : Nat) (k : Int)
    {j : Nat} (hjn : j ≠ s.nodes.length) :
    (getNode (RedBlackTree.attachNew s d k).1 j).parent
      = (getNode s j).parent := by
  unfold RedBlackTree.attachNew
  dsimp only
  split <;> dsimp only
  · rw [getNode_setLeft_parent, getNode_addNode_ne hjn]
  · rw [getNode_setRight_parent, getNode_addNode_ne hjn]

theorem attachNew_root (s : RedBlackTree) (d : Nat) (k : Int) :
    (RedBlackTree.attachNew s d k).1.root = s.root := by
  unfold RedBlackTree.attachNew
  dsimp only
  split <;> rfl

/-- How `attachNew` transforms the view of a region containing the attach
parent `d`, when `d`'s matching child slot is empty. -/
theorem attachNew_view {t : VTree} :
    ∀ {f : Nat} {s : RedBlackTree} {oi : Option Nat} {d : Nat} {k : Int},
      view f s oi = some t → t.idxs.Nodup → idxBound t s.nodes.length →
      d ∈ t.idxs → RedBlackTree.nextChild s d k = none →
      view (f + 1) (RedBlackTree.attachNew s d k).1 oi
        = some (attachV d s.nodes.length k t) := by
  induction t with
  | leaf =>
    intro f s oi d k _ _ _ hd _
    exact absurd hd (by simp [VTree.idxs])
  | node i c v l r ihl ihr =>
    intro f s oi d k hv hnd hbd hd hnc
    obtain ⟨f2, rfl, rfl, hc, hval, hl, hr⟩ := view_node_inv hv
    obtain ⟨hndl, hndr, hinl, hinr, hlr⟩ := nodup_parts hnd
    obtain ⟨hilen, hbl, hbr⟩ := idxBound_node hbd
    by_cases hid : i = d
    · subst hid
      obtain ⟨hsp1, hsp2, hsp3, hsp4⟩ := attachNew_spec s i k hilen
      by_cases hkv : k < (getNode s i).value
      · have hleft : (getNode s i).left = none := by
          simpa [RedBlackTree.nextChild, hkv] using hnc
        rw [hleft, view_none] at hl
        obtain rfl := Option.some.inj hl
        have hgi := hsp4 hkv
        have hvr : view f2 (RedBlackTree.attachNew s i k).1
            (getNode s i).right = some r := by
          refine view_untouched hr fun j hj => ?_
          refine attachNew_getNode_ne s i k (fun hji => hinr (hji ▸ hj)) ?_
          exact fun hjn => lt_irrefl _ (hjn ▸ hbr j hj)
        have hnew : view (f2 + 1) (RedBlackTree.attachNew s i k).1
            (some s.nodes.length)
            = some (VTree.node s.nodes.length Color.RED k .leaf .leaf) := by
          simp [view, hsp2, view_none]
        have hkv2 : k < v := by rw [← hval]; exact hkv
        have hrhs : attachV i s.nodes.length k
            (VTree.node i c v VTree.leaf r)
            = VTree.node i c v
                (VTree.node s.nodes.length Color.RED k .leaf .leaf) r := by
          simp [attachV, hkv2]
        rw [hrhs]
        simp [view, hgi, hnew, view_mono hvr (Nat.le_succ f2), hc, hval]
      · have hright : (getNode s i).right = none := by
          simpa [RedBlackTree.nextChild, hkv] using hnc
        rw [hright, view_none] at hr
        obtain rfl := Option.some.inj hr
        have hgi := hsp3 hkv
        have hvl : view f2 (RedBlackTree.attachNew s i k).1
            (getNode s i).left = some l := by
          refine view_untouched hl fun j hj => ?_
          refine attachNew_getNode_ne s i k (fun hji => hinl (hji ▸ hj)) ?_
          exact fun hjn => lt_irrefl _ (hjn ▸ hbl j hj)
        have hnew : view (f2 + 1) (RedBlackTree.attachNew s i k).1
            (some s.nodes.length)
            = some (VTree.node s.nodes.length Color.RED k .leaf .leaf) := by
          simp [view, hsp2, view_none]
        have hkv2 : ¬ k < v := by rw [← hval]; exact hkv
        have hrhs : attachV i s.nodes.length k
            (VTree.node i c v l VTree.leaf)
            = VTree.node i c v l
                (VTree.node s.nodes.length Color.RED k .leaf .leaf) := by
          simp [attachV, hkv2]
        rw [hrhs]
        simp [view, hgi, hnew, view_mono hvl (Nat.le_succ f2), hc, hval]
    · have hine : i ≠ s.nodes.length := fun h => lt_irrefl _ (h ▸ hilen)
      have hgi : getNode (RedBlackTree.attachNew s d k).1 i = getNode s i :=
        attachNew_getNode_ne s d k hid hine
      have hd' : d ∈ l.idxs ∨ d = i ∨ d ∈ r.idxs := by
        simpa [VTree.idxs] using hd
      rcases hd' with hdl | rfl | hdr
      · have hIH := ihl hl hndl hbl hdl hnc
        have hnotr : d ∉ r.idxs := hlr d hdl
        have hvr : view f2 (RedBlackTree.attachNew s d k).1
            (getNode s i).right = some r := by
          refine view_untouched hr fun j hj => ?_
          refine attachNew_getNode_ne s d k (fun hjd => hnotr (hjd ▸ hj)) ?_
          exact fun hjn => lt_irrefl _ (hjn ▸ hbr j hj)
        have hrr : attachV d s.nodes.length k r = r := attachV_not_mem hnotr
        simp [view, attachV, hid, hgi, hIH, view_mono hvr (Nat.le_succ f2),
          hc, hval, hrr]
      · exact absurd rfl hid
      · have hIH := ihr hr hndr hbr hdr hnc
        have hnotl : d ∉ l.idxs := fun h => hlr d h hdr
        have hvl : view f2 (RedBlackTree.attachNew s d k).1
            (getNode s i).left = some l := by
          refine view_untouched hl fun j hj => ?_
          refine attachNew_getNode_ne s d k (fun hjd => hnotl (hjd ▸ hj)) ?_
          exact fun hjn => lt_irrefl _ (hjn ▸ hbl j hj)
        have hll : attachV d s.nodes.length k l = l := attachV_not_mem hnotl
        simp [view, attachV, hid, hgi, hIH, view_mono hvl (Nat.le_succ f2),
          hc, hval, hll]

/-- `attachNew` keeps all parent back-references consistent. -/
theorem attachV_parentOk {s : RedBlackTree} {d : Nat} {k : Int} :
    ∀ {t : VTree} {pexp : Option Nat},
      parentOkV s t pexp = true → t.idxs.Nodup →
      idxBound t s.nodes.length → d ∈ t.idxs →
      parentOkV (RedBlackTree.attachNew s d k).1
        (attachV d s.nodes.length k t) pexp = true := by
  intro t
  induction t with
  | leaf =>
    intro pexp _ _ _ hd
    exact absurd hd (by simp [VTree.idxs])
  | node i c v l r ihl ihr =>
    intro pexp hpok hnd hbd hd
    rw [parentOkV_node] at hpok
    obtain ⟨hpari, hpokl, hpokr⟩ := hpok
    obtain ⟨hndl, hndr, hinl, hinr, hlr⟩ := nodup_parts hnd
    obtain ⟨hilen, hbl, hbr⟩ := idxBound_node hbd
    have hine : i ≠ s.nodes.length := fun h => lt_irrefl _ (h ▸ hilen)
    have hpi : (getNode (RedBlackTree.attachNew s d k).1 i).parent = pexp := by
      rw [attachNew_parent_eq s d k hine]
      exact hpari
    by_cases hid : i = d
    · subst hid
      obtain ⟨hsp1, hsp2, hsp3, hsp4⟩ := attachNew_spec s i k hilen
      have hpokl2 : parentOkV (RedBlackTree.attachNew s i k).1 l
          (some i) = true := by
        rw [parentOkV_congr_on fun j hj => attachNew_parent_eq s i k
          (fun hjn => lt_irrefl _ (hjn ▸ hbl j hj))]
        exact hpokl
      have hpokr2 : parentOkV (RedBlackTree.attachNew s i k).1 r
          (some i) = true := by
        rw [parentOkV_congr_on fun j hj => attachNew_parent_eq s i k
          (fun hjn => lt_irrefl _ (hjn ▸ hbr j hj))]
        exact hpokr
      have hpnew : parentOkV (RedBlackTree.attachNew s i k).1
          (VTree.node s.nodes.length Color.RED k .leaf .leaf)
          (some i) = true := by
        simp [parentOkV, hsp2]
      by_cases hkv : k < v
      · rw [attachV_node_eq, if_pos rfl, if_pos hkv, parentOkV_node]
        exact ⟨hpi, hpnew, hpokr2⟩
      · rw [attachV_node_eq, if_pos rfl, if_neg hkv, parentOkV_node]
        exact ⟨hpi, hpokl2, hpnew⟩
    · have hd' : d ∈ l.idxs ∨ d = i ∨ d ∈ r.idxs := by
        simpa [VTree.idxs] using hd
      rcases hd' with hdl | rfl | hdr
      · have hnotr : d ∉ r.idxs := hlr d hdl
        have hrr : attachV d s.nodes.length k r = r := attachV_not_mem hnotr
        rw [attachV_node_eq, if_neg hid, hrr, parentOkV_node]
        refine ⟨hpi, ihl hpokl hndl hbl hdl, ?_⟩
        rw [parentOkV_congr_on fun j hj => attachNew_parent_eq s d k
          (fun hjn => lt_irrefl _ (hjn ▸ hbr j hj))]
        exact hpokr
      · exact absurd rfl hid
      · have hnotl : d ∉ l.idxs := fun h => hlr d h hdr
        have hll : attachV d s.nodes.length k l = l := attachV_not_mem hnotl
        rw [attachV_node_eq, if_neg hid, hll, parentOkV_node]
        refine ⟨hpi, ?_, ihr hpokr hndr hbr hdr⟩
        rw [parentOkV_congr_on fun j hj => attachNew_parent_eq s d k
          (fun hjn => lt_irrefl _ (hjn ▸ hbl j hj))]
        exact hpokl

/-- `attachNew` at a valid descent stop keeps the state well formed, and the
fresh node belongs to the new tree. -/
theorem attachNew_WFt {s : RedBlackTree} {t : VTree} {d : Nat} {k : Int}
    (hwf : WFt s t) (hd : d ∈ t.idxs)
    (hnc : RedBlackTree.nextChild s d k = none) :
    WFt (RedBlackTree.attachNew s d k).1 (attachV d s.nodes.length k t)
      ∧ (RedBlackTree.attachNew s d k).2
          ∈ (attachV d s.nodes.length k t).idxs := by
  obtain ⟨⟨f, hv⟩, hnd, hbd, hpok⟩ := hwf
  have hnn : s.nodes.length ∉ t.idxs := fun h => lt_irrefl _ (hbd _ h)
  constructor
  · refine ⟨⟨f + 1, ?_⟩, attachV_nodup hnd hnn, ?_, ?_⟩
    · rw [attachNew_root]
      exact attachNew_view hv hnd hbd hd hnc
    · intro a ha
      rw [RedBlackTree.attachNew_length]
      rcases attachV_idxs_sub ha with h | rfl
      · exact lt_trans (hbd a h) (Nat.lt_succ_self _)
      · exact Nat.lt_succ_self _
    · exact attachV_parentOk hpok hnd hbd hd
  · have h2 : (RedBlackTree.attachNew s d k).2 = s.nodes.length :=
      (attachNew_spec s d k (hbd d hd)).1
    rw [h2]
    exact mem_attachV_new hd

/-!
## Well-formedness through `fixInsert` and `insert`
-/

/-- The shared tail of ケース2・3 (recolor parent and grandparent, rotate the
grandparent) keeps the state well formed.  `s1`/`node1` are the state and
cursor after the optional triangle rotation. -/
theorem fixInsertCase23L_tail {s1 : RedBlackTree} {t1 : VTree} {node1 : Nat}
    {st : RedBlackTree × Nat}
    (hwf1 : WFt s1 t1) (hn1 : node1 ∈ t1.idxs)
    (h : (match (getNode s1 node1).parent with
      | none => none
      | some p2 =>
        match (getNode (setColor s1 p2 Color.BLACK) p2).parent with
        | none => none
        | some g2 =>
          some (RedBlackTree.rotateRight
            (setColor (setColor s1 p2 Color.BLACK) g2 Color.RED) g2, node1))
      = some st) :
    ∃ t2, WFt st.1 t2 ∧ st.2 ∈ t2.idxs ∧ t2.inorder = t1.inorder := by
  cases hp2 : (getNode s1 node1).parent with
  | none => rw [hp2] at h; simp at h
  | some p2 =>
    rw [hp2] at h
    dsimp only at h
    cases hg2 : (getNode (setColor s1 p2 Color.BLACK) p2).parent with
    | none => rw [hg2] at h; simp at h
    | some g2 =>
      rw [hg2] at h
      dsimp only at h
      obtain rfl := Option.some.inj h
      have hp2mem : p2 ∈ t1.idxs := by
        rcases parent_mem hwf1.2.2.2 hn1 hp2 with hcon | hm
        · exact absurd hcon (by simp)
        · exact hm
      have hwf2 := setColor_WFt Color.BLACK hwf1 hp2mem
      have hg2' : (getNode s1 p2).parent = some g2 := by
        rw [← getNode_setColor_parent s1 p2 Color.BLACK p2]
        exact hg2
      have hg2t1 : g2 ∈ t1.idxs := by
        rcases parent_mem hwf1.2.2.2 hp2mem hg2' with hcon | hm
        · exact absurd hcon (by simp)
        · exact hm
      have hwf3 := setColor_WFt Color.RED hwf2
        (by rw [recolorV_idxs]; exact hg2t1)
      have hn3 : node1 ∈ (recolorV g2 Color.RED
          (recolorV p2 Color.BLACK t1)).idxs := by
        rw [recolorV_idxs, recolorV_idxs]
        exact hn1
      cases hy : (getNode (setColor (setColor s1 p2 Color.BLACK) g2
          Color.RED) g2).left with
      | none =>
        dsimp only
        rw [rotateRight_noop hy]
        exact ⟨_, hwf3, hn3, by simp [recolorV_inorder]⟩
      | some w =>
        refine ⟨rotARV g2 (recolorV g2 Color.RED
          (recolorV p2 Color.BLACK t1)), ?_, ?_, ?_⟩
        · exact rotateRight_WFt hwf3
            (by rw [recolorV_idxs, recolorV_idxs]; exact hg2t1) hy
        · dsimp only
          rw [rotARV_idxs]
          exact hn3
        · dsimp only
          simp [rotARV_inorder, recolorV_inorder]

/-- Mirror of `fixInsertCase23L_tail`. -/
theorem fixInsertCase23R_tail {s1 : RedBlackTree} {t1 : VTree} {node1 : Nat}
    {st : RedBlackTree × Nat}
    (hwf1 : WFt s1 t1) (hn1 : node1 ∈ t1.idxs)
    (h : (match (getNode s1 node1).parent with
      | none => none
      | some p2 =>
        match (getNode (setColor s1 p2 Color.BLACK) p2).parent with
        | none => none
        | some g2 =>
          some (RedBlackTree.rotateLeft
            (setColor (setColor s1 p2 Color.BLACK) g2 Color.RED) g2, node1))
      = some st) :
    ∃ t2, WFt st.1 t2 ∧ st.2 ∈ t2.idxs ∧ t2.inorder = t1.inorder := by
  cases hp2 : (getNode s1 node1).parent with
  | none => rw [hp2] at h; simp at h
  | some p2 =>
    rw [hp2] at h
    dsimp only at h
    cases hg2 : (getNode (setColor s1 p2 Color.BLACK) p2).parent with
    | none => rw [hg2] at h; simp at h
    | some g2 =>
      rw [hg2] at h
      dsimp only at h
      obtain rfl := Option.some.inj h
      have hp2mem : p2 ∈ t1.idxs := by
        rcases parent_mem hwf1.2.2.2 hn1 hp2 with hcon | hm
        · exact absurd hcon (by simp)
        · exact hm
      have hwf2 := setColor_WFt Color.BLACK hwf1 hp2mem
      have hg2' : (getNode s1 p2).parent = some g2 := by
        rw [← getNode_setColor_parent s1 p2 Color.BLACK p2]
        exact hg2
      have hg2t1 : g2 ∈ t1.idxs := by
        rcases parent_mem hwf1.2.2.2 hp2mem hg2' with hcon | hm
        · exact absurd hcon (by simp)
        · exact hm
      have hwf3 := setColor_WFt Color.RED hwf2
        (by rw [recolorV_idxs]; exact hg2t1)
      have hn3 : node1 ∈ (recolorV g2 Color.RED
          (recolorV p2 Color.BLACK t1)).idxs := by
        rw [recolorV_idxs, recolorV_idxs]
        exact hn1
      cases hy : (getNode (setColor (setColor s1 p2 Color.BLACK) g2
          Color.RED) g2).right with
      | none =>
        dsimp only
        rw [rotateLeft_noop hy]
        exact ⟨_, hwf3, hn3, by simp [recolorV_inorder]⟩
      | some w =>
        refine ⟨rotALV g2 (recolorV g2 Color.RED
          (recolorV p2 Color.BLACK t1)), ?_, ?_, ?_⟩
        · exact rotateLeft_WFt hwf3
            (by rw [recolorV_idxs, recolorV_idxs]; exact hg2t1) hy
        · dsimp only
          rw [rotALV_idxs]
          exact hn3
        · dsimp only
          simp [rotALV_inorder, recolorV_inorder]

/-- ケース2・3 with the parent a left child keeps the state well formed. -/
theorem fixInsertCase23L_WF {s : RedBlackTree} {t : VTree} {node p : Nat}
    {st : RedBlackTree × Nat}
    (hwf : WFt s t) (hnode : node ∈ t.idxs) (hp : p ∈ t.idxs)
    (h : RedBlackTree.fixInsertCase23L s node p = some st) :
    ∃ t2, WFt st.1 t2 ∧ st.2 ∈ t2.idxs ∧ t2.inorder = t.inorder := by
  unfold RedBlackTree.fixInsertCase23L at h
  by_cases hc : (getNode s p).right = some node
  · rw [if_pos hc] at h
    dsimp only at h
    obtain ⟨t2, hwf2, hmem2, heq2⟩ :=
      fixInsertCase23L_tail (rotateLeft_WFt hwf hp hc)
        (by rw [rotALV_idxs]; exact hp) h
    exact ⟨t2, hwf2, hmem2, by rw [heq2, rotALV_inorder]⟩
  · rw [if_neg hc] at h
    dsimp only at h
    exact fixInsertCase23L_tail hwf hnode h

/-- ケース2・3 with the parent a right child keeps the state well formed. -/
theorem fixInsertCase23R_WF {s : RedBlackTree} {t : VTree} {node p : Nat}
    {st : RedBlackTree × Nat}
    (hwf : WFt s t) (hnode : node ∈ t.idxs) (hp : p ∈ t.idxs)
    (h : RedBlackTree.fixInsertCase23R s node p = some st) :
    ∃ t2, WFt st.1 t2 ∧ st.2 ∈ t2.idxs ∧ t2.inorder = t.inorder := by
  unfold RedBlackTree.fixInsertCase23R at h
  by_cases hc : (getNode s p).left = some node
  · rw [if_pos hc] at h
    dsimp only at h
    obtain ⟨t2, hwf2, hmem2, heq2⟩ :=
      fixInsertCase23R_tail (rotateRight_WFt hwf hp hc)
        (by rw [rotARV_idxs]; exact hp) h
    exact ⟨t2, hwf2, hmem2, by rw [heq2, rotARV_inorder]⟩
  · rw [if_neg hc] at h
    dsimp only at h
    exact fixInsertCase23R_tail hwf hnode h

/-- The `fixInsert` loop keeps the state well formed. -/
theorem fixInsertLoop_WF :
    ∀ (fuel : Nat) {s : RedBlackTree} {node : Nat} {s2 : RedBlackTree}
      {t : VTree},
      RedBlackTree.fixInsertLoop fuel s node = some s2 →
      WFt s t → node ∈ t.idxs →
      ∃ t2, WFt s2 t2 ∧ t2.inorder = t.inorder := by
  intro fuel
  induction fuel with
  | zero =>
    intro s node s2 t h _ _
    simp [RedBlackTree.fixInsertLoop] at h
  | succ fuel ih =>
    intro s node s2 t h hwf hnode
    rw [RedBlackTree.fixInsertLoop] at h
    cases hp : (getNode s node).parent with
    | none =>
      rw [hp] at h
      dsimp only at h
      obtain rfl := Option.some.inj h
      exact ⟨t, hwf, rfl⟩
    | some p =>
      rw [hp] at h
      dsimp only at h
      by_cases hcol : (getNode s p).color = Color.RED
      · rw [if_pos hcol] at h
        have hpmem : p ∈ t.idxs := by
          rcases parent_mem hwf.2.2.2 hnode hp with hcon | hm
          · exact absurd hcon (by simp)
          · exact hm
        cases hgp : (getNode s p).parent with
        | none =>
          rw [hgp] at h
          dsimp only at h
          rw [if_neg (by simp)] at h
          cases hstep : RedBlackTree.fixInsertCase23R s node p with
          | none => rw [hstep] at h; simp at h
          | some st =>
            rw [hstep] at h
            dsimp only at h
            obtain ⟨t1, hwf1, hmem1, heq1⟩ := fixInsertCase23R_WF hwf hnode
              hpmem hstep
            obtain ⟨t2, hwf2, heq2⟩ := ih h hwf1 hmem1
            exact ⟨t2, hwf2, by rw [heq2, heq1]⟩
        | some g =>
          rw [hgp] at h
          dsimp only at h
          have hg : g ∈ t.idxs := by
            rcases parent_mem hwf.2.2.2 hpmem hgp with hcon | hm
            · exact absurd hcon (by simp)
            · exact hm
          by_cases hgpl : (getNode s g).left = some p
          · rw [if_pos hgpl] at h
            cases hun : (getNode s g).right with
            | some u =>
              rw [hun] at h
              dsimp only at h
              by_cases hucol : (getNode s u).color = Color.RED
              · rw [if_pos hucol] at h
                dsimp only at h
                obtain ⟨f, hv⟩ := hwf.1
                have hu : u ∈ t.idxs := child_mem hv hg (Or.inr hun)
                have hwf1 := setColor_WFt Color.BLACK hwf hpmem
                have hwf2 := setColor_WFt Color.BLACK hwf1
                  (by rw [recolorV_idxs]; exact hu)
                have hwf3 := setColor_WFt Color.RED hwf2
                  (by rw [recolorV_idxs, recolorV_idxs]; exact hg)
                obtain ⟨t2, hwf4, heq⟩ := ih h hwf3
                  (by rw [recolorV_idxs, recolorV_idxs, recolorV_idxs]
                      exact hg)
                exact ⟨t2, hwf4, by rw [heq]; simp [recolorV_inorder]⟩
              · rw [if_neg hucol] at h
                cases hstep : RedBlackTree.fixInsertCase23L s node p with
                | none => rw [hstep] at h; simp at h
                | some st =>
                  rw [hstep] at h
                  dsimp only at h
                  obtain ⟨t1, hwf1, hmem1, heq1⟩ := fixInsertCase23L_WF hwf hnode
                    hpmem hstep
                  obtain ⟨t2, hwf2, heq2⟩ := ih h hwf1 hmem1
                  exact ⟨t2, hwf2, by rw [heq2, heq1]⟩
            | none =>
              rw [hun] at h
              dsimp only at h
              cases hstep : RedBlackTree.fixInsertCase23L s node p with
              | none => rw [hstep] at h; simp at h
              | some st =>
                rw [hstep] at h
                dsimp only at h
                obtain ⟨t1, hwf1, hmem1, heq1⟩ := fixInsertCase23L_WF hwf hnode
                  hpmem hstep
                obtain ⟨t2, hwf2, heq2⟩ := ih h hwf1 hmem1
                exact ⟨t2, hwf2, by rw [heq2, heq1]⟩
          · rw [if_neg hgpl] at h
            cases hul : (getNode s g).left with
            | some u =>
              rw [hul] at h
              dsimp only at h
              by_cases hucol : (getNode s u).color = Color.RED
              · rw [if_pos hucol] at h
                dsimp only at h
                obtain ⟨f, hv⟩ := hwf.1
                have hu : u ∈ t.idxs := child_mem hv hg (Or.inl hul)
                have hwf1 := setColor_WFt Color.BLACK hwf hpmem
                have hwf2 := setColor_WFt Color.BLACK hwf1
                  (by rw [recolorV_idxs]; exact hu)
                have hwf3 := setColor_WFt Color.RED hwf2
                  (by rw [recolorV_idxs, recolorV_idxs]; exact hg)
                obtain ⟨t2, hwf4, heq⟩ := ih h hwf3
                  (by rw [recolorV_idxs, recolorV_idxs, recolorV_idxs]
                      exact hg)
                exact ⟨t2, hwf4, by rw [heq]; simp [recolorV_inorder]⟩
              · rw [if_neg hucol] at h
                cases hstep : RedBlackTree.fixInsertCase23R s node p with
                | none => rw [hstep] at h; simp at h
                | some st =>
                  rw [hstep] at h
                  dsimp only at h
                  obtain ⟨t1, hwf1, hmem1, heq1⟩ := fixInsertCase23R_WF hwf hnode
                    hpmem hstep
                  obtain ⟨t2, hwf2, heq2⟩ := ih h hwf1 hmem1
                  exact ⟨t2, hwf2, by rw [heq2, heq1]⟩
            | none =>
              rw [hul] at h
              dsimp only at h
              cases hstep : RedBlackTree.fixInsertCase23R s node p with
              | none => rw [hstep] at h; simp at h
              | some st =>
                rw [hstep] at h
                dsimp only at h
                obtain ⟨t1, hwf1, hmem1, heq1⟩ := fixInsertCase23R_WF hwf hnode
                  hpmem hstep
                obtain ⟨t2, hwf2, heq2⟩ := ih h hwf1 hmem1
                exact ⟨t2, hwf2, by rw [heq2, heq1]⟩
      · rw [if_neg hcol] at h
        obtain rfl := Option.some.inj h
        exact ⟨t, hwf, rfl⟩

/-- `fixInsert` keeps the state well formed. -/
theorem fixInsert_WF {fuel : Nat} {s : RedBlackTree} {node : Nat}
    {s2 : RedBlackTree} {t : VTree}
    (h : RedBlackTree.fixInsert fuel s node = some s2)
    (hwf : WFt s t) (hnode : node ∈ t.idxs) :
    ∃ t2, WFt s2 t2 ∧ t2.inorder = t.inorder := by
  unfold RedBlackTree.fixInsert at h
  cases hloop : RedBlackTree.fixInsertLoop fuel s node with
  | none => rw [hloop] at h; simp at h
  | some s1 =>
    rw [hloop] at h
    dsimp only [Option.map] at h
    obtain ⟨t1, hwf1, heq1⟩ := fixInsertLoop_WF fuel hloop hwf hnode
    obtain rfl := Option.some.inj h
    obtain ⟨t2, hwf2, heq2⟩ := blackenRoot_WFt hwf1
    exact ⟨t2, hwf2, by rw [heq2, heq1]⟩

/-- The state produced by inserting into a rootless tree is well formed. -/
theorem insert_empty_WF (s : RedBlackTree) (k : Int) :
    WFt { setColor (addNode s ⟨k, Color.RED, none, none, none⟩).1
        s.nodes.length Color.BLACK with root := some s.nodes.length }
      (VTree.node s.nodes.length Color.BLACK k .leaf .leaf) := by
  have hg : getNode { setColor (addNode s
      ⟨k, Color.RED, none, none, none⟩).1
      s.nodes.length Color.BLACK with root := some s.nodes.length }
      s.nodes.length = ⟨k, Color.BLACK, none, none, none⟩ := by
    rw [getNode_rootUpd]
    rw [getNode_setColor_self (by simp [addNode])]
    rw [getNode_addNode_new]
  refine ⟨⟨1, ?_⟩, ?_, ?_, ?_⟩
  · simp [view, hg, view_none]
  · simp [VTree.idxs]
  · intro a ha
    have ha2 : a = s.nodes.length := by simpa [VTree.idxs] using ha
    subst ha2
    rw [rootUpd_length, setColor_length]
    simp [addNode]
  · simp [parentOkV, hg]

/-- `insert` keeps the state well formed. -/
theorem insert_WF {fuel : Nat} {s : RedBlackTree} {k : Int}
    {s2 : RedBlackTree} {t : VTree}
    (h : RedBlackTree.insert fuel s k = some s2) (hwf : WFt s t) :
    ∃ t2, WFt s2 t2 := by
  unfold RedBlackTree.insert at h
  cases hrt : s.root with
  | none =>
    rw [hrt] at h
    dsimp only at h
    obtain rfl := Option.some.inj h
    exact ⟨_, insert_empty_WF s k⟩
  | some root =>
    rw [hrt] at h
    dsimp only at h
    cases hd : RedBlackTree.descend fuel s root k with
    | none => rw [hd] at h; simp at h
    | some d =>
      rw [hd] at h
      dsimp only at h
      obtain ⟨f, hv⟩ := hwf.1
      rw [hrt] at hv
      have hdmem : d ∈ t.idxs := descend_mem hv hd
      have hnc := descend_stop hd
      obtain ⟨hwfa, hmema⟩ := attachNew_WFt hwf hdmem hnc
      obtain ⟨t2, hwf2, _⟩ := fixInsert_WF h hwfa hmema
      exact ⟨t2, hwf2⟩

/-!
## The effect of splicing a node out (`deleteNode`)
-/

/-- The view after `deleteNode s d` on a region containing `d` (whose
removed node has at most one child): the node is replaced by its only child
subtree (its left one when present, otherwise its right one). -/
def spliceV (d : Nat) : VTree → VTree
  | .leaf => .leaf
  | .node i c v l r =>
    if i = d then
      match l with
      | .leaf => r
      | .node j cj vj a b => .node j cj vj a b
    else .node i c v (spliceV d l) (spliceV d r)

theorem spliceV_node_eq (d i : Nat) (c : Color) (v : Int) (l r : VTree) :
    spliceV d (VTree.node i c v l r)
      = if i = d then
          (match l with
          | .leaf => r
          | .node j cj vj a b => VTree.node j cj vj a b)
        else VTree.node i c v (spliceV d l) (spliceV d r) := rfl

theorem spliceV_not_mem {d : Nat} :
    ∀ {t : VTree}, d ∉ t.idxs → spliceV d t = t := by
  intro t
  induction t with
  | leaf => intro _; rfl
  | node i c v l r ihl ihr =>
    intro hd
    simp only [VTree.idxs, List.mem_append, List.mem_cons] at hd
    push_neg at hd
    obtain ⟨h1, h2, h3⟩ := hd
    rw [spliceV_node_eq, if_neg (Ne.symm h2), ihl h1, ihr h3]

theorem spliceV_idxs_sub {d : Nat} :
    ∀ {t : VTree} {j : Nat}, j ∈ (spliceV d t).idxs → j ∈ t.idxs := by
  intro t
  induction t with
  | leaf => intro j hj; exact hj
  | node i c v l r ihl ihr =>
    intro j hj
    by_cases hid : i = d
    · rw [spliceV_node_eq, if_pos hid] at hj
      cases l with
      | leaf => simp [VTree.idxs, hj]
      | node j2 cj vj a b =>
        simp only [VTree.idxs, List.mem_append, List.mem_cons] at hj ⊢
        rcases hj with hj | hj | hj
        · exact Or.inl (by simp [VTree.idxs, hj])
        · exact Or.inl (by simp [VTree.idxs, hj])
        · exact Or.inl (by simp [VTree.idxs, hj])
    · rw [spliceV_node_eq, if_neg hid] at hj
      simp only [VTree.idxs, List.mem_append, List.mem_cons] at hj ⊢
      rcases hj with hj | hj | hj
      · exact Or.inl (ihl hj)
      · exact Or.inr (Or.inl hj)
      · exact Or.inr (Or.inr (ihr hj))

theorem spliceV_nodup {d : Nat} :
    ∀ {t : VTree}, t.idxs.Nodup → (spliceV d t).idxs.Nodup := by
  intro t
  induction t with
  | leaf => intro h; exact h
  | node i c v l r ihl ihr =>
    intro hnd
    obtain ⟨hndl, hndr, hinl, hinr, hlr⟩ := nodup_parts hnd
    by_cases hid : i = d
    · rw [spliceV_node_eq, if_pos hid]
      cases l with
      | leaf => exact hndr
      | node j2 cj vj a b => exact hndl
    · rw [spliceV_node_eq, if_neg hid]
      have hids : (VTree.node i c v (spliceV d l) (spliceV d r)).idxs
          = (spliceV d l).idxs ++ i :: (spliceV d r).idxs := rfl
      rw [hids, List.nodup_append]
      refine ⟨ihl hndl, List.nodup_cons.mpr ⟨?_, ihr hndr⟩, ?_⟩
      · intro hmem
        exact hinr (spliceV_idxs_sub hmem)
      · intro a ha hmem
        rcases List.mem_cons.mp hmem with h2 | h2
        · exact hinl (h2 ▸ spliceV_idxs_sub ha)
        · exact hlr a (spliceV_idxs_sub ha) (spliceV_idxs_sub h2)

theorem mem_idxs_left {j i : Nat} {c : Color} {v : Int} {l r : VTree}
    (hj : j ∈ l.idxs) : j ∈ (VTree.node i c v l r).idxs := by
  simp [VTree.idxs, hj]

theorem mem_idxs_right {j i : Nat} {c : Color} {v : Int} {l r : VTree}
    (hj : j ∈ r.idxs) : j ∈ (VTree.node i c v l r).idxs := by
  simp [VTree.idxs, hj]

/-- Parent consistency is insensitive to writes that leave the parent
fields of the view's nodes unchanged. -/
theorem parentOkV_untouched {t : VTree} {s s2 : RedBlackTree}
    {pexp : Option Nat} (hpok : parentOkV s t pexp = true)
    (hag : ∀ j ∈ t.idxs, (getNode s2 j).parent = (getNode s j).parent) :
    parentOkV s2 t pexp = true := by
  rw [parentOkV_congr_on hag]
  exact hpok

/-- How `deleteNode s d` transforms a whole tree region: the view is
restructured to `spliceV d t`, parent consistency is preserved, nodes
outside the region (other than the region root's external parent slot) are
untouched, the replacement child was a node of the region other than `d`,
the spliced node's own object is untouched, and the root pointer changes
exactly when `d` was the region root with no external parent. -/
theorem deleteNode_view {t : VTree} :
    ∀ {f : Nat} {s : RedBlackTree} {oi pexp : Option Nat} {d : Nat},
      view f s oi = some t → t.idxs.Nodup → parentOkV s t pexp = true →
      idxBound t s.nodes.length →
      (∀ p, pexp = some p → p ∉ t.idxs ∧ p < s.nodes.length) →
      d ∈ t.idxs →
      ((getNode s d).left = none ∨ (getNode s d).right = none) →
      view f (RedBlackTree.deleteNode s d).1
          (if oi = some d then (RedBlackTree.deleteNode s d).2 else oi)
        = some (spliceV d t)
      ∧ parentOkV (RedBlackTree.deleteNode s d).1 (spliceV d t) pexp = true
      ∧ (∀ j, j ∉ t.idxs → pexp ≠ some j →
          getNode (RedBlackTree.deleteNode s d).1 j = getNode s j)
      ∧ (∀ p, pexp = some p → oi ≠ some d →
          getNode (RedBlackTree.deleteNode s d).1 p = getNode s p)
      ∧ (∀ p, pexp = some p → oi = some d →
          ((getNode s p).left = some d →
            getNode (RedBlackTree.deleteNode s d).1 p
              = { getNode s p with left := (RedBlackTree.deleteNode s d).2 })
          ∧ (¬ (getNode s p).left = some d →
            getNode (RedBlackTree.deleteNode s d).1 p
              = { getNode s p with
                  right := (RedBlackTree.deleteNode s d).2 }))
      ∧ (oi = some d → pexp = none →
          (RedBlackTree.deleteNode s d).1.root
            = (RedBlackTree.deleteNode s d).2)
      ∧ ((oi = some d → pexp ≠ none) →
          (RedBlackTree.deleteNode s d).1.root = s.root)
      ∧ (∀ c2, (RedBlackTree.deleteNode s d).2 = some c2 →
          c2 ∈ t.idxs ∧ c2 ≠ d)
      ∧ (∀ j ∈ t.idxs, j ≠ d → j ∈ (spliceV d t).idxs)
      ∧ getNode (RedBlackTree.deleteNode s d).1 d = getNode s d := by
  induction t with
  | leaf =>
    intro f s oi pexp d _ _ _ _ _ hd _
    exact absurd hd (by simp [VTree.idxs])
  | node i c v l r ihl ihr =>
    intro f s oi pexp d hv hnd hpok hbd hpo hd hsp
    obtain ⟨f2, rfl, rfl, hc, hval, hl, hr⟩ := view_node_inv hv
    obtain ⟨hndl, hndr, hinl, hinr, hlr⟩ := nodup_parts hnd
    rw [parentOkV_node] at hpok
    obtain ⟨hpari, hpokl, hpokr⟩ := hpok
    obtain ⟨hilen, hbl, hbr⟩ := idxBound_node hbd
    by_cases hid : i = d
    · -- the splice happens at the root of this region
      subst hid
      cases hleft : (getNode s i).left with
      | some lc =>
        -- the kept child is the left one; the right child must be absent
        have hright : (getNode s i).right = none := by
          rcases hsp with h | h
          · exact absurd hleft (by simp [h])
          · exact h
        rw [hright, view_none] at hr
        obtain rfl := Option.some.inj hr
        rw [hleft] at hl
        cases l with
        | leaf => exact absurd (view_leaf_inv hl) (by simp)
        | node j2 cj vj a b =>
          obtain ⟨f3, hf3, hj2, hcj, hvj, hva, hvb⟩ := view_node_inv hl
          obtain rfl := Option.some.inj hj2
          rw [parentOkV_node] at hpokl
          obtain ⟨hparlc, hpoka, hpokb⟩ := hpokl
          obtain ⟨hnda, hndb, hlcna, hlcnb, hab⟩ := nodup_parts hndl
          have hlcmem : lc ∈ (VTree.node i c v
              (VTree.node lc cj vj a b) VTree.leaf).idxs := by
            simp [VTree.idxs]
          have hlclen : lc < s.nodes.length := hbd lc hlcmem
          have hlcne : lc ≠ i := fun h =>
            hinl (h ▸ (by simp [VTree.idxs] : lc ∈
              (VTree.node lc cj vj a b).idxs))
          have hsplice : spliceV i (VTree.node i c v
              (VTree.node lc cj vj a b) VTree.leaf)
              = VTree.node lc cj vj a b := by
            rw [spliceV_node_eq, if_pos rfl]
          cases hpar : (getNode s i).parent with
          | none =>
            have hpe : pexp = none := by rw [← hpari, hpar]
            subst hpe
            have hdel : RedBlackTree.deleteNode s i
                = (setParent { s with root := some lc } lc none, some lc) := by
              unfold RedBlackTree.deleteNode
              rw [hleft, hpar]
            have hvkept : view f2 (setParent { s with root := some lc } lc
                none) (some lc) = some (VTree.node lc cj vj a b) := by
              refine view_congr_on hl fun j hj => ?_
              exact getNode_setParent_fields _ lc none j
            have huntouched : ∀ j, j ≠ lc →
                getNode (setParent { s with root := some lc } lc none) j
                  = getNode s j := by
              intro j hj
              rw [getNode_setParent_ne (Ne.symm hj)]
              rfl
            rw [hsplice, hdel]
            dsimp only
            refine ⟨?_, ?_, ?_, ?_, ?_, ?_, ?_, ?_, ?_, ?_⟩
            · rw [if_pos rfl]
              exact view_mono hvkept (Nat.le_succ f2)
            · rw [parentOkV_node]
              refine ⟨?_, ?_, ?_⟩
              · have hlen2 : lc < ({ s with root := some lc }
                    : RedBlackTree).nodes.length := hlclen
                rw [getNode_setParent_self hlen2]
              · exact parentOkV_untouched hpoka fun j hj => by
                  rw [huntouched j (fun h => hlcna (h ▸ hj))]
              · exact parentOkV_untouched hpokb fun j hj => by
                  rw [huntouched j (fun h => hlcnb (h ▸ hj))]
            · intro j hj _
              exact huntouched j (fun h => hj (h ▸ hlcmem))
            · intro p hp
              exact absurd hp (by simp)
            · intro p hp
              exact absurd hp (by simp)
            · intro _ _
              rw [setParent_root]
            · intro himp
              exact absurd rfl (himp rfl)
            · intro c2 hc2
              obtain rfl := Option.some.inj hc2
              exact ⟨hlcmem, hlcne⟩
            · intro j hj hjne
              have hj2 : j ∈ (VTree.node lc cj vj a b).idxs
                  ++ i :: VTree.leaf.idxs := hj
              rcases List.mem_append.mp hj2 with h | h
              · exact h
              · rcases List.mem_cons.mp h with h3 | h3
                · exact absurd h3 hjne
                · exact absurd h3 (List.not_mem_nil j)
            · exact huntouched i (Ne.symm hlcne)
          | some p =>
            have hpe : pexp = some p := by rw [← hpari, hpar]
            subst hpe
            obtain ⟨hpnotin, hplen⟩ := hpo p rfl
            have hpne : p ≠ i := fun h => hpnotin (h ▸ hd)
            have hpnlc : p ≠ lc := fun h => hpnotin (h ▸ hlcmem)
            have hdel : RedBlackTree.deleteNode s i
                = (setParent (if (getNode s p).left = some i then
                    setLeft s p (some lc) else setRight s p (some lc))
                    lc (some p), some lc) := by
              unfold RedBlackTree.deleteNode
              rw [hleft, hpar]
            have huntouched : ∀ j, j ≠ lc → j ≠ p →
                getNode (setParent (if (getNode s p).left = some i then
                    setLeft s p (some lc) else setRight s p (some lc))
                    lc (some p)) j = getNode s j := by
              intro j hjlc hjp
              rw [getNode_setParent_ne (Ne.symm hjlc)]
              split
              · rw [getNode_setLeft_ne (Ne.symm hjp)]
              · rw [getNode_setRight_ne (Ne.symm hjp)]
            have hs1lc : getNode (if (getNode s p).left = some i then
                setLeft s p (some lc) else setRight s p (some lc)) lc
                = getNode s lc := by
              split
              · rw [getNode_setLeft_ne hpnlc]
              · rw [getNode_setRight_ne hpnlc]
            have hs2lc : getNode (setParent (if (getNode s p).left = some i
                then setLeft s p (some lc) else setRight s p (some lc))
                lc (some p)) lc
                = { getNode s lc with parent := some p } := by
              rw [getNode_setParent_self (show lc < _ from by
                split <;> simpa [setLeft_length, setRight_length]
                  using hlclen), hs1lc]
            have hvkept : view f2 (setParent (if (getNode s p).left = some i
                then setLeft s p (some lc) else setRight s p (some lc))
                lc (some p)) (some lc)
                = some (VTree.node lc cj vj a b) := by
              refine view_congr_on hl fun j hj => ?_
              have hjp : j ≠ p := fun h => hpnotin (h ▸ mem_idxs_left hj)
              by_cases hjlc : j = lc
              · subst hjlc
                rw [hs2lc]
                exact ⟨rfl, rfl, rfl, rfl⟩
              · rw [huntouched j hjlc hjp]
                exact ⟨rfl, rfl, rfl, rfl⟩
            rw [hsplice, hdel]
            dsimp only
            refine ⟨?_, ?_, ?_, ?_, ?_, ?_, ?_, ?_, ?_, ?_⟩
            · rw [if_pos rfl]
              exact view_mono hvkept (Nat.le_succ f2)
            · rw [parentOkV_node]
              refine ⟨?_, ?_, ?_⟩
              · rw [hs2lc]
              · exact parentOkV_untouched hpoka fun j hj => by
                  rw [huntouched j (fun h => hlcna (h ▸ hj))
                    (fun h => hpnotin (h ▸ mem_idxs_left
                      (mem_idxs_left hj)))]
              · exact parentOkV_untouched hpokb fun j hj => by
                  rw [huntouched j (fun h => hlcnb (h ▸ hj))
                    (fun h => hpnotin (h ▸ mem_idxs_left
                      (mem_idxs_right hj)))]
            · intro j hj hjp
              have hjp2 : j ≠ p := fun h => hjp (by rw [h])
              exact huntouched j (fun h => hj (h ▸ hlcmem)) hjp2
            · intro p2 hp2 hoi
              exact absurd rfl hoi
            · intro p2 hp2 _
              obtain rfl := Option.some.inj hp2
              constructor
              · intro hslot
                rw [getNode_setParent_ne (Ne.symm hpnlc), if_pos hslot,
                  getNode_setLeft_self hplen]
              · intro hslot
                rw [getNode_setParent_ne (Ne.symm hpnlc), if_neg hslot,
                  getNode_setRight_self hplen]
            · intro _ hpe
              exact absurd hpe (by simp)
            · intro _
              rw [setParent_root]
              split <;> first | rw [setLeft_root] | rw [setRight_root]
            · intro c2 hc2
              obtain rfl := Option.some.inj hc2
              exact ⟨hlcmem, hlcne⟩
            · intro j hj hjne
              have hj2 : j ∈ (VTree.node lc cj vj a b).idxs
                  ++ i :: VTree.leaf.idxs := hj
              rcases List.mem_append.mp hj2 with h | h
              · exact h
              · rcases List.mem_cons.mp h with h3 | h3
                · exact absurd h3 hjne
                · exact absurd h3 (List.not_mem_nil j)
            · exact huntouched i (Ne.symm hlcne) (Ne.symm hpne)
      | none =>
        -- no left child: the kept child is the right one (possibly absent)
        rw [hleft, view_none] at hl
        obtain rfl := Option.some.inj hl
        have hsplice : spliceV i (VTree.node i c v VTree.leaf r) = r := by
          rw [spliceV_node_eq, if_pos rfl]
        cases hpar : (getNode s i).parent with
        | none =>
          have hpe : pexp = none := by rw [← hpari, hpar]
          subst hpe
          cases hright : (getNode s i).right with
          | none =>
            rw [hright, view_none] at hr
            obtain rfl := Option.some.inj hr
            have hdel : RedBlackTree.deleteNode s i
                = ({ s with root := none }, none) := by
              unfold RedBlackTree.deleteNode
              rw [hleft, hpar, hright]
            rw [hsplice, hdel]
            dsimp only
            refine ⟨?_, ?_, ?_, ?_, ?_, ?_, ?_, ?_, ?_, ?_⟩
            · rw [if_pos rfl]
              exact view_none _ _
            · rfl
            · intro j _ _
              rfl
            · intro p hp
              exact absurd hp (by simp)
            · intro p hp
              exact absurd hp (by simp)
            · intro _ _
              rfl
            · intro himp
              exact absurd rfl (himp rfl)
            · intro c2 hc2
              exact absurd hc2 (by simp)
            · intro j hj hjne
              have : j = i := by simpa [VTree.idxs] using hj
              exact absurd this hjne
            · rfl
          | some rc =>
            rw [hright] at hr
            cases r with
            | leaf => exact absurd (view_leaf_inv hr) (by simp)
            | node j2 cj vj a b =>
              obtain ⟨f3, hf3, hj2, hcj, hvj, hva, hvb⟩ := view_node_inv hr
              obtain rfl := Option.some.inj hj2
              rw [parentOkV_node] at hpokr
              obtain ⟨hparrc, hpoka, hpokb⟩ := hpokr
              obtain ⟨hnda, hndb, hrcna, hrcnb, hab⟩ := nodup_parts hndr
              have hrcmem : rc ∈ (VTree.node i c v VTree.leaf
                  (VTree.node rc cj vj a b)).idxs := by
                simp [VTree.idxs]
              have hrclen : rc < s.nodes.length := hbd rc hrcmem
              have hrcne : rc ≠ i := fun h =>
                hinr (h ▸ (by simp [VTree.idxs] : rc ∈
                  (VTree.node rc cj vj a b).idxs))
              have hdel : RedBlackTree.deleteNode s i
                  = (setParent { s with root := some rc } rc none,
                      some rc) := by
                unfold RedBlackTree.deleteNode
                rw [hleft, hpar, hright]
              have hvkept : view f2 (setParent { s with root := some rc }
                  rc none) (some rc) = some (VTree.node rc cj vj a b) := by
                refine view_congr_on hr fun j hj => ?_
                exact getNode_setParent_fields _ rc none j
              have huntouched : ∀ j, j ≠ rc →
                  getNode (setParent { s with root := some rc } rc none) j
                    = getNode s j := by
                intro j hj
                rw [getNode_setParent_ne (Ne.symm hj)]
                rfl
              rw [hsplice, hdel]
              dsimp only
              refine ⟨?_, ?_, ?_, ?_, ?_, ?_, ?_, ?_, ?_, ?_⟩
              · rw [if_pos rfl]
                exact view_mono hvkept (Nat.le_succ f2)
              · rw [parentOkV_node]
                refine ⟨?_, ?_, ?_⟩
                · have hlen2 : rc < ({ s with root := some rc }
                      : RedBlackTree).nodes.length := hrclen
                  rw [getNode_setParent_self hlen2]
                · exact parentOkV_untouched hpoka fun j hj => by
                    rw [huntouched j (fun h => hrcna (h ▸ hj))]
                · exact parentOkV_untouched hpokb fun j hj => by
                    rw [huntouched j (fun h => hrcnb (h ▸ hj))]
              · intro j hj _
                exact huntouched j (fun h => hj (h ▸ hrcmem))
              · intro p hp
                exact absurd hp (by simp)
              · intro p hp
                exact absurd hp (by simp)
              · intro _ _
                rw [setParent_root]
              · intro himp
                exact absurd rfl (himp rfl)
              · intro c2 hc2
                obtain rfl := Option.some.inj hc2
                exact ⟨hrcmem, hrcne⟩
              · intro j hj hjne
                have hj2 : j ∈ VTree.leaf.idxs
                    ++ i :: (VTree.node rc cj vj a b).idxs := hj
                rcases List.mem_append.mp hj2 with h | h
                · exact absurd h (List.not_mem_nil j)
                · rcases List.mem_cons.mp h with h3 | h3
                  · exact absurd h3 hjne
                  · exact h3
              · exact huntouched i (Ne.symm hrcne)
        | some p =>
          have hpe : pexp = some p := by rw [← hpari, hpar]
          subst hpe
          obtain ⟨hpnotin, hplen⟩ := hpo p rfl
          have hpne : p ≠ i := fun h => hpnotin (h ▸ hd)
          cases hright : (getNode s i).right with
          | none =>
            rw [hright, view_none] at hr
            obtain rfl := Option.some.inj hr
            have hdel : RedBlackTree.deleteNode s i
                = ((if (getNode s p).left = some i then
                    setLeft s p none else setRight s p none), none) := by
              unfold RedBlackTree.deleteNode
              rw [hleft, hpar, hright]
            have huntouched : ∀ j, j ≠ p →
                getNode (if (getNode s p).left = some i then
                    setLeft s p none else setRight s p none) j
                  = getNode s j := by
              intro j hjp
              split
              · rw [getNode_setLeft_ne (Ne.symm hjp)]
              · rw [getNode_setRight_ne (Ne.symm hjp)]
            rw [hsplice, hdel]
            dsimp only
            refine ⟨?_, ?_, ?_, ?_, ?_, ?_, ?_, ?_, ?_, ?_⟩
            · rw [if_pos rfl]
              exact view_none _ _
            · rfl
            · intro j _ hjp
              exact huntouched j (fun h => hjp (by rw [h]))
            · intro p2 hp2 hoi
              exact absurd rfl hoi
            · intro p2 hp2 _
              obtain rfl := Option.some.inj hp2
              constructor
              · intro hslot
                rw [if_pos hslot, getNode_setLeft_self hplen]
              · intro hslot
                rw [if_neg hslot, getNode_setRight_self hplen]
            · intro _ hpe
              exact absurd hpe (by simp)
            · intro _
              split <;> first | rw [setLeft_root] | rw [setRight_root]
            · intro c2 hc2
              exact absurd hc2 (by simp)
            · intro j hj hjne
              have : j = i := by simpa [VTree.idxs] using hj
              exact absurd this hjne
            · exact huntouched i (Ne.symm hpne)
          | some rc =>
            rw [hright] at hr
            cases r with
            | leaf => exact absurd (view_leaf_inv hr) (by simp)
            | node j2 cj vj a b =>
              obtain ⟨f3, hf3, hj2, hcj, hvj, hva, hvb⟩ := view_node_inv hr
              obtain rfl := Option.some.inj hj2
              rw [parentOkV_node] at hpokr
              obtain ⟨hparrc, hpoka, hpokb⟩ := hpokr
              obtain ⟨hnda, hndb, hrcna, hrcnb, hab⟩ := nodup_parts hndr
              have hrcmem : rc ∈ (VTree.node i c v VTree.leaf
                  (VTree.node rc cj vj a b)).idxs := by
                simp [VTree.idxs]
              have hrclen : rc < s.nodes.length := hbd rc hrcmem
              have hrcne : rc ≠ i := fun h =>
                hinr (h ▸ (by simp [VTree.idxs] : rc ∈
                  (VTree.node rc cj vj a b).idxs))
              have hpnrc : p ≠ rc := fun h => hpnotin (h ▸ hrcmem)
              have hdel : RedBlackTree.deleteNode s i
                  = (setParent (if (getNode s p).left = some i then
                      setLeft s p (some rc) else setRight s p (some rc))
                      rc (some p), some rc) := by
                unfold RedBlackTree.deleteNode
                rw [hleft, hpar, hright]
              have huntouched : ∀ j, j ≠ rc → j ≠ p →
                  getNode (setParent (if (getNode s p).left = some i then
                      setLeft s p (some rc) else setRight s p (some rc))
                      rc (some p)) j = getNode s j := by
                intro j hjrc hjp
                rw [getNode_setParent_ne (Ne.symm hjrc)]
                split
                · rw [getNode_setLeft_ne (Ne.symm hjp)]
                · rw [getNode_setRight_ne (Ne.symm hjp)]
              have hs1rc : getNode (if (getNode s p).left = some i then
                  setLeft s p (some rc) else setRight s p (some rc)) rc
                  = getNode s rc := by
                split
                · rw [getNode_setLeft_ne hpnrc]
                · rw [getNode_setRight_ne hpnrc]
              have hs2rc : getNode (setParent (if (getNode s p).left
                  = some i then setLeft s p (some rc)
                  else setRight s p (some rc)) rc (some p)) rc
                  = { getNode s rc with parent := some p } := by
                rw [getNode_setParent_self (show rc < _ from by
                  split <;> simpa [setLeft_length, setRight_length]
                    using hrclen), hs1rc]
              have hvkept : view f2 (setParent (if (getNode s p).left
                  = some i then setLeft s p (some rc)
                  else setRight s p (some rc)) rc (some p)) (some rc)
                  = some (VTree.node rc cj vj a b) := by
                refine view_congr_on hr fun j hj => ?_
                have hjp : j ≠ p := fun h =>
                  hpnotin (h ▸ mem_idxs_right hj)
                by_cases hjrc : j = rc
                · subst hjrc
                  rw [hs2rc]
                  exact ⟨rfl, rfl, rfl, rfl⟩
                · rw [huntouched j hjrc hjp]
                  exact ⟨rfl, rfl, rfl, rfl⟩
              rw [hsplice, hdel]
              dsimp only
              refine ⟨?_, ?_, ?_, ?_, ?_, ?_, ?_, ?_, ?_, ?_⟩
              · rw [if_pos rfl]
                exact view_mono hvkept (Nat.le_succ f2)
              · rw [parentOkV_node]
                refine ⟨?_, ?_, ?_⟩
                · rw [hs2rc]
                · exact parentOkV_untouched hpoka fun j hj => by
                    rw [huntouched j (fun h => hrcna (h ▸ hj))
                      (fun h => hpnotin (h ▸ mem_idxs_right
                        (mem_idxs_left hj)))]
                · exact parentOkV_untouched hpokb fun j hj => by
                    rw [huntouched j (fun h => hrcnb (h ▸ hj))
                      (fun h => hpnotin (h ▸ mem_idxs_right
                        (mem_idxs_right hj)))]
              · intro j hj hjp
                have hjp2 : j ≠ p := fun h => hjp (by rw [h])
                exact huntouched j (fun h => hj (h ▸ hrcmem)) hjp2
              · intro p2 hp2 hoi
                exact absurd rfl hoi
              · intro p2 hp2 _
                obtain rfl := Option.some.inj hp2
                constructor
                · intro hslot
                  rw [getNode_setParent_ne (Ne.symm hpnrc), if_pos hslot,
                    getNode_setLeft_self hplen]
                · intro hslot
                  rw [getNode_setParent_ne (Ne.symm hpnrc), if_neg hslot,
                    getNode_setRight_self hplen]
              · intro _ hpe
                exact absurd hpe (by simp)
              · intro _
                rw [setParent_root]
                split <;> first | rw [setLeft_root] | rw [setRight_root]
              · intro c2 hc2
                obtain rfl := Option.some.inj hc2
                exact ⟨hrcmem, hrcne⟩
              · intro j hj hjne
                have hj2 : j ∈ VTree.leaf.idxs
                    ++ i :: (VTree.node rc cj vj a b).idxs := hj
                rcases List.mem_append.mp hj2 with h | h
                · exact absurd h (List.not_mem_nil j)
                · rcases List.mem_cons.mp h with h3 | h3
                  · exact absurd h3 hjne
                  · exact h3
              · exact huntouched i (Ne.symm hrcne) (Ne.symm hpne)
    · -- the splice happens strictly inside a subtree
      have himem : i ∈ (VTree.node i c v l r).idxs := by simp [VTree.idxs]
      have hdmem : d ∈ l.idxs ∨ d ∈ r.idxs := by
        have hd2 : d ∈ l.idxs ∨ d = i ∨ d ∈ r.idxs := by
          simpa [VTree.idxs] using hd
        rcases hd2 with h | h | h
        · exact Or.inl h
        · exact absurd h.symm hid
        · exact Or.inr h
      rcases hdmem with hdl | hdr
      · have hpol : ∀ p, some i = some p →
            p ∉ l.idxs ∧ p < s.nodes.length := by
          intro p hp
          obtain rfl := Option.some.inj hp
          exact ⟨hinl, hilen⟩
        obtain ⟨c1, c2, c3, c4, c5, c6, c7, c8, c9, c10⟩ :=
          ihl hl hndl hpokl hbl hpol hdl hsp
        have hnotr : d ∉ r.idxs := hlr d hdl
        have hruntouched : ∀ j ∈ r.idxs,
            getNode (RedBlackTree.deleteNode s d).1 j = getNode s j := by
          intro j hj
          exact c3 j (fun h => hlr j h hj) (fun h =>
            hinr ((Option.some.inj h) ▸ hj))
        have hvr2 : view f2 (RedBlackTree.deleteNode s d).1
            (getNode s i).right = some r :=
          view_untouched hr hruntouched
        have hroot2 : (RedBlackTree.deleteNode s d).1.root = s.root :=
          c7 (fun _ => by simp)
        have hsplice : spliceV d (VTree.node i c v l r)
            = VTree.node i c v (spliceV d l) r := by
          rw [spliceV_node_eq, if_neg hid, spliceV_not_mem hnotr]
        have hfields :
            (getNode (RedBlackTree.deleteNode s d).1 i).left
              = (if (getNode s i).left = some d
                 then (RedBlackTree.deleteNode s d).2
                 else (getNode s i).left)
            ∧ (getNode (RedBlackTree.deleteNode s d).1 i).right
                = (getNode s i).right
            ∧ (getNode (RedBlackTree.deleteNode s d).1 i).color
                = (getNode s i).color
            ∧ (getNode (RedBlackTree.deleteNode s d).1 i).value
                = (getNode s i).value
            ∧ (getNode (RedBlackTree.deleteNode s d).1 i).parent
                = (getNode s i).parent := by
          by_cases hod : (getNode s i).left = some d
          · rw [(c5 i rfl hod).1 hod]
            simp [hod]
          · rw [c4 i rfl hod]
            simp [hod]
        obtain ⟨hfl, hfr, hfc, hfv, hfp⟩ := hfields
        refine ⟨?_, ?_, ?_, ?_, ?_, ?_, ?_, ?_, ?_, c10⟩
        · rw [if_neg (fun h => hid (Option.some.inj h)), hsplice]
          simp [view, hfl, hfr, hfc, hfv, c1, hvr2, hc, hval]
        · rw [hsplice, parentOkV_node]
          refine ⟨?_, c2, ?_⟩
          · rw [hfp]
            exact hpari
          · exact parentOkV_untouched hpokr fun j hj => by
              rw [hruntouched j hj]
        · intro j hj hpj
          refine c3 j (fun h => hj (by simp [VTree.idxs, h])) ?_
          intro h
          exact hj ((Option.some.inj h) ▸ himem)
        · intro p hp _
          obtain ⟨hpnotin, hplen⟩ := hpo p hp
          refine c3 p (fun h => hpnotin (by simp [VTree.idxs, h])) ?_
          intro h
          exact hpnotin ((Option.some.inj h) ▸ himem)
        · intro p hp hoi
          exact absurd (Option.some.inj hoi) hid
        · intro hoi
          exact absurd (Option.some.inj hoi) hid
        · intro _
          exact hroot2
        · intro c2m hc2
          obtain ⟨hmem, hne⟩ := c8 c2m hc2
          exact ⟨by simp [VTree.idxs, hmem], hne⟩
        · intro j hj hjne
          rw [hsplice]
          have hj2 : j ∈ l.idxs ∨ j = i ∨ j ∈ r.idxs := by
            simpa [VTree.idxs] using hj
          simp only [VTree.idxs, List.mem_append, List.mem_cons]
          rcases hj2 with h | h | h
          · exact Or.inl (c9 j h hjne)
          · exact Or.inr (Or.inl h)
          · exact Or.inr (Or.inr h)
      · have hpor : ∀ p, some i = some p →
            p ∉ r.idxs ∧ p < s.nodes.length := by
          intro p hp
          obtain rfl := Option.some.inj hp
          exact ⟨hinr, hilen⟩
        obtain ⟨c1, c2, c3, c4, c5, c6, c7, c8, c9, c10⟩ :=
          ihr hr hndr hpokr hbr hpor hdr hsp
        have hnotl : d ∉ l.idxs := fun h => hlr d h hdr
        have hluntouched : ∀ j ∈ l.idxs,
            getNode (RedBlackTree.deleteNode s d).1 j = getNode s j := by
          intro j hj
          exact c3 j (fun h => hlr j hj h) (fun h =>
            hinl ((Option.some.inj h) ▸ hj))
        have hvl2 : view f2 (RedBlackTree.deleteNode s d).1
            (getNode s i).left = some l :=
          view_untouched hl hluntouched
        have hroot2 : (RedBlackTree.deleteNode s d).1.root = s.root :=
          c7 (fun _ => by simp)
        have hsplice : spliceV d (VTree.node i c v l r)
            = VTree.node i c v l (spliceV d r) := by
          rw [spliceV_node_eq, if_neg hid, spliceV_not_mem hnotl]
        have hnotleft : ¬ (getNode s i).left = some d := by
          intro h
          rw [h] at hl
          exact hnotl (root_mem_of_view hl)
        have hfields :
            (getNode (RedBlackTree.deleteNode s d).1 i).right
              = (if (getNode s i).right = some d
                 then (RedBlackTree.deleteNode s d).2
                 else (getNode s i).right)
            ∧ (getNode (RedBlackTree.deleteNode s d).1 i).left
                = (getNode s i).left
            ∧ (getNode (RedBlackTree.deleteNode s d).1 i).color
                = (getNode s i).color
            ∧ (getNode (RedBlackTree.deleteNode s d).1 i).value
                = (getNode s i).value
            ∧ (getNode (RedBlackTree.deleteNode s d).1 i).parent
                = (getNode s i).parent := by
          by_cases hod : (getNode s i).right = some d
          · rw [(c5 i rfl hod).2 hnotleft]
            simp [hod]
          · rw [c4 i rfl hod]
            simp [hod]
        obtain ⟨hfr, hfl, hfc, hfv, hfp⟩ := hfields
        refine ⟨?_, ?_, ?_, ?_, ?_, ?_, ?_, ?_, ?_, c10⟩
        · rw [if_neg (fun h => hid (Option.some.inj h)), hsplice]
          simp [view, hfl, hfr, hfc, hfv, c1, hvl2, hc, hval]
        · rw [hsplice, parentOkV_node]
          refine ⟨?_, ?_, c2⟩
          · rw [hfp]
            exact hpari
          · exact parentOkV_untouched hpokl fun j hj => by
              rw [hluntouched j hj]
        · intro j hj hpj
          refine c3 j (fun h => hj (by simp [VTree.idxs, h])) ?_
          intro h
          exact hj ((Option.some.inj h) ▸ himem)
        · intro p hp _
          obtain ⟨hpnotin, hplen⟩ := hpo p hp
          refine c3 p (fun h => hpnotin (by simp [VTree.idxs, h])) ?_
          intro h
          exact hpnotin ((Option.some.inj h) ▸ himem)
        · intro p hp hoi
          exact absurd (Option.some.inj hoi) hid
        · intro hoi
          exact absurd (Option.some.inj hoi) hid
        · intro _
          exact hroot2
        · intro c2m hc2
          obtain ⟨hmem, hne⟩ := c8 c2m hc2
          exact ⟨by simp [VTree.idxs, hmem], hne⟩
        · intro j hj hjne
          rw [hsplice]
          have hj2 : j ∈ l.idxs ∨ j = i ∨ j ∈ r.idxs := by
            simpa [VTree.idxs] using hj
          simp only [VTree.idxs, List.mem_append, List.mem_cons]
          rcases hj2 with h | h | h
          · exact Or.inl h
          · exact Or.inr (Or.inl h)
          · exact Or.inr (Or.inr (c9 j h hjne))

theorem getNode_setColor_left (s : RedBlackTree) (j : Nat) (c : Color)
    (i : Nat) :
    (getNode (setColor s j c) i).left = (getNode s i).left := by
  by_cases h : j = i
  · subst h
    by_cases hlen : j < s.nodes.length
    · rw [getNode_setColor_self hlen]
    · rw [setColor, setNode_oob (le_of_not_lt hlen)]
  · rw [getNode_setColor_ne h]

theorem getNode_setColor_right (s : RedBlackTree) (j : Nat) (c : Color)
    (i : Nat) :
    (getNode (setColor s j c) i).right = (getNode s i).right := by
  by_cases h : j = i
  · subst h
    by_cases hlen : j < s.nodes.length
    · rw [getNode_setColor_self hlen]
    · rw [setColor, setNode_oob (le_of_not_lt hlen)]
  · rw [getNode_setColor_ne h]

theorem deleteNode_length (s : RedBlackTree) (d : Nat) :
    (RedBlackTree.deleteNode s d).1.nodes.length = s.nodes.length := by
  unfold RedBlackTree.deleteNode
  cases hl : (getNode s d).left with
  | some lc =>
    dsimp only
    cases hp : (getNode s d).parent with
    | none => simp [setParent_length]
    | some p =>
      dsimp only
      split <;> simp [setParent_length, setLeft_length, setRight_length]
  | none =>
    dsimp only
    cases hp : (getNode s d).parent with
    | none =>
      dsimp only
      cases hr : (getNode s d).right with
      | none => rfl
      | some rc => simp [setParent_length]
    | some p =>
      dsimp only
      cases hr : (getNode s d).right with
      | none =>
        dsimp only
        split <;> simp [setLeft_length, setRight_length]
      | some rc =>
        dsimp only
        split <;> simp [setParent_length, setLeft_length, setRight_length]

/-- Splicing a node with at most one child out of a well-formed tree keeps
the state well formed; the replacement child and every other surviving node
remain in the tree; the spliced node's own object is untouched. -/
theorem deleteNode_WFt {s : RedBlackTree} {t : VTree} {d : Nat}
    (hwf : WFt s t) (hd : d ∈ t.idxs)
    (hsp : (getNode s d).left = none ∨ (getNode s d).right = none) :
    WFt (RedBlackTree.deleteNode s d).1 (spliceV d t)
    ∧ (∀ c2, (RedBlackTree.deleteNode s d).2 = some c2 →
        c2 ∈ (spliceV d t).idxs)
    ∧ (∀ j ∈ t.idxs, j ≠ d → j ∈ (spliceV d t).idxs)
    ∧ getNode (RedBlackTree.deleteNode s d).1 d = getNode s d := by
  obtain ⟨⟨f, hv⟩, hnd, hbd, hpok⟩ := hwf
  have hpo : ∀ p, (none : Option Nat) = some p →
      p ∉ t.idxs ∧ p < s.nodes.length := fun p hp => absurd hp (by simp)
  obtain ⟨c1, c2, c3, c4, c5, c6, c7, c8, c9, c10⟩ :=
    deleteNode_view hv hnd hpok hbd hpo hd hsp
  refine ⟨⟨⟨f, ?_⟩, spliceV_nodup hnd, ?_, c2⟩, ?_, c9, c10⟩
  · by_cases hroot : s.root = some d
    · rw [c6 hroot rfl]
      simpa [hroot] using c1
    · rw [c7 (fun hc => absurd hc hroot)]
      simpa [hroot] using c1
  · intro a ha
    rw [deleteNode_length]
    exact hbd a (spliceV_idxs_sub ha)
  · intro c2m hc2
    obtain ⟨hmem, hne⟩ := c8 c2m hc2
    exact c9 c2m hmem hne

/-- The `fixDelete` loop keeps the state well formed. -/
theorem fixDeleteLoop_WF :
    ∀ (fuel : Nat) {s : RedBlackTree} {node current : Nat}
      {s2 : RedBlackTree} {t : VTree},
      RedBlackTree.fixDeleteLoop fuel s node current = some s2 →
      WFt s t → node ∈ t.idxs → current ∈ t.idxs →
      ∃ t2, WFt s2 t2 ∧ t2.inorder = t.inorder := by
  intro fuel
  induction fuel with
  | zero =>
    intro s node current s2 t h _ _ _
    simp [RedBlackTree.fixDeleteLoop] at h
  | succ fuel ih =>
    intro s node current s2 t h hwf hnode hcur
    rw [RedBlackTree.fixDeleteLoop] at h
    by_cases hroot : s.root = some current
    · rw [if_pos hroot] at h
      obtain rfl := Option.some.inj h
      exact ⟨t, hwf, rfl⟩
    · rw [if_neg hroot] at h
      cases hpar : (getNode s current).parent with
      | none => rw [hpar] at h; simp at h
      | some parent =>
        rw [hpar] at h
        dsimp only at h
        have hparmem : parent ∈ t.idxs := by
          rcases parent_mem hwf.2.2.2 hcur hpar with hcon | hm
          · exact absurd hcon (by simp)
          · exact hm
        obtain ⟨f, hv⟩ := hwf.1
        by_cases hlc : (getNode s parent).left = some current
        · simp only [if_pos hlc] at h
          cases hsib : (getNode s parent).right with
          | none =>
            rw [hsib] at h
            dsimp only at h
            exact ih h hwf hnode hparmem
          | some sib =>
            rw [hsib] at h
            dsimp only at h
            have hsibmem : sib ∈ t.idxs := child_mem hv hparmem
              (Or.inr hsib)
            by_cases hsibred : (getNode s sib).color = Color.RED
            · rw [if_pos hsibred] at h
              have hwf1 := setColor_WFt Color.BLACK hwf hsibmem
              have hwf2 := setColor_WFt Color.RED hwf1
                (by rw [recolorV_idxs]; exact hparmem)
              have hr2 : (getNode (setColor (setColor s sib Color.BLACK)
                  parent Color.RED) parent).right = some sib := by
                rw [getNode_setColor_right, getNode_setColor_right]
                exact hsib
              have hwf3 := rotateLeft_WFt hwf2
                (by rw [recolorV_idxs, recolorV_idxs]; exact hparmem) hr2
              obtain ⟨t2, hwf4, heq⟩ := ih h hwf3
                (by simp only [rotALV_idxs, recolorV_idxs]; exact hnode)
                (by simp only [rotALV_idxs, recolorV_idxs]; exact hnode)
              exact ⟨t2, hwf4, by
                rw [heq]
                simp [rotALV_inorder, recolorV_inorder]⟩
            · rw [if_neg hsibred] at h
              cases hsl : (getNode s sib).left with
              | none =>
                rw [hsl] at h
                dsimp only at h
                cases hsr : (getNode s sib).right with
                | none =>
                  rw [hsr] at h
                  dsimp only at h
                  by_cases hc2 : (getNode s sib).color = Color.BLACK ∧
                      Color.BLACK = Color.BLACK ∧ Color.BLACK = Color.BLACK
                  · rw [if_pos hc2] at h
                    obtain ⟨t2, hwf4, heq⟩ := ih h
                      (setColor_WFt Color.RED hwf hsibmem)
                      (by rw [recolorV_idxs]; exact hnode)
                      (by rw [recolorV_idxs]; exact hparmem)
                    exact ⟨t2, hwf4, by rw [heq, recolorV_inorder]⟩
                  · rw [if_neg hc2] at h
                    by_cases hblk : (getNode s sib).color = Color.BLACK
                    · rw [if_pos hblk] at h
                      rw [if_neg (by simp)] at h
                      rw [if_neg (by simp)] at h
                      exact ih h hwf hnode hcur
                    · rw [if_neg hblk] at h
                      exact ih h hwf hnode hcur
                | some sr =>
                  rw [hsr] at h
                  dsimp only at h
                  have hsrmem : sr ∈ t.idxs := child_mem hv hsibmem
                    (Or.inr hsr)
                  by_cases hc2 : (getNode s sib).color = Color.BLACK ∧
                      Color.BLACK = Color.BLACK ∧
                      (getNode s sr).color = Color.BLACK
                  · rw [if_pos hc2] at h
                    obtain ⟨t2, hwf4, heq⟩ := ih h
                      (setColor_WFt Color.RED hwf hsibmem)
                      (by rw [recolorV_idxs]; exact hnode)
                      (by rw [recolorV_idxs]; exact hparmem)
                    exact ⟨t2, hwf4, by rw [heq, recolorV_inorder]⟩
                  · rw [if_neg hc2] at h
                    by_cases hblk : (getNode s sib).color = Color.BLACK
                    · rw [if_pos hblk] at h
                      rw [if_neg (by simp)] at h
                      by_cases h3b : (getNode s sr).color = Color.RED
                      · rw [if_pos h3b] at h
                        obtain rfl := Option.some.inj h
                        have hwf1 := setColor_WFt
                          ((getNode s parent).color) hwf hsibmem
                        have hwf2 := setColor_WFt Color.BLACK hwf1
                          (by rw [recolorV_idxs]; exact hparmem)
                        have hwf3 := setColor_WFt Color.BLACK hwf2
                          (by rw [recolorV_idxs, recolorV_idxs]
                              exact hsrmem)
                        have hr3 : (getNode (setColor (setColor (setColor s
                            sib (getNode s parent).color) parent
                            Color.BLACK) sr Color.BLACK) parent).right
                            = some sib := by
                          rw [getNode_setColor_right, getNode_setColor_right,
                            getNode_setColor_right]
                          exact hsib
                        exact ⟨_, rotateLeft_WFt hwf3
                          (by rw [recolorV_idxs, recolorV_idxs,
                                recolorV_idxs]
                              exact hparmem) hr3,
                          by simp [rotALV_inorder, recolorV_inorder]⟩
                      · rw [if_neg h3b] at h
                        exact ih h hwf hnode hcur
                    · rw [if_neg hblk] at h
                      exact ih h hwf hnode hcur
              | some sl =>
                rw [hsl] at h
                dsimp only at h
                have hslmem : sl ∈ t.idxs := child_mem hv hsibmem
                  (Or.inl hsl)
                cases hsr : (getNode s sib).right with
                | none =>
                  rw [hsr] at h
                  dsimp only at h
                  by_cases hc2 : (getNode s sib).color = Color.BLACK ∧
                      (getNode s sl).color = Color.BLACK ∧
                      Color.BLACK = Color.BLACK
                  · rw [if_pos hc2] at h
                    obtain ⟨t2, hwf4, heq⟩ := ih h
                      (setColor_WFt Color.RED hwf hsibmem)
                      (by rw [recolorV_idxs]; exact hnode)
                      (by rw [recolorV_idxs]; exact hparmem)
                    exact ⟨t2, hwf4, by rw [heq, recolorV_inorder]⟩
                  · rw [if_neg hc2] at h
                    by_cases hblk : (getNode s sib).color = Color.BLACK
                    · rw [if_pos hblk] at h
                      by_cases h3a : (getNode s sl).color = Color.RED ∧
                          Color.BLACK = Color.BLACK
                      · rw [if_pos h3a] at h
                        have hwf1 := setColor_WFt Color.BLACK hwf hslmem
                        have hwf2 := setColor_WFt Color.RED hwf1
                          (by rw [recolorV_idxs]; exact hsibmem)
                        have hl2 : (getNode (setColor (setColor s sl
                            Color.BLACK) sib Color.RED) sib).left
                            = some sl := by
                          rw [getNode_setColor_left, getNode_setColor_left]
                          exact hsl
                        have hwf3 := rotateRight_WFt hwf2
                          (by rw [recolorV_idxs, recolorV_idxs]
                              exact hsibmem) hl2
                        obtain ⟨t2, hwf4, heq⟩ := ih h hwf3
                          (by simp only [rotARV_idxs, recolorV_idxs]
                              exact hnode)
                          (by simp only [rotARV_idxs, recolorV_idxs]
                              exact hcur)
                        exact ⟨t2, hwf4, by
                          rw [heq]
                          simp [rotARV_inorder, recolorV_inorder]⟩
                      · rw [if_neg h3a] at h
                        rw [if_neg (by simp)] at h
                        exact ih h hwf hnode hcur
                    · rw [if_neg hblk] at h
                      exact ih h hwf hnode hcur
                | some sr =>
                  rw [hsr] at h
                  dsimp only at h
                  have hsrmem : sr ∈ t.idxs := child_mem hv hsibmem
                    (Or.inr hsr)
                  by_cases hc2 : (getNode s sib).color = Color.BLACK ∧
                      (getNode s sl).color = Color.BLACK ∧
                      (getNode s sr).color = Color.BLACK
                  · rw [if_pos hc2] at h
                    obtain ⟨t2, hwf4, heq⟩ := ih h
                      (setColor_WFt Color.RED hwf hsibmem)
                      (by rw [recolorV_idxs]; exact hnode)
                      (by rw [recolorV_idxs]; exact hparmem)
                    exact ⟨t2, hwf4, by rw [heq, recolorV_inorder]⟩
                  · rw [if_neg hc2] at h
                    by_cases hblk : (getNode s sib).color = Color.BLACK
                    · rw [if_pos hblk] at h
                      by_cases h3a : (getNode s sl).color = Color.RED ∧
                          (getNode s sr).color = Color.BLACK
                      · rw [if_pos h3a] at h
                        have hwf1 := setColor_WFt Color.BLACK hwf hslmem
                        have hwf2 := setColor_WFt Color.RED hwf1
                          (by rw [recolorV_idxs]; exact hsibmem)
                        have hl2 : (getNode (setColor (setColor s sl
                            Color.BLACK) sib Color.RED) sib).left
                            = some sl := by
                          rw [getNode_setColor_left, getNode_setColor_left]
                          exact hsl
                        have hwf3 := rotateRight_WFt hwf2
                          (by rw [recolorV_idxs, recolorV_idxs]
                              exact hsibmem) hl2
                        obtain ⟨t2, hwf4, heq⟩ := ih h hwf3
                          (by simp only [rotARV_idxs, recolorV_idxs]
                              exact hnode)
                          (by simp only [rotARV_idxs, recolorV_idxs]
                              exact hcur)
                        exact ⟨t2, hwf4, by
                          rw [heq]
                          simp [rotARV_inorder, recolorV_inorder]⟩
                      · rw [if_neg h3a] at h
                        by_cases h3b : (getNode s sr).color = Color.RED
                        · rw [if_pos h3b] at h
                          obtain rfl := Option.some.inj h
                          have hwf1 := setColor_WFt
                            ((getNode s parent).color) hwf hsibmem
                          have hwf2 := setColor_WFt Color.BLACK hwf1
                            (by rw [recolorV_idxs]; exact hparmem)
                          have hwf3 := setColor_WFt Color.BLACK hwf2
                            (by rw [recolorV_idxs, recolorV_idxs]
                                exact hsrmem)
                          have hr3 : (getNode (setColor (setColor (setColor
                              s sib (getNode s parent).color) parent
                              Color.BLACK) sr Color.BLACK) parent).right
                              = some sib := by
                            rw [getNode_setColor_right,
                              getNode_setColor_right,
                              getNode_setColor_right]
                            exact hsib
                          exact ⟨_, rotateLeft_WFt hwf3
                            (by rw [recolorV_idxs, recolorV_idxs,
                                  recolorV_idxs]
                                exact hparmem) hr3,
                            by simp [rotALV_inorder, recolorV_inorder]⟩
                        · rw [if_neg h3b] at h
                          exact ih h hwf hnode hcur
                    · rw [if_neg hblk] at h
                      exact ih h hwf hnode hcur
        · simp only [if_neg hlc] at h
          cases hsib : (getNode s parent).left with
          | none =>
            rw [hsib] at h
            dsimp only at h
            exact ih h hwf hnode hparmem
          | some sib =>
            rw [hsib] at h
            dsimp only at h
            have hsibmem : sib ∈ t.idxs := child_mem hv hparmem
              (Or.inl hsib)
            by_cases hsibred : (getNode s sib).color = Color.RED
            · rw [if_pos hsibred] at h
              have hwf1 := setColor_WFt Color.BLACK hwf hsibmem
              have hwf2 := setColor_WFt Color.RED hwf1
                (by rw [recolorV_idxs]; exact hparmem)
              have hl2 : (getNode (setColor (setColor s sib Color.BLACK)
                  parent Color.RED) parent).left = some sib := by
                rw [getNode_setColor_left, getNode_setColor_left]
                exact hsib
              have hwf3 := rotateRight_WFt hwf2
                (by rw [recolorV_idxs, recolorV_idxs]; exact hparmem) hl2
              obtain ⟨t2, hwf4, heq⟩ := ih h hwf3
                (by simp only [rotARV_idxs, recolorV_idxs]; exact hnode)
                (by simp only [rotARV_idxs, recolorV_idxs]; exact hnode)
              exact ⟨t2, hwf4, by
                rw [heq]
                simp [rotARV_inorder, recolorV_inorder]⟩
            · rw [if_neg hsibred] at h
              cases hsl : (getNode s sib).left with
              | none =>
                rw [hsl] at h
                dsimp only at h
                cases hsr : (getNode s sib).right with
                | none =>
                  rw [hsr] at h
                  dsimp only at h
                  by_cases hc2 : (getNode s sib).color = Color.BLACK ∧
                      Color.BLACK = Color.BLACK ∧ Color.BLACK = Color.BLACK
                  · rw [if_pos hc2] at h
                    obtain ⟨t2, hwf4, heq⟩ := ih h
                      (setColor_WFt Color.RED hwf hsibmem)
                      (by rw [recolorV_idxs]; exact hnode)
                      (by rw [recolorV_idxs]; exact hparmem)
                    exact ⟨t2, hwf4, by rw [heq, recolorV_inorder]⟩
                  · rw [if_neg hc2] at h
                    by_cases hblk : (getNode s sib).color = Color.BLACK
                    · rw [if_pos hblk] at h
                      rw [if_neg (by simp)] at h
                      rw [if_neg (by simp)] at h
                      exact ih h hwf hnode hcur
                    · rw [if_neg hblk] at h
                      exact ih h hwf hnode hcur
                | some sr =>
                  rw [hsr] at h
                  dsimp only at h
                  have hsrmem : sr ∈ t.idxs := child_mem hv hsibmem
                    (Or.inr hsr)
                  by_cases hc2 : (getNode s sib).color = Color.BLACK ∧
                      Color.BLACK = Color.BLACK ∧
                      (getNode s sr).color = Color.BLACK
                  · rw [if_pos hc2] at h
                    obtain ⟨t2, hwf4, heq⟩ := ih h
                      (setColor_WFt Color.RED hwf hsibmem)
                      (by rw [recolorV_idxs]; exact hnode)
                      (by rw [recolorV_idxs]; exact hparmem)
                    exact ⟨t2, hwf4, by rw [heq, recolorV_inorder]⟩
                  · rw [if_neg hc2] at h
                    by_cases hblk : (getNode s sib).color = Color.BLACK
                    · rw [if_pos hblk] at h
                      by_cases h3a : (getNode s sr).color = Color.RED ∧
                          Color.BLACK = Color.BLACK
                      · rw [if_pos h3a] at h
                        have hwf1 := setColor_WFt Color.BLACK hwf hsrmem
                        have hwf2 := setColor_WFt Color.RED hwf1
                          (by rw [recolorV_idxs]; exact hsibmem)
                        have hr2 : (getNode (setColor (setColor s sr
                            Color.BLACK) sib Color.RED) sib).right
                            = some sr := by
                          rw [getNode_setColor_right,
                            getNode_setColor_right]
                          exact hsr
                        have hwf3 := rotateLeft_WFt hwf2
                          (by rw [recolorV_idxs, recolorV_idxs]
                              exact hsibmem) hr2
                        obtain ⟨t2, hwf4, heq⟩ := ih h hwf3
                          (by simp only [rotALV_idxs, recolorV_idxs]
                              exact hnode)
                          (by simp only [rotALV_idxs, recolorV_idxs]
                              exact hcur)
                        exact ⟨t2, hwf4, by
                          rw [heq]
                          simp [rotALV_inorder, recolorV_inorder]⟩
                      · rw [if_neg h3a] at h
                        rw [if_neg (by simp)] at h
                        exact ih h hwf hnode hcur
                    · rw [if_neg hblk] at h
                      exact ih h hwf hnode hcur
              | some sl =>
                rw [hsl] at h
                dsimp only at h
                have hslmem : sl ∈ t.idxs := child_mem hv hsibmem
                  (Or.inl hsl)
                cases hsr : (getNode s sib).right with
                | none =>
                  rw [hsr] at h
                  dsimp only at h
                  by_cases hc2 : (getNode s sib).color = Color.BLACK ∧
                      (getNode s sl).color = Color.BLACK ∧
                      Color.BLACK = Color.BLACK
                  · rw [if_pos hc2] at h
                    obtain ⟨t2, hwf4, heq⟩ := ih h
                      (setColor_WFt Color.RED hwf hsibmem)
                      (by rw [recolorV_idxs]; exact hnode)
                      (by rw [recolorV_idxs]; exact hparmem)
                    exact ⟨t2, hwf4, by rw [heq, recolorV_inorder]⟩
                  · rw [if_neg hc2] at h
                    by_cases hblk : (getNode s sib).color = Color.BLACK
                    · rw [if_pos hblk] at h
                      rw [if_neg (by simp)] at h
                      by_cases h3b : (getNode s sl).color = Color.RED
                      · rw [if_pos h3b] at h
                        obtain rfl := Option.some.inj h
                        have hwf1 := setColor_WFt
                          ((getNode s parent).color) hwf hsibmem
                        have hwf2 := setColor_WFt Color.BLACK hwf1
                          (by rw [recolorV_idxs]; exact hparmem)
                        have hwf3 := setColor_WFt Color.BLACK hwf2
                          (by rw [recolorV_idxs, recolorV_idxs]
                              exact hslmem)
                        have hl3 : (getNode (setColor (setColor (setColor s
                            sib (getNode s parent).color) parent
                            Color.BLACK) sl Color.BLACK) parent).left
                            = some sib := by
                          rw [getNode_setColor_left, getNode_setColor_left,
                            getNode_setColor_left]
                          exact hsib
                        exact ⟨_, rotateRight_WFt hwf3
                          (by rw [recolorV_idxs, recolorV_idxs,
                                recolorV_idxs]
                              exact hparmem) hl3,
                          by simp [rotARV_inorder, recolorV_inorder]⟩
                      · rw [if_neg h3b] at h
                        exact ih h hwf hnode hcur
                    · rw [if_neg hblk] at h
                      exact ih h hwf hnode hcur
                | some sr =>
                  rw [hsr] at h
                  dsimp only at h
                  have hsrmem : sr ∈ t.idxs := child_mem hv hsibmem
                    (Or.inr hsr)
                  by_cases hc2 : (getNode s sib).color = Color.BLACK ∧
                      (getNode s sl).color = Color.BLACK ∧
                      (getNode s sr).color = Color.BLACK
                  · rw [if_pos hc2] at h
                    obtain ⟨t2, hwf4, heq⟩ := ih h
                      (setColor_WFt Color.RED hwf hsibmem)
                      (by rw [recolorV_idxs]; exact hnode)
                      (by rw [recolorV_idxs]; exact hparmem)
                    exact ⟨t2, hwf4, by rw [heq, recolorV_inorder]⟩
                  · rw [if_neg hc2] at h
                    by_cases hblk : (getNode s sib).color = Color.BLACK
                    · rw [if_pos hblk] at h
                      by_cases h3a : (getNode s sr).color = Color.RED ∧
                          (getNode s sl).color = Color.BLACK
                      · rw [if_pos h3a] at h
                        have hwf1 := setColor_WFt Color.BLACK hwf hsrmem
                        have hwf2 := setColor_WFt Color.RED hwf1
                          (by rw [recolorV_idxs]; exact hsibmem)
                        have hr2 : (getNode (setColor (setColor s sr
                            Color.BLACK) sib Color.RED) sib).right
                            = some sr := by
                          rw [getNode_setColor_right,
                            getNode_setColor_right]
                          exact hsr
                        have hwf3 := rotateLeft_WFt hwf2
                          (by rw [recolorV_idxs, recolorV_idxs]
                              exact hsibmem) hr2
                        obtain ⟨t2, hwf4, heq⟩ := ih h hwf3
                          (by simp only [rotALV_idxs, recolorV_idxs]
                              exact hnode)
                          (by simp only [rotALV_idxs, recolorV_idxs]
                              exact hcur)
                        exact ⟨t2, hwf4, by
                          rw [heq]
                          simp [rotALV_inorder, recolorV_inorder]⟩
                      · rw [if_neg h3a] at h
                        by_cases h3b : (getNode s sl).color = Color.RED
                        · rw [if_pos h3b] at h
                          obtain rfl := Option.some.inj h
                          have hwf1 := setColor_WFt
                            ((getNode s parent).color) hwf hsibmem
                          have hwf2 := setColor_WFt Color.BLACK hwf1
                            (by rw [recolorV_idxs]; exact hparmem)
                          have hwf3 := setColor_WFt Color.BLACK hwf2
                            (by rw [recolorV_idxs, recolorV_idxs]
                                exact hslmem)
                          have hl3 : (getNode (setColor (setColor (setColor
                              s sib (getNode s parent).color) parent
                              Color.BLACK) sl Color.BLACK) parent).left
                              = some sib := by
                            rw [getNode_setColor_left,
                              getNode_setColor_left,
                              getNode_setColor_left]
                            exact hsib
                          exact ⟨_, rotateRight_WFt hwf3
                            (by rw [recolorV_idxs, recolorV_idxs,
                                  recolorV_idxs]
                                exact hparmem) hl3,
                            by simp [rotARV_inorder, recolorV_inorder]⟩
                        · rw [if_neg h3b] at h
                          exact ih h hwf hnode hcur
                    · rw [if_neg hblk] at h
                      exact ih h hwf hnode hcur

theorem getNode_setValue_left (s : RedBlackTree) (j : Nat) (v : Int)
    (i : Nat) :
    (getNode (setValue s j v) i).left = (getNode s i).left := by
  by_cases h : j = i
  · subst h
    by_cases hlen : j < s.nodes.length
    · rw [getNode_setValue_self hlen]
    · rw [setValue, setNode_oob (le_of_not_lt hlen)]
  · rw [getNode_setValue_ne h]

/-- `fixDelete` keeps the state well formed. -/
theorem fixDelete_WF {fuel : Nat} {s : RedBlackTree} {node : Nat}
    {dc : Option Nat} {s2 : RedBlackTree} {t : VTree}
    (h : RedBlackTree.fixDelete fuel s node dc = some s2)
    (hwf : WFt s t) (hnode : node ∈ t.idxs) :
    ∃ t2, WFt s2 t2 ∧ t2.inorder = t.inorder := by
  unfold RedBlackTree.fixDelete at h
  cases hloop : RedBlackTree.fixDeleteLoop fuel s node node with
  | none => rw [hloop] at h; simp at h
  | some s1 =>
    rw [hloop] at h
    dsimp only [Option.map] at h
    obtain ⟨t1, hwf1, heq1⟩ := fixDeleteLoop_WF fuel hloop hwf hnode hnode
    obtain rfl := Option.some.inj h
    obtain ⟨t2, hwf2, heq2⟩ := blackenRoot_WFt hwf1
    exact ⟨t2, hwf2, by rw [heq2, heq1]⟩

/-- The tail of `delete` after the splice: dispatch to `fixDelete` on the
replacement child or on the spliced node's parent.  Keeps the state well
formed. -/
theorem delete_dispatch_WF {fuel : Nat} {s1 : RedBlackTree} {t1 : VTree}
    {d : Nat} {s2 : RedBlackTree} {b : Bool}
    (hwf1 : WFt s1 t1) (hd : d ∈ t1.idxs)
    (hsp : (getNode s1 d).left = none ∨ (getNode s1 d).right = none)
    (h : (match (RedBlackTree.deleteNode s1 d).2,
        (getNode (RedBlackTree.deleteNode s1 d).1 d).parent with
      | none, some pfix => (RedBlackTree.fixDelete fuel
          (RedBlackTree.deleteNode s1 d).1 pfix none).map fun s3 =>
          (s3, true)
      | some nf, _ => (RedBlackTree.fixDelete fuel
          (RedBlackTree.deleteNode s1 d).1 nf (some nf)).map fun s3 =>
          (s3, true)
      | none, none => some ((RedBlackTree.deleteNode s1 d).1, true))
      = some (s2, b)) :
    ∃ t2, WFt s2 t2 ∧ t2.inorder = (spliceV d t1).inorder := by
  obtain ⟨hwf2, hchmem, hkeep, hself⟩ := deleteNode_WFt hwf1 hd hsp
  cases hch : (RedBlackTree.deleteNode s1 d).2 with
  | some nf =>
    rw [hch] at h
    dsimp only at h
    cases hfd : RedBlackTree.fixDelete fuel
        (RedBlackTree.deleteNode s1 d).1 nf (some nf) with
    | none => rw [hfd] at h; simp at h
    | some s3 =>
      rw [hfd] at h
      dsimp only [Option.map] at h
      obtain hh := Option.some.inj h
      obtain rfl : s3 = s2 := congrArg Prod.fst hh
      exact fixDelete_WF hfd hwf2 (hchmem nf hch)
  | none =>
    rw [hch] at h
    cases hpfix : (getNode (RedBlackTree.deleteNode s1 d).1 d).parent with
    | some pfix =>
      rw [hpfix] at h
      dsimp only at h
      have hp0 : (getNode s1 d).parent = some pfix := by
        rw [← hself]
        exact hpfix
      obtain ⟨⟨f, hv⟩, hnd, hbd, hpok⟩ := hwf1
      have hpfixmem : pfix ∈ t1.idxs := by
        rcases parent_mem hpok hd hp0 with hcon | hm
        · exact absurd hcon (by simp)
        · exact hm
      have hpfixne : pfix ≠ d := parent_ne hpok hnd
        (fun p hp => absurd hp (by simp)) d hd pfix hp0
      cases hfd : RedBlackTree.fixDelete fuel
          (RedBlackTree.deleteNode s1 d).1 pfix none with
      | none => rw [hfd] at h; simp at h
      | some s3 =>
        rw [hfd] at h
        dsimp only [Option.map] at h
        obtain hh := Option.some.inj h
        obtain rfl : s3 = s2 := congrArg Prod.fst hh
        exact fixDelete_WF hfd hwf2 (hkeep pfix hpfixmem hpfixne)
    | none =>
      rw [hpfix] at h
      dsimp only at h
      obtain hh := Option.some.inj h
      obtain rfl : (RedBlackTree.deleteNode s1 d).1 = s2 :=
        congrArg Prod.fst hh
      exact ⟨_, hwf2, rfl⟩

/-- `delete` keeps the state well formed. -/
theorem delete_WF {fuel : Nat} {s : RedBlackTree} {k : Int}
    {s2 : RedBlackTree} {b : Bool} {t : VTree}
    (h : RedBlackTree.delete fuel s k = some (s2, b))
    (hwf : WFt s t) : ∃ t2, WFt s2 t2 := by
  unfold RedBlackTree.delete at h
  unfold RedBlackTree.findNode at h
  cases hfind : RedBlackTree.findNodeLoop fuel s s.root k with
  | none => rw [hfind] at h; simp at h
  | some onode =>
    rw [hfind] at h
    cases onode with
    | none =>
      dsimp only at h
      obtain hh := Option.some.inj h
      obtain rfl : s = s2 := congrArg Prod.fst hh
      exact ⟨t, hwf⟩
    | some node =>
      dsimp only at h
      obtain ⟨f, hv⟩ := hwf.1
      have hnodemem : node ∈ t.idxs := findNodeLoop_mem hfind hv
      cases hL : (getNode s node).left with
      | none =>
        rw [hL] at h
        dsimp only at h
        obtain ⟨t2, hwf2, _⟩ := delete_dispatch_WF hwf hnodemem
          (Or.inl hL) h
        exact ⟨t2, hwf2⟩
      | some dl =>
        cases hR : (getNode s node).right with
        | none =>
          rw [hL, hR] at h
          dsimp only at h
          obtain ⟨t2, hwf2, _⟩ := delete_dispatch_WF hwf hnodemem
            (Or.inr hR) h
          exact ⟨t2, hwf2⟩
        | some dr =>
          rw [hL, hR] at h
          dsimp only at h
          cases hfm : RedBlackTree.findMin fuel s dr with
          | none => rw [hfm] at h; simp at h
          | some suc =>
            rw [hfm] at h
            dsimp only [Option.map] at h
            have hdrmem : dr ∈ t.idxs := child_mem hv hnodemem (Or.inr hR)
            obtain ⟨hsucmem, hsucleft⟩ := findMin_mem hv hdrmem hfm
            have hwf1 := setValue_WFt ((getNode s suc).value) hwf hnodemem
            have hsucmem1 : suc ∈ (revalueV node (getNode s suc).value
                t).idxs := by
              rw [revalueV_idxs]
              exact hsucmem
            have hsucleft1 : (getNode (setValue s node
                (getNode s suc).value) suc).left = none := by
              rw [getNode_setValue_left]
              exact hsucleft
            obtain ⟨t2, hwf2, _⟩ := delete_dispatch_WF hwf1 hsucmem1
              (Or.inl hsucleft1) h
            exact ⟨t2, hwf2⟩

/-- Every public operation keeps the state well formed. -/
theorem applyOp_WF {fuel : Nat} {s s2 : RedBlackTree} {op : Op} {t : VTree}
    (h : applyOp fuel s op = some s2) (hwf : WFt s t) :
    ∃ t2, WFt s2 t2 := by
  cases op with
  | ins v =>
    dsimp only [applyOp] at h
    exact insert_WF h hwf
  | del v =>
    dsimp only [applyOp] at h
    cases hdel : RedBlackTree.delete fuel s v with
    | none => rw [hdel] at h; simp at h
    | some pr =>
      obtain ⟨s3, b⟩ := pr
      rw [hdel] at h
      dsimp only [Option.map] at h
      obtain rfl := Option.some.inj h
      exact delete_WF hdel hwf

/-- Every sequence of public operations keeps the state well formed. -/
theorem runOps_WF :
    ∀ {ops : List Op} {fuel : Nat} {s s2 : RedBlackTree} {t : VTree},
      runOps fuel s ops = some s2 → WFt s t → ∃ t2, WFt s2 t2 := by
  intro ops
  induction ops with
  | nil =>
    intro fuel s s2 t h hwf
    obtain rfl := Option.some.inj h
    exact ⟨t, hwf⟩
  | cons op ops ih =>
    intro fuel s s2 t h hwf
    dsimp only [runOps] at h
    cases hap : applyOp fuel s op with
    | none => rw [hap] at h; simp at h
    | some s1 =>
      rw [hap] at h
      dsimp only [Option.bind] at h
      obtain ⟨t1, hwf1⟩ := applyOp_WF hap hwf
      exact ih h hwf1

/-- The empty tree is well formed. -/
theorem WFt_empty : WFt RedBlackTree.empty VTree.leaf :=
  ⟨⟨1, view_none 1 _⟩, by simp [VTree.idxs],
    fun a ha => absurd ha (List.not_mem_nil a), rfl⟩

/-- C10: on every tree reachable from the empty tree by public `insert`
and `delete` operations, the parent back-references are consistent with
the child links: the ownership tree reads back from the root, and
`parentOkV … none` holds of it — the root's parent reference is absent
and every present child's parent reference is exactly the node whose
child slot holds it. -/
theorem C10_parent_pointers_consistent (ops : List Op) (s : RedBlackTree)
    (h : run ops = some s) :
    ∃ f t, view f s s.root = some t ∧ parentOkV s t none = true := by
  obtain ⟨t2, ⟨⟨f, hv⟩, _, _, hpok⟩⟩ := runOps_WF h WFt_empty
  exact ⟨f, t2, hv, hpok⟩

/-- Concrete instance for C10: after inserting 5 then 3, the readback
succeeds and all parent references agree with the child links. -/
theorem C10_witness :
    run [Op.ins 5, Op.ins 3]
      = some ⟨[⟨5, Color.BLACK, some 1, none, none⟩,
               ⟨3, Color.RED, none, none, some 0⟩], some 0⟩
    ∧ ∃ f t, view f
        (⟨[⟨5, Color.BLACK, some 1, none, none⟩,
           ⟨3, Color.RED, none, none, some 0⟩], some 0⟩ : RedBlackTree)
        (some 0) = some t
      ∧ parentOkV ⟨[⟨5, Color.BLACK, some 1, none, none⟩,
          ⟨3, Color.RED, none, none, some 0⟩], some 0⟩ t none = true :=
  ⟨by decide, C10_parent_pointers_consistent [Op.ins 5, Op.ins 3] _
    (by decide)⟩

/-!
## C6: the in-order key sequence through insert
-/

theorem revalueV_not_mem {j : Nat} {v2 : Int} :
    ∀ {t : VTree}, j ∉ t.idxs → revalueV j v2 t = t := by
  intro t
  induction t with
  | leaf => intro _; rfl
  | node i c v l r ihl ihr =>
    intro hj
    simp only [VTree.idxs, List.mem_append, List.mem_cons] at hj
    push_neg at hj
    obtain ⟨h1, h2, h3⟩ := hj
    simp [revalueV, Ne.symm h2, ihl h1, ihr h3]

/-- Where the BST descent attaches the new key, the attachment inserts the
key into the in-order sequence (as a permutation) and keeps the sequence
strictly sorted. -/
theorem descend_attach :
    ∀ {fuel : Nat} {s : RedBlackTree} {cur : Nat} {k : Int} {d : Nat}
      {f : Nat} {t : VTree} {nn : Nat},
      view f s (some cur) = some t → t.idxs.Nodup →
      RedBlackTree.descend fuel s cur k = some d →
      List.Pairwise (· < ·) t.inorder → k ∉ t.inorder →
      (attachV d nn k t).inorder.Perm (k :: t.inorder)
      ∧ List.Pairwise (· < ·) (attachV d nn k t).inorder := by
  intro fuel
  induction fuel with
  | zero =>
    intro s cur k d f t nn _ _ hd _ _
    exact absurd hd (by simp [RedBlackTree.descend])
  | succ fuel ih =>
    intro s cur k d f t nn hv hnd hd hsort hk
    cases t with
    | leaf => exact absurd (view_leaf_inv hv) (by simp)
    | node i c v l r =>
      obtain ⟨f2, rfl, hoi, hc, hval, hl, hr⟩ := view_node_inv hv
      obtain rfl := Option.some.inj hoi
      obtain ⟨hndl, hndr, hinl, hinr, hlr⟩ := nodup_parts hnd
      have hio : (VTree.node cur c v l r).inorder
          = l.inorder ++ v :: r.inorder := rfl
      rw [hio] at hsort hk
      rw [List.pairwise_append] at hsort
      obtain ⟨hsortl, hsortvr, hcross⟩ := hsort
      rw [List.pairwise_cons] at hsortvr
      obtain ⟨hvr, hsortr⟩ := hsortvr
      have hkv' : k ≠ v := fun h => hk (by simp [h])
      have hknl : k ∉ l.inorder := fun h => hk (by simp [h])
      have hknr : k ∉ r.inorder := fun h => hk (by simp [h])
      cases hnc : RedBlackTree.nextChild s cur k with
      | none =>
        simp only [RedBlackTree.descend, hnc] at hd
        obtain rfl := Option.some.inj hd
        by_cases hkv : k < (getNode s cur).value
        · have hleft : (getNode s cur).left = none := by
            simpa [RedBlackTree.nextChild, hkv] using hnc
          rw [hleft, view_none] at hl
          obtain rfl := Option.some.inj hl
          have hkv2 : k < v := by rw [← hval]; exact hkv
          rw [attachV_node_eq, if_pos rfl, if_pos hkv2]
          constructor
          · have he : (VTree.node cur c v
                (VTree.node nn Color.RED k .leaf .leaf) r).inorder
                = k :: (VTree.node cur c v VTree.leaf r).inorder := by
              simp [VTree.inorder]
            rw [he]
          · have hids : (VTree.node cur c v
                (VTree.node nn Color.RED k .leaf .leaf) r).inorder
                = k :: v :: r.inorder := by simp [VTree.inorder]
            rw [hids, List.pairwise_cons]
            refine ⟨?_, List.pairwise_cons.mpr ⟨hvr, hsortr⟩⟩
            intro b hb
            rcases List.mem_cons.mp hb with rfl | hb
            · exact hkv2
            · exact lt_trans hkv2 (hvr b hb)
        · have hright : (getNode s cur).right = none := by
            simpa [RedBlackTree.nextChild, hkv] using hnc
          rw [hright, view_none] at hr
          obtain rfl := Option.some.inj hr
          have hkv2 : ¬ k < v := by rw [← hval]; exact hkv
          have hvk : v < k := lt_of_le_of_ne (not_lt.mp hkv2)
            (fun h => hkv' h.symm)
          rw [attachV_node_eq, if_pos rfl, if_neg hkv2]
          constructor
          · have hids : (VTree.node cur c v l
                (VTree.node nn Color.RED k .leaf .leaf)).inorder
                = l.inorder ++ [v, k] := by simp [VTree.inorder]
            have hids2 : (VTree.node cur c v l VTree.leaf).inorder
                = l.inorder ++ [v] := by simp [VTree.inorder]
            rw [hids, hids2]
            have h1 : l.inorder ++ [v, k]
                = (l.inorder ++ [v]) ++ [k] := by simp
            rw [h1]
            exact List.perm_append_comm
          · have hids : (VTree.node cur c v l
                (VTree.node nn Color.RED k .leaf .leaf)).inorder
                = l.inorder ++ v :: [k] := by simp [VTree.inorder]
            rw [hids, List.pairwise_append]
            refine ⟨hsortl, ?_, ?_⟩
            · rw [List.pairwise_cons]
              refine ⟨?_, List.pairwise_singleton _ _⟩
              intro b hb
              rw [List.mem_singleton] at hb
              subst hb
              exact hvk
            · intro a ha b hb
              have hav : a < v := hcross a ha v (by simp)
              rcases List.mem_cons.mp hb with rfl | hb
              · exact hav
              · rw [List.mem_singleton] at hb
                subst hb
                exact lt_trans hav hvk
      | some c2 =>
        simp only [RedBlackTree.descend, hnc] at hd
        by_cases hkv : k < (getNode s cur).value
        · have hleft : (getNode s cur).left = some c2 := by
            simpa [RedBlackTree.nextChild, hkv] using hnc
          rw [hleft] at hl
          have hkv2 : k < v := by rw [← hval]; exact hkv
          obtain ⟨hperm, hsorted⟩ := ih hl hndl hd hsortl hknl
          have hdmem : d ∈ l.idxs := descend_mem hl hd
          have hcd : ¬ cur = d := fun h => hinl (h ▸ hdmem)
          have hrr : attachV d nn k r = r :=
            attachV_not_mem (hlr d hdmem)
          rw [attachV_node_eq, if_neg hcd, hrr]
          have hids : (VTree.node cur c v (attachV d nn k l) r).inorder
              = (attachV d nn k l).inorder ++ v :: r.inorder := rfl
          have hids2 : (VTree.node cur c v l r).inorder
              = l.inorder ++ v :: r.inorder := rfl
          constructor
          · rw [hids, hids2]
            exact hperm.append_right (v :: r.inorder)
          · rw [hids, List.pairwise_append]
            refine ⟨hsorted, List.pairwise_cons.mpr ⟨hvr, hsortr⟩, ?_⟩
            intro a ha b hb
            have ha2 : a ∈ k :: l.inorder := hperm.mem_iff.mp ha
            have hbv : v ≤ b := by
              rcases List.mem_cons.mp hb with rfl | hb
              · exact le_refl _
              · exact le_of_lt (hvr b hb)
            rcases List.mem_cons.mp ha2 with rfl | ha2
            · exact lt_of_lt_of_le hkv2 hbv
            · exact lt_of_lt_of_le (hcross a ha2 v (by simp)) hbv
        · have hright : (getNode s cur).right = some c2 := by
            simpa [RedBlackTree.nextChild, hkv] using hnc
          rw [hright] at hr
          have hkv2 : ¬ k < v := by rw [← hval]; exact hkv
          have hvk : v < k := lt_of_le_of_ne (not_lt.mp hkv2)
            (fun h => hkv' h.symm)
          obtain ⟨hperm, hsorted⟩ := ih hr hndr hd hsortr hknr
          have hdmem : d ∈ r.idxs := descend_mem hr hd
          have hcd : ¬ cur = d := fun h => hinr (h ▸ hdmem)
          have hll : attachV d nn k l = l :=
            attachV_not_mem (fun h => hlr d h hdmem)
          rw [attachV_node_eq, if_neg hcd, hll]
          have hids : (VTree.node cur c v l (attachV d nn k r)).inorder
              = l.inorder ++ v :: (attachV d nn k r).inorder := rfl
          have hids2 : (VTree.node cur c v l r).inorder
              = l.inorder ++ v :: r.inorder := rfl
          constructor
          · rw [hids, hids2]
            exact (((hperm.cons v).append_left l.inorder).trans
              (((List.Perm.swap k v r.inorder).append_left
                l.inorder).trans List.perm_middle))
          · rw [hids, List.pairwise_append]
            refine ⟨hsortl, ?_, ?_⟩
            · rw [List.pairwise_cons]
              refine ⟨?_, hsorted⟩
              intro b hb
              have hb2 : b ∈ k :: r.inorder := hperm.mem_iff.mp hb
              rcases List.mem_cons.mp hb2 with rfl | hb2
              · exact hvk
              · exact hvr b hb2
            · intro a ha b hb
              have hav : a < v := hcross a ha v (by simp)
              rcases List.mem_cons.mp hb with rfl | hb
              · exact hav
              · have hb2 : b ∈ k :: r.inorder := hperm.mem_iff.mp hb
                rcases List.mem_cons.mp hb2 with rfl | hb2
                · exact lt_trans hav hvk
                · exact lt_trans hav (hvr b hb2)

/-- On a strictly sorted well-formed tree, inserting an absent key keeps
the state well formed and strictly sorted and adds exactly that key to the
in-order sequence. -/
theorem insert_inorder {fuel : Nat} {s : RedBlackTree} {k : Int}
    {s2 : RedBlackTree} {t : VTree}
    (h : RedBlackTree.insert fuel s k = some s2) (hwf : WFt s t)
    (hsort : List.Pairwise (· < ·) t.inorder) (hk : k ∉ t.inorder) :
    ∃ t2, WFt s2 t2 ∧ List.Pairwise (· < ·) t2.inorder
      ∧ t2.inorder.Perm (k :: t.inorder) := by
  unfold RedBlackTree.insert at h
  cases hrt : s.root with
  | none =>
    rw [hrt] at h
    dsimp only at h
    obtain rfl := Option.some.inj h
    have hleaf : t = VTree.leaf := by
      obtain ⟨f, hv⟩ := hwf.1
      rw [hrt, view_none] at hv
      exact (Option.some.inj hv).symm
    subst hleaf
    refine ⟨VTree.node s.nodes.length Color.BLACK k .leaf .leaf,
      insert_empty_WF s k, ?_, ?_⟩
    · simp [VTree.inorder]
    · simp [VTree.inorder]
  | some root =>
    rw [hrt] at h
    dsimp only at h
    cases hd : RedBlackTree.descend fuel s root k with
    | none => rw [hd] at h; simp at h
    | some d =>
      rw [hd] at h
      dsimp only at h
      obtain ⟨f, hv⟩ := hwf.1
      rw [hrt] at hv
      have hdmem : d ∈ t.idxs := descend_mem hv hd
      have hnc := descend_stop hd
      obtain ⟨hwfa, hmema⟩ := attachNew_WFt hwf hdmem hnc
      obtain ⟨hperm, hsorted⟩ := descend_attach hv hwf.2.1 hd hsort hk
      obtain ⟨t2, hwf2, heq2⟩ := fixInsert_WF h hwfa hmema
      refine ⟨t2, hwf2, ?_, ?_⟩
      · rw [heq2]
        exact hsorted
      · rw [heq2]
        exact hperm

/-!
## C6: the in-order key sequence through delete
-/

/-- On a strictly sorted tree, the search loop finds every present key. -/
theorem findNodeLoop_found :
    ∀ {fuel : Nat} {s : RedBlackTree} {oi : Option Nat} {k : Int}
      {res : Option Nat} {f : Nat} {t : VTree},
      RedBlackTree.findNodeLoop fuel s oi k = some res →
      view f s oi = some t → List.Pairwise (· < ·) t.inorder →
      k ∈ t.inorder →
      ∃ j, res = some j ∧ j ∈ t.idxs ∧ (getNode s j).value = k := by
  intro fuel
  induction fuel with
  | zero =>
    intro s oi k res f t h _ _ _
    exact absurd h (by simp [RedBlackTree.findNodeLoop])
  | succ f2 ih =>
    intro s oi k res f t h hv hsort hk
    cases oi with
    | none =>
      have hleaf : t = VTree.leaf := by
        rw [view_none] at hv
        exact (Option.some.inj hv).symm
      subst hleaf
      exact absurd hk (by simp [VTree.inorder])
    | some c =>
      cases t with
      | leaf => exact absurd (view_leaf_inv hv) (by simp)
      | node i cc vv l r =>
        obtain ⟨f3, rfl, hoi, hc, hval, hl, hr⟩ := view_node_inv hv
        obtain rfl := Option.some.inj hoi
        have hio : (VTree.node c cc vv l r).inorder
            = l.inorder ++ vv :: r.inorder := rfl
        rw [hio] at hsort hk
        rw [List.pairwise_append] at hsort
        obtain ⟨hsortl, hsortvr, hcross⟩ := hsort
        rw [List.pairwise_cons] at hsortvr
        obtain ⟨hvr, hsortr⟩ := hsortvr
        by_cases hkeq : k = (getNode s c).value
        · simp only [RedBlackTree.findNodeLoop, if_pos hkeq] at h
          obtain rfl := Option.some.inj h
          exact ⟨c, rfl, by simp [VTree.idxs], hkeq.symm⟩
        · simp only [RedBlackTree.findNodeLoop, if_neg hkeq] at h
          have hkvv : k ≠ vv := by rw [← hval]; exact hkeq
          by_cases hklt : k < (getNode s c).value
          · rw [if_pos hklt] at h
            have hklt2 : k < vv := by rw [← hval]; exact hklt
            have hkl : k ∈ l.inorder := by
              rcases List.mem_append.mp hk with h2 | h2
              · exact h2
              · rcases List.mem_cons.mp h2 with h3 | h3
                · exact absurd h3 hkvv
                · exact absurd (hvr k h3) (lt_asymm hklt2)
            obtain ⟨j, hres, hjmem, hjval⟩ := ih h hl hsortl hkl
            exact ⟨j, hres, by simp [VTree.idxs, hjmem], hjval⟩
          · rw [if_neg hklt] at h
            have hvvk : vv < k := by
              have : ¬ k < vv := by rw [← hval]; exact hklt
              exact lt_of_le_of_ne (not_lt.mp this) (fun h2 => hkvv h2.symm)
            have hkr : k ∈ r.inorder := by
              rcases List.mem_append.mp hk with h2 | h2
              · exact absurd (hcross k h2 vv (by simp)) (lt_asymm hvvk)
              · rcases List.mem_cons.mp h2 with h3 | h3
                · exact absurd h3 hkvv
                · exact h3
            obtain ⟨j, hres, hjmem, hjval⟩ := ih h hr hsortr hkr
            exact ⟨j, hres, by simp [VTree.idxs, hjmem], hjval⟩

/-- Splicing out a node with at most one child removes exactly its key from
the in-order sequence, which stays a subsequence. -/
theorem splice_inorder {t : VTree} :
    ∀ {f : Nat} {s : RedBlackTree} {oi : Option Nat} {d : Nat},
      view f s oi = some t → t.idxs.Nodup → d ∈ t.idxs →
      ((getNode s d).left = none ∨ (getNode s d).right = none) →
      t.inorder.Perm ((getNode s d).value :: (spliceV d t).inorder)
      ∧ (spliceV d t).inorder.Sublist t.inorder := by
  induction t with
  | leaf =>
    intro f s oi d _ _ hd _
    exact absurd hd (by simp [VTree.idxs])
  | node i c v l r ihl ihr =>
    intro f s oi d hv hnd hd hsp
    obtain ⟨f2, rfl, rfl, hc, hval, hl, hr⟩ := view_node_inv hv
    obtain ⟨hndl, hndr, hinl, hinr, hlr⟩ := nodup_parts hnd
    by_cases hid : i = d
    · subst hid
      cases hleft : (getNode s i).left with
      | none =>
        rw [hleft, view_none] at hl
        obtain rfl := Option.some.inj hl
        have hsp1 : spliceV i (VTree.node i c v VTree.leaf r) = r := by
          rw [spliceV_node_eq, if_pos rfl]
        have hio : (VTree.node i c v VTree.leaf r).inorder
            = v :: r.inorder := rfl
        rw [hsp1, hio, hval]
        exact ⟨List.Perm.refl _, List.sublist_cons_self _ _⟩
      | some lc =>
        have hright : (getNode s i).right = none := by
          rcases hsp with h | h
          · exact absurd hleft (by simp [h])
          · exact h
        rw [hright, view_none] at hr
        obtain rfl := Option.some.inj hr
        rw [hleft] at hl
        cases l with
        | leaf => exact absurd (view_leaf_inv hl) (by simp)
        | node j2 cj vj a b =>
          have hsp1 : spliceV i (VTree.node i c v
              (VTree.node j2 cj vj a b) VTree.leaf)
              = VTree.node j2 cj vj a b := by
            rw [spliceV_node_eq, if_pos rfl]
          have hio : (VTree.node i c v (VTree.node j2 cj vj a b)
              VTree.leaf).inorder
              = (VTree.node j2 cj vj a b).inorder ++ [v] := by
            simp [VTree.inorder]
          rw [hsp1, hio, hval]
          exact ⟨List.perm_append_singleton v _,
            List.sublist_append_left _ _⟩
    · have hd2 : d ∈ l.idxs ∨ d ∈ r.idxs := by
        have : d ∈ l.idxs ∨ d = i ∨ d ∈ r.idxs := by
          simpa [VTree.idxs] using hd
        rcases this with h | h | h
        · exact Or.inl h
        · exact absurd h.symm hid
        · exact Or.inr h
      rcases hd2 with hdl | hdr
      · obtain ⟨hperm, hsub⟩ := ihl hl hndl hdl hsp
        have hrr : spliceV d r = r := spliceV_not_mem (hlr d hdl)
        have hsp1 : spliceV d (VTree.node i c v l r)
            = VTree.node i c v (spliceV d l) r := by
          rw [spliceV_node_eq, if_neg hid, hrr]
        rw [hsp1]
        have hio : (VTree.node i c v l r).inorder
            = l.inorder ++ v :: r.inorder := rfl
        have hio2 : (VTree.node i c v (spliceV d l) r).inorder
            = (spliceV d l).inorder ++ v :: r.inorder := rfl
        rw [hio, hio2]
        exact ⟨hperm.append_right (v :: r.inorder),
          hsub.append_right (v :: r.inorder)⟩
      · obtain ⟨hperm, hsub⟩ := ihr hr hndr hdr hsp
        have hll : spliceV d l = l :=
          spliceV_not_mem (fun h => hlr d h hdr)
        have hsp1 : spliceV d (VTree.node i c v l r)
            = VTree.node i c v l (spliceV d r) := by
          rw [spliceV_node_eq, if_neg hid, hll]
        rw [hsp1]
        have hio : (VTree.node i c v l r).inorder
            = l.inorder ++ v :: r.inorder := rfl
        have hio2 : (VTree.node i c v l (spliceV d r)).inorder
            = l.inorder ++ v :: (spliceV d r).inorder := rfl
        rw [hio, hio2]
        constructor
        · exact (((hperm.cons v).append_left l.inorder).trans
            (((List.Perm.swap (getNode s d).value v
              (spliceV d r).inorder).append_left l.inorder).trans
              List.perm_middle))
        · exact (hsub.cons₂ v).append_left l.inorder

/-- `findMin` reaches the first key of the in-order sequence, and splicing
it out removes exactly that first key. -/
theorem findMin_first :
    ∀ {fuel : Nat} {s : RedBlackTree} {dr suc : Nat} {f : Nat} {r : VTree},
      view f s (some dr) = some r → r.idxs.Nodup →
      RedBlackTree.findMin fuel s dr = some suc →
      r.inorder = (getNode s suc).value :: (spliceV suc r).inorder := by
  intro fuel
  induction fuel with
  | zero =>
    intro s dr suc f r _ _ hfm
    exact absurd hfm (by simp [RedBlackTree.findMin])
  | succ f2 ih =>
    intro s dr suc f r hv hnd hfm
    cases r with
    | leaf => exact absurd (view_leaf_inv hv) (by simp)
    | node i c v l' r2 =>
      obtain ⟨f3, rfl, hoi, hc, hval, hl, hr⟩ := view_node_inv hv
      obtain rfl := Option.some.inj hoi
      obtain ⟨hndl, hndr, hinl, hinr, hlr⟩ := nodup_parts hnd
      cases hL : (getNode s dr).left with
      | none =>
        simp only [RedBlackTree.findMin, hL] at hfm
        obtain rfl := Option.some.inj hfm
        rw [hL, view_none] at hl
        obtain rfl := Option.some.inj hl
        have hsp1 : spliceV dr (VTree.node dr c v VTree.leaf r2) = r2 := by
          rw [spliceV_node_eq, if_pos rfl]
        rw [hsp1, hval]
        rfl
      | some l2 =>
        simp only [RedBlackTree.findMin, hL] at hfm
        rw [hL] at hl
        have hIH := ih hl hndl hfm
        have hsucl : suc ∈ l'.idxs :=
          (findMin_mem hl (root_mem_of_view hl) hfm).1
        have hsucni : ¬ dr = suc := fun h => hinl (h ▸ hsucl)
        have hsucnr : suc ∉ r2.idxs := hlr suc hsucl
        have hsp1 : spliceV suc (VTree.node dr c v l' r2)
            = VTree.node dr c v (spliceV suc l') r2 := by
          rw [spliceV_node_eq, if_neg hsucni, spliceV_not_mem hsucnr]
        rw [hsp1]
        have hio : (VTree.node dr c v l' r2).inorder
            = l'.inorder ++ v :: r2.inorder := rfl
        have hio2 : (VTree.node dr c v (spliceV suc l') r2).inorder
            = (spliceV suc l').inorder ++ v :: r2.inorder := rfl
        rw [hio, hio2, hIH]
        rfl

/-- The two-children delete (copy the successor's key into the node, splice
the successor) removes exactly the node's key from the in-order sequence,
which stays a subsequence. -/
theorem twoChild_inorder {t : VTree} :
    ∀ {f : Nat} {s : RedBlackTree} {oi : Option Nat} {nd dr suc : Nat}
      {fuel : Nat},
      view f s oi = some t → t.idxs.Nodup → nd ∈ t.idxs →
      (getNode s nd).right = some dr →
      RedBlackTree.findMin fuel s dr = some suc →
      t.inorder.Perm ((getNode s nd).value ::
        (spliceV suc (revalueV nd (getNode s suc).value t)).inorder)
      ∧ (spliceV suc
          (revalueV nd (getNode s suc).value t)).inorder.Sublist
          t.inorder := by
  induction t with
  | leaf =>
    intro f s oi nd dr suc fuel _ _ hmem _ _
    exact absurd hmem (by simp [VTree.idxs])
  | node i c v l r ihl ihr =>
    intro f s oi nd dr suc fuel hv hnd hmem hdr hfm
    obtain ⟨f2, rfl, rfl, hc, hval, hl, hr⟩ := view_node_inv hv
    obtain ⟨hndl, hndr, hinl, hinr, hlr⟩ := nodup_parts hnd
    by_cases hid : i = nd
    · subst hid
      rw [hdr] at hr
      have hfirst := findMin_first hr hndr hfm
      have hsucr : suc ∈ r.idxs :=
        (findMin_mem hr (root_mem_of_view hr) hfm).1
      have hsucni : ¬ i = suc := fun h => hinr (h ▸ hsucr)
      have hsucnl : suc ∉ l.idxs := fun h => hlr suc h hsucr
      have hrv : revalueV i (getNode s suc).value (VTree.node i c v l r)
          = VTree.node i c (getNode s suc).value l r := by
        simp [revalueV, revalueV_not_mem hinl, revalueV_not_mem hinr]
      have hsplice : spliceV suc
          (VTree.node i c (getNode s suc).value l r)
          = VTree.node i c (getNode s suc).value l (spliceV suc r) := by
        rw [spliceV_node_eq, if_neg hsucni, spliceV_not_mem hsucnl]
      rw [hrv, hsplice, hval]
      have hio : (VTree.node i c v l r).inorder
          = l.inorder ++ v :: r.inorder := rfl
      have hio2 : (VTree.node i c (getNode s suc).value l
          (spliceV suc r)).inorder
          = l.inorder ++ (getNode s suc).value
            :: (spliceV suc r).inorder := rfl
      rw [hio, hio2, hfirst]
      constructor
      · exact List.perm_middle
      · exact (List.sublist_cons_self _ _).append_left l.inorder
    · have hd2 : nd ∈ l.idxs ∨ nd ∈ r.idxs := by
        have : nd ∈ l.idxs ∨ nd = i ∨ nd ∈ r.idxs := by
          simpa [VTree.idxs] using hmem
        rcases this with h | h | h
        · exact Or.inl h
        · exact absurd h.symm hid
        · exact Or.inr h
      rcases hd2 with hdl | hdr2
      · obtain ⟨f3, c3, v3, l3, r3, hsubv, hsubset⟩ := mem_subview hl hdl
        obtain ⟨f4, _, _, _, _, _, hsubr⟩ := view_node_inv hsubv
        rw [hdr] at hsubr
        have hsucr3 : suc ∈ r3.idxs :=
          (findMin_mem hsubr (root_mem_of_view hsubr) hfm).1
        have hsucl : suc ∈ l.idxs := hsubset suc (mem_idxs_right hsucr3)
        obtain ⟨hperm, hsub⟩ := ihl hl hndl hdl hdr hfm
        have hsucnr : suc ∉ r.idxs := hlr suc hsucl
        have hndnr : nd ∉ r.idxs := hlr nd hdl
        have hsucni : ¬ i = suc := fun h => hinl (h ▸ hsucl)
        have hndni : ¬ i = nd := hid
        have hrv : revalueV nd (getNode s suc).value
            (VTree.node i c v l r)
            = VTree.node i c v (revalueV nd (getNode s suc).value l) r := by
          simp [revalueV, Ne.symm (fun h => hndni h.symm), hndni,
            revalueV_not_mem hndnr]
        have hsplice : spliceV suc (VTree.node i c v
            (revalueV nd (getNode s suc).value l) r)
            = VTree.node i c v
              (spliceV suc (revalueV nd (getNode s suc).value l)) r := by
          rw [spliceV_node_eq, if_neg hsucni]
          rw [spliceV_not_mem (fun h => hsucnr h)]
        rw [hrv, hsplice]
        have hio : (VTree.node i c v l r).inorder
            = l.inorder ++ v :: r.inorder := rfl
        have hio2 : (VTree.node i c v
            (spliceV suc (revalueV nd (getNode s suc).value l)) r).inorder
            = (spliceV suc (revalueV nd
                (getNode s suc).value l)).inorder ++ v :: r.inorder := rfl
        rw [hio, hio2]
        exact ⟨hperm.append_right (v :: r.inorder),
          hsub.append_right (v :: r.inorder)⟩
      · obtain ⟨f3, c3, v3, l3, r3, hsubv, hsubset⟩ := mem_subview hr hdr2
        obtain ⟨f4, _, _, _, _, _, hsubr⟩ := view_node_inv hsubv
        rw [hdr] at hsubr
        have hsucr3 : suc ∈ r3.idxs :=
          (findMin_mem hsubr (root_mem_of_view hsubr) hfm).1
        have hsucrr : suc ∈ r.idxs := hsubset suc (mem_idxs_right hsucr3)
        obtain ⟨hperm, hsub⟩ := ihr hr hndr hdr2 hdr hfm
        have hsucnl : suc ∉ l.idxs := fun h => hlr suc h hsucrr
        have hndnl : nd ∉ l.idxs := fun h => hlr nd h hdr2
        have hsucni : ¬ i = suc := fun h => hinr (h ▸ hsucrr)
        have hndni : ¬ i = nd := hid
        have hrv : revalueV nd (getNode s suc).value
            (VTree.node i c v l r)
            = VTree.node i c v l
              (revalueV nd (getNode s suc).value r) := by
          simp [revalueV, Ne.symm (fun h => hndni h.symm), hndni,
            revalueV_not_mem hndnl]
        have hsplice : spliceV suc (VTree.node i c v l
            (revalueV nd (getNode s suc).value r))
            = VTree.node i c v l
              (spliceV suc (revalueV nd (getNode s suc).value r)) := by
          rw [spliceV_node_eq, if_neg hsucni]
          rw [spliceV_not_mem (fun h => hsucnl h)]
        rw [hrv, hsplice]
        have hio : (VTree.node i c v l r).inorder
            = l.inorder ++ v :: r.inorder := rfl
        have hio2 : (VTree.node i c v l
            (spliceV suc (revalueV nd (getNode s suc).value r))).inorder
            = l.inorder ++ v :: (spliceV suc (revalueV nd
                (getNode s suc).value r)).inorder := rfl
        rw [hio, hio2]
        constructor
        · exact (((hperm.cons v).append_left l.inorder).trans
            (((List.Perm.swap (getNode s nd).value v _).append_left
              l.inorder).trans List.perm_middle))
        · exact (hsub.cons₂ v).append_left l.inorder

/-- The splice-and-repair dispatch of `delete` always reports `true`. -/
theorem delete_dispatch_true {fuel : Nat} {s1 : RedBlackTree}
    {d : Nat} {s2 : RedBlackTree} {b : Bool}
    (h : (match (RedBlackTree.deleteNode s1 d).2,
        (getNode (RedBlackTree.deleteNode s1 d).1 d).parent with
      | none, some pfix => (RedBlackTree.fixDelete fuel
          (RedBlackTree.deleteNode s1 d).1 pfix none).map fun s3 =>
          (s3, true)
      | some nf, _ => (RedBlackTree.fixDelete fuel
          (RedBlackTree.deleteNode s1 d).1 nf (some nf)).map fun s3 =>
          (s3, true)
      | none, none => some ((RedBlackTree.deleteNode s1 d).1, true))
      = some (s2, b)) : b = true := by
  cases hch : (RedBlackTree.deleteNode s1 d).2 with
  | some nf =>
    rw [hch] at h
    dsimp only at h
    cases hfd : RedBlackTree.fixDelete fuel
        (RedBlackTree.deleteNode s1 d).1 nf (some nf) with
    | none => rw [hfd] at h; simp at h
    | some s3 =>
      rw [hfd] at h
      dsimp only [Option.map] at h
      exact (congrArg Prod.snd (Option.some.inj h)).symm
  | none =>
    rw [hch] at h
    cases hpfix : (getNode (RedBlackTree.deleteNode s1 d).1 d).parent with
    | some pfix =>
      rw [hpfix] at h
      dsimp only at h
      cases hfd : RedBlackTree.fixDelete fuel
          (RedBlackTree.deleteNode s1 d).1 pfix none with
      | none => rw [hfd] at h; simp at h
      | some s3 =>
        rw [hfd] at h
        dsimp only [Option.map] at h
        exact (congrArg Prod.snd (Option.some.inj h)).symm
    | none =>
      rw [hpfix] at h
      dsimp only at h
      exact (congrArg Prod.snd (Option.some.inj h)).symm

/-- Deleting a present key on a strictly sorted, well-formed state reports
`true` and removes exactly that key from the in-order sequence, keeping it
strictly sorted. -/
theorem delete_found {fuel : Nat} {s : RedBlackTree} {k : Int}
    {s2 : RedBlackTree} {b : Bool} {t : VTree}
    (h : RedBlackTree.delete fuel s k = some (s2, b))
    (hwf : WFt s t) (hsort : List.Pairwise (· < ·) t.inorder)
    (hk : k ∈ t.inorder) :
    b = true ∧ ∃ t2, WFt s2 t2 ∧ List.Pairwise (· < ·) t2.inorder
      ∧ t.inorder.Perm (k :: t2.inorder) := by
  unfold RedBlackTree.delete at h
  unfold RedBlackTree.findNode at h
  obtain ⟨f, hv⟩ := hwf.1
  cases hfind : RedBlackTree.findNodeLoop fuel s s.root k with
  | none => rw [hfind] at h; simp at h
  | some onode =>
    rw [hfind] at h
    obtain ⟨j, hres, hjmem, hjval⟩ := findNodeLoop_found hfind hv hsort hk
    subst hres
    dsimp only at h
    cases hL : (getNode s j).left with
    | none =>
      rw [hL] at h
      dsimp only at h
      have hb := delete_dispatch_true h
      obtain ⟨t2, hwf2, hio⟩ := delete_dispatch_WF hwf hjmem (Or.inl hL) h
      obtain ⟨hperm, hsub⟩ := splice_inorder hv hwf.2.1 hjmem (Or.inl hL)
      refine ⟨hb, t2, hwf2, ?_, ?_⟩
      · rw [hio]
        exact hsort.sublist hsub
      · rw [hio, ← hjval]
        exact hperm
    | some dl =>
      cases hR : (getNode s j).right with
      | none =>
        rw [hL, hR] at h
        dsimp only at h
        have hb := delete_dispatch_true h
        obtain ⟨t2, hwf2, hio⟩ := delete_dispatch_WF hwf hjmem (Or.inr hR) h
        obtain ⟨hperm, hsub⟩ := splice_inorder hv hwf.2.1 hjmem (Or.inr hR)
        refine ⟨hb, t2, hwf2, ?_, ?_⟩
        · rw [hio]
          exact hsort.sublist hsub
        · rw [hio, ← hjval]
          exact hperm
      | some dr =>
        rw [hL, hR] at h
        dsimp only at h
        cases hfm : RedBlackTree.findMin fuel s dr with
        | none => rw [hfm] at h; simp at h
        | some suc =>
          rw [hfm] at h
          dsimp only [Option.map] at h
          have hdrmem : dr ∈ t.idxs := child_mem hv hjmem (Or.inr hR)
          obtain ⟨hsucmem, hsucleft⟩ := findMin_mem hv hdrmem hfm
          have hwf1 := setValue_WFt ((getNode s suc).value) hwf hjmem
          have hsucmem1 : suc ∈ (revalueV j (getNode s suc).value
              t).idxs := by
            rw [revalueV_idxs]
            exact hsucmem
          have hsucleft1 : (getNode (setValue s j
              (getNode s suc).value) suc).left = none := by
            rw [getNode_setValue_left]
            exact hsucleft
          have hb := delete_dispatch_true h
          obtain ⟨t2, hwf2, hio⟩ := delete_dispatch_WF hwf1 hsucmem1
            (Or.inl hsucleft1) h
          obtain ⟨hperm, hsub⟩ := twoChild_inorder hv hwf.2.1 hjmem hR hfm
          refine ⟨hb, t2, hwf2, ?_, ?_⟩
          · rw [hio]
            exact hsort.sublist hsub
          · rw [hio, ← hjval]
            exact hperm

/-- Splitting a run over an append of operation lists. -/
theorem runOps_append :
    ∀ {l1 : List Op} {fuel : Nat} {s s2 : RedBlackTree} {l2 : List Op},
      runOps fuel s (l1 ++ l2) = some s2 →
      ∃ sm, runOps fuel s l1 = some sm ∧ runOps fuel sm l2 = some s2 := by
  intro l1
  induction l1 with
  | nil =>
    intro fuel s s2 l2 h
    exact ⟨s, rfl, h⟩
  | cons op l1 ih =>
    intro fuel s s2 l2 h
    dsimp only [List.cons_append, runOps] at h
    cases hap : applyOp fuel s op with
    | none => rw [hap] at h; simp at h
    | some s1 =>
      rw [hap] at h
      dsimp only [Option.bind] at h
      obtain ⟨sm, h1, h2⟩ := ih h
      refine ⟨sm, ?_, h2⟩
      dsimp only [runOps]
      rw [hap]
      exact h1

/-- Running the insert phase on a well-formed, strictly sorted state holding
the multiset `cur` of keys: the resulting state is well formed, strictly
sorted, and holds exactly `ks ++ cur` (for fresh, distinct `ks`). -/
theorem insert_phase :
    ∀ {ks : List Int}, ks.Nodup →
    ∀ {fuel : Nat} {s s2 : RedBlackTree} {t : VTree} {cur : List Int},
      runOps fuel s (ks.map Op.ins) = some s2 →
      WFt s t → List.Pairwise (· < ·) t.inorder → t.inorder.Perm cur →
      (∀ k ∈ ks, k ∉ cur) →
      ∃ t2, WFt s2 t2 ∧ List.Pairwise (· < ·) t2.inorder
        ∧ t2.inorder.Perm (ks ++ cur) := by
  intro ks
  induction ks with
  | nil =>
    intro _ fuel s s2 t cur h hwf hsort hperm _
    obtain rfl := Option.some.inj h
    exact ⟨t, hwf, hsort, hperm⟩
  | cons k ks ih =>
    intro hnd fuel s s2 t cur h hwf hsort hperm hdisj
    obtain ⟨hknotks, hndks⟩ := List.nodup_cons.mp hnd
    dsimp only [List.map, runOps, applyOp] at h
    cases hap : RedBlackTree.insert fuel s k with
    | none => rw [hap] at h; simp at h
    | some s1 =>
      rw [hap] at h
      dsimp only [Option.bind] at h
      have hknotin : k ∉ t.inorder := fun hc =>
        hdisj k (List.mem_cons_self k ks) (hperm.mem_iff.mp hc)
      obtain ⟨t1, hwf1, hsort1, hperm1⟩ :=
        insert_inorder hap hwf hsort hknotin
      have hperm1c : t1.inorder.Perm (k :: cur) :=
        hperm1.trans (hperm.cons k)
      have hdisj1 : ∀ k2 ∈ ks, k2 ∉ (k :: cur) := by
        intro k2 hk2 hc
        rcases List.mem_cons.mp hc with h2 | h2
        · exact hknotks (h2 ▸ hk2)
        · exact hdisj k2 (List.mem_cons_of_mem k hk2) h2
      obtain ⟨t2, hwf2, hsort2, hperm2⟩ :=
        ih hndks h hwf1 hsort1 hperm1c hdisj1
      exact ⟨t2, hwf2, hsort2, hperm2.trans List.perm_middle⟩

/-- Running the delete phase for exactly the keys the state holds empties
the in-order sequence. -/
theorem delete_phase :
    ∀ {dels : List Int} {fuel : Nat} {s s2 : RedBlackTree} {t : VTree},
      runOps fuel s (dels.map Op.del) = some s2 →
      WFt s t → List.Pairwise (· < ·) t.inorder → t.inorder.Perm dels →
      ∃ t2, WFt s2 t2 ∧ t2.inorder = [] := by
  intro dels
  induction dels with
  | nil =>
    intro fuel s s2 t h hwf _ hperm
    obtain rfl := Option.some.inj h
    exact ⟨t, hwf, hperm.eq_nil⟩
  | cons k dels ih =>
    intro fuel s s2 t h hwf hsort hperm
    dsimp only [List.map, runOps, applyOp] at h
    cases hdel : RedBlackTree.delete fuel s k with
    | none => rw [hdel] at h; simp at h
    | some pr =>
      obtain ⟨s1, b⟩ := pr
      rw [hdel] at h
      dsimp only [Option.map, Option.bind] at h
      have hkmem : k ∈ t.inorder :=
        hperm.mem_iff.mpr (List.mem_cons_self k dels)
      obtain ⟨hb, t1, hwf1, hsort1, hperm1⟩ :=
        delete_found hdel hwf hsort hkmem
      have hperm1d : t1.inorder.Perm dels :=
        List.Perm.cons_inv (hperm1.symm.trans hperm)
      exact ih h hwf1 hsort1 hperm1d

/-- A tree with an empty in-order sequence is the empty tree. -/
theorem inorder_nil {t : VTree} (h : t.inorder = []) : t = VTree.leaf := by
  cases t with
  | leaf => rfl
  | node i c v l r => exact absurd h (by simp [VTree.inorder])

/-- C6: inserting a finite set of distinct keys into the empty tree in any
order and then deleting the same set in any order leaves the empty tree:
the root reference is absent afterwards. -/
theorem C6_round_trip_empties (ks dels : List Int) (s : RedBlackTree)
    (hnd : ks.Nodup) (hperm : ks.Perm dels)
    (h : run (ks.map Op.ins ++ dels.map Op.del) = some s) :
    s.root = none := by
  unfold run at h
  obtain ⟨sm, h1, h2⟩ := runOps_append h
  obtain ⟨t1, hwf1, hsort1, hperm1⟩ := insert_phase hnd h1 WFt_empty
    (by simp [VTree.inorder]) (List.Perm.refl []) (fun k _ hc => absurd hc
      (List.not_mem_nil k))
  rw [List.append_nil] at hperm1
  obtain ⟨t2, hwf2, hnil⟩ := delete_phase h2 hwf1 hsort1
    (hperm1.trans hperm)
  obtain rfl := inorder_nil hnil
  obtain ⟨⟨f, hv⟩, _, _, _⟩ := hwf2
  exact view_leaf_inv hv

theorem C6_witness :
    ([1, 2] : List Int).Nodup ∧ ([1, 2] : List Int).Perm [2, 1]
    ∧ run ([(1 : Int), 2].map Op.ins ++ [(2 : Int), 1].map Op.del)
        = some ⟨[⟨1, Color.BLACK, none, none, none⟩,
                 ⟨2, Color.RED, none, none, some 0⟩], none⟩
    ∧ (none : Option Nat) = none :=
  ⟨by decide, by decide, by decide,
    C6_round_trip_empties [1, 2] [2, 1]
      ⟨[⟨1, Color.BLACK, none, none, none⟩,
        ⟨2, Color.RED, none, none, some 0⟩], none⟩
      (by decide) (by decide) (by decide)⟩

/-!
## C3: termination of the public operations

The loops of the source are fuel-indexed in this development; termination of
an operation on a state is the existence of a fuel bound past which the
operation returns `some`.  The bounds come from depths in the ownership view.
-/

/-- The index at the root of a view. -/
def VTree.rootIdx : VTree → Option Nat
  | .leaf => none
  | .node i _ _ _ _ => some i

/-- The subview of `t` rooted at the node with index `x` (the first one in
in-order if indices repeat; unique under `Nodup`). -/
def subAt : VTree → Nat → Option VTree
  | .leaf, _ => none
  | .node i c v l r, x =>
    if i = x then some (.node i c v l r)
    else
      match subAt l x with
      | some u => some u
      | none => subAt r x

/-- The depth of the node with index `j` in the view (root at depth 0). -/
def depthIdx : VTree → Nat → Option Nat
  | .leaf, _ => none
  | .node i _ _ l r, j =>
    if i = j then some 0
    else
      match depthIdx l j with
      | some d => some (d + 1)
      | none =>
        match depthIdx r j with
        | some d => some (d + 1)
        | none => none

theorem view_rootIdx {f : Nat} {s : RedBlackTree} {oi : Option Nat}
    {t : VTree} (hv : view f s oi = some t) : oi = t.rootIdx := by
  cases t with
  | leaf => rw [view_leaf_inv hv]; rfl
  | node i c v l r =>
    obtain ⟨f2, rfl, hoi, _, _, _, _⟩ := view_node_inv hv
    rw [hoi]; rfl

theorem subAt_spec : ∀ {t : VTree} {x : Nat} {u : VTree},
    subAt t x = some u →
    x ∈ t.idxs ∧ (∃ c v l r, u = VTree.node x c v l r) ∧
      ∀ a ∈ u.idxs, a ∈ t.idxs := by
  intro t
  induction t with
  | leaf => intro x u h; simp [subAt] at h
  | node i c v l r ihl ihr =>
    intro x u h
    rw [subAt] at h
    by_cases hix : i = x
    · rw [if_pos hix] at h
      obtain rfl := Option.some.inj h
      subst hix
      exact ⟨by simp [VTree.idxs], ⟨c, v, l, r, rfl⟩, fun a ha => ha⟩
    · rw [if_neg hix] at h
      cases hl : subAt l x with
      | some u2 =>
        rw [hl] at h
        obtain rfl := Option.some.inj h
        obtain ⟨hm, hu, hsub⟩ := ihl hl
        exact ⟨by simp [VTree.idxs, hm], hu,
          fun a ha => by simp [VTree.idxs, hsub a ha]⟩
      | none =>
        rw [hl] at h
        obtain ⟨hm, hu, hsub⟩ := ihr h
        exact ⟨by simp [VTree.idxs, hm], hu,
          fun a ha => by simp [VTree.idxs, hsub a ha]⟩

theorem subAt_of_mem : ∀ {t : VTree} {x : Nat}, x ∈ t.idxs →
    ∃ u, subAt t x = some u := by
  intro t
  induction t with
  | leaf => intro x hx; exact absurd hx (by simp [VTree.idxs])
  | node i c v l r ihl ihr =>
    intro x hx
    rw [subAt]
    by_cases hix : i = x
    · exact ⟨_, by rw [if_pos hix]⟩
    · rw [if_neg hix]
      simp only [VTree.idxs, List.mem_append, List.mem_cons] at hx
      rcases hx with hx | hx | hx
      · obtain ⟨u, hu⟩ := ihl hx
        exact ⟨u, by rw [hu]⟩
      · exact absurd hx.symm hix
      · cases hl : subAt l x with
        | some u => exact ⟨u, rfl⟩
        | none => exact ihr hx

theorem subAt_none {t : VTree} {x : Nat} (hx : x ∉ t.idxs) :
    subAt t x = none := by
  cases h : subAt t x with
  | none => rfl
  | some u => exact absurd (subAt_spec h).1 hx

theorem subAt_trans : ∀ {t : VTree} {x : Nat} {u : VTree},
    t.idxs.Nodup → subAt t x = some u → ∀ {y : Nat}, y ∈ u.idxs →
    subAt t y = subAt u y := by
  intro t
  induction t with
  | leaf => intro x u _ h; simp [subAt] at h
  | node i c v l r ihl ihr =>
    intro x u hnd h y hy
    obtain ⟨hndl, hndr, hinl, hinr, hlr⟩ := nodup_parts hnd
    rw [subAt] at h
    by_cases hix : i = x
    · rw [if_pos hix] at h
      obtain rfl := Option.some.inj h
      rfl
    · rw [if_neg hix] at h
      cases hl : subAt l x with
      | some u2 =>
        rw [hl] at h
        obtain rfl := Option.some.inj h
        have hyl : y ∈ l.idxs := (subAt_spec hl).2.2 y hy
        obtain ⟨u3, hu3⟩ := subAt_of_mem hyl
        rw [subAt, if_neg (fun hc => hinl (by rw [hc]; exact hyl))]
        rw [hu3, ← ihl hndl hl hy, hu3]
      | none =>
        rw [hl] at h
        have hyr : y ∈ r.idxs := (subAt_spec h).2.2 y hy
        rw [subAt, if_neg (fun hc => hinr (by rw [hc]; exact hyr))]
        rw [subAt_none (fun hc => hlr y hc hyr)]
        exact ihr hndr h hy

theorem depth_of_mem : ∀ {t : VTree} {j : Nat}, j ∈ t.idxs →
    ∃ d, depthIdx t j = some d := by
  intro t
  induction t with
  | leaf => intro j hj; exact absurd hj (by simp [VTree.idxs])
  | node i c v l r ihl ihr =>
    intro j hj
    rw [depthIdx]
    by_cases hij : i = j
    · exact ⟨0, by rw [if_pos hij]⟩
    · rw [if_neg hij]
      simp only [VTree.idxs, List.mem_append, List.mem_cons] at hj
      rcases hj with hj | hj | hj
      · obtain ⟨d, hd⟩ := ihl hj
        exact ⟨d + 1, by rw [hd]⟩
      · exact absurd hj.symm hij
      · cases hl : depthIdx l j with
        | some d => exact ⟨d + 1, rfl⟩
        | none =>
          obtain ⟨d, hd⟩ := ihr hj
          exact ⟨d + 1, by rw [hd]⟩

theorem depth_mem : ∀ {t : VTree} {j : Nat} {d : Nat},
    depthIdx t j = some d → j ∈ t.idxs := by
  intro t
  induction t with
  | leaf => intro j d h; simp [depthIdx] at h
  | node i c v l r ihl ihr =>
    intro j d h
    rw [depthIdx] at h
    by_cases hij : i = j
    · subst hij; simp [VTree.idxs]
    · rw [if_neg hij] at h
      cases hl : depthIdx l j with
      | some d2 =>
        rw [hl] at h
        simp [VTree.idxs, ihl hl]
      | none =>
        rw [hl] at h
        cases hr : depthIdx r j with
        | some d2 =>
          rw [hr] at h
          simp [VTree.idxs, ihr hr]
        | none => rw [hr] at h; simp at h

theorem depth_none {t : VTree} {j : Nat} (hj : j ∉ t.idxs) :
    depthIdx t j = none := by
  cases h : depthIdx t j with
  | none => rfl
  | some d => exact absurd (depth_mem h) hj

theorem depth_lt_length : ∀ {t : VTree} {j : Nat} {d : Nat},
    depthIdx t j = some d → d < t.idxs.length := by
  intro t
  induction t with
  | leaf => intro j d h; simp [depthIdx] at h
  | node i c v l r ihl ihr =>
    intro j d h
    rw [depthIdx] at h
    have hlen : (VTree.node i c v l r).idxs.length
        = l.idxs.length + r.idxs.length + 1 := by
      simp [VTree.idxs]
      omega
    by_cases hij : i = j
    · rw [if_pos hij] at h
      obtain rfl : (0 : Nat) = d := Option.some.inj h
      omega
    · rw [if_neg hij] at h
      cases hl : depthIdx l j with
      | some d2 =>
        rw [hl] at h
        obtain rfl := Option.some.inj h
        have := ihl hl
        omega
      | none =>
        rw [hl] at h
        cases hr : depthIdx r j with
        | some d2 =>
          rw [hr] at h
          obtain rfl := Option.some.inj h
          have := ihr hr
          omega
        | none => rw [hr] at h; simp at h

/-- A subview of a view of the heap is itself a view of the heap. -/
theorem subAt_view : ∀ {t : VTree} {f : Nat} {s : RedBlackTree}
    {oi : Option Nat} {x : Nat} {u : VTree},
    view f s oi = some t → subAt t x = some u →
    ∃ f2, view f2 s (some x) = some u := by
  intro t
  induction t with
  | leaf => intro f s oi x u _ h; simp [subAt] at h
  | node i c v l r ihl ihr =>
    intro f s oi x u hv h
    obtain ⟨f2, rfl, hoi, hc, hval, hl, hr⟩ := view_node_inv hv
    rw [subAt] at h
    by_cases hix : i = x
    · rw [if_pos hix] at h
      obtain rfl := Option.some.inj h
      subst hix
      exact ⟨f2 + 1, hoi ▸ hv⟩
    · rw [if_neg hix] at h
      cases h2 : subAt l x with
      | some u2 =>
        rw [h2] at h
        obtain rfl := Option.some.inj h
        exact ihl hl h2
      | none =>
        rw [h2] at h
        exact ihr hr h

theorem parentOk_subAt : ∀ {t : VTree} {s : RedBlackTree}
    {pexp : Option Nat} {x : Nat} {u : VTree},
    parentOkV s t pexp = true → subAt t x = some u →
    ∃ q, parentOkV s u q = true := by
  intro t
  induction t with
  | leaf => intro s pexp x u _ h; simp [subAt] at h
  | node i c v l r ihl ihr =>
    intro s pexp x u hpok h
    rw [parentOkV_node] at hpok
    obtain ⟨hpe, hpl, hpr⟩ := hpok
    rw [subAt] at h
    by_cases hix : i = x
    · rw [if_pos hix] at h
      obtain rfl := Option.some.inj h
      exact ⟨pexp, by rw [parentOkV_node]; exact ⟨hpe, hpl, hpr⟩⟩
    · rw [if_neg hix] at h
      cases h2 : subAt l x with
      | some u2 =>
        rw [h2] at h
        obtain rfl := Option.some.inj h
        exact ihl hpl h2
      | none =>
        rw [h2] at h
        exact ihr hpr h

/-- A node whose parent reference is `some p` is either the root of the view
(and `p` comes from outside) or a child of the node at `p`. -/
theorem parent_subAt : ∀ {t : VTree} {s : RedBlackTree} {pexp : Option Nat}
    {j p : Nat},
    parentOkV s t pexp = true → t.idxs.Nodup → j ∈ t.idxs →
    (getNode s j).parent = some p →
    (t.rootIdx = some j ∧ pexp = some p) ∨
    (∃ cp vp lp rp, subAt t p = some (VTree.node p cp vp lp rp) ∧
      (lp.rootIdx = some j ∨ rp.rootIdx = some j)) := by
  intro t
  induction t with
  | leaf => intro s pexp j p _ _ hj _; exact absurd hj (by simp [VTree.idxs])
  | node i c v l r ihl ihr =>
    intro s pexp j p hpok hnd hj hp
    rw [parentOkV_node] at hpok
    obtain ⟨hpe, hpl, hpr⟩ := hpok
    obtain ⟨hndl, hndr, hinl, hinr, hlr⟩ := nodup_parts hnd
    simp only [VTree.idxs, List.mem_append, List.mem_cons] at hj
    rcases hj with hj | rfl | hj
    · rcases ihl hpl hndl hj hp with ⟨hroot, hpeq⟩ | hsub
      · obtain rfl := Option.some.inj hpeq
        right
        refine ⟨c, v, l, r, ?_, Or.inl hroot⟩
        rw [subAt, if_pos rfl]
      · obtain ⟨cp, vp, lp, rp, hs, hside⟩ := hsub
        right
        have hpm : p ∈ l.idxs := (subAt_spec hs).1
        refine ⟨cp, vp, lp, rp, ?_, hside⟩
        rw [subAt, if_neg (fun hc => hinl (by rw [hc]; exact hpm)), hs]
    · left
      exact ⟨rfl, by rw [← hpe]; exact hp⟩
    · rcases ihr hpr hndr hj hp with ⟨hroot, hpeq⟩ | hsub
      · obtain rfl := Option.some.inj hpeq
        right
        refine ⟨c, v, l, r, ?_, Or.inr hroot⟩
        rw [subAt, if_pos rfl]
      · obtain ⟨cp, vp, lp, rp, hs, hside⟩ := hsub
        right
        have hpm : p ∈ r.idxs := (subAt_spec hs).1
        refine ⟨cp, vp, lp, rp, ?_, hside⟩
        rw [subAt, if_neg (fun hc => hinr (by rw [hc]; exact hpm))]
        rw [subAt_none (fun hc => hlr p hc hpm), hs]

/-- The root of a child subview sits one level below its parent. -/
theorem child_root_depth : ∀ {t : VTree} {p : Nat} {cp : Color} {vp : Int}
    {lp rp : VTree} {j : Nat},
    t.idxs.Nodup → subAt t p = some (VTree.node p cp vp lp rp) →
    (lp.rootIdx = some j ∨ rp.rootIdx = some j) →
    ∃ dp, depthIdx t p = some dp ∧ depthIdx t j = some (dp + 1) := by
  intro t
  induction t with
  | leaf => intro p cp vp lp rp j _ h; simp [subAt] at h
  | node i c v l r ihl ihr =>
    intro p cp vp lp rp j hnd h hside
    obtain ⟨hndl, hndr, hinl, hinr, hlr⟩ := nodup_parts hnd
    rw [subAt] at h
    by_cases hip : i = p
    · rw [if_pos hip] at h
      injection Option.some.inj h with h1 h2 h3 h4 h5
      subst h2 h3 h4 h5
      subst hip
      refine ⟨0, by rw [depthIdx, if_pos rfl], ?_⟩
      rcases hside with hside | hside
      · cases l with
        | leaf => simp [VTree.rootIdx] at hside
        | node j2 c2 v2 l2 r2 =>
          have hj2 : j2 = j := Option.some.inj hside
          have hjm : j ∈ (VTree.node j2 c2 v2 l2 r2).idxs := by
            simp [VTree.idxs, hj2]
          have hji : ¬ i = j := fun hc => hinl (by rw [hc]; exact hjm)
          rw [depthIdx, if_neg hji, depthIdx, if_pos hj2]
      · cases r with
        | leaf => simp [VTree.rootIdx] at hside
        | node j2 c2 v2 l2 r2 =>
          have hj2 : j2 = j := Option.some.inj hside
          have hjm : j ∈ (VTree.node j2 c2 v2 l2 r2).idxs := by
            simp [VTree.idxs, hj2]
          have hji : ¬ i = j := fun hc => hinr (by rw [hc]; exact hjm)
          rw [depthIdx, if_neg hji,
            depth_none (fun hc => hlr j hc hjm), depthIdx, if_pos hj2]
    · rw [if_neg hip] at h
      cases h2 : subAt l p with
      | some u2 =>
        rw [h2] at h
        obtain rfl := Option.some.inj h
        obtain ⟨dp, hd1, hd2⟩ := ihl hndl h2 hside
        have hjl : j ∈ l.idxs := depth_mem hd2
        refine ⟨dp + 1, ?_, ?_⟩
        · rw [depthIdx, if_neg hip, hd1]
        · rw [depthIdx, if_neg (fun hc => hinl (by rw [hc]; exact hjl)), hd2]
      | none =>
        rw [h2] at h
        obtain ⟨dp, hd1, hd2⟩ := ihr hndr h hside
        have hjr : j ∈ r.idxs := depth_mem hd2
        have hpr2 : p ∈ r.idxs := depth_mem hd1
        refine ⟨dp + 1, ?_, ?_⟩
        · rw [depthIdx, if_neg hip,
            depth_none (fun hc => hlr p hc hpr2), hd1]
        · rw [depthIdx, if_neg (fun hc => hinr (by rw [hc]; exact hjr)),
            depth_none (fun hc => hlr j hc hjr), hd2]

/-- In a tree whose root's parent reference is absent, a node with a parent
reference lies one level below that parent. -/
theorem depth_parent_heap {t : VTree} {s : RedBlackTree} {j p : Nat}
    (hpok : parentOkV s t none = true) (hnd : t.idxs.Nodup)
    (hj : j ∈ t.idxs) (hp : (getNode s j).parent = some p) :
    p ∈ t.idxs ∧ ∃ dp, depthIdx t p = some dp ∧
      depthIdx t j = some (dp + 1) := by
  rcases parent_subAt hpok hnd hj hp with ⟨_, hpe⟩ | hsub
  · exact absurd hpe (by simp)
  · obtain ⟨cp, vp, lp, rp, hs, hside⟩ := hsub
    exact ⟨(subAt_spec hs).1, child_root_depth hnd hs hside⟩

theorem subtree_parent_exists : ∀ {t : VTree} {s : RedBlackTree} {i j : Nat},
    parentOkV s t (some i) = true → j ∈ t.idxs →
    ∃ p, (getNode s j).parent = some p := by
  intro t
  induction t with
  | leaf => intro s i j _ hj; exact absurd hj (by simp [VTree.idxs])
  | node k c v l r ihl ihr =>
    intro s i j hpok hj
    rw [parentOkV_node] at hpok
    obtain ⟨hpe, hpl, hpr⟩ := hpok
    simp only [VTree.idxs, List.mem_append, List.mem_cons] at hj
    rcases hj with hj | rfl | hj
    · exact ihl hpl hj
    · exact ⟨i, hpe⟩
    · exact ihr hpr hj

/-- Every non-root node of the view carries a parent reference. -/
theorem nonroot_parent {t : VTree} {s : RedBlackTree} {j : Nat}
    (hpok : parentOkV s t none = true) (hj : j ∈ t.idxs)
    (hroot : t.rootIdx ≠ some j) :
    ∃ p, (getNode s j).parent = some p := by
  cases t with
  | leaf => exact absurd hj (by simp [VTree.idxs])
  | node rt c v l r =>
    rw [parentOkV_node] at hpok
    obtain ⟨hpe, hpl, hpr⟩ := hpok
    simp only [VTree.idxs, List.mem_append, List.mem_cons] at hj
    rcases hj with hj | rfl | hj
    · exact subtree_parent_exists hpl hj
    · exact absurd rfl hroot
    · exact subtree_parent_exists hpr hj

theorem subAt_recolorV {j : Nat} {c2 : Color} : ∀ {t : VTree} {x : Nat},
    subAt (recolorV j c2 t) x = (subAt t x).map (recolorV j c2) := by
  intro t
  induction t with
  | leaf => intro x; rfl
  | node i c v l r ihl ihr =>
    intro x
    by_cases hix : i = x
    · rw [recolorV, subAt, subAt, if_pos hix, if_pos hix]
      rfl
    · rw [recolorV, subAt, subAt, if_neg hix, if_neg hix, ihl]
      cases h2 : subAt l x with
      | some u => rfl
      | none => exact ihr

theorem depthIdx_recolorV {j : Nat} {c2 : Color} : ∀ {t : VTree} {x : Nat},
    depthIdx (recolorV j c2 t) x = depthIdx t x := by
  intro t
  induction t with
  | leaf => intro x; rfl
  | node i c v l r ihl ihr =>
    intro x
    by_cases hix : i = x
    · rw [recolorV, depthIdx, depthIdx, if_pos hix, if_pos hix]
    · rw [recolorV, depthIdx, depthIdx, if_neg hix, if_neg hix, ihl, ihr]

theorem rootIdx_recolorV {j : Nat} {c2 : Color} {t : VTree} :
    VTree.rootIdx (recolorV j c2 t) = t.rootIdx := by
  cases t with
  | leaf => rfl
  | node i c v l r => rfl

/-- The search loop of `findNode` terminates on any tree-shaped pointer. -/
theorem findNodeLoop_total : ∀ {t : VTree} {f : Nat} {s : RedBlackTree}
    {oi : Option Nat} {k : Int},
    view f s oi = some t →
    ∃ F res, ∀ g, F ≤ g → RedBlackTree.findNodeLoop g s oi k = some res := by
  intro t
  induction t with
  | leaf =>
    intro f s oi k hv
    obtain rfl := view_leaf_inv hv
    refine ⟨1, none, fun g hg => ?_⟩
    obtain ⟨g2, rfl⟩ : ∃ g2, g = g2 + 1 := ⟨g - 1, by omega⟩
    simp [RedBlackTree.findNodeLoop]
  | node i c v l r ihl ihr =>
    intro f s oi k hv
    obtain ⟨f2, rfl, rfl, hc, hval, hl, hr⟩ := view_node_inv hv
    obtain ⟨Fl, resl, hFl⟩ := ihl hl
    obtain ⟨Fr, resr, hFr⟩ := ihr hr
    by_cases hkeq : k = (getNode s i).value
    · refine ⟨1, some i, fun g hg => ?_⟩
      obtain ⟨g2, rfl⟩ : ∃ g2, g = g2 + 1 := ⟨g - 1, by omega⟩
      simp [RedBlackTree.findNodeLoop, hkeq]
    · by_cases hklt : k < (getNode s i).value
      · refine ⟨Fl + 1, resl, fun g hg => ?_⟩
        obtain ⟨g2, rfl⟩ : ∃ g2, g = g2 + 1 := ⟨g - 1, by omega⟩
        simp only [RedBlackTree.findNodeLoop, if_neg hkeq, if_pos hklt]
        exact hFl g2 (by omega)
      · refine ⟨Fr + 1, resr, fun g hg => ?_⟩
        obtain ⟨g2, rfl⟩ : ∃ g2, g = g2 + 1 := ⟨g - 1, by omega⟩
        simp only [RedBlackTree.findNodeLoop, if_neg hkeq, if_neg hklt]
        exact hFr g2 (by omega)

/-- `findMin` terminates on any tree-shaped pointer. -/
theorem findMin_total : ∀ {t : VTree} {f : Nat} {s : RedBlackTree} {i : Nat},
    view f s (some i) = some t →
    ∃ F m, ∀ g, F ≤ g → RedBlackTree.findMin g s i = some m := by
  intro t
  induction t with
  | leaf =>
    intro f s i hv
    exact absurd (view_leaf_inv hv) (by simp)
  | node j c v l r ihl ihr =>
    intro f s i hv
    obtain ⟨f2, rfl, hoi, hc, hval, hl, hr⟩ := view_node_inv hv
    obtain rfl := Option.some.inj hoi
    cases hL : (getNode s i).left with
    | none =>
      refine ⟨1, i, fun g hg => ?_⟩
      obtain ⟨g2, rfl⟩ : ∃ g2, g = g2 + 1 := ⟨g - 1, by omega⟩
      simp [RedBlackTree.findMin, hL]
    | some l2 =>
      rw [hL] at hl
      obtain ⟨Fl, m, hFl⟩ := ihl hl
      refine ⟨Fl + 1, m, fun g hg => ?_⟩
      obtain ⟨g2, rfl⟩ : ∃ g2, g = g2 + 1 := ⟨g - 1, by omega⟩
      simp only [RedBlackTree.findMin, hL]
      exact hFl g2 (by omega)

/-- The BST descent of `insert` terminates on any tree-shaped pointer. -/
theorem descend_total : ∀ {t : VTree} {f : Nat} {s : RedBlackTree} {i : Nat}
    {k : Int},
    view f s (some i) = some t →
    ∃ F d, ∀ g, F ≤ g → RedBlackTree.descend g s i k = some d := by
  intro t
  induction t with
  | leaf =>
    intro f s i k hv
    exact absurd (view_leaf_inv hv) (by simp)
  | node j c v l r ihl ihr =>
    intro f s i k hv
    obtain ⟨f2, rfl, hoi, hc, hval, hl, hr⟩ := view_node_inv hv
    obtain rfl := Option.some.inj hoi
    by_cases hklt : k < (getNode s i).value
    · cases hL : (getNode s i).left with
      | none =>
        refine ⟨1, i, fun g hg => ?_⟩
        obtain ⟨g2, rfl⟩ : ∃ g2, g = g2 + 1 := ⟨g - 1, by omega⟩
        simp [RedBlackTree.descend, RedBlackTree.nextChild, hklt, hL]
      | some c2 =>
        rw [hL] at hl
        obtain ⟨Fl, d, hFl⟩ := ihl hl
        refine ⟨Fl + 1, d, fun g hg => ?_⟩
        obtain ⟨g2, rfl⟩ : ∃ g2, g = g2 + 1 := ⟨g - 1, by omega⟩
        have hnc : RedBlackTree.nextChild s i k = some c2 := by
          simp [RedBlackTree.nextChild, hklt, hL]
        simp only [RedBlackTree.descend, hnc]
        exact hFl g2 (by omega)
    · cases hR : (getNode s i).right with
      | none =>
        refine ⟨1, i, fun g hg => ?_⟩
        obtain ⟨g2, rfl⟩ : ∃ g2, g = g2 + 1 := ⟨g - 1, by omega⟩
        simp [RedBlackTree.descend, RedBlackTree.nextChild, hklt, hR]
      | some c2 =>
        rw [hR] at hr
        obtain ⟨Fr, d, hFr⟩ := ihr hr
        refine ⟨Fr + 1, d, fun g hg => ?_⟩
        obtain ⟨g2, rfl⟩ : ∃ g2, g = g2 + 1 := ⟨g - 1, by omega⟩
        have hnc : RedBlackTree.nextChild s i k = some c2 := by
          simp [RedBlackTree.nextChild, hklt, hR]
        simp only [RedBlackTree.descend, hnc]
        exact hFr g2 (by omega)

/-- The state has a BLACK root whenever it has a root at all. -/
def rootBlackS (s : RedBlackTree) : Prop :=
  ∀ r, s.root = some r → (getNode s r).color = Color.BLACK

/-- The root-blackening epilogue establishes `rootBlackS`. -/
theorem blacken_rootBlack {s1 : RedBlackTree} {t1 : VTree}
    (hwf : WFt s1 t1) :
    rootBlackS (match s1.root with
      | some r => setColor s1 r Color.BLACK
      | none => s1) := by
  cases hrt : s1.root with
  | none =>
    dsimp only
    intro r hr
    rw [hrt] at hr
    exact absurd hr (by simp)
  | some r0 =>
    dsimp only
    intro r hr
    rw [setColor_root, hrt] at hr
    obtain rfl := Option.some.inj hr
    obtain ⟨⟨f, hv⟩, _, hbd, _⟩ := hwf
    rw [hrt] at hv
    have hlt := hbd _ (root_mem_of_view hv)
    rw [getNode_setColor_self hlt]

theorem fixInsert_rootBlack {fuel : Nat} {s : RedBlackTree} {node : Nat}
    {s2 : RedBlackTree} {t : VTree}
    (h : RedBlackTree.fixInsert fuel s node = some s2)
    (hwf : WFt s t) (hnode : node ∈ t.idxs) : rootBlackS s2 := by
  unfold RedBlackTree.fixInsert at h
  cases hfl : RedBlackTree.fixInsertLoop fuel s node with
  | none => rw [hfl] at h; simp at h
  | some s1 =>
    rw [hfl] at h
    dsimp only [Option.map] at h
    obtain rfl := Option.some.inj h
    obtain ⟨t1, hwf1, _⟩ := fixInsertLoop_WF fuel hfl hwf hnode
    exact blacken_rootBlack hwf1

theorem fixDelete_rootBlack {fuel : Nat} {s : RedBlackTree} {node : Nat}
    {dc : Option Nat} {s2 : RedBlackTree} {t : VTree}
    (h : RedBlackTree.fixDelete fuel s node dc = some s2)
    (hwf : WFt s t) (hnode : node ∈ t.idxs) : rootBlackS s2 := by
  unfold RedBlackTree.fixDelete at h
  cases hfl : RedBlackTree.fixDeleteLoop fuel s node node with
  | none => rw [hfl] at h; simp at h
  | some s1 =>
    rw [hfl] at h
    dsimp only [Option.map] at h
    obtain rfl := Option.some.inj h
    obtain ⟨t1, hwf1, _⟩ := fixDeleteLoop_WF fuel hfl hwf hnode hnode
    exact blacken_rootBlack hwf1

/-- Splicing a parentless node makes its only child the root. -/
theorem deleteNode_root_parent_none {s : RedBlackTree} {d : Nat}
    (h : (getNode s d).parent = none) :
    (RedBlackTree.deleteNode s d).1.root = (RedBlackTree.deleteNode s d).2 := by
  unfold RedBlackTree.deleteNode
  rw [h]
  dsimp only
  cases hL : (getNode s d).left with
  | some l => simp [hL, setParent_root]
  | none =>
    cases hR : (getNode s d).right with
    | some r => simp [hL, hR, setParent_root]
    | none => simp [hL, hR]

theorem insert_rootBlack {fuel : Nat} {s : RedBlackTree} {k : Int}
    {s2 : RedBlackTree} {t : VTree}
    (h : RedBlackTree.insert fuel s k = some s2) (hwf : WFt s t) :
    rootBlackS s2 := by
  unfold RedBlackTree.insert at h
  cases hrt : s.root with
  | none =>
    rw [hrt] at h
    dsimp only at h
    obtain rfl := Option.some.inj h
    intro r hr
    obtain rfl : s.nodes.length = r := by simpa [addNode] using hr
    have hlt : (addNode s ⟨k, Color.RED, none, none, none⟩).2
        < (addNode s ⟨k, Color.RED, none, none, none⟩).1.nodes.length := by
      simp [addNode]
    have h3 := getNode_setColor_self hlt Color.BLACK
    show (getNode (setColor (addNode s ⟨k, Color.RED, none, none, none⟩).1
        (addNode s ⟨k, Color.RED, none, none, none⟩).2 Color.BLACK)
        (addNode s ⟨k, Color.RED, none, none, none⟩).2).color = Color.BLACK
    rw [h3]
  | some root =>
    rw [hrt] at h
    dsimp only at h
    cases hd : RedBlackTree.descend fuel s root k with
    | none => rw [hd] at h; simp at h
    | some d =>
      rw [hd] at h
      dsimp only at h
      obtain ⟨f, hv⟩ := hwf.1
      rw [hrt] at hv
      have hdmem : d ∈ t.idxs := descend_mem hv hd
      have hnc := descend_stop hd
      obtain ⟨hwfa, hmema⟩ := attachNew_WFt hwf hdmem hnc
      exact fixInsert_rootBlack h hwfa hmema

theorem delete_rootBlack {fuel : Nat} {s : RedBlackTree} {k : Int}
    {s2 : RedBlackTree} {b : Bool} {t : VTree}
    (h : RedBlackTree.delete fuel s k = some (s2, b))
    (hwf : WFt s t) (hrb : rootBlackS s) : rootBlackS s2 := by
  unfold RedBlackTree.delete at h
  unfold RedBlackTree.findNode at h
  obtain ⟨f, hv⟩ := hwf.1
  cases hfind : RedBlackTree.findNodeLoop fuel s s.root k with
  | none => rw [hfind] at h; simp at h
  | some onode =>
    rw [hfind] at h
    cases onode with
    | none =>
      dsimp only at h
      obtain hh := Option.some.inj h
      obtain rfl : s = s2 := congrArg Prod.fst hh
      exact hrb
    | some node =>
      dsimp only at h
      have hnodemem : node ∈ t.idxs := findNodeLoop_mem hfind hv
      have main : ∀ (s1 : RedBlackTree) (t1 : VTree) (dd : Nat),
          WFt s1 t1 → dd ∈ t1.idxs →
          ((getNode s1 dd).left = none ∨ (getNode s1 dd).right = none) →
          (match (RedBlackTree.deleteNode s1 dd).2,
              (getNode (RedBlackTree.deleteNode s1 dd).1 dd).parent with
            | none, some pfix => (RedBlackTree.fixDelete fuel
                (RedBlackTree.deleteNode s1 dd).1 pfix none).map fun s3 =>
                (s3, true)
            | some nf, _ => (RedBlackTree.fixDelete fuel
                (RedBlackTree.deleteNode s1 dd).1 nf (some nf)).map fun s3 =>
                (s3, true)
            | none, none => some ((RedBlackTree.deleteNode s1 dd).1, true))
            = some (s2, b) → rootBlackS s2 := by
        intro s1 t1 dd hwf1 hdd hsp hm
        obtain ⟨hwf2, hchmem, hkeep, hself⟩ := deleteNode_WFt hwf1 hdd hsp
        cases hch : (RedBlackTree.deleteNode s1 dd).2 with
        | some nf =>
          rw [hch] at hm
          dsimp only at hm
          cases hfd : RedBlackTree.fixDelete fuel
              (RedBlackTree.deleteNode s1 dd).1 nf (some nf) with
          | none => rw [hfd] at hm; simp at hm
          | some s3 =>
            rw [hfd] at hm
            dsimp only [Option.map] at hm
            obtain rfl : s3 = s2 := congrArg Prod.fst (Option.some.inj hm)
            exact fixDelete_rootBlack hfd hwf2 (hchmem nf hch)
        | none =>
          rw [hch] at hm
          cases hpfix : (getNode (RedBlackTree.deleteNode s1 dd).1 dd).parent
            with
          | some pfix =>
            rw [hpfix] at hm
            dsimp only at hm
            have hp0 : (getNode s1 dd).parent = some pfix := by
              rw [← hself]; exact hpfix
            obtain ⟨⟨f1, hv1⟩, hnd1, hbd1, hpok1⟩ := hwf1
            have hpfixmem : pfix ∈ t1.idxs := by
              rcases parent_mem hpok1 hdd hp0 with hcon | hm2
              · exact absurd hcon (by simp)
              · exact hm2
            have hpfixne : pfix ≠ dd := parent_ne hpok1 hnd1
              (fun p hp => absurd hp (by simp)) dd hdd pfix hp0
            cases hfd : RedBlackTree.fixDelete fuel
                (RedBlackTree.deleteNode s1 dd).1 pfix none with
            | none => rw [hfd] at hm; simp at hm
            | some s3 =>
              rw [hfd] at hm
              dsimp only [Option.map] at hm
              obtain rfl : s3 = s2 := congrArg Prod.fst (Option.some.inj hm)
              exact fixDelete_rootBlack hfd hwf2 (hkeep pfix hpfixmem hpfixne)
          | none =>
            rw [hpfix] at hm
            dsimp only at hm
            obtain rfl : (RedBlackTree.deleteNode s1 dd).1 = s2 :=
              congrArg Prod.fst (Option.some.inj hm)
            intro r hr
            have hp0 : (getNode s1 dd).parent = none := by
              rw [← hself]; exact hpfix
            rw [deleteNode_root_parent_none hp0, hch] at hr
            exact absurd hr (by simp)
      cases hL : (getNode s node).left with
      | none =>
        rw [hL] at h
        dsimp only at h
        exact main s t node hwf hnodemem (Or.inl hL) h
      | some dl =>
        cases hR : (getNode s node).right with
        | none =>
          rw [hL, hR] at h
          dsimp only at h
          exact main s t node hwf hnodemem (Or.inr hR) h
        | some dr =>
          rw [hL, hR] at h
          dsimp only at h
          cases hfm : RedBlackTree.findMin fuel s dr with
          | none => rw [hfm] at h; simp at h
          | some suc =>
            rw [hfm] at h
            dsimp only [Option.map] at h
            have hdrmem : dr ∈ t.idxs := child_mem hv hnodemem (Or.inr hR)
            obtain ⟨hsucmem, hsucleft⟩ := findMin_mem hv hdrmem hfm
            have hwf1 := setValue_WFt ((getNode s suc).value) hwf hnodemem
            have hsucmem1 : suc ∈ (revalueV node (getNode s suc).value
                t).idxs := by
              rw [revalueV_idxs]
              exact hsucmem
            have hsucleft1 : (getNode (setValue s node
                (getNode s suc).value) suc).left = none := by
              rw [getNode_setValue_left]
              exact hsucleft
            exact main _ _ suc hwf1 hsucmem1 (Or.inl hsucleft1) h

theorem applyOp_rootBlack {fuel : Nat} {s s2 : RedBlackTree} {op : Op}
    {t : VTree} (h : applyOp fuel s op = some s2) (hwf : WFt s t)
    (hrb : rootBlackS s) : rootBlackS s2 := by
  cases op with
  | ins v =>
    dsimp only [applyOp] at h
    exact insert_rootBlack h hwf
  | del v =>
    dsimp only [applyOp] at h
    cases hdel : RedBlackTree.delete fuel s v with
    | none => rw [hdel] at h; simp at h
    | some pr =>
      obtain ⟨s3, b⟩ := pr
      rw [hdel] at h
      dsimp only [Option.map] at h
      obtain rfl := Option.some.inj h
      exact delete_rootBlack hdel hwf hrb

/-- Every state reachable from the empty tree is well formed and has a
BLACK root whenever it has a root. -/
theorem runOps_reach :
    ∀ {ops : List Op} {fuel : Nat} {s s2 : RedBlackTree} {t : VTree},
      runOps fuel s ops = some s2 → WFt s t → rootBlackS s →
      ∃ t2, WFt s2 t2 ∧ rootBlackS s2 := by
  intro ops
  induction ops with
  | nil =>
    intro fuel s s2 t h hwf hrb
    obtain rfl := Option.some.inj h
    exact ⟨t, hwf, hrb⟩
  | cons op ops ih =>
    intro fuel s s2 t h hwf hrb
    dsimp only [runOps] at h
    cases hap : applyOp fuel s op with
    | none => rw [hap] at h; simp at h
    | some s1 =>
      rw [hap] at h
      dsimp only [Option.bind] at h
      obtain ⟨t1, hwf1⟩ := applyOp_WF hap hwf
      exact ih h hwf1 (applyOp_rootBlack hap hwf hrb)

theorem rotALV_node (x i : Nat) (c : Color) (v : Int) (l r : VTree) :
    rotALV x (VTree.node i c v l r)
      = if i = x then
          (match r with
           | .node j cj vj rl rr =>
             VTree.node j cj vj (.node i c v l rl) rr
           | .leaf => .node i c v l r)
        else .node i c v (rotALV x l) (rotALV x r) := rfl

theorem rotARV_node (x i : Nat) (c : Color) (v : Int) (l r : VTree) :
    rotARV x (VTree.node i c v l r)
      = if i = x then
          (match l with
           | .node j cj vj ll lr =>
             VTree.node j cj vj ll (.node i c v lr r)
           | .leaf => .node i c v l r)
        else .node i c v (rotARV x l) (rotARV x r) := rfl

/-- The subview rooted at a given root index is the whole view. -/
theorem subAt_self_of_root {u : VTree} {x : Nat}
    (h : u.rootIdx = some x) : subAt u x = some u := by
  cases u with
  | leaf => exact absurd h (by simp [VTree.rootIdx])
  | node i c v l r =>
    obtain rfl := Option.some.inj h
    rw [subAt, if_pos rfl]

/-- The heap fields of a node, read off its subview. -/
theorem subAt_ptrs {t : VTree} {f : Nat} {s : RedBlackTree}
    {oi : Option Nat} {q : Nat} {cq : Color} {vq : Int} {lq rq : VTree}
    (hv : view f s oi = some t)
    (h : subAt t q = some (VTree.node q cq vq lq rq)) :
    (getNode s q).color = cq ∧ (getNode s q).value = vq ∧
      (getNode s q).left = lq.rootIdx ∧ (getNode s q).right = rq.rootIdx := by
  obtain ⟨f2, hview⟩ := subAt_view hv h
  obtain ⟨f3, rfl, _, hc, hval, hl, hr⟩ := view_node_inv hview
  exact ⟨hc, hval, view_rootIdx hl, view_rootIdx hr⟩

/-- The parent reference of the root of a child subview points at the node
it hangs from. -/
theorem heap_parent_of_child {t : VTree} {s : RedBlackTree}
    {pexp : Option Nat} {q : Nat} {cq : Color} {vq : Int} {lq rq : VTree}
    {j : Nat} (hpok : parentOkV s t pexp = true)
    (h : subAt t q = some (VTree.node q cq vq lq rq))
    (hside : lq.rootIdx = some j ∨ rq.rootIdx = some j) :
    (getNode s j).parent = some q := by
  obtain ⟨pe, hpu⟩ := parentOk_subAt hpok h
  rw [parentOkV_node] at hpu
  obtain ⟨_, hpl, hpr⟩ := hpu
  rcases hside with hside | hside
  · cases lq with
    | leaf => exact absurd hside (by simp [VTree.rootIdx])
    | node j2 c2 v2 l2 r2 =>
      obtain rfl := Option.some.inj hside
      rw [parentOkV_node] at hpl
      exact hpl.1
  · cases rq with
    | leaf => exact absurd hside (by simp [VTree.rootIdx])
    | node j2 c2 v2 l2 r2 =>
      obtain rfl := Option.some.inj hside
      rw [parentOkV_node] at hpr
      exact hpr.1

/-- The rotated subview after `rotALV` at a position whose right child is
present. -/
theorem subAt_rotALV_at : ∀ {t : VTree} {x : Nat} {c : Color} {v : Int}
    {l : VTree} {j : Nat} {cj : Color} {vj : Int} {rl rr : VTree},
    t.idxs.Nodup →
    subAt t x = some (VTree.node x c v l (VTree.node j cj vj rl rr)) →
    subAt (rotALV x t) j
      = some (VTree.node j cj vj (VTree.node x c v l rl) rr) := by
  intro t
  induction t with
  | leaf => intro x c v l j cj vj rl rr _ h; simp [subAt] at h
  | node i ci vi li ri ihl ihr =>
    intro x c v l j cj vj rl rr hnd h
    obtain ⟨hndl, hndr, hinl, hinr, hlr⟩ := nodup_parts hnd
    rw [subAt] at h
    by_cases hix : i = x
    · rw [if_pos hix] at h
      injection Option.some.inj h with h1 h2 h3 h4 h5
      subst h2 h3 h4 h5
      subst hix
      rw [rotALV_node, if_pos rfl]
      dsimp only
      have hji : ¬ j = i := by
        intro hc2
        exact hinr (by rw [← hc2]; simp [VTree.idxs])
      rw [subAt, if_pos rfl]
    · rw [if_neg hix] at h
      cases h2 : subAt li x with
      | some u2 =>
        rw [h2] at h
        obtain rfl := Option.some.inj h
        have hxm : x ∈ li.idxs := (subAt_spec h2).1
        have hjm : j ∈ li.idxs := (subAt_spec h2).2.2 j (by
          simp [VTree.idxs])
        rw [rotALV_node, if_neg (fun hc2 => hix hc2)]
        rw [subAt, if_neg (fun hc2 => hinl (by rw [hc2]; exact hjm))]
        rw [ihl hndl h2]
      | none =>
        rw [h2] at h
        have hxm : x ∈ ri.idxs := (subAt_spec h).1
        have hjm : j ∈ ri.idxs := (subAt_spec h).2.2 j (by
          simp [VTree.idxs])
        have hxl : x ∉ li.idxs := fun hc2 => hlr x hc2 hxm
        rw [rotALV_node, if_neg (fun hc2 => hix hc2)]
        rw [subAt, if_neg (fun hc2 => hinr (by rw [hc2]; exact hjm))]
        rw [rotALV_not_mem hxl]
        rw [subAt_none (fun hc2 => hlr j hc2 hjm)]
        exact ihr hndr h

/-- The rotated subview after `rotARV` at a position whose left child is
present. -/
theorem subAt_rotARV_at : ∀ {t : VTree} {x : Nat} {c : Color} {v : Int}
    {r : VTree} {j : Nat} {cj : Color} {vj : Int} {ll lr : VTree},
    t.idxs.Nodup →
    subAt t x = some (VTree.node x c v (VTree.node j cj vj ll lr) r) →
    subAt (rotARV x t) j
      = some (VTree.node j cj vj ll (VTree.node x c v lr r)) := by
  intro t
  induction t with
  | leaf => intro x c v r j cj vj ll lr _ h; simp [subAt] at h
  | node i ci vi li ri ihl ihr =>
    intro x c v r j cj vj ll lr hnd h
    obtain ⟨hndl, hndr, hinl, hinr, hlr⟩ := nodup_parts hnd
    rw [subAt] at h
    by_cases hix : i = x
    · rw [if_pos hix] at h
      injection Option.some.inj h with h1 h2 h3 h4 h5
      subst h2 h3 h4 h5
      subst hix
      rw [rotARV_node, if_pos rfl]
      dsimp only
      rw [subAt, if_pos rfl]
    · rw [if_neg hix] at h
      cases h2 : subAt li x with
      | some u2 =>
        rw [h2] at h
        obtain rfl := Option.some.inj h
        have hxm : x ∈ li.idxs := (subAt_spec h2).1
        have hjm : j ∈ li.idxs := (subAt_spec h2).2.2 j (by
          simp [VTree.idxs])
        rw [rotARV_node, if_neg (fun hc2 => hix hc2)]
        rw [subAt, if_neg (fun hc2 => hinl (by rw [hc2]; exact hjm))]
        rw [ihl hndl h2]
      | none =>
        rw [h2] at h
        have hxm : x ∈ ri.idxs := (subAt_spec h).1
        have hjm : j ∈ ri.idxs := (subAt_spec h).2.2 j (by
          simp [VTree.idxs])
        have hxl : x ∉ li.idxs := fun hc2 => hlr x hc2 hxm
        rw [rotARV_node, if_neg (fun hc2 => hix hc2)]
        rw [subAt, if_neg (fun hc2 => hinr (by rw [hc2]; exact hjm))]
        rw [rotARV_not_mem hxl]
        rw [subAt_none (fun hc2 => hlr j hc2 hjm)]
        exact ihr hndr h

/-- `rotALV` at a position strictly inside a subview rewrites that subview
in place. -/
theorem subAt_rotALV_above : ∀ {t : VTree} {a x : Nat} {u : VTree},
    t.idxs.Nodup → subAt t a = some u → x ∈ u.idxs → a ≠ x →
    subAt (rotALV x t) a = some (rotALV x u) := by
  intro t
  induction t with
  | leaf => intro a x u _ h; simp [subAt] at h
  | node i ci vi li ri ihl ihr =>
    intro a x u hnd h hx hax
    obtain ⟨hndl, hndr, hinl, hinr, hlr⟩ := nodup_parts hnd
    rw [subAt] at h
    by_cases hia : i = a
    · rw [if_pos hia] at h
      obtain rfl := Option.some.inj h
      subst hia
      have hix : ¬ i = x := hax
      rw [rotALV_node, if_neg hix]
      rw [subAt, if_pos rfl]
    · rw [if_neg hia] at h
      cases h2 : subAt li a with
      | some u2 =>
        rw [h2] at h
        obtain rfl := Option.some.inj h
        have ham : a ∈ li.idxs := (subAt_spec h2).1
        have hxm : x ∈ li.idxs := (subAt_spec h2).2.2 x hx
        have hxr : x ∉ ri.idxs := fun hc2 => hlr x hxm hc2
        by_cases hix : i = x
        · exact absurd (hix ▸ hxm) hinl
        · rw [rotALV_node, if_neg hix]
          rw [subAt, if_neg (fun hc2 => hinl (by rw [hc2]; exact ham))]
          rw [ihl hndl h2 hx hax]
      | none =>
        rw [h2] at h
        have ham : a ∈ ri.idxs := (subAt_spec h).1
        have hxm : x ∈ ri.idxs := (subAt_spec h).2.2 x hx
        have hxl : x ∉ li.idxs := fun hc2 => hlr x hc2 hxm
        by_cases hix : i = x
        · exact absurd (hix ▸ hxm) hinr
        · rw [rotALV_node, if_neg hix]
          rw [subAt, if_neg (fun hc2 => hinr (by rw [hc2]; exact ham))]
          rw [rotALV_not_mem hxl]
          rw [subAt_none (fun hc2 => hlr a hc2 ham)]
          exact ihr hndr h hx hax

theorem subAt_rotARV_above : ∀ {t : VTree} {a x : Nat} {u : VTree},
    t.idxs.Nodup → subAt t a = some u → x ∈ u.idxs → a ≠ x →
    subAt (rotARV x t) a = some (rotARV x u) := by
  intro t
  induction t with
  | leaf => intro a x u _ h; simp [subAt] at h
  | node i ci vi li ri ihl ihr =>
    intro a x u hnd h hx hax
    obtain ⟨hndl, hndr, hinl, hinr, hlr⟩ := nodup_parts hnd
    rw [subAt] at h
    by_cases hia : i = a
    · rw [if_pos hia] at h
      obtain rfl := Option.some.inj h
      subst hia
      have hix : ¬ i = x := hax
      rw [rotARV_node, if_neg hix]
      rw [subAt, if_pos rfl]
    · rw [if_neg hia] at h
      cases h2 : subAt li a with
      | some u2 =>
        rw [h2] at h
        obtain rfl := Option.some.inj h
        have ham : a ∈ li.idxs := (subAt_spec h2).1
        have hxm : x ∈ li.idxs := (subAt_spec h2).2.2 x hx
        have hxr : x ∉ ri.idxs := fun hc2 => hlr x hxm hc2
        by_cases hix : i = x
        · exact absurd (hix ▸ hxm) hinl
        · rw [rotARV_node, if_neg hix]
          rw [subAt, if_neg (fun hc2 => hinl (by rw [hc2]; exact ham))]
          rw [ihl hndl h2 hx hax]
      | none =>
        rw [h2] at h
        have ham : a ∈ ri.idxs := (subAt_spec h).1
        have hxm : x ∈ ri.idxs := (subAt_spec h).2.2 x hx
        have hxl : x ∉ li.idxs := fun hc2 => hlr x hc2 hxm
        by_cases hix : i = x
        · exact absurd (hix ▸ hxm) hinr
        · rw [rotARV_node, if_neg hix]
          rw [subAt, if_neg (fun hc2 => hinr (by rw [hc2]; exact ham))]
          rw [rotARV_not_mem hxl]
          rw [subAt_none (fun hc2 => hlr a hc2 ham)]
          exact ihr hndr h hx hax

/-- `rotALV` pushes the rotated node and its left subtree one level down. -/
theorem depthIdx_rotALV : ∀ {t : VTree} {x : Nat} {c : Color} {v : Int}
    {l : VTree} {j : Nat} {cj : Color} {vj : Int} {rl rr : VTree},
    t.idxs.Nodup →
    subAt t x = some (VTree.node x c v l (VTree.node j cj vj rl rr)) →
    ∀ {a : Nat}, (a ∈ l.idxs ∨ a = x) →
    ∀ {d : Nat}, depthIdx t a = some d →
    depthIdx (rotALV x t) a = some (d + 1) := by
  intro t
  induction t with
  | leaf => intro x c v l j cj vj rl rr _ h; simp [subAt] at h
  | node i ci vi li ri ihl ihr =>
    intro x c v l j cj vj rl rr hnd h a ha d hd
    obtain ⟨hndl, hndr, hinl, hinr, hlr⟩ := nodup_parts hnd
    rw [subAt] at h
    by_cases hix : i = x
    · rw [if_pos hix] at h
      injection Option.some.inj h with h1 h2 h3 h4 h5
      subst h2 h3 h4 h5
      subst hix
      rw [rotALV_node, if_pos rfl]
      dsimp only
      rcases ha with ha | haeq
      · have hai : ¬ i = a := fun hc2 => hinl (by rw [hc2]; exact ha)
        rw [depthIdx, if_neg hai] at hd
        cases hdl : depthIdx li a with
        | some d2 =>
          rw [hdl] at hd
          obtain rfl := Option.some.inj hd
          have hji : ¬ j = a := fun hc2 =>
            hlr j (by rw [hc2]; exact ha) (by simp [VTree.idxs])
          rw [depthIdx, if_neg hji, depthIdx, if_neg hai, hdl]
        | none =>
          exact absurd hdl (by
            obtain ⟨d3, hd3⟩ := depth_of_mem ha
            simp [hd3])
      · obtain rfl : i = a := haeq.symm
        rw [depthIdx, if_pos rfl] at hd
        obtain rfl : (0 : Nat) = d := Option.some.inj hd
        have hji2 : ¬ j = i := fun hc2 =>
          hinr (by rw [← hc2]; simp [VTree.idxs])
        rw [depthIdx, if_neg hji2, depthIdx, if_pos rfl]
    · rw [if_neg hix] at h
      cases h2 : subAt li x with
      | some u2 =>
        rw [h2] at h
        obtain rfl := Option.some.inj h
        have hxm : x ∈ li.idxs := (subAt_spec h2).1
        have hsub := (subAt_spec h2).2.2
        have ham : a ∈ li.idxs := by
          rcases ha with ha | rfl
          · exact hsub a (by simp [VTree.idxs, ha])
          · exact hxm
        have hai : ¬ i = a := fun hc2 => hinl (by rw [hc2]; exact ham)
        have hxr : x ∉ ri.idxs := fun hc2 => hlr x hxm hc2
        rw [depthIdx, if_neg hai] at hd
        cases hdl : depthIdx li a with
        | some d2 =>
          rw [hdl] at hd
          obtain rfl := Option.some.inj hd
          rw [rotALV_node, if_neg hix]
          rw [depthIdx, if_neg hai,
            ihl hndl h2 ha hdl]
        | none =>
          exact absurd hdl (by
            obtain ⟨d3, hd3⟩ := depth_of_mem ham
            simp [hd3])
      | none =>
        rw [h2] at h
        have hxm : x ∈ ri.idxs := (subAt_spec h).1
        have hsub := (subAt_spec h).2.2
        have ham : a ∈ ri.idxs := by
          rcases ha with ha | rfl
          · exact hsub a (by simp [VTree.idxs, ha])
          · exact hxm
        have hai : ¬ i = a := fun hc2 => hinr (by rw [hc2]; exact ham)
        have hxl : x ∉ li.idxs := fun hc2 => hlr x hc2 hxm
        have hanl : a ∉ li.idxs := fun hc2 => hlr a hc2 ham
        rw [depthIdx, if_neg hai, depth_none hanl] at hd
        cases hdr : depthIdx ri a with
        | some d2 =>
          rw [hdr] at hd
          obtain rfl := Option.some.inj hd
          rw [rotALV_node, if_neg hix]
          rw [depthIdx, if_neg hai,
            rotALV_not_mem hxl, depth_none hanl,
            ihr hndr h ha hdr]
        | none =>
          exact absurd hdr (by
            obtain ⟨d3, hd3⟩ := depth_of_mem ham
            simp [hd3])

/-- `rotARV` pushes the rotated node and its right subtree one level down. -/
theorem depthIdx_rotARV : ∀ {t : VTree} {x : Nat} {c : Color} {v : Int}
    {r : VTree} {j : Nat} {cj : Color} {vj : Int} {ll lr : VTree},
    t.idxs.Nodup →
    subAt t x = some (VTree.node x c v (VTree.node j cj vj ll lr) r) →
    ∀ {a : Nat}, (a ∈ r.idxs ∨ a = x) →
    ∀ {d : Nat}, depthIdx t a = some d →
    depthIdx (rotARV x t) a = some (d + 1) := by
  intro t
  induction t with
  | leaf => intro x c v r j cj vj ll lr _ h; simp [subAt] at h
  | node i ci vi li ri ihl ihr =>
    intro x c v r j cj vj ll lr hnd h a ha d hd
    obtain ⟨hndl, hndr, hinl, hinr, hlr⟩ := nodup_parts hnd
    rw [subAt] at h
    by_cases hix : i = x
    · rw [if_pos hix] at h
      injection Option.some.inj h with h1 h2 h3 h4 h5
      subst h2 h3 h4 h5
      subst hix
      rw [rotARV_node, if_pos rfl]
      dsimp only
      rcases ha with ha | haeq
      · have hai : ¬ i = a := fun hc2 => hinr (by rw [hc2]; exact ha)
        have hanj : a ∉ (VTree.node j cj vj ll lr).idxs := fun hc2 =>
          hlr a hc2 ha
        have hja : ¬ j = a := fun hc2 =>
          hanj (by rw [← hc2]; simp [VTree.idxs])
        rw [depthIdx, if_neg hai,
          depth_none hanj] at hd
        cases hdr : depthIdx ri a with
        | some d2 =>
          rw [hdr] at hd
          obtain rfl := Option.some.inj hd
          have hall : a ∉ ll.idxs := fun hc2 =>
            hanj (by simp [VTree.idxs, hc2])
          have halr : a ∉ lr.idxs := fun hc2 =>
            hanj (by simp [VTree.idxs, hc2])
          rw [depthIdx, if_neg hja, depth_none hall, depthIdx,
            if_neg hai, depth_none halr, hdr]
        | none =>
          exact absurd hdr (by
            obtain ⟨d3, hd3⟩ := depth_of_mem ha
            simp [hd3])
      · obtain rfl : i = a := haeq.symm
        rw [depthIdx, if_pos rfl] at hd
        obtain rfl : (0 : Nat) = d := Option.some.inj hd
        have hji2 : ¬ j = i := fun hc2 =>
          hinl (by rw [← hc2]; simp [VTree.idxs])
        have hill : i ∉ ll.idxs := fun hc2 =>
          hinl (by simp [VTree.idxs, hc2])
        rw [depthIdx, if_neg hji2, depth_none hill, depthIdx, if_pos rfl]
    · rw [if_neg hix] at h
      cases h2 : subAt li x with
      | some u2 =>
        rw [h2] at h
        obtain rfl := Option.some.inj h
        have hxm : x ∈ li.idxs := (subAt_spec h2).1
        have hsub := (subAt_spec h2).2.2
        have ham : a ∈ li.idxs := by
          rcases ha with ha | rfl
          · exact hsub a (by simp [VTree.idxs, ha])
          · exact hxm
        have hai : ¬ i = a := fun hc2 => hinl (by rw [hc2]; exact ham)
        have hxr : x ∉ ri.idxs := fun hc2 => hlr x hxm hc2
        rw [depthIdx, if_neg hai] at hd
        cases hdl : depthIdx li a with
        | some d2 =>
          rw [hdl] at hd
          obtain rfl := Option.some.inj hd
          rw [rotARV_node, if_neg hix]
          rw [depthIdx, if_neg hai,
            ihl hndl h2 ha hdl]
        | none =>
          exact absurd hdl (by
            obtain ⟨d3, hd3⟩ := depth_of_mem ham
            simp [hd3])
      | none =>
        rw [h2] at h
        have hxm : x ∈ ri.idxs := (subAt_spec h).1
        have hsub := (subAt_spec h).2.2
        have ham : a ∈ ri.idxs := by
          rcases ha with ha | rfl
          · exact hsub a (by simp [VTree.idxs, ha])
          · exact hxm
        have hai : ¬ i = a := fun hc2 => hinr (by rw [hc2]; exact ham)
        have hxl : x ∉ li.idxs := fun hc2 => hlr x hc2 hxm
        have hanl : a ∉ li.idxs := fun hc2 => hlr a hc2 ham
        rw [depthIdx, if_neg hai, depth_none hanl] at hd
        cases hdr : depthIdx ri a with
        | some d2 =>
          rw [hdr] at hd
          obtain rfl := Option.some.inj hd
          rw [rotARV_node, if_neg hix]
          rw [depthIdx, if_neg hai,
            rotARV_not_mem hxl, depth_none hanl,
            ihr hndr h ha hdr]
        | none =>
          exact absurd hdr (by
            obtain ⟨d3, hd3⟩ := depth_of_mem ham
            simp [hd3])

theorem rootIdx_mem {u : VTree} {j : Nat} (h : u.rootIdx = some j) :
    j ∈ u.idxs := by
  cases u with
  | leaf => exact absurd h (by simp [VTree.rootIdx])
  | node i c v l r =>
    obtain rfl := Option.some.inj h
    simp [VTree.idxs]

theorem subAt_nodup : ∀ {t : VTree} {x : Nat} {u : VTree},
    t.idxs.Nodup → subAt t x = some u → u.idxs.Nodup := by
  intro t
  induction t with
  | leaf => intro x u _ h; simp [subAt] at h
  | node i c v l r ihl ihr =>
    intro x u hnd h
    obtain ⟨hndl, hndr, _, _, _⟩ := nodup_parts hnd
    rw [subAt] at h
    by_cases hix : i = x
    · rw [if_pos hix] at h
      obtain rfl := Option.some.inj h
      exact hnd
    · rw [if_neg hix] at h
      cases h2 : subAt l x with
      | some u2 =>
        rw [h2] at h
        obtain rfl := Option.some.inj h
        exact ihl hndl h2
      | none =>
        rw [h2] at h
        exact ihr hndr h

theorem subAt_child_left {t : VTree} (hnd : t.idxs.Nodup) {q : Nat}
    {cq : Color} {vq : Int} {lq rq : VTree}
    (h : subAt t q = some (VTree.node q cq vq lq rq)) {j : Nat}
    (hj : lq.rootIdx = some j) : subAt t j = some lq := by
  have hjm : j ∈ lq.idxs := rootIdx_mem hj
  have hju : j ∈ (VTree.node q cq vq lq rq).idxs := by
    simp [VTree.idxs, hjm]
  rw [subAt_trans hnd h hju]
  obtain ⟨hndl, hndr, hinl, hinr, hlr⟩ := nodup_parts (subAt_nodup hnd h)
  rw [subAt, if_neg (fun hc => hinl (by rw [hc]; exact hjm))]
  rw [subAt_self_of_root hj]

theorem subAt_child_right {t : VTree} (hnd : t.idxs.Nodup) {q : Nat}
    {cq : Color} {vq : Int} {lq rq : VTree}
    (h : subAt t q = some (VTree.node q cq vq lq rq)) {j : Nat}
    (hj : rq.rootIdx = some j) : subAt t j = some rq := by
  have hjm : j ∈ rq.idxs := rootIdx_mem hj
  have hju : j ∈ (VTree.node q cq vq lq rq).idxs := by
    simp [VTree.idxs, hjm]
  rw [subAt_trans hnd h hju]
  obtain ⟨hndl, hndr, hinl, hinr, hlr⟩ := nodup_parts (subAt_nodup hnd h)
  rw [subAt, if_neg (fun hc => hinr (by rw [hc]; exact hjm))]
  rw [subAt_none (fun hc => hlr j hc hjm)]
  exact subAt_self_of_root hj

theorem recolorV_node (j : Nat) (c2 : Color) (i : Nat) (c : Color) (v : Int)
    (l r : VTree) :
    recolorV j c2 (VTree.node i c v l r)
      = VTree.node i (if i = j then c2 else c) v (recolorV j c2 l)
          (recolorV j c2 r) := rfl

/-- The shared tail of `fixInsertCase23L`: recolor the (left-)parent BLACK
and the grandparent RED, then rotate the grandparent right.  The cursor's
parent afterwards is the recolored BLACK parent, so the repair loop exits. -/
theorem rotateTailL {sA : RedBlackTree} {tA : VTree} {g p2 node1 : Nat}
    {cg : Color} {vg : Int} {cp2 : Color} {vp2 : Int} {lp2 rp2 rg : VTree}
    (hwf : WFt sA tA)
    (hshape : subAt tA g = some (VTree.node g cg vg
      (VTree.node p2 cp2 vp2 lp2 rp2) rg))
    (hn1 : lp2.rootIdx = some node1) :
    (∃ t4, WFt (RedBlackTree.rotateRight
        (setColor (setColor sA p2 Color.BLACK) g Color.RED) g) t4)
    ∧ (getNode (RedBlackTree.rotateRight
        (setColor (setColor sA p2 Color.BLACK) g Color.RED) g) node1).parent
        = some p2
    ∧ (getNode (RedBlackTree.rotateRight
        (setColor (setColor sA p2 Color.BLACK) g Color.RED) g) p2).color
        = Color.BLACK := by
  have hnd := hwf.2.1
  obtain ⟨hndgl, hndgr, hing, _, _⟩ := nodup_parts (subAt_nodup hnd hshape)
  have hgp2 : ¬ g = p2 := fun hc =>
    hing (by rw [hc]; simp [VTree.idxs])
  have hp2g : ¬ p2 = g := fun hc => hgp2 hc.symm
  have hgmem : g ∈ tA.idxs := (subAt_spec hshape).1
  have hp2mem : p2 ∈ tA.idxs := (subAt_spec hshape).2.2 p2 (by
    simp [VTree.idxs])
  have hwf1 := setColor_WFt Color.BLACK hwf hp2mem
  have hwf2 := setColor_WFt Color.RED hwf1 (by
    rw [recolorV_idxs]; exact hgmem)
  have hshape3 : subAt (recolorV g Color.RED
      (recolorV p2 Color.BLACK tA)) g
      = some (VTree.node g Color.RED vg
        (VTree.node p2 Color.BLACK vp2
          (recolorV g Color.RED (recolorV p2 Color.BLACK lp2))
          (recolorV g Color.RED (recolorV p2 Color.BLACK rp2)))
        (recolorV g Color.RED (recolorV p2 Color.BLACK rg))) := by
    rw [subAt_recolorV, subAt_recolorV, hshape]
    simp [recolorV_node, hgp2, hp2g]
  obtain ⟨f3, hv3⟩ := hwf2.1
  have hleft3 : (getNode (setColor (setColor sA p2 Color.BLACK) g
      Color.RED) g).left = some p2 := (subAt_ptrs hv3 hshape3).2.2.1
  have hgmem3 : g ∈ (recolorV g Color.RED
      (recolorV p2 Color.BLACK tA)).idxs := by
    rw [recolorV_idxs, recolorV_idxs]; exact hgmem
  have hwf4 := rotateRight_WFt hwf2 hgmem3 hleft3
  have hshape4 := subAt_rotARV_at hwf2.2.1 hshape3
  obtain ⟨f4, hv4⟩ := hwf4.1
  refine ⟨⟨_, hwf4⟩, ?_, ?_⟩
  · refine heap_parent_of_child hwf4.2.2.2 hshape4 (Or.inl ?_)
    rw [rootIdx_recolorV, rootIdx_recolorV]
    exact hn1
  · exact (subAt_ptrs hv4 hshape4).1

/-- The mirror tail of `fixInsertCase23R`. -/
theorem rotateTailR {sA : RedBlackTree} {tA : VTree} {g p2 node1 : Nat}
    {cg : Color} {vg : Int} {cp2 : Color} {vp2 : Int} {lg lp2 rp2 : VTree}
    (hwf : WFt sA tA)
    (hshape : subAt tA g = some (VTree.node g cg vg lg
      (VTree.node p2 cp2 vp2 lp2 rp2)))
    (hn1 : rp2.rootIdx = some node1) :
    (∃ t4, WFt (RedBlackTree.rotateLeft
        (setColor (setColor sA p2 Color.BLACK) g Color.RED) g) t4)
    ∧ (getNode (RedBlackTree.rotateLeft
        (setColor (setColor sA p2 Color.BLACK) g Color.RED) g) node1).parent
        = some p2
    ∧ (getNode (RedBlackTree.rotateLeft
        (setColor (setColor sA p2 Color.BLACK) g Color.RED) g) p2).color
        = Color.BLACK := by
  have hnd := hwf.2.1
  obtain ⟨hndgl, hndgr, _, hing, _⟩ := nodup_parts (subAt_nodup hnd hshape)
  have hgp2 : ¬ g = p2 := fun hc =>
    hing (by rw [hc]; simp [VTree.idxs])
  have hp2g : ¬ p2 = g := fun hc => hgp2 hc.symm
  have hgmem : g ∈ tA.idxs := (subAt_spec hshape).1
  have hp2mem : p2 ∈ tA.idxs := (subAt_spec hshape).2.2 p2 (by
    simp [VTree.idxs])
  have hwf1 := setColor_WFt Color.BLACK hwf hp2mem
  have hwf2 := setColor_WFt Color.RED hwf1 (by
    rw [recolorV_idxs]; exact hgmem)
  have hshape3 : subAt (recolorV g Color.RED
      (recolorV p2 Color.BLACK tA)) g
      = some (VTree.node g Color.RED vg
        (recolorV g Color.RED (recolorV p2 Color.BLACK lg))
        (VTree.node p2 Color.BLACK vp2
          (recolorV g Color.RED (recolorV p2 Color.BLACK lp2))
          (recolorV g Color.RED (recolorV p2 Color.BLACK rp2)))) := by
    rw [subAt_recolorV, subAt_recolorV, hshape]
    simp [recolorV_node, hgp2, hp2g]
  obtain ⟨f3, hv3⟩ := hwf2.1
  have hright3 : (getNode (setColor (setColor sA p2 Color.BLACK) g
      Color.RED) g).right = some p2 := (subAt_ptrs hv3 hshape3).2.2.2
  have hgmem3 : g ∈ (recolorV g Color.RED
      (recolorV p2 Color.BLACK tA)).idxs := by
    rw [recolorV_idxs, recolorV_idxs]; exact hgmem
  have hwf4 := rotateLeft_WFt hwf2 hgmem3 hright3
  have hshape4 := subAt_rotALV_at hwf2.2.1 hshape3
  obtain ⟨f4, hv4⟩ := hwf4.1
  refine ⟨⟨_, hwf4⟩, ?_, ?_⟩
  · refine heap_parent_of_child hwf4.2.2.2 hshape4 (Or.inr ?_)
    rw [rootIdx_recolorV, rootIdx_recolorV]
    exact hn1
  · exact (subAt_ptrs hv4 hshape4).1

/-- In the configuration the repair loop dispatches it on, `fixInsertCase23L`
returns a state whose cursor has a BLACK (or absent) parent. -/
theorem fixInsertCase23L_total {s : RedBlackTree} {t : VTree}
    {node p g : Nat} (hwf : WFt s t) (hnode : node ∈ t.idxs)
    (hp : (getNode s node).parent = some p)
    (hg : (getNode s p).parent = some g)
    (hgpl : (getNode s g).left = some p) :
    ∃ st, RedBlackTree.fixInsertCase23L s node p = some st ∧
      (∃ t4, WFt st.1 t4) ∧
      ∃ q, (getNode st.1 st.2).parent = some q ∧
        (getNode st.1 q).color = Color.BLACK := by
  obtain ⟨f, hv⟩ := hwf.1
  have hnd := hwf.2.1
  have hpok := hwf.2.2.2
  rcases parent_subAt hpok hnd hnode hp with ⟨_, hc0⟩ | hsub
  · exact absurd hc0 (by simp)
  obtain ⟨cp, vp, lpn, rpn, hsp, hsiden⟩ := hsub
  have hpmem : p ∈ t.idxs := (subAt_spec hsp).1
  rcases parent_subAt hpok hnd hpmem hg with ⟨_, hc0⟩ | hsub2
  · exact absurd hc0 (by simp)
  obtain ⟨cg, vg, lg, rg, hsg, _⟩ := hsub2
  have hlgroot : lg.rootIdx = some p := by
    rw [← (subAt_ptrs hv hsg).2.2.1]
    exact hgpl
  have hlg2 : lg = VTree.node p cp vp lpn rpn :=
    Option.some.inj ((subAt_child_left hnd hsg hlgroot).symm.trans hsp)
  subst hlg2
  have hgnep : g ≠ p := parent_ne hpok hnd
    (fun q hq => absurd hq (by simp)) p hpmem g hg
  obtain ⟨hndgl, hndgr, hing, _, hlrg⟩ := nodup_parts (subAt_nodup hnd hsg)
  by_cases hpr : (getNode s p).right = some node
  · -- first rotate left at p, then the shared tail at (node, g)
    have hrpn : rpn.rootIdx = some node := by
      rw [← (subAt_ptrs hv hsp).2.2.2]
      exact hpr
    cases rpn with
    | leaf => exact absurd hrpn (by simp [VTree.rootIdx])
    | node ni cn vn nl nr =>
      obtain rfl : node = ni := (Option.some.inj hrpn).symm
      have hwfA := rotateLeft_WFt hwf hpmem hpr
      have hpmemu : p ∈ (VTree.node g cg vg
          (VTree.node p cp vp lpn (VTree.node node cn vn nl nr)) rg).idxs :=
        by simp [VTree.idxs]
      have hsgA := subAt_rotALV_above hnd hsg hpmemu hgnep
      rw [rotALV_node, if_neg (fun hc => hgnep hc)] at hsgA
      rw [rotALV_node, if_pos rfl] at hsgA
      rw [rotALV_not_mem (fun hc => hlrg p (by simp [VTree.idxs]) hc)]
        at hsgA
      dsimp only at hsgA
      have hndA : (rotALV p t).idxs.Nodup := hwfA.2.1
      have hpokA := hwfA.2.2.2
      have hsnode : subAt (rotALV p t) node
          = some (VTree.node node cn vn
            (VTree.node p cp vp lpn nl) nr) :=
        subAt_child_left hndA hsgA rfl
      have hn1p : (getNode (RedBlackTree.rotateLeft s p) p).parent
          = some node :=
        heap_parent_of_child hpokA hsnode (Or.inl rfl)
      have hnodeg : (getNode (RedBlackTree.rotateLeft s p) node).parent
          = some g :=
        heap_parent_of_child hpokA hsgA (Or.inl rfl)
      obtain ⟨hwf4, hpar4, hcol4⟩ := rotateTailL hwfA hsgA rfl
      refine ⟨(RedBlackTree.rotateRight (setColor (setColor
          (RedBlackTree.rotateLeft s p) node Color.BLACK) g Color.RED) g,
          p), ?_, hwf4, node, hpar4, hcol4⟩
      unfold RedBlackTree.fixInsertCase23L
      dsimp only
      rw [if_pos hpr]
      dsimp only
      rw [hn1p]
      dsimp only
      rw [getNode_setColor_parent, hnodeg]
  · -- no pre-rotation: the shared tail at (p, g)
    have hlpn : lpn.rootIdx = some node := by
      rcases hsiden with hside | hside
      · exact hside
      · exact absurd (((subAt_ptrs hv hsp).2.2.2).trans hside) hpr
    have hppar2 : (getNode (setColor s p Color.BLACK) p).parent
        = some g := by
      rw [getNode_setColor_parent]
      exact hg
    obtain ⟨hwf4, hpar4, hcol4⟩ := rotateTailL hwf hsg hlpn
    refine ⟨(RedBlackTree.rotateRight (setColor (setColor s p Color.BLACK)
        g Color.RED) g, node), ?_, hwf4, p, hpar4, hcol4⟩
    unfold RedBlackTree.fixInsertCase23L
    dsimp only
    rw [if_neg hpr]
    dsimp only
    rw [hp]
    dsimp only
    rw [hppar2]

/-- The mirror image for `fixInsertCase23R`. -/
theorem fixInsertCase23R_total {s : RedBlackTree} {t : VTree}
    {node p g : Nat} (hwf : WFt s t) (hnode : node ∈ t.idxs)
    (hp : (getNode s node).parent = some p)
    (hg : (getNode s p).parent = some g)
    (hgpr : (getNode s g).right = some p) :
    ∃ st, RedBlackTree.fixInsertCase23R s node p = some st ∧
      (∃ t4, WFt st.1 t4) ∧
      ∃ q, (getNode st.1 st.2).parent = some q ∧
        (getNode st.1 q).color = Color.BLACK := by
  obtain ⟨f, hv⟩ := hwf.1
  have hnd := hwf.2.1
  have hpok := hwf.2.2.2
  rcases parent_subAt hpok hnd hnode hp with ⟨_, hc0⟩ | hsub
  · exact absurd hc0 (by simp)
  obtain ⟨cp, vp, lpn, rpn, hsp, hsiden⟩ := hsub
  have hpmem : p ∈ t.idxs := (subAt_spec hsp).1
  rcases parent_subAt hpok hnd hpmem hg with ⟨_, hc0⟩ | hsub2
  · exact absurd hc0 (by simp)
  obtain ⟨cg, vg, lg, rg, hsg, _⟩ := hsub2
  have hrgroot : rg.rootIdx = some p := by
    rw [← (subAt_ptrs hv hsg).2.2.2]
    exact hgpr
  have hrg2 : rg = VTree.node p cp vp lpn rpn :=
    Option.some.inj ((subAt_child_right hnd hsg hrgroot).symm.trans hsp)
  subst hrg2
  have hgnep : g ≠ p := parent_ne hpok hnd
    (fun q hq => absurd hq (by simp)) p hpmem g hg
  obtain ⟨hndgl, hndgr, _, hing, hlrg⟩ := nodup_parts (subAt_nodup hnd hsg)
  by_cases hpl : (getNode s p).left = some node
  · have hlpn : lpn.rootIdx = some node := by
      rw [← (subAt_ptrs hv hsp).2.2.1]
      exact hpl
    cases lpn with
    | leaf => exact absurd hlpn (by simp [VTree.rootIdx])
    | node ni cn vn nl nr =>
      obtain rfl : node = ni := (Option.some.inj hlpn).symm
      have hwfA := rotateRight_WFt hwf hpmem hpl
      have hpmemu : p ∈ (VTree.node g cg vg lg
          (VTree.node p cp vp (VTree.node node cn vn nl nr) rpn)).idxs :=
        by simp [VTree.idxs]
      have hsgA := subAt_rotARV_above hnd hsg hpmemu hgnep
      rw [rotARV_node, if_neg (fun hc => hgnep hc)] at hsgA
      rw [rotARV_node, if_pos rfl] at hsgA
      rw [rotARV_not_mem (fun hc => hlrg p hc (by simp [VTree.idxs]))]
        at hsgA
      dsimp only at hsgA
      have hndA : (rotARV p t).idxs.Nodup := hwfA.2.1
      have hpokA := hwfA.2.2.2
      have hsnode : subAt (rotARV p t) node
          = some (VTree.node node cn vn nl
            (VTree.node p cp vp nr rpn)) :=
        subAt_child_right hndA hsgA rfl
      have hn1p : (getNode (RedBlackTree.rotateRight s p) p).parent
          = some node :=
        heap_parent_of_child hpokA hsnode (Or.inr rfl)
      have hnodeg : (getNode (RedBlackTree.rotateRight s p) node).parent
          = some g :=
        heap_parent_of_child hpokA hsgA (Or.inr rfl)
      obtain ⟨hwf4, hpar4, hcol4⟩ := rotateTailR hwfA hsgA rfl
      refine ⟨(RedBlackTree.rotateLeft (setColor (setColor
          (RedBlackTree.rotateRight s p) node Color.BLACK) g Color.RED) g,
          p), ?_, hwf4, node, hpar4, hcol4⟩
      unfold RedBlackTree.fixInsertCase23R
      dsimp only
      rw [if_pos hpl]
      dsimp only
      rw [hn1p]
      dsimp only
      rw [getNode_setColor_parent, hnodeg]
  · have hrpn : rpn.rootIdx = some node := by
      rcases hsiden with hside | hside
      · exact absurd (((subAt_ptrs hv hsp).2.2.1).trans hside) hpl
      · exact hside
    have hppar2 : (getNode (setColor s p Color.BLACK) p).parent
        = some g := by
      rw [getNode_setColor_parent]
      exact hg
    obtain ⟨hwf4, hpar4, hcol4⟩ := rotateTailR hwf hsg hrpn
    refine ⟨(RedBlackTree.rotateLeft (setColor (setColor s p Color.BLACK)
        g Color.RED) g, node), ?_, hwf4, p, hpar4, hcol4⟩
    unfold RedBlackTree.fixInsertCase23R
    dsimp only
    rw [if_neg hpl]
    dsimp only
    rw [hp]
    dsimp only
    rw [hppar2]

theorem getNode_setLeft_color (s : RedBlackTree) (j : Nat) (p : Option Nat)
    (i : Nat) :
    (getNode (setLeft s j p) i).color = (getNode s i).color := by
  by_cases h : j = i
  · subst h
    by_cases hlen : j < s.nodes.length
    · rw [getNode_setLeft_self hlen]
    · rw [setLeft, setNode_oob (le_of_not_lt hlen)]
  · rw [getNode_setLeft_ne h]

theorem getNode_setRight_color (s : RedBlackTree) (j : Nat) (p : Option Nat)
    (i : Nat) :
    (getNode (setRight s j p) i).color = (getNode s i).color := by
  by_cases h : j = i
  · subst h
    by_cases hlen : j < s.nodes.length
    · rw [getNode_setRight_self hlen]
    · rw [setRight, setNode_oob (le_of_not_lt hlen)]
  · rw [getNode_setRight_ne h]

theorem attachNew_color (s : RedBlackTree) (d : Nat) (k : Int) {j : Nat}
    (hjn : j ≠ s.nodes.length) :
    (getNode (RedBlackTree.attachNew s d k).1 j).color
      = (getNode s j).color := by
  unfold RedBlackTree.attachNew
  dsimp only
  split <;> dsimp only
  · rw [getNode_setLeft_color, getNode_addNode_ne hjn]
  · rw [getNode_setRight_color, getNode_addNode_ne hjn]

/-- The root of the view has no parent reference. -/
theorem root_parent_none {f : Nat} {s : RedBlackTree} {t : VTree} {r : Nat}
    (hv : view f s s.root = some t) (hpok : parentOkV s t none = true)
    (hr : s.root = some r) : (getNode s r).parent = none := by
  rw [hr] at hv
  cases t with
  | leaf => exact absurd (view_leaf_inv hv) (by simp)
  | node rt c v l r2 =>
    obtain ⟨f2, rfl, hoi, _, _, _, _⟩ := view_node_inv hv
    obtain rfl := Option.some.inj hoi
    rw [parentOkV_node] at hpok
    exact hpok.1

/-- The `fixInsert` repair loop terminates on any well-formed state whose
root is BLACK (or is the cursor itself): the uncle-RED case climbs two
levels, every other case exits within two iterations. -/
theorem fixInsertLoop_total :
    ∀ (D : Nat) {s : RedBlackTree} {t : VTree} {node : Nat},
      WFt s t → node ∈ t.idxs →
      (∀ r, s.root = some r →
        (getNode s r).color = Color.BLACK ∨ r = node) →
      (∀ d, depthIdx t node = some d → d ≤ D) →
      ∃ F s2, ∀ f, F ≤ f →
        RedBlackTree.fixInsertLoop f s node = some s2 := by
  intro D
  induction D using Nat.strong_induction_on with
  | _ D ih =>
  intro s t node hwf hnode hrb hD
  obtain ⟨f, hv⟩ := hwf.1
  have hnd := hwf.2.1
  have hbd := hwf.2.2.1
  have hpok := hwf.2.2.2
  cases hp : (getNode s node).parent with
  | none =>
    refine ⟨1, s, fun g hg2 => ?_⟩
    obtain ⟨g2, rfl⟩ : ∃ g2, g = g2 + 1 := ⟨g - 1, by omega⟩
    rw [RedBlackTree.fixInsertLoop, hp]
  | some p =>
    by_cases hpc : (getNode s p).color = Color.RED
    case neg =>
      refine ⟨1, s, fun g hg2 => ?_⟩
      obtain ⟨g2, rfl⟩ : ∃ g2, g = g2 + 1 := ⟨g - 1, by omega⟩
      rw [RedBlackTree.fixInsertLoop, hp]
      dsimp only
      rw [if_neg hpc]
    case pos =>
      obtain ⟨hpmem, dp, hdp, hdnode⟩ := depth_parent_heap hpok hnd hnode hp
      have hne : p ≠ node := parent_ne hpok hnd
        (fun q hq => absurd hq (by simp)) node hnode p hp
      have hprootne : s.root ≠ some p := by
        intro hc
        rcases hrb p hc with hb | hb
        · exact absurd (hb.symm.trans hpc) (by decide)
        · exact hne hb
      obtain ⟨g, hg⟩ := nonroot_parent hpok hpmem
        (by rw [← view_rootIdx hv]; exact hprootne)
      obtain ⟨hgmem, dg, hdg, hdp2⟩ := depth_parent_heap hpok hnd hpmem hg
      have hdpe : dp = dg + 1 := Option.some.inj (hdp.symm.trans hdp2)
      have hDbound : dg + 2 ≤ D := by
        have := hD (dp + 1) hdnode
        omega
      rcases parent_subAt hpok hnd hpmem hg with ⟨_, hc0⟩ | hsub2
      · exact absurd hc0 (by simp)
      obtain ⟨cg, vg, lg, rg, hsg, hsideg⟩ := hsub2
      obtain ⟨hgc, hgv, hgl, hgr⟩ := subAt_ptrs hv hsg
      by_cases hgpl : (getNode s g).left = some p
      · cases hun : (getNode s g).right with
        | some u =>
          by_cases hucol : (getNode s u).color = Color.RED
          · -- ケース1: recolor and climb to the grandparent
            have humem : u ∈ t.idxs := child_mem hv hgmem (Or.inr hun)
            have hwf1 := setColor_WFt Color.BLACK hwf hpmem
            have hwf2 := setColor_WFt Color.BLACK hwf1
              (by rw [recolorV_idxs]; exact humem)
            have hwf3 := setColor_WFt Color.RED hwf2
              (by rw [recolorV_idxs, recolorV_idxs]; exact hgmem)
            have hrb3 : ∀ r, (setColor (setColor (setColor s p Color.BLACK)
                u Color.BLACK) g Color.RED).root = some r →
                (getNode (setColor (setColor (setColor s p Color.BLACK)
                  u Color.BLACK) g Color.RED) r).color = Color.BLACK
                ∨ r = g := by
              intro r hr
              rw [setColor_root, setColor_root, setColor_root] at hr
              by_cases hrg2 : r = g
              · exact Or.inr hrg2
              · left
                rw [getNode_setColor_ne (fun hc => hrg2 hc.symm)]
                by_cases hru : r = u
                · subst hru
                  rw [getNode_setColor_self (by
                    rw [setColor_length]; exact hbd r humem)]
                · rw [getNode_setColor_ne (fun hc => hru hc.symm)]
                  by_cases hrp : r = p
                  · subst hrp
                    rw [getNode_setColor_self (hbd r hpmem)]
                  · rw [getNode_setColor_ne (fun hc => hrp hc.symm)]
                    rcases hrb r hr with hb | hb
                    · exact hb
                    · exfalso
                      subst hb
                      have hpn := root_parent_none hv hpok hr
                      rw [hp] at hpn
                      exact absurd hpn (by simp)
            obtain ⟨F, s4, hF⟩ := ih dg (by omega) hwf3
              (by rw [recolorV_idxs, recolorV_idxs, recolorV_idxs]
                  exact hgmem)
              hrb3
              (fun d hd => by
                rw [depthIdx_recolorV, depthIdx_recolorV, depthIdx_recolorV,
                  hdg] at hd
                exact le_of_eq (Option.some.inj hd).symm)
            refine ⟨F + 1, s4, fun g2 hg2 => ?_⟩
            obtain ⟨g3, rfl⟩ : ∃ g3, g2 = g3 + 1 := ⟨g2 - 1, by omega⟩
            rw [RedBlackTree.fixInsertLoop, hp]
            dsimp only
            rw [if_pos hpc, hg]
            dsimp only
            rw [if_pos hgpl, hun]
            dsimp only
            rw [if_pos hucol]
            dsimp only
            exact hF g3 (by omega)
          · obtain ⟨st, hstep, ⟨t4, hwf4⟩, q, hq, hqc⟩ :=
              fixInsertCase23L_total hwf hnode hp hg hgpl
            refine ⟨2, st.1, fun g2 hg2 => ?_⟩
            obtain ⟨g3, rfl⟩ : ∃ g3, g2 = g3 + 1 := ⟨g2 - 1, by omega⟩
            obtain ⟨g4, rfl⟩ : ∃ g4, g3 = g4 + 1 := ⟨g3 - 1, by omega⟩
            rw [RedBlackTree.fixInsertLoop, hp]
            dsimp only
            rw [if_pos hpc, hg]
            dsimp only
            rw [if_pos hgpl, hun]
            dsimp only
            rw [if_neg hucol, hstep]
            dsimp only
            rw [RedBlackTree.fixInsertLoop, hq]
            dsimp only
            rw [if_neg (fun hc => absurd (hqc.symm.trans hc) (by decide))]
        | none =>
          obtain ⟨st, hstep, ⟨t4, hwf4⟩, q, hq, hqc⟩ :=
            fixInsertCase23L_total hwf hnode hp hg hgpl
          refine ⟨2, st.1, fun g2 hg2 => ?_⟩
          obtain ⟨g3, rfl⟩ : ∃ g3, g2 = g3 + 1 := ⟨g2 - 1, by omega⟩
          obtain ⟨g4, rfl⟩ : ∃ g4, g3 = g4 + 1 := ⟨g3 - 1, by omega⟩
          rw [RedBlackTree.fixInsertLoop, hp]
          dsimp only
          rw [if_pos hpc, hg]
          dsimp only
          rw [if_pos hgpl, hun]
          dsimp only
          rw [hstep]
          dsimp only
          rw [RedBlackTree.fixInsertLoop, hq]
          dsimp only
          rw [if_neg (fun hc => absurd (hqc.symm.trans hc) (by decide))]
      · have hgpr : (getNode s g).right = some p := by
          rcases hsideg with hside | hside
          · exact absurd (hgl.trans hside) hgpl
          · exact hgr.trans hside
        cases hul : (getNode s g).left with
        | some u =>
          by_cases hucol : (getNode s u).color = Color.RED
          · -- mirrored ケース1
            have humem : u ∈ t.idxs := child_mem hv hgmem (Or.inl hul)
            have hwf1 := setColor_WFt Color.BLACK hwf hpmem
            have hwf2 := setColor_WFt Color.BLACK hwf1
              (by rw [recolorV_idxs]; exact humem)
            have hwf3 := setColor_WFt Color.RED hwf2
              (by rw [recolorV_idxs, recolorV_idxs]; exact hgmem)
            have hrb3 : ∀ r, (setColor (setColor (setColor s p Color.BLACK)
                u Color.BLACK) g Color.RED).root = some r →
                (getNode (setColor (setColor (setColor s p Color.BLACK)
                  u Color.BLACK) g Color.RED) r).color = Color.BLACK
                ∨ r = g := by
              intro r hr
              rw [setColor_root, setColor_root, setColor_root] at hr
              by_cases hrg2 : r = g
              · exact Or.inr hrg2
              · left
                rw [getNode_setColor_ne (fun hc => hrg2 hc.symm)]
                by_cases hru : r = u
                · subst hru
                  rw [getNode_setColor_self (by
                    rw [setColor_length]; exact hbd r humem)]
                · rw [getNode_setColor_ne (fun hc => hru hc.symm)]
                  by_cases hrp : r = p
                  · subst hrp
                    rw [getNode_setColor_self (hbd r hpmem)]
                  · rw [getNode_setColor_ne (fun hc => hrp hc.symm)]
                    rcases hrb r hr with hb | hb
                    · exact hb
                    · exfalso
                      subst hb
                      have hpn := root_parent_none hv hpok hr
                      rw [hp] at hpn
                      exact absurd hpn (by simp)
            obtain ⟨F, s4, hF⟩ := ih dg (by omega) hwf3
              (by rw [recolorV_idxs, recolorV_idxs, recolorV_idxs]
                  exact hgmem)
              hrb3
              (fun d hd => by
                rw [depthIdx_recolorV, depthIdx_recolorV, depthIdx_recolorV,
                  hdg] at hd
                exact le_of_eq (Option.some.inj hd).symm)
            refine ⟨F + 1, s4, fun g2 hg2 => ?_⟩
            obtain ⟨g3, rfl⟩ : ∃ g3, g2 = g3 + 1 := ⟨g2 - 1, by omega⟩
            rw [RedBlackTree.fixInsertLoop, hp]
            dsimp only
            rw [if_pos hpc, hg]
            dsimp only
            rw [if_neg hgpl, hul]
            dsimp only
            rw [if_pos hucol]
            dsimp only
            exact hF g3 (by omega)
          · obtain ⟨st, hstep, ⟨t4, hwf4⟩, q, hq, hqc⟩ :=
              fixInsertCase23R_total hwf hnode hp hg hgpr
            refine ⟨2, st.1, fun g2 hg2 => ?_⟩
            obtain ⟨g3, rfl⟩ : ∃ g3, g2 = g3 + 1 := ⟨g2 - 1, by omega⟩
            obtain ⟨g4, rfl⟩ : ∃ g4, g3 = g4 + 1 := ⟨g3 - 1, by omega⟩
            rw [RedBlackTree.fixInsertLoop, hp]
            dsimp only
            rw [if_pos hpc, hg]
            dsimp only
            rw [if_neg hgpl, hul]
            dsimp only
            rw [if_neg hucol, hstep]
            dsimp only
            rw [RedBlackTree.fixInsertLoop, hq]
            dsimp only
            rw [if_neg (fun hc => absurd (hqc.symm.trans hc) (by decide))]
        | none =>
          obtain ⟨st, hstep, ⟨t4, hwf4⟩, q, hq, hqc⟩ :=
            fixInsertCase23R_total hwf hnode hp hg hgpr
          refine ⟨2, st.1, fun g2 hg2 => ?_⟩
          obtain ⟨g3, rfl⟩ : ∃ g3, g2 = g3 + 1 := ⟨g2 - 1, by omega⟩
          obtain ⟨g4, rfl⟩ : ∃ g4, g3 = g4 + 1 := ⟨g3 - 1, by omega⟩
          rw [RedBlackTree.fixInsertLoop, hp]
          dsimp only
          rw [if_pos hpc, hg]
          dsimp only
          rw [if_neg hgpl, hul]
          dsimp only
          rw [hstep]
          dsimp only
          rw [RedBlackTree.fixInsertLoop, hq]
          dsimp only
          rw [if_neg (fun hc => absurd (hqc.symm.trans hc) (by decide))]

/-- `insert` terminates on every well-formed state with a BLACK root. -/
theorem insert_total {s : RedBlackTree} {t : VTree} (k : Int)
    (hwf : WFt s t) (hrb : rootBlackS s) :
    ∃ F s2, ∀ f, F ≤ f → RedBlackTree.insert f s k = some s2 := by
  cases hrt : s.root with
  | none =>
    refine ⟨0, { setColor (addNode s ⟨k, Color.RED, none, none, none⟩).1
      (addNode s ⟨k, Color.RED, none, none, none⟩).2 Color.BLACK with
      root := some (addNode s ⟨k, Color.RED, none, none, none⟩).2 },
      fun f hf => ?_⟩
    unfold RedBlackTree.insert
    rw [hrt]
  | some root =>
    obtain ⟨f, hv⟩ := hwf.1
    rw [hrt] at hv
    obtain ⟨F1, d, hF1⟩ := @descend_total t f s root k hv
    have hdmem : d ∈ t.idxs := descend_mem hv (hF1 F1 le_rfl)
    have hnc := descend_stop (hF1 F1 le_rfl)
    obtain ⟨hwfa, hmema⟩ := attachNew_WFt hwf hdmem hnc
    have hrba : ∀ r, (RedBlackTree.attachNew s d k).1.root = some r →
        (getNode (RedBlackTree.attachNew s d k).1 r).color = Color.BLACK
        ∨ r = (RedBlackTree.attachNew s d k).2 := by
      intro r hr
      rw [attachNew_root, hrt] at hr
      obtain rfl : root = r := Option.some.inj hr
      left
      have hjn : root ≠ s.nodes.length := by
        have := hwf.2.2.1 root (root_mem_of_view hv)
        omega
      rw [attachNew_color s d k hjn]
      exact hrb root hrt
    obtain ⟨dn, hdn⟩ := depth_of_mem hmema
    obtain ⟨F2, s3, hF2⟩ := fixInsertLoop_total dn hwfa hmema hrba
      (fun d2 hd2 => le_of_eq (Option.some.inj (hdn.symm.trans hd2)).symm)
    refine ⟨max F1 F2, (match s3.root with
      | some r => setColor s3 r Color.BLACK
      | none => s3), fun f2 hf2 => ?_⟩
    unfold RedBlackTree.insert
    rw [hrt]
    dsimp only
    rw [hF1 f2 (le_trans (le_max_left F1 F2) hf2)]
    dsimp only
    unfold RedBlackTree.fixInsert
    rw [hF2 f2 (le_trans (le_max_right F1 F2) hf2)]
    rfl

theorem rootIdx_rotALV_ne {t : VTree} {x : Nat}
    (h : t.rootIdx ≠ some x) : (rotALV x t).rootIdx = t.rootIdx := by
  cases t with
  | leaf => rfl
  | node i c v l r =>
    rw [rotALV_node, if_neg (fun hc => h (by rw [hc]; rfl))]
    rfl

theorem rootIdx_rotARV_ne {t : VTree} {x : Nat}
    (h : t.rootIdx ≠ some x) : (rotARV x t).rootIdx = t.rootIdx := by
  cases t with
  | leaf => rfl
  | node i c v l r =>
    rw [rotARV_node, if_neg (fun hc => h (by rw [hc]; rfl))]
    rfl

/-- The delete-repair loop with a left-child cursor whose BLACK sibling has
a RED right child performs the terminal recolor-and-rotate case (3b) at
once. -/
theorem fixDelete3bL {s : RedBlackTree} {node current parent sib srx : Nat}
    (hroot : ¬ s.root = some current)
    (hpar : (getNode s current).parent = some parent)
    (hlc : (getNode s parent).left = some current)
    (hsib : (getNode s parent).right = some sib)
    (hsibB : (getNode s sib).color = Color.BLACK)
    (hsr : (getNode s sib).right = some srx)
    (hsrR : (getNode s srx).color = Color.RED) :
    ∀ f, 1 ≤ f → RedBlackTree.fixDeleteLoop f s node current
      = some (RedBlackTree.rotateLeft (setColor (setColor (setColor s sib
          (getNode s parent).color) parent Color.BLACK) srx Color.BLACK)
        parent) := by
  intro f hf
  obtain ⟨f2, rfl⟩ : ∃ f2, f = f2 + 1 := ⟨f - 1, by omega⟩
  rw [RedBlackTree.fixDeleteLoop, if_neg hroot, hpar]
  dsimp only
  rw [if_pos hlc, hsib]
  dsimp only
  rw [if_neg (fun hc => absurd (hsibB.symm.trans hc) (by decide))]
  rw [hsr]
  dsimp only
  rw [if_neg (fun hc => absurd (hsrR.symm.trans hc.2.2) (by decide))]
  rw [if_pos hsibB, if_pos hlc]
  rw [if_neg (fun hc => absurd (hsrR.symm.trans hc.2) (by decide))]
  rw [if_pos hsrR]

/-- The mirror of `fixDelete3bL`: right-child cursor, BLACK sibling with a
RED left child. -/
theorem fixDelete3bR {s : RedBlackTree} {node current parent sib slx : Nat}
    (hroot : ¬ s.root = some current)
    (hpar : (getNode s current).parent = some parent)
    (hlc : ¬ (getNode s parent).left = some current)
    (hsib : (getNode s parent).left = some sib)
    (hsibB : (getNode s sib).color = Color.BLACK)
    (hsl : (getNode s sib).left = some slx)
    (hslR : (getNode s slx).color = Color.RED) :
    ∀ f, 1 ≤ f → RedBlackTree.fixDeleteLoop f s node current
      = some (RedBlackTree.rotateRight (setColor (setColor (setColor s sib
          (getNode s parent).color) parent Color.BLACK) slx Color.BLACK)
        parent) := by
  intro f hf
  obtain ⟨f2, rfl⟩ : ∃ f2, f = f2 + 1 := ⟨f - 1, by omega⟩
  rw [RedBlackTree.fixDeleteLoop, if_neg hroot, hpar]
  dsimp only
  rw [if_neg hlc, hsib]
  dsimp only
  rw [if_neg (fun hc => absurd (hsibB.symm.trans hc) (by decide))]
  rw [hsl]
  dsimp only
  rw [if_neg (fun hc => absurd (hslR.symm.trans hc.2.1) (by decide))]
  rw [if_pos hsibB, if_neg (fun hc => hlc (hsib.trans hc))]
  rw [if_neg (fun hc => absurd (hslR.symm.trans hc.2) (by decide))]
  rw [if_pos hslR]

/-- Case 3a of the delete-repair loop (left-child cursor): after recoloring
the sibling's near child BLACK and the sibling RED and rotating the sibling
right, the very next iteration runs the terminal case 3b. -/
theorem fixDelete3aL_step {s : RedBlackTree} {t : VTree}
    {node current parent sib slx : Nat} {cp csib cslx : Color}
    {vp vsib vslx : Int} {lp sll slr sr : VTree}
    (hwf : WFt s t)
    (hshape : subAt t parent = some (VTree.node parent cp vp lp
      (VTree.node sib csib vsib (VTree.node slx cslx vslx sll slr) sr)))
    (hlc : lp.rootIdx = some current)
    (hroot : ¬ s.root = some current) :
    ∃ s2, ∀ f, 1 ≤ f → RedBlackTree.fixDeleteLoop f
      (RedBlackTree.rotateRight (setColor (setColor s slx Color.BLACK) sib
        Color.RED) sib) node current = some s2 := by
  obtain ⟨f, hv⟩ := hwf.1
  have hnd := hwf.2.1
  have hpok := hwf.2.2.2
  obtain ⟨hndlp, hndR, hinp_lp, hinp_R, hlpR⟩ :=
    nodup_parts (subAt_nodup hnd hshape)
  obtain ⟨hndSL, hndsr, hsib_SL, hsib_sr, hSLsr⟩ := nodup_parts hndR
  have hsibR : sib ∈ (VTree.node sib csib vsib
      (VTree.node slx cslx vslx sll slr) sr).idxs := by simp [VTree.idxs]
  have hslxR : slx ∈ (VTree.node sib csib vsib
      (VTree.node slx cslx vslx sll slr) sr).idxs := by simp [VTree.idxs]
  have hpsib : ¬ parent = sib := fun hc => hinp_R (by rw [hc]; exact hsibR)
  have hpslx : ¬ parent = slx := fun hc => hinp_R (by rw [hc]; exact hslxR)
  have hsibslx : ¬ sib = slx := fun hc =>
    hsib_SL (by rw [hc]; simp [VTree.idxs])
  have hslxsib : ¬ slx = sib := fun hc => hsibslx hc.symm
  have hsibmem : sib ∈ t.idxs := (subAt_spec hshape).2.2 sib
    (by simp [VTree.idxs])
  have hslxmem : slx ∈ t.idxs := (subAt_spec hshape).2.2 slx
    (by simp [VTree.idxs])
  have hwf1 := setColor_WFt Color.BLACK hwf hslxmem
  have hwf2 := setColor_WFt Color.RED hwf1
    (by rw [recolorV_idxs]; exact hsibmem)
  have hshape2 : subAt (recolorV sib Color.RED
      (recolorV slx Color.BLACK t)) parent
      = some (VTree.node parent cp vp
        (recolorV sib Color.RED (recolorV slx Color.BLACK lp))
        (VTree.node sib Color.RED vsib
          (VTree.node slx Color.BLACK vslx
            (recolorV sib Color.RED (recolorV slx Color.BLACK sll))
            (recolorV sib Color.RED (recolorV slx Color.BLACK slr)))
          (recolorV sib Color.RED (recolorV slx Color.BLACK sr)))) := by
    rw [subAt_recolorV, subAt_recolorV, hshape]
    simp [recolorV_node, hpsib, hpslx, hsibslx, hslxsib]
  have hssib2 := subAt_child_right hwf2.2.1 hshape2 rfl
  obtain ⟨f2, hv2⟩ := hwf2.1
  have hleft2 : (getNode (setColor (setColor s slx Color.BLACK) sib
      Color.RED) sib).left = some slx := by
    rw [(subAt_ptrs hv2 hssib2).2.2.1]
    rfl
  have hwf3 := rotateRight_WFt hwf2
    (by rw [recolorV_idxs, recolorV_idxs]; exact hsibmem) hleft2
  have hshape3 : subAt (rotARV sib (recolorV sib Color.RED
      (recolorV slx Color.BLACK t))) parent
      = some (VTree.node parent cp vp
        (recolorV sib Color.RED (recolorV slx Color.BLACK lp))
        (VTree.node slx Color.BLACK vslx
          (recolorV sib Color.RED (recolorV slx Color.BLACK sll))
          (VTree.node sib Color.RED vsib
            (recolorV sib Color.RED (recolorV slx Color.BLACK slr))
            (recolorV sib Color.RED (recolorV slx Color.BLACK sr))))) := by
    have h1 := subAt_rotARV_above hwf2.2.1 hshape2
      (by simp [VTree.idxs]) hpsib
    rw [h1, rotARV_node, if_neg hpsib, rotARV_node, if_pos rfl]
    rw [rotARV_not_mem (by
      rw [recolorV_idxs, recolorV_idxs]
      exact fun hc => hlpR sib hc hsibR)]
  obtain ⟨f3, hv3⟩ := hwf3.1
  have hnd3 := hwf3.2.1
  have hpok3 := hwf3.2.2.2
  have hroot3 : ¬ (RedBlackTree.rotateRight (setColor (setColor s slx
      Color.BLACK) sib Color.RED) sib).root = some current := by
    have htne : t.rootIdx ≠ some sib := by
      intro hc
      have hsroot : s.root = some sib := by
        rw [view_rootIdx hv]; exact hc
      have h2 := root_parent_none hv hpok hsroot
      have h3 := heap_parent_of_child hpok hshape (Or.inr rfl)
      rw [h2] at h3
      exact absurd h3 (by simp)
    have e1 := view_rootIdx hv3
    rw [e1, rootIdx_rotARV_ne (by
      rw [rootIdx_recolorV, rootIdx_recolorV]; exact htne)]
    rw [rootIdx_recolorV, rootIdx_recolorV, ← view_rootIdx hv]
    exact hroot
  have hpar3 := heap_parent_of_child hpok3 hshape3 (Or.inl (by
    rw [rootIdx_recolorV, rootIdx_recolorV]; exact hlc))
  have hlc3 : (getNode (RedBlackTree.rotateRight (setColor (setColor s slx
      Color.BLACK) sib Color.RED) sib) parent).left = some current := by
    rw [(subAt_ptrs hv3 hshape3).2.2.1, rootIdx_recolorV, rootIdx_recolorV]
    exact hlc
  have hsib3 : (getNode (RedBlackTree.rotateRight (setColor (setColor s slx
      Color.BLACK) sib Color.RED) sib) parent).right = some slx := by
    rw [(subAt_ptrs hv3 hshape3).2.2.2]
    rfl
  have hslxshape := subAt_child_right hnd3 hshape3 rfl
  have hslxB := (subAt_ptrs hv3 hslxshape).1
  have hsr3 : (getNode (RedBlackTree.rotateRight (setColor (setColor s slx
      Color.BLACK) sib Color.RED) sib) slx).right = some sib := by
    rw [(subAt_ptrs hv3 hslxshape).2.2.2]
    rfl
  have hsibshape := subAt_child_right hnd3 hslxshape rfl
  have hsibR3 := (subAt_ptrs hv3 hsibshape).1
  exact ⟨_, fun f4 hf4 =>
    fixDelete3bL hroot3 hpar3 hlc3 hsib3 hslxB hsr3 hsibR3 f4 hf4⟩

/-- The mirror of `fixDelete3aL_step` for a right-child cursor. -/
theorem fixDelete3aR_step {s : RedBlackTree} {t : VTree}
    {node current parent sib srx : Nat} {cp csib csr : Color}
    {vp vsib vsr : Int} {rp sl srl srr : VTree}
    (hwf : WFt s t)
    (hshape : subAt t parent = some (VTree.node parent cp vp
      (VTree.node sib csib vsib sl (VTree.node srx csr vsr srl srr)) rp))
    (hrc : rp.rootIdx = some current)
    (hroot : ¬ s.root = some current) :
    ∃ s2, ∀ f, 1 ≤ f → RedBlackTree.fixDeleteLoop f
      (RedBlackTree.rotateLeft (setColor (setColor s srx Color.BLACK) sib
        Color.RED) sib) node current = some s2 := by
  obtain ⟨f, hv⟩ := hwf.1
  have hnd := hwf.2.1
  have hpok := hwf.2.2.2
  obtain ⟨hndL, hndrp, hinp_L, hinp_rp, hLrp⟩ :=
    nodup_parts (subAt_nodup hnd hshape)
  obtain ⟨hndsl, hndSR, hsib_sl, hsib_SR, hslSR⟩ := nodup_parts hndL
  have hsibL : sib ∈ (VTree.node sib csib vsib sl
      (VTree.node srx csr vsr srl srr)).idxs := by simp [VTree.idxs]
  have hsrxL : srx ∈ (VTree.node sib csib vsib sl
      (VTree.node srx csr vsr srl srr)).idxs := by simp [VTree.idxs]
  have hpsib : ¬ parent = sib := fun hc => hinp_L (by rw [hc]; exact hsibL)
  have hpsrx : ¬ parent = srx := fun hc => hinp_L (by rw [hc]; exact hsrxL)
  have hsibsrx : ¬ sib = srx := fun hc =>
    hsib_SR (by rw [hc]; simp [VTree.idxs])
  have hsrxsib : ¬ srx = sib := fun hc => hsibsrx hc.symm
  have hsibmem : sib ∈ t.idxs := (subAt_spec hshape).2.2 sib
    (by simp [VTree.idxs])
  have hsrxmem : srx ∈ t.idxs := (subAt_spec hshape).2.2 srx
    (by simp [VTree.idxs])
  have hwf1 := setColor_WFt Color.BLACK hwf hsrxmem
  have hwf2 := setColor_WFt Color.RED hwf1
    (by rw [recolorV_idxs]; exact hsibmem)
  have hshape2 : subAt (recolorV sib Color.RED
      (recolorV srx Color.BLACK t)) parent
      = some (VTree.node parent cp vp
        (VTree.node sib Color.RED vsib
          (recolorV sib Color.RED (recolorV srx Color.BLACK sl))
          (VTree.node srx Color.BLACK vsr
            (recolorV sib Color.RED (recolorV srx Color.BLACK srl))
            (recolorV sib Color.RED (recolorV srx Color.BLACK srr))))
        (recolorV sib Color.RED (recolorV srx Color.BLACK rp))) := by
    rw [subAt_recolorV, subAt_recolorV, hshape]
    simp [recolorV_node, hpsib, hpsrx, hsibsrx, hsrxsib]
  have hssib2 := subAt_child_left hwf2.2.1 hshape2 rfl
  obtain ⟨f2, hv2⟩ := hwf2.1
  have hright2 : (getNode (setColor (setColor s srx Color.BLACK) sib
      Color.RED) sib).right = some srx := by
    rw [(subAt_ptrs hv2 hssib2).2.2.2]
    rfl
  have hwf3 := rotateLeft_WFt hwf2
    (by rw [recolorV_idxs, recolorV_idxs]; exact hsibmem) hright2
  have hshape3 : subAt (rotALV sib (recolorV sib Color.RED
      (recolorV srx Color.BLACK t))) parent
      = some (VTree.node parent cp vp
        (VTree.node srx Color.BLACK vsr
          (VTree.node sib Color.RED vsib
            (recolorV sib Color.RED (recolorV srx Color.BLACK sl))
            (recolorV sib Color.RED (recolorV srx Color.BLACK srl)))
          (recolorV sib Color.RED (recolorV srx Color.BLACK srr)))
        (recolorV sib Color.RED (recolorV srx Color.BLACK rp))) := by
    have h1 := subAt_rotALV_above hwf2.2.1 hshape2
      (by simp [VTree.idxs]) hpsib
    rw [h1, rotALV_node, if_neg hpsib, rotALV_node, if_pos rfl]
    rw [rotALV_not_mem (by
      rw [recolorV_idxs, recolorV_idxs]
      exact fun hc => hLrp sib hsibL hc)]
  obtain ⟨f3, hv3⟩ := hwf3.1
  have hnd3 := hwf3.2.1
  have hpok3 := hwf3.2.2.2
  have hroot3 : ¬ (RedBlackTree.rotateLeft (setColor (setColor s srx
      Color.BLACK) sib Color.RED) sib).root = some current := by
    have htne : t.rootIdx ≠ some sib := by
      intro hc
      have hsroot : s.root = some sib := by
        rw [view_rootIdx hv]; exact hc
      have h2 := root_parent_none hv hpok hsroot
      have h3 := heap_parent_of_child hpok hshape (Or.inl rfl)
      rw [h2] at h3
      exact absurd h3 (by simp)
    have e1 := view_rootIdx hv3
    rw [e1, rootIdx_rotALV_ne (by
      rw [rootIdx_recolorV, rootIdx_recolorV]; exact htne)]
    rw [rootIdx_recolorV, rootIdx_recolorV, ← view_rootIdx hv]
    exact hroot
  have hpar3 := heap_parent_of_child hpok3 hshape3 (Or.inr (by
    rw [rootIdx_recolorV, rootIdx_recolorV]; exact hrc))
  have hlcne3 : ¬ (getNode (RedBlackTree.rotateLeft (setColor (setColor s
      srx Color.BLACK) sib Color.RED) sib) parent).left = some current := by
    rw [(subAt_ptrs hv3 hshape3).2.2.1]
    intro hc
    have he : srx = current := Option.some.inj hc
    exact hLrp current (by rw [← he]; exact hsrxL) (rootIdx_mem hrc)
  have hsib3 : (getNode (RedBlackTree.rotateLeft (setColor (setColor s srx
      Color.BLACK) sib Color.RED) sib) parent).left = some srx := by
    rw [(subAt_ptrs hv3 hshape3).2.2.1]
    rfl
  have hsrxshape := subAt_child_left hnd3 hshape3 rfl
  have hsrxB := (subAt_ptrs hv3 hsrxshape).1
  have hsl3 : (getNode (RedBlackTree.rotateLeft (setColor (setColor s srx
      Color.BLACK) sib Color.RED) sib) srx).left = some sib := by
    rw [(subAt_ptrs hv3 hsrxshape).2.2.1]
    rfl
  have hsibshape := subAt_child_left hnd3 hsrxshape rfl
  have hsibR3 := (subAt_ptrs hv3 hsibshape).1
  exact ⟨_, fun f4 hf4 =>
    fixDelete3bR hroot3 hpar3 hlcne3 hsib3 hsrxB hsl3 hsibR3 f4 hf4⟩

/-- The `fixDelete` repair loop terminates on any well-formed state: the
sibling-RED case pushes the re-targeted cursor's subtree one level down
(bounded by the node count), every other case either climbs toward the
root or exits within two iterations. -/
theorem fixDeleteLoop_total :
    ∀ (M : Nat) {s : RedBlackTree} {t : VTree} {node current : Nat},
      WFt s t → node ∈ t.idxs →
      (∃ u, subAt t current = some u ∧ node ∈ u.idxs) →
      (∀ dn dc, depthIdx t node = some dn → depthIdx t current = some dc →
        (t.idxs.length - dn) * (t.idxs.length + 1) + dc ≤ M) →
      ∃ F s2, ∀ f, F ≤ f →
        RedBlackTree.fixDeleteLoop f s node current = some s2 := by
  intro M
  induction M using Nat.strong_induction_on with
  | _ M ih =>
  intro s t node current hwf hnode hunder hM
  obtain ⟨f, hv⟩ := hwf.1
  have hnd := hwf.2.1
  have hpok := hwf.2.2.2
  obtain ⟨u, hsc, hnodeu⟩ := hunder
  have hcmem : current ∈ t.idxs := (subAt_spec hsc).1
  obtain ⟨dn, hdn⟩ := depth_of_mem hnode
  by_cases hroot : s.root = some current
  · refine ⟨1, s, fun g hg => ?_⟩
    obtain ⟨g2, rfl⟩ : ∃ g2, g = g2 + 1 := ⟨g - 1, by omega⟩
    rw [RedBlackTree.fixDeleteLoop, if_pos hroot]
  · obtain ⟨parent, hpar⟩ := nonroot_parent hpok hcmem
      (by rw [← view_rootIdx hv]; exact fun hc => hroot hc)
    obtain ⟨hparmem, dpar, hdpar, hdcur⟩ :=
      depth_parent_heap hpok hnd hcmem hpar
    rcases parent_subAt hpok hnd hcmem hpar with ⟨_, hc0⟩ | hsub
    · exact absurd hc0 (by simp)
    obtain ⟨cp, vp, lp, rp, hsp, hsidec⟩ := hsub
    obtain ⟨hpc, hpv, hpl, hpr⟩ := subAt_ptrs hv hsp
    obtain ⟨hndlp, hndrp, hinl_p, hinr_p, hlprp⟩ :=
      nodup_parts (subAt_nodup hnd hsp)
    have h1 := hM dn (dpar + 1) hdn hdcur
    rcases hsidec with hscl | hscr
    · -- the cursor is the left child of its parent
      have hLC : (getNode s parent).left = some current := by
        rw [hpl]; exact hscl
      have hnlp : node ∈ lp.idxs := by
        have h2 := subAt_child_left hnd hsp hscl
        rw [← Option.some.inj (hsc.symm.trans h2)]
        exact hnodeu
      have hparmem_u : node ∈ (VTree.node parent cp vp lp rp).idxs := by
        simp [VTree.idxs, hnlp]
      cases rp with
      | leaf =>
        -- no sibling: climb
        have hRN : (getNode s parent).right = none := hpr
        obtain ⟨F, s2, hF⟩ := ih
          ((t.idxs.length - dn) * (t.idxs.length + 1) + dpar)
          (lt_of_lt_of_le (Nat.add_lt_add_left (by omega) _) h1)
          hwf hnode ⟨VTree.node parent cp vp lp VTree.leaf, hsp, hparmem_u⟩
          (fun dn2 dc2 hdn2 hdc2 => by
            obtain rfl := Option.some.inj (hdn.symm.trans hdn2)
            obtain rfl := Option.some.inj (hdpar.symm.trans hdc2)
            exact le_refl _)
        refine ⟨F + 1, s2, fun g hg => ?_⟩
        obtain ⟨g2, rfl⟩ : ∃ g2, g = g2 + 1 := ⟨g - 1, by omega⟩
        rw [RedBlackTree.fixDeleteLoop, if_neg hroot, hpar]
        dsimp only
        rw [if_pos hLC, hRN]
        dsimp only
        exact hF g2 (by omega)
      | node sib csib vsib sl sr =>
        have hsib : (getNode s parent).right = some sib := hpr
        have hsibmem : sib ∈ t.idxs := child_mem hv hparmem (Or.inr hsib)
        have hpsib : ¬ parent = sib := fun hc =>
          hinr_p (by rw [hc]; simp [VTree.idxs])
        have hsibp : ¬ sib = parent := fun hc => hpsib hc.symm
        by_cases hsibred : (getNode s sib).color = Color.RED
        · -- ケース1: sibling RED
          have hwf1 := setColor_WFt Color.BLACK hwf hsibmem
          have hwf2 := setColor_WFt Color.RED hwf1
            (by rw [recolorV_idxs]; exact hparmem)
          have hshape2 : subAt (recolorV parent Color.RED
              (recolorV sib Color.BLACK t)) parent
              = some (VTree.node parent Color.RED vp
                (recolorV parent Color.RED (recolorV sib Color.BLACK lp))
                (VTree.node sib Color.BLACK vsib
                  (recolorV parent Color.RED (recolorV sib Color.BLACK sl))
                  (recolorV parent Color.RED
                    (recolorV sib Color.BLACK sr)))) := by
            rw [subAt_recolorV, subAt_recolorV, hsp]
            simp [recolorV_node, hpsib, hsibp]
          obtain ⟨f2, hv2⟩ := hwf2.1
          have hright2 : (getNode (setColor (setColor s sib Color.BLACK)
              parent Color.RED) parent).right = some sib := by
            rw [(subAt_ptrs hv2 hshape2).2.2.2]
            rfl
          have hwf3 := rotateLeft_WFt hwf2
            (by rw [recolorV_idxs, recolorV_idxs]; exact hparmem) hright2
          have hd3 : depthIdx (rotALV parent (recolorV parent Color.RED
              (recolorV sib Color.BLACK t))) node = some (dn + 1) :=
            depthIdx_rotALV hwf2.2.1 hshape2
              (Or.inl (by rw [recolorV_idxs, recolorV_idxs]; exact hnlp))
              (by rw [depthIdx_recolorV, depthIdx_recolorV]; exact hdn)
          have hlen3 : (rotALV parent (recolorV parent Color.RED
              (recolorV sib Color.BLACK t))).idxs.length
              = t.idxs.length := by
            rw [rotALV_idxs, recolorV_idxs, recolorV_idxs]
          have hnode3 : node ∈ (rotALV parent (recolorV parent Color.RED
              (recolorV sib Color.BLACK t))).idxs := by
            rw [rotALV_idxs, recolorV_idxs, recolorV_idxs]
            exact hnode
          obtain ⟨u3, hu3⟩ := subAt_of_mem hnode3
          have hnu3 : node ∈ u3.idxs := by
            obtain ⟨c3, v3, l3, r3, rfl⟩ := (subAt_spec hu3).2.1
            simp [VTree.idxs]
          have hdnL : dn < t.idxs.length := depth_lt_length hdn
          have hsplit : (t.idxs.length - dn) * (t.idxs.length + 1)
              = (t.idxs.length - (dn + 1)) * (t.idxs.length + 1)
                + (t.idxs.length + 1) := by
            have h3 : t.idxs.length - dn
                = (t.idxs.length - (dn + 1)) + 1 := by omega
            rw [h3, Nat.succ_mul]
          have hm3 : (t.idxs.length - (dn + 1)) * (t.idxs.length + 1)
              + (dn + 1) < M := by
            refine lt_of_lt_of_le ?_
              (le_trans (Nat.le_add_right _ (dpar + 1)) h1)
            rw [hsplit]
            exact Nat.add_lt_add_left (by omega) _
          obtain ⟨F, s4, hF⟩ := ih
            ((t.idxs.length - (dn + 1)) * (t.idxs.length + 1) + (dn + 1))
            hm3 hwf3 hnode3 ⟨u3, hu3, hnu3⟩
            (fun dn2 dc2 hdn2 hdc2 => by
              obtain rfl := Option.some.inj (hd3.symm.trans hdn2)
              obtain rfl := Option.some.inj (hd3.symm.trans hdc2)
              rw [hlen3])
          refine ⟨F + 1, s4, fun g hg => ?_⟩
          obtain ⟨g2, rfl⟩ : ∃ g2, g = g2 + 1 := ⟨g - 1, by omega⟩
          rw [RedBlackTree.fixDeleteLoop, if_neg hroot, hpar]
          dsimp only
          rw [if_pos hLC, hsib]
          dsimp only
          rw [if_pos hsibred]
          rw [if_pos hLC]
          exact hF g2 (by omega)
        · -- sibling BLACK
          have hsibB : (getNode s sib).color = Color.BLACK := by
            cases hcc : (getNode s sib).color
            · exact absurd hcc hsibred
            · rfl
          have hssib := subAt_child_right hnd hsp rfl
          obtain ⟨hsc2, hsv2, hsl2, hsr2⟩ := subAt_ptrs hv hssib
          by_cases hc2 : (getNode s sib).color = Color.BLACK ∧
              (match (getNode s sib).left with
                | some x => (getNode s x).color
                | none => Color.BLACK) = Color.BLACK ∧
              (match (getNode s sib).right with
                | some x => (getNode s x).color
                | none => Color.BLACK) = Color.BLACK
          · -- ケース2: recolor the sibling RED and climb
            have hwf1 := setColor_WFt Color.RED hwf hsibmem
            have hsp1 : subAt (recolorV sib Color.RED t) parent
                = some (recolorV sib Color.RED
                  (VTree.node parent cp vp lp
                    (VTree.node sib csib vsib sl sr))) := by
              rw [subAt_recolorV, hsp]
              rfl
            obtain ⟨F, s2, hF⟩ := ih
              ((t.idxs.length - dn) * (t.idxs.length + 1) + dpar)
              (lt_of_lt_of_le (Nat.add_lt_add_left (by omega) _) h1)
              hwf1 (by rw [recolorV_idxs]; exact hnode)
              ⟨recolorV sib Color.RED (VTree.node parent cp vp lp
                  (VTree.node sib csib vsib sl sr)), hsp1,
                by rw [recolorV_idxs]; exact hparmem_u⟩
              (fun dn2 dc2 hdn2 hdc2 => by
                rw [depthIdx_recolorV] at hdn2 hdc2
                obtain rfl := Option.some.inj (hdn.symm.trans hdn2)
                obtain rfl := Option.some.inj (hdpar.symm.trans hdc2)
                rw [recolorV_idxs])
            refine ⟨F + 1, s2, fun g hg => ?_⟩
            obtain ⟨g2, rfl⟩ : ∃ g2, g = g2 + 1 := ⟨g - 1, by omega⟩
            rw [RedBlackTree.fixDeleteLoop, if_neg hroot, hpar]
            dsimp only
            rw [if_pos hLC, hsib]
            dsimp only
            rw [if_neg hsibred, if_pos hc2]
            exact hF g2 (by omega)
          · cases sr with
            | leaf =>
              have hsrn : (getNode s sib).right = none := hsr2
              cases sl with
              | leaf =>
                exfalso
                apply hc2
                refine ⟨hsibB, ?_, ?_⟩
                · have hsln : (getNode s sib).left = none := hsl2
                  rw [hsln]
                · rw [hsrn]
              | node slx cslx vslx sll slr =>
                have hslx : (getNode s sib).left = some slx := hsl2
                by_cases hslxred : (getNode s slx).color = Color.RED
                · obtain ⟨s2, hF2⟩ := fixDelete3aL_step hwf hsp hscl hroot
                  refine ⟨2, s2, fun g hg => ?_⟩
                  obtain ⟨g2, rfl⟩ : ∃ g2, g = g2 + 1 := ⟨g - 1, by omega⟩
                  rw [RedBlackTree.fixDeleteLoop, if_neg hroot, hpar]
                  dsimp only
                  rw [if_pos hLC, hsib]
                  dsimp only
                  rw [if_neg hsibred, hslx, hsrn]
                  dsimp only
                  rw [if_neg (fun hcc =>
                    absurd (hslxred.symm.trans hcc.2.1) (by decide))]
                  rw [if_pos hsibB, if_pos hLC]
                  rw [if_pos ⟨hslxred, rfl⟩]
                  exact hF2 g2 (by omega)
                · exfalso
                  apply hc2
                  refine ⟨hsibB, ?_, ?_⟩
                  · rw [hslx]
                    show (getNode s slx).color = Color.BLACK
                    cases hcc : (getNode s slx).color
                    · exact absurd hcc hslxred
                    · rfl
                  · rw [hsrn]
            | node srx csr vsr srl srr =>
              have hsrx : (getNode s sib).right = some srx := hsr2
              by_cases hsrxred : (getNode s srx).color = Color.RED
              · exact ⟨1, _, fun g hg =>
                  fixDelete3bL hroot hpar hLC hsib hsibB hsrx hsrxred g hg⟩
              · have hsrxB : (getNode s srx).color = Color.BLACK := by
                  cases hcc : (getNode s srx).color
                  · exact absurd hcc hsrxred
                  · rfl
                cases sl with
                | leaf =>
                  exfalso
                  apply hc2
                  refine ⟨hsibB, ?_, ?_⟩
                  · have hsln : (getNode s sib).left = none := hsl2
                    rw [hsln]
                  · rw [hsrx]
                    show (getNode s srx).color = Color.BLACK
                    exact hsrxB
                | node slx cslx vslx sll slr =>
                  have hslx : (getNode s sib).left = some slx := hsl2
                  by_cases hslxred : (getNode s slx).color = Color.RED
                  · obtain ⟨s2, hF2⟩ := fixDelete3aL_step hwf hsp hscl hroot
                    refine ⟨2, s2, fun g hg => ?_⟩
                    obtain ⟨g2, rfl⟩ : ∃ g2, g = g2 + 1 := ⟨g - 1, by omega⟩
                    rw [RedBlackTree.fixDeleteLoop, if_neg hroot, hpar]
                    dsimp only
                    rw [if_pos hLC, hsib]
                    dsimp only
                    rw [if_neg hsibred, hslx, hsrx]
                    dsimp only
                    rw [if_neg (fun hcc =>
                      absurd (hslxred.symm.trans hcc.2.1) (by decide))]
                    rw [if_pos hsibB, if_pos hLC]
                    rw [if_pos ⟨hslxred, hsrxB⟩]
                    exact hF2 g2 (by omega)
                  · exfalso
                    apply hc2
                    refine ⟨hsibB, ?_, ?_⟩
                    · rw [hslx]
                      show (getNode s slx).color = Color.BLACK
                      cases hcc : (getNode s slx).color
                      · exact absurd hcc hslxred
                      · rfl
                    · rw [hsrx]
                      show (getNode s srx).color = Color.BLACK
                      exact hsrxB
    · -- the cursor is the right child of its parent (mirror)
      have hLCne : ¬ (getNode s parent).left = some current := by
        rw [hpl]
        intro hcc
        exact hlprp current (rootIdx_mem hcc) (rootIdx_mem hscr)
      have hnrp : node ∈ rp.idxs := by
        have h2 := subAt_child_right hnd hsp hscr
        rw [← Option.some.inj (hsc.symm.trans h2)]
        exact hnodeu
      have hparmem_u : node ∈ (VTree.node parent cp vp lp rp).idxs := by
        simp [VTree.idxs, hnrp]
      cases lp with
      | leaf =>
        have hLN : (getNode s parent).left = none := hpl
        obtain ⟨F, s2, hF⟩ := ih
          ((t.idxs.length - dn) * (t.idxs.length + 1) + dpar)
          (lt_of_lt_of_le (Nat.add_lt_add_left (by omega) _) h1)
          hwf hnode ⟨VTree.node parent cp vp VTree.leaf rp, hsp, hparmem_u⟩
          (fun dn2 dc2 hdn2 hdc2 => by
            obtain rfl := Option.some.inj (hdn.symm.trans hdn2)
            obtain rfl := Option.some.inj (hdpar.symm.trans hdc2)
            exact le_refl _)
        refine ⟨F + 1, s2, fun g hg => ?_⟩
        obtain ⟨g2, rfl⟩ : ∃ g2, g = g2 + 1 := ⟨g - 1, by omega⟩
        rw [RedBlackTree.fixDeleteLoop, if_neg hroot, hpar]
        dsimp only
        rw [if_neg hLCne, hLN]
        dsimp only
        exact hF g2 (by omega)
      | node sib csib vsib sl sr =>
        have hsibL : (getNode s parent).left = some sib := hpl
        have hsibmem : sib ∈ t.idxs := child_mem hv hparmem (Or.inl hsibL)
        have hpsib : ¬ parent = sib := fun hc =>
          hinl_p (by rw [hc]; simp [VTree.idxs])
        have hsibp : ¬ sib = parent := fun hc => hpsib hc.symm
        by_cases hsibred : (getNode s sib).color = Color.RED
        · -- mirrored ケース1
          have hwf1 := setColor_WFt Color.BLACK hwf hsibmem
          have hwf2 := setColor_WFt Color.RED hwf1
            (by rw [recolorV_idxs]; exact hparmem)
          have hshape2 : subAt (recolorV parent Color.RED
              (recolorV sib Color.BLACK t)) parent
              = some (VTree.node parent Color.RED vp
                (VTree.node sib Color.BLACK vsib
                  (recolorV parent Color.RED (recolorV sib Color.BLACK sl))
                  (recolorV parent Color.RED (recolorV sib Color.BLACK sr)))
                (recolorV parent Color.RED
                  (recolorV sib Color.BLACK rp))) := by
            rw [subAt_recolorV, subAt_recolorV, hsp]
            simp [recolorV_node, hpsib, hsibp]
          obtain ⟨f2, hv2⟩ := hwf2.1
          have hleft2 : (getNode (setColor (setColor s sib Color.BLACK)
              parent Color.RED) parent).left = some sib := by
            rw [(subAt_ptrs hv2 hshape2).2.2.1]
            rfl
          have hwf3 := rotateRight_WFt hwf2
            (by rw [recolorV_idxs, recolorV_idxs]; exact hparmem) hleft2
          have hd3 : depthIdx (rotARV parent (recolorV parent Color.RED
              (recolorV sib Color.BLACK t))) node = some (dn + 1) :=
            depthIdx_rotARV hwf2.2.1 hshape2
              (Or.inl (by rw [recolorV_idxs, recolorV_idxs]; exact hnrp))
              (by rw [depthIdx_recolorV, depthIdx_recolorV]; exact hdn)
          have hlen3 : (rotARV parent (recolorV parent Color.RED
              (recolorV sib Color.BLACK t))).idxs.length
              = t.idxs.length := by
            rw [rotARV_idxs, recolorV_idxs, recolorV_idxs]
          have hnode3 : node ∈ (rotARV parent (recolorV parent Color.RED
              (recolorV sib Color.BLACK t))).idxs := by
            rw [rotARV_idxs, recolorV_idxs, recolorV_idxs]
            exact hnode
          obtain ⟨u3, hu3⟩ := subAt_of_mem hnode3
          have hnu3 : node ∈ u3.idxs := by
            obtain ⟨c3, v3, l3, r3, rfl⟩ := (subAt_spec hu3).2.1
            simp [VTree.idxs]
          have hdnL : dn < t.idxs.length := depth_lt_length hdn
          have hsplit : (t.idxs.length - dn) * (t.idxs.length + 1)
              = (t.idxs.length - (dn + 1)) * (t.idxs.length + 1)
                + (t.idxs.length + 1) := by
            have h3 : t.idxs.length - dn
                = (t.idxs.length - (dn + 1)) + 1 := by omega
            rw [h3, Nat.succ_mul]
          have hm3 : (t.idxs.length - (dn + 1)) * (t.idxs.length + 1)
              + (dn + 1) < M := by
            refine lt_of_lt_of_le ?_
              (le_trans (Nat.le_add_right _ (dpar + 1)) h1)
            rw [hsplit]
            exact Nat.add_lt_add_left (by omega) _
          obtain ⟨F, s4, hF⟩ := ih
            ((t.idxs.length - (dn + 1)) * (t.idxs.length + 1) + (dn + 1))
            hm3 hwf3 hnode3 ⟨u3, hu3, hnu3⟩
            (fun dn2 dc2 hdn2 hdc2 => by
              obtain rfl := Option.some.inj (hd3.symm.trans hdn2)
              obtain rfl := Option.some.inj (hd3.symm.trans hdc2)
              rw [hlen3])
          refine ⟨F + 1, s4, fun g hg => ?_⟩
          obtain ⟨g2, rfl⟩ : ∃ g2, g = g2 + 1 := ⟨g - 1, by omega⟩
          rw [RedBlackTree.fixDeleteLoop, if_neg hroot, hpar]
          dsimp only
          rw [if_neg hLCne, hsibL]
          dsimp only
          rw [if_pos hsibred]
          rw [if_neg (fun hcc => hLCne (hsibL.trans hcc))]
          exact hF g2 (by omega)
        · have hsibB : (getNode s sib).color = Color.BLACK := by
            cases hcc : (getNode s sib).color
            · exact absurd hcc hsibred
            · rfl
          have hssib := subAt_child_left hnd hsp rfl
          obtain ⟨hsc2, hsv2, hsl2, hsr2⟩ := subAt_ptrs hv hssib
          by_cases hc2 : (getNode s sib).color = Color.BLACK ∧
              (match (getNode s sib).left with
                | some x => (getNode s x).color
                | none => Color.BLACK) = Color.BLACK ∧
              (match (getNode s sib).right with
                | some x => (getNode s x).color
                | none => Color.BLACK) = Color.BLACK
          · have hwf1 := setColor_WFt Color.RED hwf hsibmem
            have hsp1 : subAt (recolorV sib Color.RED t) parent
                = some (recolorV sib Color.RED
                  (VTree.node parent cp vp
                    (VTree.node sib csib vsib sl sr) rp)) := by
              rw [subAt_recolorV, hsp]
              rfl
            obtain ⟨F, s2, hF⟩ := ih
              ((t.idxs.length - dn) * (t.idxs.length + 1) + dpar)
              (lt_of_lt_of_le (Nat.add_lt_add_left (by omega) _) h1)
              hwf1 (by rw [recolorV_idxs]; exact hnode)
              ⟨recolorV sib Color.RED (VTree.node parent cp vp
                  (VTree.node sib csib vsib sl sr) rp), hsp1,
                by rw [recolorV_idxs]; exact hparmem_u⟩
              (fun dn2 dc2 hdn2 hdc2 => by
                rw [depthIdx_recolorV] at hdn2 hdc2
                obtain rfl := Option.some.inj (hdn.symm.trans hdn2)
                obtain rfl := Option.some.inj (hdpar.symm.trans hdc2)
                rw [recolorV_idxs])
            refine ⟨F + 1, s2, fun g hg => ?_⟩
            obtain ⟨g2, rfl⟩ : ∃ g2, g = g2 + 1 := ⟨g - 1, by omega⟩
            rw [RedBlackTree.fixDeleteLoop, if_neg hroot, hpar]
            dsimp only
            rw [if_neg hLCne, hsibL]
            dsimp only
            rw [if_neg hsibred, if_pos hc2]
            exact hF g2 (by omega)
          · cases sl with
            | leaf =>
              have hsln : (getNode s sib).left = none := hsl2
              cases sr with
              | leaf =>
                exfalso
                apply hc2
                refine ⟨hsibB, ?_, ?_⟩
                · rw [hsln]
                · have hsrn : (getNode s sib).right = none := hsr2
                  rw [hsrn]
              | node srx csr vsr srl srr =>
                have hsrx : (getNode s sib).right = some srx := hsr2
                by_cases hsrxred : (getNode s srx).color = Color.RED
                · obtain ⟨s2, hF2⟩ := fixDelete3aR_step hwf hsp hscr hroot
                  refine ⟨2, s2, fun g hg => ?_⟩
                  obtain ⟨g2, rfl⟩ : ∃ g2, g = g2 + 1 := ⟨g - 1, by omega⟩
                  rw [RedBlackTree.fixDeleteLoop, if_neg hroot, hpar]
                  dsimp only
                  rw [if_neg hLCne, hsibL]
                  dsimp only
                  rw [if_neg hsibred, hsln, hsrx]
                  dsimp only
                  rw [if_neg (fun hcc =>
                    absurd (hsrxred.symm.trans hcc.2.2) (by decide))]
                  rw [if_pos hsibB,
                    if_neg (fun hcc => hLCne (hsibL.trans hcc))]
                  rw [if_pos ⟨hsrxred, rfl⟩]
                  exact hF2 g2 (by omega)
                · exfalso
                  apply hc2
                  refine ⟨hsibB, ?_, ?_⟩
                  · rw [hsln]
                  · rw [hsrx]
                    show (getNode s srx).color = Color.BLACK
                    cases hcc : (getNode s srx).color
                    · exact absurd hcc hsrxred
                    · rfl
            | node slx cslx vslx sll slr =>
              have hslx : (getNode s sib).left = some slx := hsl2
              by_cases hslxred : (getNode s slx).color = Color.RED
              · exact ⟨1, _, fun g hg =>
                  fixDelete3bR hroot hpar hLCne hsibL hsibB hslx hslxred
                    g hg⟩
              · have hslxB : (getNode s slx).color = Color.BLACK := by
                  cases hcc : (getNode s slx).color
                  · exact absurd hcc hslxred
                  · rfl
                cases sr with
                | leaf =>
                  exfalso
                  apply hc2
                  refine ⟨hsibB, ?_, ?_⟩
                  · rw [hslx]
                    show (getNode s slx).color = Color.BLACK
                    exact hslxB
                  · have hsrn : (getNode s sib).right = none := hsr2
                    rw [hsrn]
                | node srx csr vsr srl srr =>
                  have hsrx : (getNode s sib).right = some srx := hsr2
                  by_cases hsrxred : (getNode s srx).color = Color.RED
                  · obtain ⟨s2, hF2⟩ := fixDelete3aR_step hwf hsp hscr hroot
                    refine ⟨2, s2, fun g hg => ?_⟩
                    obtain ⟨g2, rfl⟩ : ∃ g2, g = g2 + 1 :=
                      ⟨g - 1, by omega⟩
                    rw [RedBlackTree.fixDeleteLoop, if_neg hroot, hpar]
                    dsimp only
                    rw [if_neg hLCne, hsibL]
                    dsimp only
                    rw [if_neg hsibred, hslx, hsrx]
                    dsimp only
                    rw [if_neg (fun hcc =>
                      absurd (hsrxred.symm.trans hcc.2.2) (by decide))]
                    rw [if_pos hsibB,
                      if_neg (fun hcc => hLCne (hsibL.trans hcc))]
                    rw [if_pos ⟨hsrxred, hslxB⟩]
                    exact hF2 g2 (by omega)
                  · exfalso
                    apply hc2
                    refine ⟨hsibB, ?_, ?_⟩
                    · rw [hslx]
                      show (getNode s slx).color = Color.BLACK
                      exact hslxB
                    · rw [hsrx]
                      show (getNode s srx).color = Color.BLACK
                      cases hcc : (getNode s srx).color
                      · exact absurd hcc hsrxred
                      · rfl

theorem fixDelete_total {s : RedBlackTree} {t : VTree} {node : Nat}
    (dc : Option Nat) (hwf : WFt s t) (hnode : node ∈ t.idxs) :
    ∃ F s2, ∀ f, F ≤ f → RedBlackTree.fixDelete f s node dc = some s2 := by
  obtain ⟨dn, hdn⟩ := depth_of_mem hnode
  obtain ⟨u, hu⟩ := subAt_of_mem hnode
  have hnu : node ∈ u.idxs := by
    obtain ⟨c, v, l, r, rfl⟩ := (subAt_spec hu).2.1
    simp [VTree.idxs]
  obtain ⟨F, s1, hF⟩ := fixDeleteLoop_total
    ((t.idxs.length - dn) * (t.idxs.length + 1) + dn) hwf hnode ⟨u, hu, hnu⟩
    (fun dn2 dc2 hdn2 hdc2 => by
      obtain rfl := Option.some.inj (hdn.symm.trans hdn2)
      obtain rfl := Option.some.inj (hdn.symm.trans hdc2)
      exact le_refl _)
  refine ⟨F, (match s1.root with
    | some r => setColor s1 r Color.BLACK
    | none => s1), fun f hf => ?_⟩
  unfold RedBlackTree.fixDelete
  rw [hF f hf]
  rfl

/-- `delete` terminates on every well-formed state. -/
theorem delete_total {s : RedBlackTree} {t : VTree} (k : Int)
    (hwf : WFt s t) :
    ∃ F r, ∀ f, F ≤ f → RedBlackTree.delete f s k = some r := by
  obtain ⟨f0, hv⟩ := hwf.1
  obtain ⟨F1, res, hF1⟩ := @findNodeLoop_total t f0 s s.root k hv
  cases res with
  | none =>
    refine ⟨F1, (s, false), fun f hf => ?_⟩
    unfold RedBlackTree.delete RedBlackTree.findNode
    rw [hF1 f hf]
  | some node =>
    have hnodemem : node ∈ t.idxs := findNodeLoop_mem (hF1 F1 le_rfl) hv
    have main : ∀ (s1 : RedBlackTree) (t1 : VTree) (dd : Nat),
        WFt s1 t1 → dd ∈ t1.idxs →
        ((getNode s1 dd).left = none ∨ (getNode s1 dd).right = none) →
        ∃ F2 r2, ∀ f, F2 ≤ f →
          (match (RedBlackTree.deleteNode s1 dd).2,
              (getNode (RedBlackTree.deleteNode s1 dd).1 dd).parent with
            | none, some pfix => (RedBlackTree.fixDelete f
                (RedBlackTree.deleteNode s1 dd).1 pfix none).map fun s3 =>
                (s3, true)
            | some nf, _ => (RedBlackTree.fixDelete f
                (RedBlackTree.deleteNode s1 dd).1 nf (some nf)).map
                fun s3 => (s3, true)
            | none, none => some ((RedBlackTree.deleteNode s1 dd).1,
                true)) = some r2 := by
      intro s1 t1 dd hwf1 hdd hsp
      obtain ⟨hwf2, hchmem, hkeep, hself⟩ := deleteNode_WFt hwf1 hdd hsp
      cases hch : (RedBlackTree.deleteNode s1 dd).2 with
      | some nf =>
        obtain ⟨F2, s3, hF2⟩ := fixDelete_total (some nf) hwf2
          (hchmem nf hch)
        refine ⟨F2, (s3, true), fun f hf => ?_⟩
        dsimp only
        rw [hF2 f hf]
        rfl
      | none =>
        cases hpfix : (getNode (RedBlackTree.deleteNode s1 dd).1 dd).parent
          with
        | some pfix =>
          have hp0 : (getNode s1 dd).parent = some pfix := by
            rw [← hself]; exact hpfix
          obtain ⟨⟨f1, hv1⟩, hnd1, hbd1, hpok1⟩ := hwf1
          have hpfixmem : pfix ∈ t1.idxs := by
            rcases parent_mem hpok1 hdd hp0 with hcon | hm2
            · exact absurd hcon (by simp)
            · exact hm2
          have hpfixne : pfix ≠ dd := parent_ne hpok1 hnd1
            (fun p hp => absurd hp (by simp)) dd hdd pfix hp0
          obtain ⟨F2, s3, hF2⟩ := fixDelete_total none hwf2
            (hkeep pfix hpfixmem hpfixne)
          refine ⟨F2, (s3, true), fun f hf => ?_⟩
          dsimp only
          rw [hF2 f hf]
          rfl
        | none =>
          exact ⟨0, ((RedBlackTree.deleteNode s1 dd).1, true),
            fun f hf => rfl⟩
    cases hL : (getNode s node).left with
    | none =>
      obtain ⟨F2, r2, hF2⟩ := main s t node hwf hnodemem (Or.inl hL)
      refine ⟨max F1 F2, r2, fun f hf => ?_⟩
      unfold RedBlackTree.delete RedBlackTree.findNode
      rw [hF1 f (le_trans (le_max_left F1 F2) hf)]
      dsimp only
      rw [hL]
      dsimp only
      exact hF2 f (le_trans (le_max_right F1 F2) hf)
    | some dl =>
      cases hR : (getNode s node).right with
      | none =>
        obtain ⟨F2, r2, hF2⟩ := main s t node hwf hnodemem (Or.inr hR)
        refine ⟨max F1 F2, r2, fun f hf => ?_⟩
        unfold RedBlackTree.delete RedBlackTree.findNode
        rw [hF1 f (le_trans (le_max_left F1 F2) hf)]
        dsimp only
        rw [hL, hR]
        dsimp only
        exact hF2 f (le_trans (le_max_right F1 F2) hf)
      | some dr =>
        have hdrmem : dr ∈ t.idxs := child_mem hv hnodemem (Or.inr hR)
        obtain ⟨f4, c4, v4, l4, r4, hsubv, _⟩ := mem_subview hv hdrmem
        obtain ⟨F3, suc, hF3⟩ := @findMin_total
          (VTree.node dr c4 v4 l4 r4) f4 s dr hsubv
        obtain ⟨hsucmem, hsucleft⟩ := findMin_mem hv hdrmem (hF3 F3 le_rfl)
        have hwf1 := setValue_WFt ((getNode s suc).value) hwf hnodemem
        have hsucmem1 : suc ∈ (revalueV node (getNode s suc).value
            t).idxs := by
          rw [revalueV_idxs]
          exact hsucmem
        have hsucleft1 : (getNode (setValue s node
            (getNode s suc).value) suc).left = none := by
          rw [getNode_setValue_left]
          exact hsucleft
        obtain ⟨F2, r2, hF2⟩ := main (setValue s node
          (getNode s suc).value) _ suc hwf1 hsucmem1 (Or.inl hsucleft1)
        refine ⟨max F1 (max F3 F2), r2, fun f hf => ?_⟩
        unfold RedBlackTree.delete RedBlackTree.findNode
        rw [hF1 f (le_trans (le_max_left F1 (max F3 F2)) hf)]
        dsimp only
        rw [hL, hR]
        dsimp only
        rw [hF3 f (le_trans (le_trans (le_max_left F3 F2)
          (le_max_right F1 (max F3 F2))) hf)]
        dsimp only [Option.map]
        exact hF2 f (le_trans (le_trans (le_max_right F3 F2)
          (le_max_right F1 (max F3 F2))) hf)

/-- C3: on every state reachable from the empty tree by public operations,
`insert`, `delete` and the `findNode` lookup all terminate — in this
fuel-indexed development, some fuel makes each of them return `some`; in
particular the `fixDelete` loop, whose sibling-RED case resets its cursor
to the node it was called on, always exits. -/
theorem C3_operations_terminate (ops : List Op) (fuel0 : Nat)
    (s : RedBlackTree) (h : runOps fuel0 RedBlackTree.empty ops = some s)
    (k : Int) :
    (∃ f s2, RedBlackTree.insert f s k = some s2)
    ∧ (∃ f r, RedBlackTree.delete f s k = some r)
    ∧ (∃ f j, RedBlackTree.findNode f s k = some j) := by
  obtain ⟨t, hwf, hrb⟩ := runOps_reach h WFt_empty
    (fun r hr => absurd hr (by simp [RedBlackTree.empty]))
  refine ⟨?_, ?_, ?_⟩
  · obtain ⟨F, s2, hF⟩ := insert_total k hwf hrb
    exact ⟨F, s2, hF F le_rfl⟩
  · obtain ⟨F, r, hF⟩ := delete_total k hwf
    exact ⟨F, r, hF F le_rfl⟩
  · obtain ⟨f0, hv⟩ := hwf.1
    obtain ⟨F, res, hF⟩ := @findNodeLoop_total t f0 s s.root k hv
    exact ⟨F, res, by unfold RedBlackTree.findNode; exact hF F le_rfl⟩

theorem C3_witness :
    runOps 1000 RedBlackTree.empty [Op.ins 5, Op.ins 3]
      = some ⟨[⟨5, Color.BLACK, some 1, none, none⟩,
               ⟨3, Color.RED, none, none, some 0⟩], some 0⟩
    ∧ ((∃ f s2, RedBlackTree.insert f
          ⟨[⟨5, Color.BLACK, some 1, none, none⟩,
            ⟨3, Color.RED, none, none, some 0⟩], some 0⟩ 4 = some s2)
      ∧ (∃ f r, RedBlackTree.delete f
          ⟨[⟨5, Color.BLACK, some 1, none, none⟩,
            ⟨3, Color.RED, none, none, some 0⟩], some 0⟩ 4 = some r)
      ∧ (∃ f j, RedBlackTree.findNode f
          ⟨[⟨5, Color.BLACK, some 1, none, none⟩,
            ⟨3, Color.RED, none, none, some 0⟩], some 0⟩ 4 = some j)) :=
  ⟨by decide, C3_operations_terminate [Op.ins 5, Op.ins 3] 1000 _
    (by decide) 4⟩

end RBT
